import Mathlib

/-! OCL storage-management layer: buffer pool, context stamps, copy-on-write arrays.

A shallow embedding of `ocl_memobj.cc`, `ocl_context.cc`, `ocl_context_obj.cc`,
`ocl_array.h` and `ocl_array.cc`.

Conventions of the embedding.

* `cl_mem` buffer handles and `OclArrayRep*` pointers are natural numbers.
* `std::map<K, V>` is an association list kept in key order; `rbegin ()` is the
  entry with the greatest key.
* The OpenCL device is an oracle `Device`: the `n`-th call of `clCreateBuffer`
  either yields a buffer handle or fails.  Calls of `clCreateBuffer` and
  `clReleaseMemObject` are recorded in the state, so that statements such as
  "no device free is performed" can be expressed.
* A thrown Octave error is `Except.error`; the state that the throwing
  function leaves behind is returned next to it.
* `octave_idx_type` values are `Int`; extents of a `dim_vector` are `Nat`.
-/

namespace Ocl

/-- Errors raised through `ocl_error`, `ocl_check_error` and the liboctave
error handlers. -/
inductive OclError where
  | inoperable
  | index_out_of_range
  | reshape_mismatch
  | nonconformant
  | non_contiguous
  | bad_index_class
  | empty_buffer
  | no_context
  | device_error
  | array_prog_error
  | invalid_work_size
  | undefined_behaviour
  | diverged
  | invalid_dimension
  | dimension_mismatch
  deriving DecidableEq, Repr

/-! ## `std::map` as an association list -/

/-- Lookup, `m.find (k)`. -/
def mapFind {V : Type} : List (Nat × V) → Nat → Option V
  | [], _ => none
  | (k', v) :: t, k => if k = k' then some v else mapFind t k

/-- Membership count, `m.count (k)`, which is 0 or 1 for a map. -/
def mapCount {V : Type} (m : List (Nat × V)) (k : Nat) : Nat :=
  match mapFind m k with
  | none => 0
  | some _ => 1

/-- Removal, `m.erase (k)`. -/
def mapErase {V : Type} (m : List (Nat × V)) (k : Nat) : List (Nat × V) :=
  m.filter (fun e => !(e.1 == k))

/-- Overwriting the value stored under a key that is present. -/
def mapReplace {V : Type} : List (Nat × V) → Nat → V → List (Nat × V)
  | [], _, _ => []
  | (k', v') :: t, k, v => if k = k' then (k, v) :: t else (k', v') :: mapReplace t k v

/-- Insertion of a new entry at its place in key order. -/
def mapInsert {V : Type} : List (Nat × V) → Nat → V → List (Nat × V)
  | [], k, v => [(k, v)]
  | (k', v') :: t, k, v =>
    if k < k' then (k, v) :: (k', v') :: t else (k', v') :: mapInsert t k v

/-- Assignment `m[k] = v`: overwrites the entry when the key is present and
inserts a new entry otherwise. -/
def mapSet {V : Type} (m : List (Nat × V)) (k : Nat) (v : V) : List (Nat × V) :=
  match mapFind m k with
  | some _ => mapReplace m k v
  | none => mapInsert m k v

/-- Greatest key, `m.rbegin ()->first`; `none` for the empty map. -/
def mapMaxKey {V : Type} : List (Nat × V) → Option Nat
  | [] => none
  | (k, _) :: t =>
    match mapMaxKey t with
    | none => some k
    | some k' => some (max k k')

/-! ## The memory manager of `ocl_memobj.cc` -/

/-- The OpenCL device seen from the memory manager: `clCreateBuffer n size` is
the outcome of the `n`-th call (counted from 0) of `clCreateBuffer`, asked for
`size` bytes; `none` means `last_error != CL_SUCCESS`.  `clCreateContext` tells
whether a context can be set up when none is active, `array_prog_ok` whether
the kernel program of the array type can be built, and `sizeof_T` is the size
in bytes of one array element. -/
structure Device where
  clCreateBuffer : Nat → Nat → Option Nat
  clCreateContext : Bool
  array_prog_ok : Bool
  sizeof_T : Nat

/-- The static variables of `ocl_memobj.cc`, with the record of device calls. -/
structure MemMgr where
  memobj_pool : List (Nat × List Nat)
  max_sized_memobj_pool_objs : Nat
  assigned_ocl_memobjs : List (Nat × Nat)
  createCalls : Nat
  releaseCalls : List Nat
  deriving DecidableEq, Repr

/-- Initial values of the static variables. -/
def MemMgr.init : MemMgr :=
  { memobj_pool := [], max_sized_memobj_pool_objs := 3,
    assigned_ocl_memobjs := [], createCalls := 0, releaseCalls := [] }

/-- `new_ocl_buffer`: one call of `clCreateBuffer`. -/
def new_ocl_buffer (dev : Device) (size : Nat) (m : MemMgr) : Option Nat × MemMgr :=
  (dev.clCreateBuffer m.createCalls size, { m with createCalls := m.createCalls + 1 })

/-- `delete_ocl_buffer`: one call of `clReleaseMemObject`. -/
def delete_ocl_buffer (mem_obj : Nat) (m : MemMgr) : MemMgr :=
  { m with releaseCalls := m.releaseCalls ++ [mem_obj] }

/-- Number of retained buffers over all buckets. -/
def retained (pool : List (Nat × List Nat)) : Nat :=
  (pool.map (fun e => e.2.length)).sum

/-- The `while (1)` loop of `obtain_ocl_buffer`.  `fuel` bounds the number of
iterations; `none` is returned only when the fuel runs out. -/
def obtainLoop (dev : Device) (size : Nat) :
    Nat → MemMgr → Option (Except OclError Nat × MemMgr)
  | 0, _ => none
  | fuel + 1, m =>
    match new_ocl_buffer dev size m with
    | (some mem_obj, m1) => some (.ok mem_obj, m1)
    | (none, m1) =>
      match mapMaxKey m1.memobj_pool with
      | none => some (.error .device_error, m1)
      | some sizemax =>
        let sp := (mapFind m1.memobj_pool sizemax).getD []
        match sp.getLast? with
        | none => some (.error .undefined_behaviour, m1)
        | some mem_obj =>
          let sp1 := sp.dropLast
          let m2 :=
            if sp1.isEmpty then { m1 with memobj_pool := mapErase m1.memobj_pool sizemax }
            else { m1 with memobj_pool := mapSet m1.memobj_pool sizemax sp1 }
          obtainLoop dev size fuel (delete_ocl_buffer mem_obj m2)

/-- `obtain_ocl_buffer (size)`. -/
def obtain_ocl_buffer (dev : Device) (size : Nat) (m : MemMgr) :
    Option (Except OclError Nat × MemMgr) :=
  if mapCount m.memobj_pool size = 0 then
    match obtainLoop dev size (retained m.memobj_pool + 1) m with
    | none => none
    | some (.error e, m1) => some (.error e, m1)
    | some (.ok mem_obj, m1) =>
      some (.ok mem_obj,
        { m1 with assigned_ocl_memobjs := mapSet m1.assigned_ocl_memobjs mem_obj size })
  else
    let sp := (mapFind m.memobj_pool size).getD []
    match sp.getLast? with
    | none => some (.error .undefined_behaviour, m)
    | some mem_obj =>
      let sp1 := sp.dropLast
      let m1 :=
        if sp1.isEmpty then { m with memobj_pool := mapErase m.memobj_pool size }
        else { m with memobj_pool := mapSet m.memobj_pool size sp1 }
      some (.ok mem_obj,
        { m1 with assigned_ocl_memobjs := mapSet m1.assigned_ocl_memobjs mem_obj size })

/-- All retained buffers in iteration order of the nested `for` loops of
`release_ocl_buffer`. -/
def allRetained (pool : List (Nat × List Nat)) : List Nat :=
  (pool.map (fun e => e.2)).flatten

/-- `release_ocl_buffer (mem_obj)`. -/
def release_ocl_buffer (mem_obj : Nat) (m : MemMgr) : MemMgr :=
  match mapFind m.assigned_ocl_memobjs mem_obj with
  | none => delete_ocl_buffer mem_obj m
  | some size =>
    let m1 := { m with assigned_ocl_memobjs := mapErase m.assigned_ocl_memobjs mem_obj }
    if m1.assigned_ocl_memobjs.isEmpty then
      let m2 := delete_ocl_buffer mem_obj m1
      { m2 with releaseCalls := m2.releaseCalls ++ allRetained m2.memobj_pool,
                memobj_pool := [] }
    else
      let count :=
        if mapCount m1.memobj_pool size = 0 then 0
        else ((mapFind m1.memobj_pool size).getD []).length
      if count ≥ m1.max_sized_memobj_pool_objs then
        delete_ocl_buffer mem_obj m1
      else
        { m1 with memobj_pool :=
            mapSet m1.memobj_pool size (((mapFind m1.memobj_pool size).getD []) ++ [mem_obj]) }

/-- `reset_memmgr ()`. -/
def reset_memmgr (m : MemMgr) : MemMgr :=
  { m with assigned_ocl_memobjs := [], memobj_pool := [] }

/-! ## Context management of `ocl_context.cc` and `ocl_context_obj.cc` -/

/-- The static variables `active_opencl_context_id` and
`next_opencl_context_id` (both `unsigned long`). -/
structure Context where
  active_opencl_context_id : Nat
  next_opencl_context_id : Nat
  deriving DecidableEq, Repr

/-- Initial values of the context statics. -/
def Context.init : Context :=
  { active_opencl_context_id := 0, next_opencl_context_id := 1 }

/-- `assure_opencl_context ()`. -/
def assure_opencl_context (dev : Device) (c : Context) : Except OclError Nat × Context :=
  if c.active_opencl_context_id ≠ 0 then (.ok c.active_opencl_context_id, c)
  else if dev.clCreateContext then
    (.ok c.next_opencl_context_id,
      { active_opencl_context_id := c.next_opencl_context_id,
        next_opencl_context_id := (c.next_opencl_context_id + 1) % 2 ^ 64 })
  else (.error .device_error, c)

/-- `opencl_context_id_active (id)`. -/
def opencl_context_id_active (c : Context) (id : Nat) : Bool :=
  (c.active_opencl_context_id == id) && (id != 0)

/-- An `OclMemoryObject`: the context stamp of its `OclContextObject` base and
the buffer handle. -/
structure OclMemoryObject where
  assctd_ctx_id : Nat
  ocl_mem_buffer : Nat
  deriving DecidableEq, Repr

/-- `OclContextObject::object_context_still_valid ()`. -/
def OclMemoryObject.object_context_still_valid (c : Context) (o : OclMemoryObject) : Bool :=
  opencl_context_id_active c o.assctd_ctx_id

/-! ## Octave's `dim_vector` and `idx_vector` -/

/-- A `dim_vector`: the list of extents. -/
abbrev dim_vector := List Nat

/-- The extent `dv (i)`. -/
def dim_vector.elem (dv : dim_vector) (i : Nat) : Nat := dv.getD i 1

/-- The product of the extents from position `n` on, `dv.numel (n)`. -/
def dim_vector.numel (dv : dim_vector) (n : Nat) : Nat := (dv.drop n).prod

/-- The element count `dv.safe_numel ()`; the overflow check of the index type
is left out. -/
def dim_vector.safe_numel (dv : dim_vector) : Nat := dv.prod

/-- Removal of trailing ones from a list. -/
def dropTrailingOnes (l : List Nat) : List Nat :=
  (l.reverse.dropWhile (fun d => d == 1)).reverse

/-- The method `chop_trailing_singletons ()`: trailing extents 1 are dropped, the first two extents are
always kept. -/
def dim_vector.chop_trailing_singletons : dim_vector → dim_vector
  | a :: b :: rest => a :: b :: dropTrailingOnes rest
  | dv => dv

/-- The method `chop_all_singletons ()`. -/
def dim_vector.chop_all_singletons (dv : dim_vector) : dim_vector :=
  match dv.filter (fun d => d != 1) with
  | [] => dv.take 2
  | [d] => [d, 1]
  | f => f

/-- The method `redim (n)`: pad with ones, or fold the excess extents into the last one. -/
def dim_vector.redim (dv : dim_vector) (n : Nat) : dim_vector :=
  if dv.length = n then dv
  else if dv.length < n then dv ++ List.replicate (n - dv.length) 1
  else
    let n1 := if n < 1 then 1 else n
    let r := dv.take (n1 - 1) ++ [(dv.drop (n1 - 1)).prod]
    if n1 = 1 then r ++ [1] else r

/-- The index classes of `idx_vector::idx_class_type`. -/
inductive idx_class_type where
  | class_colon
  | class_range
  | class_scalar
  | class_vector
  | class_mask
  deriving DecidableEq, Repr

/-- An `idx_vector` with zero-based entries: a colon, a range of `len` entries
from `start` in steps of `step`, a scalar, an index list, or a logical mask. -/
inductive idx_vector where
  | colon
  | range (start : Nat) (len : Nat) (step : Int)
  | scalar (data : Nat)
  | vector (data : List Nat)
  | mask (data : List Bool)
  deriving DecidableEq, Repr

/-- The method `idx_class ()`. -/
def idx_vector.idx_class : idx_vector → idx_class_type
  | .colon => .class_colon
  | .range _ _ _ => .class_range
  | .scalar _ => .class_scalar
  | .vector _ => .class_vector
  | .mask _ => .class_mask

/-- Positions of the `true` entries of a mask. -/
def maskIndices (data : List Bool) : List Nat :=
  (List.range data.length).filter (fun i => data.getD i false)

/-- The method `xelem (i)`: the `i`-th index. -/
def idx_vector.xelem : idx_vector → Int → Int
  | .colon, i => i
  | .range start _ step, i => (start : Int) + i * step
  | .scalar data, _ => data
  | .vector data, i => ((data.getD i.toNat 0 : Nat) : Int)
  | .mask data, i => (((maskIndices data).getD i.toNat 0 : Nat) : Int)

/-- The method `length (n)`: the number of indices selected in a dimension of extent `n`. -/
def idx_vector.length : idx_vector → Nat → Nat
  | .colon, n => n
  | .range _ len _, _ => len
  | .scalar _, _ => 1
  | .vector data, _ => data.length
  | .mask data, _ => (maskIndices data).length

/-- The method `extent (n)`: the least extent that holds all indices, at least `n`. -/
def idx_vector.extent : idx_vector → Nat → Nat
  | .colon, n => n
  | .range start len step, n =>
    if len = 0 then n
    else max n (start + 1 + (if step < 0 then 0 else step.toNat * (len - 1)))
  | .scalar data, n => max n (data + 1)
  | .vector data, n => max n (data.foldl (fun a d => max a (d + 1)) 0)
  | .mask data, n => max n ((maskIndices data).foldl (fun a d => max a (d + 1)) 0)

/-- The method `is_colon_equiv (n)`. -/
def idx_vector.is_colon_equiv : idx_vector → Nat → Bool
  | .colon, _ => true
  | .range start len step, n => start == 0 && step == 1 && len == n
  | .scalar data, n => n == 1 && data == 0
  | .vector _, _ => false
  | .mask data, n =>
    (maskIndices data).length == n
      && (maskIndices data).foldl (fun a d => max a (d + 1)) 0 == n

/-! ## `OclArrayRep`: the shared body of an array -/

/-- An `OclArrayRep`.  `data` is the content of the device buffer owned through
`memobj`; a rep without buffer has no data. -/
structure OclArrayRep (α : Type) where
  memobj : Option OclMemoryObject
  len : Int
  count : Int
  data : List α
  deriving DecidableEq, Repr

/-- The program state: context statics, memory manager, the heap of
`OclArrayRep` objects (a deleted rep leaves `none` at its address) and the
function-local static `nr` of `nil_rep ()`. -/
structure World (α : Type) where
  ctx : Context
  mem : MemMgr
  heap : List (Option (OclArrayRep α))
  nil_rep : Option Nat
  deriving DecidableEq, Repr

/-- The state at program start. -/
def World.init (α : Type) : World α :=
  { ctx := Context.init, mem := MemMgr.init, heap := [], nil_rep := none }

/-- Dereferencing a rep pointer. -/
def World.rep? {α : Type} (w : World α) (p : Nat) : Option (OclArrayRep α) :=
  match w.heap[p]? with
  | some (some r) => some r
  | _ => none

/-- Storing a rep at an address of the heap. -/
def World.setRep {α : Type} (w : World α) (p : Nat) (r : OclArrayRep α) : World α :=
  { w with heap := w.heap.set p (some r) }

/-- The operator `new`: the rep is placed at a fresh address. -/
def World.newRep {α : Type} (w : World α) (r : OclArrayRep α) : Nat × World α :=
  (w.heap.length, { w with heap := w.heap ++ [some r] })

/-- `OclArrayRep::is_valid ()`. -/
def OclArrayRep.is_valid {α : Type} (c : Context) (r : OclArrayRep α) : Bool :=
  match r.memobj with
  | none => false
  | some o => o.object_context_still_valid c

/-- The constructor `OclMemoryObject (size)`. -/
def OclMemoryObject.create {α : Type} (dev : Device) (size : Nat) (w : World α) :
    Except OclError OclMemoryObject × World α :=
  match assure_opencl_context dev w.ctx with
  | (.error e, c) => (.error e, { w with ctx := c })
  | (.ok id, c) =>
    if size ≤ 0 then (.error .empty_buffer, { w with ctx := c })
    else
      match obtain_ocl_buffer dev size w.mem with
      | none => (.error .diverged, { w with ctx := c })
      | some (.error e, m) => (.error e, { w with ctx := c, mem := m })
      | some (.ok b, m) =>
        (.ok { assctd_ctx_id := id, ocl_mem_buffer := b }, { w with ctx := c, mem := m })

/-- `OclArrayRep::allocate ()` for a rep of `len` elements. -/
def OclArrayRep.allocate {α : Type} (dev : Device) (len : Int) (w : World α) :
    Except OclError OclMemoryObject × World α :=
  OclMemoryObject.create dev (len.toNat * dev.sizeof_T) w

/-- The expression `new OclArrayRep (n)`: a rep of `n` elements with uninitialised content. -/
def OclArrayRep.create {α : Type} [Inhabited α] (dev : Device) (n : Int) (w : World α) :
    Except OclError Nat × World α :=
  if n > 0 then
    match OclArrayRep.allocate dev n w with
    | (.error e, w1) => (.error e, w1)
    | (.ok o, w1) =>
      let (p, w2) := w1.newRep
        { memobj := some o, len := n, count := 1, data := List.replicate n.toNat default }
      (.ok p, w2)
  else
    let (p, w1) := w.newRep { memobj := none, len := n, count := 1, data := [] }
    (.ok p, w1)

/-- The expression `new OclArrayRep (a, slice_ofs_src, slice_len)`: a rep holding a copy of
`slice_len` elements of the rep at address `a`.  The copy is done by
`copy_from_oclbuffer`, whose `clEnqueueCopyBuffer` fails when the source range
does not lie inside the source buffer. -/
def OclArrayRep.createCopy {α : Type} (dev : Device) (a : Nat) (slice_ofs_src : Int)
    (slice_len : Int) (w : World α) : Except OclError Nat × World α :=
  if slice_len > 0 then
    match w.rep? a with
    | none => (.error .undefined_behaviour, w)
    | some ra =>
      if !ra.is_valid w.ctx then (.error .inoperable, w)
      else
        match OclArrayRep.allocate dev slice_len w with
        | (.error e, w1) => (.error e, w1)
        | (.ok o, w1) =>
          if !opencl_context_id_active w1.ctx o.assctd_ctx_id then (.error .inoperable, w1)
          else if !ra.is_valid w1.ctx then (.error .inoperable, w1)
          else if slice_ofs_src < 0 ∨ slice_ofs_src + slice_len > ra.len then
            (.error .device_error, w1)
          else
            let (p, w2) := w1.newRep
              { memobj := some o, len := slice_len, count := 1,
                data := (ra.data.drop slice_ofs_src.toNat).take slice_len.toNat }
            (.ok p, w2)
  else
    let (p, w1) := w.newRep { memobj := none, len := slice_len, count := 1, data := [] }
    (.ok p, w1)

/-- The expression `new OclArrayRep (d, l)`: a rep holding a copy of the host data `d`. -/
def OclArrayRep.createHost {α : Type} (dev : Device) (d : List α) (l : Int) (w : World α) :
    Except OclError Nat × World α :=
  if l > 0 then
    match OclArrayRep.allocate dev l w with
    | (.error e, w1) => (.error e, w1)
    | (.ok o, w1) =>
      if !opencl_context_id_active w1.ctx o.assctd_ctx_id then (.error .inoperable, w1)
      else
        let (p, w2) := w1.newRep
          { memobj := some o, len := l, count := 1, data := d.take l.toNat }
        (.ok p, w2)
  else
    let (p, w1) := w.newRep { memobj := none, len := l, count := 1, data := [] }
    (.ok p, w1)

/-- The expression `delete rep`: the destructor runs `deallocate ()`, which hands the buffer back
to the memory manager when the context of the memory object is still the active
one. -/
def World.deleteRep {α : Type} (w : World α) (p : Nat) : World α :=
  match w.rep? p with
  | none => w
  | some r =>
    let w1 := { w with heap := w.heap.set p none }
    match r.memobj with
    | none => w1
    | some o =>
      if o.object_context_still_valid w1.ctx then
        { w1 with mem := release_ocl_buffer o.ocl_mem_buffer w1.mem }
      else w1

/-! ## `OclArray`: the array handle -/

/-- An `OclArray` handle: dimensions, pointer to the rep, and the window
`slice_ofs`, `slice_len` into the buffer of the rep. -/
structure OclArray where
  dimensions : dim_vector
  rep : Nat
  slice_ofs : Int
  slice_len : Int
  is_logical : Bool
  deriving DecidableEq, Repr

/-- The method `numel ()`. -/
def OclArray.numel (a : OclArray) : Int := a.slice_len

/-- The statement `(rep->count)++`. -/
def World.incCount {α : Type} (w : World α) (p : Nat) : World α :=
  match w.rep? p with
  | none => w
  | some r => w.setRep p { r with count := r.count + 1 }

/-- The statement `if ((--(rep->count)) == 0) delete rep;`. -/
def World.unref {α : Type} (w : World α) (p : Nat) : World α :=
  match w.rep? p with
  | none => w
  | some r =>
    let w1 := w.setRep p { r with count := r.count - 1 }
    if r.count - 1 = 0 then w1.deleteRep p else w1

/-- The function `nil_rep ()`: the empty rep shared by all empty arrays, made on first use. -/
def nil_rep {α : Type} (w : World α) : Nat × World α :=
  match w.nil_rep with
  | some p => (p, w)
  | none =>
    let (p, w1) := w.newRep { memobj := none, len := 0, count := 1, data := [] }
    (p, { w1 with nil_rep := some p })

/-- The length `rep->len` read through a pointer. -/
def World.repLen {α : Type} (w : World α) (p : Nat) : Int :=
  match w.rep? p with
  | none => 0
  | some r => r.len

/-- The empty constructor `OclArray ()`. -/
def OclArray.mkEmpty {α : Type} (w : World α) : OclArray × World α :=
  let p := (nil_rep w).1
  let w1 := (nil_rep w).2
  ({ dimensions := [0, 0], rep := p, slice_ofs := 0, slice_len := w1.repLen p,
     is_logical := false }, w1.incCount p)

/-- The copy constructor `OclArray (a)`. -/
def OclArray.mkCopy {α : Type} (a : OclArray) (w : World α) : OclArray × World α :=
  (a, w.incCount a.rep)

/-- The uninitialised constructor `OclArray (dv)`. -/
def OclArray.mkDims {α : Type} [Inhabited α] (dev : Device) (dv : dim_vector) (w : World α) :
    Except OclError OclArray × World α :=
  match OclArrayRep.create dev (dv.safe_numel : Int) w with
  | (.error e, w1) => (.error e, w1)
  | (.ok p, w1) =>
    (.ok { dimensions := dv.chop_trailing_singletons, rep := p, slice_ofs := 0,
           slice_len := w1.repLen p, is_logical := false }, w1)

/-- The content of a buffer after a kernel has written `src i` to every position
`ofs + i` with `i < len`; positions outside the buffer are not written. -/
def writeRange {α : Type} (data : List α) (ofs len : Nat) (src : Nat → α) : List α :=
  List.zipWith (fun i x => if ofs ≤ i ∧ i < ofs + len then src (i - ofs) else x)
    (List.range data.length) data

/-- Work size and work offset as `enqueue_kernel` receives them: a size below 1
is refused, a negative value does not fit `size_t`. -/
def checkWork (n ofs : Int) : Except OclError Unit :=
  if n = 0 then .error .invalid_work_size
  else if n < 0 ∨ ofs < 0 then .error .device_error
  else .ok ()

/-- The method `fill (fill_ofs, fill_len, val)`: the kernel `ocl_fill` over the work items
`fill_ofs .. fill_ofs + fill_len - 1`. -/
def OclArray.fillRange {α : Type} (dev : Device) (self : OclArray) (fill_ofs fill_len : Int)
    (val : α) (w : World α) : Except OclError Unit × World α :=
  match w.rep? self.rep with
  | none => (.error .undefined_behaviour, w)
  | some r =>
    if !r.is_valid w.ctx then (.error .inoperable, w)
    else if !dev.array_prog_ok then (.error .array_prog_error, w)
    else
      match checkWork fill_len fill_ofs with
      | .error e => (.error e, w)
      | .ok _ =>
        let d := writeRange r.data fill_ofs.toNat fill_len.toNat (fun _ => val)
        (.ok (), w.setRep self.rep { r with data := d })

/-- The method `fill0 (fill_ofs, fill_len, a)`: the kernel `ocl_fill0`, which writes the first
element of `a` to the work items. -/
def OclArray.fill0 {α : Type} [Inhabited α] (dev : Device) (self : OclArray)
    (fill_ofs fill_len : Int) (a : OclArray) (w : World α) : Except OclError Unit × World α :=
  match w.rep? self.rep, w.rep? a.rep with
  | some r, some ra =>
    if !r.is_valid w.ctx then (.error .inoperable, w)
    else if !ra.is_valid w.ctx then (.error .inoperable, w)
    else if !dev.array_prog_ok then (.error .array_prog_error, w)
    else
      match checkWork fill_len fill_ofs with
      | .error e => (.error e, w)
      | .ok _ =>
        let v := ra.data.getD a.slice_ofs.toNat default
        let d := writeRange r.data fill_ofs.toNat fill_len.toNat (fun _ => v)
        (.ok (), w.setRep self.rep { r with data := d })
  | _, _ => (.error .undefined_behaviour, w)

/-- The call `rep->copy_from_oclbuffer (a, slice_ofs_src, slice_ofs_dst, slice_len)` for the
rep at address `p`; `clEnqueueCopyBuffer` fails on ranges outside the buffers
and on overlapping ranges of one buffer. -/
def World.copy_from_oclbuffer {α : Type} [Inhabited α] (w : World α) (p a : Nat)
    (slice_ofs_src slice_ofs_dst slice_len : Int) : Except OclError Unit × World α :=
  match w.rep? p, w.rep? a with
  | some r, some ra =>
    if !r.is_valid w.ctx then (.error .inoperable, w)
    else if !ra.is_valid w.ctx then (.error .inoperable, w)
    else if slice_ofs_src < 0 ∨ slice_ofs_dst < 0 ∨ slice_len < 0
        ∨ slice_ofs_src + slice_len > ra.len ∨ slice_ofs_dst + slice_len > r.len then
      (.error .device_error, w)
    else if p = a ∧ slice_ofs_src < slice_ofs_dst + slice_len
        ∧ slice_ofs_dst < slice_ofs_src + slice_len then
      (.error .device_error, w)
    else
      let d := writeRange r.data slice_ofs_dst.toNat slice_len.toNat
        (fun i => ra.data.getD (slice_ofs_src.toNat + i) default)
      (.ok (), w.setRep p { r with data := d })
  | _, _ => (.error .undefined_behaviour, w)

/-- The initialised constructor `OclArray (dv, val)`. -/
def OclArray.mkFill {α : Type} [Inhabited α] (dev : Device) (dv : dim_vector) (val : α)
    (w : World α) : Except OclError OclArray × World α :=
  match OclArray.mkDims dev dv w with
  | (.error e, w1) => (.error e, w1)
  | (.ok a, w1) =>
    match a.fillRange dev a.slice_ofs a.slice_len val w1 with
    | (.error e, w2) => (.error e, w2)
    | (.ok _, w2) => (.ok a, w2)

/-- The constructor `OclArray (a)` from a host array with content `d` and dimensions `dv`. -/
def OclArray.mkHost {α : Type} (dev : Device) (d : List α) (dv : dim_vector) (w : World α) :
    Except OclError OclArray × World α :=
  match OclArrayRep.createHost dev d (dv.safe_numel : Int) w with
  | (.error e, w1) => (.error e, w1)
  | (.ok p, w1) =>
    (.ok { dimensions := dv, rep := p, slice_ofs := 0, slice_len := (dv.safe_numel : Int),
           is_logical := false }, w1)

/-- The reshape constructor `OclArray (a, dv)`. -/
def OclArray.mkReshape {α : Type} (a : OclArray) (dv : dim_vector) (w : World α) :
    Except OclError OclArray × World α :=
  match w.rep? a.rep with
  | none => (.error .undefined_behaviour, w)
  | some r =>
    if !r.is_valid w.ctx then (.error .inoperable, w)
    else if (dv.safe_numel : Int) ≠ a.numel then (.error .reshape_mismatch, w)
    else
      (.ok { dimensions := dv.chop_trailing_singletons, rep := a.rep, slice_ofs := a.slice_ofs,
             slice_len := a.slice_len, is_logical := a.is_logical }, w.incCount a.rep)

/-- The slice constructor `OclArray (a, dv, l, u)`. -/
def OclArray.mkSlice {α : Type} (a : OclArray) (dv : dim_vector) (l u : Int) (w : World α) :
    Except OclError OclArray × World α :=
  match w.rep? a.rep with
  | none => (.error .undefined_behaviour, w)
  | some r =>
    if !r.is_valid w.ctx then (.error .inoperable, w)
    else
      (.ok { dimensions := dv.chop_trailing_singletons, rep := a.rep,
             slice_ofs := a.slice_ofs + l, slice_len := u - l, is_logical := a.is_logical },
        w.incCount a.rep)

/-- The destructor `~OclArray ()`. -/
def OclArray.destroy {α : Type} (self : OclArray) (w : World α) : World α :=
  w.unref self.rep

/-- The assignment `operator = (a)` for an object `a` other than `*this`. -/
def OclArray.assignOp {α : Type} (self a : OclArray) (w : World α) : OclArray × World α :=
  let w1 := w.unref self.rep
  (a, w1.incCount a.rep)

/-- The method `make_unique ()`. -/
def OclArray.make_unique {α : Type} (dev : Device) (self : OclArray) (w : World α) :
    Except OclError Unit × OclArray × World α :=
  match w.rep? self.rep with
  | none => (.error .undefined_behaviour, self, w)
  | some r =>
    if r.count > 1 then
      let w1 := w.setRep self.rep { r with count := r.count - 1 }
      match OclArrayRep.createCopy dev self.rep self.slice_ofs self.slice_len w1 with
      | (.error e, w2) => (.error e, self, w2)
      | (.ok p, w2) => (.ok (), { self with rep := p, slice_ofs := 0 }, w2)
    else (.ok (), self, w)

/-- The method `fill (val)`. -/
def OclArray.fill {α : Type} [Inhabited α] (dev : Device) (self : OclArray) (val : α)
    (w : World α) : Except OclError Unit × OclArray × World α :=
  match w.rep? self.rep with
  | none => (.error .undefined_behaviour, self, w)
  | some r =>
    if r.count > 1 then
      let w1 := w.setRep self.rep { r with count := r.count - 1 }
      match OclArrayRep.create dev self.slice_len w1 with
      | (.error e, w2) => (.error e, self, w2)
      | (.ok p, w2) =>
        let self1 := { self with rep := p, slice_ofs := 0 }
        match self1.fillRange dev self1.slice_ofs self1.slice_len val w2 with
        | (.error e, w3) => (.error e, self1, w3)
        | (.ok _, w3) => (.ok (), self1, w3)
    else
      match self.fillRange dev self.slice_ofs self.slice_len val w with
      | (.error e, w3) => (.error e, self, w3)
      | (.ok _, w3) => (.ok (), self, w3)

/-- The method `clear ()`. -/
def OclArray.clear {α : Type} (self : OclArray) (w : World α) : OclArray × World α :=
  let w1 := w.unref self.rep
  let p := (nil_rep w1).1
  let w2 := (nil_rep w1).2
  let w3 := w2.incCount p
  ({ dimensions := [0, 0], rep := p, slice_ofs := 0, slice_len := w3.repLen p,
     is_logical := false }, w3)

/-- The method `clear (dv)`. -/
def OclArray.clearDims {α : Type} [Inhabited α] (dev : Device) (self : OclArray)
    (dv : dim_vector) (w : World α) : Except OclError Unit × OclArray × World α :=
  let w1 := w.unref self.rep
  match OclArrayRep.create dev (dv.safe_numel : Int) w1 with
  | (.error e, w2) => (.error e, { self with dimensions := dv }, w2)
  | (.ok p, w2) =>
    (.ok (), { dimensions := dv.chop_trailing_singletons, rep := p, slice_ofs := 0,
               slice_len := w2.repLen p, is_logical := false }, w2)

/-- The method `maybe_economize ()`. -/
def OclArray.maybe_economize {α : Type} (dev : Device) (self : OclArray) (w : World α) :
    Except OclError Unit × OclArray × World α :=
  match w.rep? self.rep with
  | none => (.error .undefined_behaviour, self, w)
  | some r =>
    if r.count = 1 ∧ self.slice_len ≠ r.len then
      match OclArrayRep.createCopy dev self.rep self.slice_ofs self.slice_len w with
      | (.error e, w1) => (.error e, self, w1)
      | (.ok p, w1) => (.ok (), { self with rep := p, slice_ofs := 0 }, w1.deleteRep self.rep)
    else (.ok (), self, w)

/-- The check `rep->assure_valid ()` at the head of a method. -/
def OclArray.assure_valid {α : Type} (self : OclArray) (w : World α) : Except OclError Unit :=
  match w.rep? self.rep with
  | none => .error .undefined_behaviour
  | some r => if r.is_valid w.ctx then .ok () else .error .inoperable

/-- The method `column (k)`. -/
def OclArray.column {α : Type} (self : OclArray) (k : Int) (w : World α) :
    Except OclError OclArray × World α :=
  match self.assure_valid w with
  | .error e => (.error e, w)
  | .ok _ =>
    let r : Int := self.dimensions.elem 0
    if k < 0 ∨ k > (self.dimensions.numel 1 : Int) then (.error .index_out_of_range, w)
    else self.mkSlice [self.dimensions.elem 0, 1] (k * r) (k * r + r) w

/-- The method `page (k)`. -/
def OclArray.page {α : Type} (self : OclArray) (k : Int) (w : World α) :
    Except OclError OclArray × World α :=
  match self.assure_valid w with
  | .error e => (.error e, w)
  | .ok _ =>
    let r : Int := self.dimensions.elem 0
    let c : Int := self.dimensions.elem 1
    let p : Int := r * c
    if k < 0 ∨ k > (self.dimensions.numel 2 : Int) then (.error .index_out_of_range, w)
    else self.mkSlice [self.dimensions.elem 0, self.dimensions.elem 1] (k * p) (k * p + p) w

/-- The method `linear_slice (lo, up)`. -/
def OclArray.linear_slice {α : Type} (self : OclArray) (lo up : Int) (w : World α) :
    Except OclError OclArray × World α :=
  match self.assure_valid w with
  | .error e => (.error e, w)
  | .ok _ =>
    if lo < 0 then (.error .index_out_of_range, w)
    else if up > self.numel then (.error .index_out_of_range, w)
    else
      let up1 := if up < lo then lo else up
      self.mkSlice [(up1 - lo).toNat, 1] lo up1 w

/-- The local variables of the loop of `index_helper`. -/
structure IndexState where
  rdv : dim_vector
  all_colons : Bool
  first_range : Int
  first_scalar : Int
  s : Int
  l : Int
  u : Int
  deriving DecidableEq, Repr

/-- One pass through the body of the `for` loop of `index_helper`, for the
subscript `ix` at position `i`. -/
def index_step (dv : dim_vector) (i : Nat) (ix : idx_vector) (st : IndexState) :
    Except OclError IndexState :=
  if ix.extent (dv.elem i) ≠ dv.elem i then .error .index_out_of_range
  else
    let n := ix.length (dv.elem i)
    let st1 := { st with rdv := st.rdv.set i n }
    let branch : Except OclError IndexState :=
      if ix.idx_class = .class_colon ∨ ix.is_colon_equiv (dv.elem i) = true then
        if st1.first_range ≥ (0 : Int) then .error .non_contiguous
        else .ok { st1 with u := st1.s * (dv.elem i : Int) }
      else if ix.idx_class = .class_range then
        if st1.first_range ≥ (0 : Int) ∨ st1.first_scalar ≥ (0 : Int)
            ∨ ix.xelem 1 - ix.xelem 0 ≠ 1 then
          .error .non_contiguous
        else
          .ok { st1 with first_range := (i : Int), all_colons := false,
                         l := st1.s * ix.xelem 0, u := st1.s * ix.xelem (n : Int) }
      else if ix.idx_class = .class_scalar then
        .ok { st1 with
                first_scalar := if st1.first_scalar < (0 : Int) then (i : Int) else st1.first_scalar,
                first_range := if st1.first_range < (0 : Int) then (i : Int) else st1.first_range,
                all_colons := false,
                l := st1.l + st1.s * ix.xelem 0, u := st1.u + st1.s * ix.xelem 0 }
      else .error .bad_index_class
    match branch with
    | .error e => .error e
    | .ok st2 => .ok { st2 with s := st2.s * (dv.elem i : Int) }

/-- The `for` loop of `index_helper` over the subscripts from position `i` on. -/
def index_loop (dv : dim_vector) : List idx_vector → Nat → IndexState → Except OclError IndexState
  | [], _, st => .ok st
  | ix :: rest, i, st =>
    match index_step dv i ix st with
    | .error e => .error e
    | .ok st1 => index_loop dv rest (i + 1) st1

/-- The method `index_helper (ia, dv, rdv, all_colons, l, u)`; the outputs are returned as a tuple. -/
def OclArray.index_helper (self : OclArray) (ia : List idx_vector) :
    Except OclError (dim_vector × dim_vector × Bool × Int × Int) :=
  let ial := ia.length
  let dv0 := self.dimensions.redim ial
  let dv := if ial = 1 then dv0.redim 2 else dv0
  let rdv0 : dim_vector := if ial = 1 then [1, 1] else List.replicate (max ial 2) 0
  match index_loop dv ia 0
      { rdv := rdv0, all_colons := true, first_range := -1, first_scalar := -1,
        s := 1, l := 0, u := 1 } with
  | .error e => .error e
  | .ok st =>
    let rdv1 : dim_vector :=
      if ial = 1 ∧ (self.dimensions.length ≠ 2 ∨ self.dimensions.elem 1 ≠ 1) then
        [1, st.rdv.elem 0]
      else st.rdv
    .ok (dv, rdv1.chop_trailing_singletons, st.all_colons, st.l, st.u)

/-- The method `index (ia)`. -/
def OclArray.index {α : Type} (self : OclArray) (ia : List idx_vector) (w : World α) :
    Except OclError OclArray × World α :=
  match self.assure_valid w with
  | .error e => (.error e, w)
  | .ok _ =>
    if ia.length = 0 then
      let (a, w1) := OclArray.mkEmpty w
      (.ok a, w1)
    else
      match self.index_helper ia with
      | .error e => (.error e, w)
      | .ok (dv, rdv, all_colons, l, u) =>
        if all_colons then OclArray.mkReshape self dv.chop_trailing_singletons w
        else OclArray.mkSlice self rdv l u w

/-- The method `assign (ia, rhs)` with a scalar right-hand side. -/
def OclArray.assign {α : Type} [Inhabited α] (dev : Device) (self : OclArray)
    (ia : List idx_vector) (rhs : α) (w : World α) : Except OclError Unit × OclArray × World α :=
  match w.rep? self.rep with
  | none => (.error .undefined_behaviour, self, w)
  | some r =>
    if !r.is_valid w.ctx then (.error .inoperable, self, w)
    else if !dev.array_prog_ok then (.error .array_prog_error, self, w)
    else if ia.length = 0 then (.ok (), self, w)
    else
      match self.index_helper ia with
      | .error e => (.error e, self, w)
      | .ok (_, _, all_colons, l, u) =>
        if all_colons = true ∧ r.count > 1 then
          match OclArray.mkFill dev self.dimensions rhs w with
          | (.error e, w1) => (.error e, self, w1)
          | (.ok tmp, w1) =>
            let (self1, w2) := self.assignOp tmp w1
            (.ok (), self1, tmp.destroy w2)
        else
          match self.make_unique dev w with
          | (.error e, self1, w1) => (.error e, self1, w1)
          | (.ok _, self1, w1) =>
            match self1.fillRange dev l (u - l) rhs w1 with
            | (.error e, w2) => (.error e, self1, w2)
            | (.ok _, w2) => (.ok (), self1, w2)

/-- Branch `*this = OclArray<T> (dimensions); fill0 (l, u-l, rhs);` of the array
assignment: a one-element right-hand side, all subscripts colons, rep shared. -/
def OclArray.assignFillAll {α : Type} [Inhabited α] (dev : Device) (self : OclArray)
    (rhs : Option OclArray) (l u : Int) (w : World α) :
    Except OclError Unit × OclArray × World α :=
  match OclArray.mkDims dev self.dimensions w with
  | (.error e, w1) => (.error e, self, w1)
  | (.ok tmp, w1) =>
    let (self1, w2) := self.assignOp tmp w1
    let w3 := tmp.destroy w2
    match self1.fill0 dev l (u - l) (rhs.getD self1) w3 with
    | (.error e, w4) => (.error e, self1, w4)
    | (.ok _, w4) => (.ok (), self1, w4)

/-- Branch `make_unique (); fill0 (l, u-l, rhs);` of the array assignment. -/
def OclArray.assignFillPart {α : Type} [Inhabited α] (dev : Device) (self : OclArray)
    (rhs : Option OclArray) (l u : Int) (w : World α) :
    Except OclError Unit × OclArray × World α :=
  match self.make_unique dev w with
  | (.error e, self1, w1) => (.error e, self1, w1)
  | (.ok _, self1, w1) =>
    match self1.fill0 dev l (u - l) (rhs.getD self1) w1 with
    | (.error e, w2) => (.error e, self1, w2)
    | (.ok _, w2) => (.ok (), self1, w2)

/-- Branch `*this = rhs.reshape (dimensions);` of the array assignment. -/
def OclArray.assignShallow {α : Type} (self : OclArray) (rhs0 : OclArray) (w : World α) :
    Except OclError Unit × OclArray × World α :=
  match OclArray.mkReshape rhs0 self.dimensions w with
  | (.error e, w1) => (.error e, self, w1)
  | (.ok tmp, w1) =>
    let (self1, w2) := self.assignOp tmp w1
    (.ok (), self1, tmp.destroy w2)

/-- Branch `make_unique (); rep->copy_from_oclbuffer (...);` of the array
assignment. -/
def OclArray.assignCopy {α : Type} [Inhabited α] (dev : Device) (self : OclArray)
    (rhs : Option OclArray) (l u : Int) (w : World α) :
    Except OclError Unit × OclArray × World α :=
  match self.make_unique dev w with
  | (.error e, self1, w1) => (.error e, self1, w1)
  | (.ok _, self1, w1) =>
    match w1.copy_from_oclbuffer self1.rep (rhs.getD self1).rep
        (rhs.getD self1).slice_ofs l (u - l) with
    | (.error e, w2) => (.error e, self1, w2)
    | (.ok _, w2) => (.ok (), self1, w2)

/-- The method `assign (ia, rhs)` with an array right-hand side.  `rhs = none` stands for the
call in which `rhs` is the object `*this` itself, so that `rhs` is read anew
after `*this` has changed. -/
def OclArray.assignArray {α : Type} [Inhabited α] (dev : Device) (self : OclArray)
    (ia : List idx_vector) (rhs : Option OclArray) (w : World α) :
    Except OclError Unit × OclArray × World α :=
  let rhs0 := rhs.getD self
  match w.rep? self.rep, w.rep? rhs0.rep with
  | some r, some rr =>
    if !r.is_valid w.ctx then (.error .inoperable, self, w)
    else if !rr.is_valid w.ctx then (.error .inoperable, self, w)
    else if !dev.array_prog_ok then (.error .array_prog_error, self, w)
    else if ia.length = 0 then (.ok (), self, w)
    else
      match self.index_helper ia with
      | .error e => (.error e, self, w)
      | .ok (_, rdv0, all_colons, l, u) =>
        let rdv := rdv0.chop_all_singletons
        let rhdv := rhs0.dimensions.chop_all_singletons
        let isfill : Bool := rhs0.numel == 1
        let conform : Bool :=
          (if ia.length = 1 then rhdv.numel 0 == rdv.numel 0 else rhdv == rdv) || isfill
        if !conform then (.error .nonconformant, self, w)
        else if isfill then
          if all_colons = true ∧ r.count > 1 then self.assignFillAll dev rhs l u w
          else self.assignFillPart dev rhs l u w
        else if all_colons then self.assignShallow rhs0 w
        else self.assignCopy dev rhs l u w
  | _, _ => (.error .undefined_behaviour, self, w)

/-! ## Observing an array, and example states -/

/-- Element `i` of the array as a host copy would read it: element
`slice_ofs + i` of the buffer of the rep, for `0 ≤ i < slice_len`. -/
def OclArray.elem? {α : Type} (self : OclArray) (w : World α) (i : Int) : Option α :=
  match w.rep? self.rep with
  | none => none
  | some r =>
    if 0 ≤ i ∧ i < self.slice_len then r.data[(self.slice_ofs + i).toNat]? else none

/-- The elements the handle observes through its window, in linear order. -/
def OclArray.observe {α : Type} (self : OclArray) (w : World α) : Option (List α) :=
  match w.rep? self.rep with
  | none => none
  | some r => some ((r.data.drop self.slice_ofs.toNat).take self.slice_len.toNat)

/-- The validity of a handle: `is_valid ()`. -/
def OclArray.is_valid {α : Type} (self : OclArray) (w : World α) : Bool :=
  match w.rep? self.rep with
  | none => false
  | some r => r.is_valid w.ctx

/-- A device on which every allocation succeeds, with 8-byte elements. -/
def exDevice : Device :=
  { clCreateBuffer := fun n _ => some (100 + n), clCreateContext := true,
    array_prog_ok := true, sizeof_T := 8 }

/-- The handle of a 2x3 array on the rep at address 0. -/
def exArray : OclArray :=
  { dimensions := [2, 3], rep := 0, slice_ofs := 0, slice_len := 6, is_logical := false }

/-- A rep of six elements with one handle. -/
def exRep : OclArrayRep Int :=
  { memobj := some { assctd_ctx_id := 1, ocl_mem_buffer := 100 },
    len := 6, count := 1, data := [1, 2, 3, 4, 5, 6] }

/-- The state after a 2x3 host array with the elements 1 to 6 has been copied to
the device at program start. -/
def exWorld : World Int :=
  { ctx := { active_opencl_context_id := 1, next_opencl_context_id := 2 },
    mem := { memobj_pool := [], max_sized_memobj_pool_objs := 3,
             assigned_ocl_memobjs := [(100, 48)], createCalls := 1, releaseCalls := [] },
    heap := [some exRep],
    nil_rep := none }

/-- The state after a shallow copy of the example array has been made: the rep
has two handles. -/
def exShared : World Int := (exArray.mkCopy exWorld).2

/-- A device whose first two allocation attempts fail. -/
def exBusyDevice : Device :=
  { clCreateBuffer := fun n _ => if n < 2 then none else some (100 + n),
    clCreateContext := true, array_prog_ok := true, sizeof_T := 8 }

/-- A memory manager with two buckets and two buffers in use. -/
def exMemMgr : MemMgr :=
  { memobj_pool := [(8, [5, 7]), (16, [9])], max_sized_memobj_pool_objs := 3,
    assigned_ocl_memobjs := [(1, 8), (2, 32)], createCalls := 0, releaseCalls := [] }

/-! ## Programs over a store of handles -/

/-- The program state together with the `OclArray` objects that are alive; a
destroyed object leaves `none` at its place. -/
structure Machine (α : Type) where
  w : World α
  handles : List (Option OclArray)
  deriving DecidableEq, Repr

/-- The state at program start: no array object exists. -/
def Machine.init (α : Type) : Machine α :=
  { w := World.init α, handles := [] }

/-- The live object number `i`. -/
def Machine.handle? {α : Type} (M : Machine α) (i : Nat) : Option OclArray :=
  match M.handles[i]? with
  | some (some a) => some a
  | _ => none

/-- The operations on array objects; `i` and `j` number the objects they act on. -/
inductive HandleOp (α : Type) where
  | mkEmpty
  | mkDims (dv : dim_vector)
  | mkFill (dv : dim_vector) (val : α)
  | mkHost (d : List α) (dv : dim_vector)
  | mkCopy (i : Nat)
  | assignOp (i j : Nat)
  | reshape (i : Nat) (dv : dim_vector)
  | column (i : Nat) (k : Int)
  | page (i : Nat) (k : Int)
  | linear_slice (i : Nat) (lo up : Int)
  | index (i : Nat) (ia : List idx_vector)
  | make_unique (i : Nat)
  | fill (i : Nat) (val : α)
  | clear (i : Nat)
  | clearDims (i : Nat) (dv : dim_vector)
  | maybe_economize (i : Nat)
  | destroy (i : Nat)

/-- A successful construction adds the new object to the store. -/
def Machine.push {α : Type} (M : Machine α) (x : Except OclError OclArray × World α) :
    Option (Machine α) :=
  match x with
  | (.ok a, w') => some { w := w', handles := M.handles ++ [some a] }
  | (.error _, _) => none

/-- A successful member function leaves object `i` in its new state. -/
def Machine.update {α : Type} (M : Machine α) (i : Nat)
    (x : Except OclError Unit × OclArray × World α) : Option (Machine α) :=
  match x with
  | (.ok _, a, w') => some { w := w', handles := M.handles.set i (some a) }
  | (.error _, _, _) => none

/-- One successful operation; `none` when the operation raises an error or
names an object that does not exist. -/
def step {α : Type} [Inhabited α] (dev : Device) (M : Machine α) :
    HandleOp α → Option (Machine α)
  | .mkEmpty => M.push (.ok (OclArray.mkEmpty M.w).1, (OclArray.mkEmpty M.w).2)
  | .mkDims dv => M.push (OclArray.mkDims dev dv M.w)
  | .mkFill dv val => M.push (OclArray.mkFill dev dv val M.w)
  | .mkHost d dv => M.push (OclArray.mkHost dev d dv M.w)
  | .mkCopy i =>
    match M.handle? i with
    | none => none
    | some a => M.push (.ok (a.mkCopy M.w).1, (a.mkCopy M.w).2)
  | .assignOp i j =>
    match M.handle? i, M.handle? j with
    | some a, some b =>
      if i = j then some M
      else some { w := (a.assignOp b M.w).2,
                  handles := M.handles.set i (some (a.assignOp b M.w).1) }
    | _, _ => none
  | .reshape i dv =>
    match M.handle? i with
    | none => none
    | some a => M.push (a.mkReshape dv M.w)
  | .column i k =>
    match M.handle? i with
    | none => none
    | some a => M.push (a.column k M.w)
  | .page i k =>
    match M.handle? i with
    | none => none
    | some a => M.push (a.page k M.w)
  | .linear_slice i lo up =>
    match M.handle? i with
    | none => none
    | some a => M.push (a.linear_slice lo up M.w)
  | .index i ia =>
    match M.handle? i with
    | none => none
    | some a => M.push (a.index ia M.w)
  | .make_unique i =>
    match M.handle? i with
    | none => none
    | some a => M.update i (a.make_unique dev M.w)
  | .fill i val =>
    match M.handle? i with
    | none => none
    | some a => M.update i (a.fill dev val M.w)
  | .clear i =>
    match M.handle? i with
    | none => none
    | some a => M.update i (.ok (), (a.clear M.w).1, (a.clear M.w).2)
  | .clearDims i dv =>
    match M.handle? i with
    | none => none
    | some a => M.update i (a.clearDims dev dv M.w)
  | .maybe_economize i =>
    match M.handle? i with
    | none => none
    | some a => M.update i (a.maybe_economize dev M.w)
  | .destroy i =>
    match M.handle? i with
    | none => none
    | some a => some { w := a.destroy M.w, handles := M.handles.set i none }

/-- The states a program reaches from the start by successful operations. -/
inductive Reachable {α : Type} [Inhabited α] (dev : Device) : Machine α → Prop where
  | init : Reachable dev (Machine.init α)
  | step (M M' : Machine α) (op : HandleOp α) :
      Reachable dev M → step dev M op = some M' → Reachable dev M'

/-- Whether an entry of the store is a live object whose `rep` is `p`. -/
def pointsTo (p : Nat) : Option OclArray → Bool
  | some a => a.rep == p
  | none => false

/-- The number of live objects whose `rep` is `p`. -/
def refs (hs : List (Option OclArray)) (p : Nat) : Nat :=
  hs.countP (pointsTo p)

/-- The refcount invariant at the address `p`.  A live rep has a count of at
least 1 that equals the number of live objects pointing at it, plus one for
the static `nr` when it is the rep of `nil_rep ()`; a deleted or unused address
has no object pointing at it. -/
def RefInvAt {α : Type} (M : Machine α) (p : Nat) : Prop :=
  match M.w.rep? p with
  | none => refs M.handles p = 0 ∧ M.w.nil_rep ≠ some p
  | some r =>
    r.count = (refs M.handles p : Int) + (if M.w.nil_rep = some p then 1 else 0)
      ∧ 1 ≤ r.count

/-- The refcount invariant. -/
def RefInv {α : Type} (M : Machine α) : Prop := ∀ p, RefInvAt M p

/-! ## Predicates used in the statements -/

/-- The rep at address `p` is alive, holds the data `d`, has the length `n` and a
count of at least `k`. -/
def Kept {α : Type} (p : Nat) (d : List α) (n k : Int) (w : World α) : Prop :=
  ∃ r, w.rep? p = some r ∧ r.data = d ∧ r.len = n ∧ k ≤ r.count

/-- What the loop of `index_helper` has established after the subscripts before
position `i`: `s` is the product of the extents passed, `u - l` the product of
the selection lengths, and a non-empty range `l .. u` ends inside the block of
`s` elements. -/
def IndexInv (dv : dim_vector) (i : Nat) (st : IndexState) : Prop :=
  st.s = (((dv.take i).prod : Nat) : Int) ∧ 0 ≤ st.l ∧
  st.u - st.l = (((st.rdv.take i).prod : Nat) : Int) ∧
  (0 < st.u - st.l → st.u ≤ st.s) ∧
  (st.first_range < 0 → st.l = 0 ∧ st.u = st.s)

/-- From one state to the next the heap does not shrink, and an address of the
old heap that holds a rep afterwards held a rep of the same length before. -/
def Evolves {α : Type} (w w' : World α) : Prop :=
  w.heap.length ≤ w'.heap.length ∧
  ∀ q r', q < w.heap.length → w'.rep? q = some r' → ∃ r, w.rep? q = some r ∧ r'.len = r.len

/-- The store after the 2x3 host array has been copied to the device. -/
def exMachine : Machine Int :=
  { w := exWorld, handles := [some exArray] }

/-- The view `linear_slice (1, 3)` of the example array. -/
def exView : OclArray :=
  { dimensions := [2, 1], rep := 0, slice_ofs := 1, slice_len := 2, is_logical := false }

/-- The store after the view `linear_slice (1, 3)` of the example array has been
made: two objects on one rep. -/
def exViewMachine : Machine Int :=
  { w := exShared, handles := [some exArray, some exView] }

/-! ## Context destruction and the stamps of context objects -/

/-- `opencl_context_active ()`. -/
def opencl_context_active (c : Context) : Bool :=
  c.active_opencl_context_id != 0

/-- `destroy_opencl_context ()`.  `cl_lib_loaded` is the static of `ocl_lib.cc`
that `opencl_library_loaded ()` returns; it is true whenever a context is
active, since `assure_opencl_context` loads the library before it creates a
context and `unload_opencl_library` destroys the context before it resets the
flag. -/
def destroy_opencl_context {α : Type} (cl_lib_loaded : Bool) (w : World α) : World α :=
  if cl_lib_loaded && opencl_context_active w.ctx then
    { w with ctx := { w.ctx with active_opencl_context_id := 0 },
             mem := reset_memmgr w.mem }
  else w

/-- The constructor `OclContextObject (need_context)`: the stamp `assctd_ctx_id` of the new
object, next to the context statics after the call. -/
def OclContextObject.create (dev : Device) (need_context : Bool) (c : Context) :
    Except OclError Nat × Context :=
  if need_context then assure_opencl_context dev c else (.ok 0, c)

/-- The destructor `~OclMemoryObject ()`. -/
def OclMemoryObject.destroy {α : Type} (o : OclMemoryObject) (w : World α) : World α :=
  if o.object_context_still_valid w.ctx then
    { w with mem := release_ocl_buffer o.ocl_mem_buffer w.mem }
  else w

/-- A call of one of the two functions that change the context statics. -/
inductive CtxOp where
  | assure
  | destroy
  deriving DecidableEq, Repr

/-- The state after one call; a failing `assure_opencl_context` leaves the state
it has reached.  The library is loaded whenever a context is active, and
`destroy_opencl_context` does nothing without an active context, so the call
is made with `cl_lib_loaded` set. -/
def ctxStep {α : Type} (dev : Device) (w : World α) : CtxOp → World α
  | .assure => { w with ctx := (assure_opencl_context dev w.ctx).2 }
  | .destroy => destroy_opencl_context true w

/-- The state after a sequence of calls. -/
def ctxRun {α : Type} (dev : Device) (w : World α) (ops : List CtxOp) : World α :=
  ops.foldl (ctxStep dev) w

/-! ## Programs over the memory manager -/

/-- The memory manager together with a record, which is not part of the program,
of the buffers that exist on the device: the identities that `clCreateBuffer`
has returned and that have not been freed since, each with the size it was
allocated with. -/
structure PoolState where
  m : MemMgr
  live : List (Nat × Nat)
  deriving DecidableEq, Repr

/-- The calls a client makes: `obtain_ocl_buffer (size)`, `release_ocl_buffer (mem_obj)`,
`reset_memmgr ()`, and the setting of `max_sized_memobj_pool_objs` through
`__ocl_memmgr__ ("maxobjs", n)`. -/
inductive PoolOp where
  | obtain (size : Nat)
  | release (mem_obj : Nat)
  | reset
  | maxobjs (n : Nat)
  deriving DecidableEq, Repr

/-- The record of live buffers without the buffers in `freed`. -/
def dropFreed (live : List (Nat × Nat)) (freed : List Nat) : List (Nat × Nat) :=
  live.filter (fun e => !(freed.contains e.1))

/-- The buffers freed between two states of the memory manager: the calls of
`clReleaseMemObject` recorded in `m'` beyond those recorded in `m`. -/
def freedBetween (m m' : MemMgr) : List Nat :=
  m'.releaseCalls.drop m.releaseCalls.length

/-- One call under the assumptions on the environment; `none` when an assumption
is violated.  The device returns from `clCreateBuffer` only an identity that is
not live at that moment, and a client releases only an identity that it has
obtained and not yet released, that is one recorded in `assigned`.  The buffers
of a context cease to exist with the context, which is when `reset_memmgr` is
called. -/
def poolStep (dev : Device) (s : PoolState) : PoolOp → Option PoolState
  | .obtain size =>
    match obtain_ocl_buffer dev size s.m with
    | none => none
    | some (.error _, m') => some { m := m', live := dropFreed s.live (freedBetween s.m m') }
    | some (.ok id, m') =>
      let live1 := dropFreed s.live (freedBetween s.m m')
      if m'.createCalls = s.m.createCalls then some { m := m', live := live1 }
      else if mapFind live1 id = none then some { m := m', live := (id, size) :: live1 }
      else none
  | .release mem_obj =>
    match mapFind s.m.assigned_ocl_memobjs mem_obj with
    | none => none
    | some _ =>
      some { m := release_ocl_buffer mem_obj s.m,
             live := dropFreed s.live (freedBetween s.m (release_ocl_buffer mem_obj s.m)) }
  | .reset => some { m := reset_memmgr s.m, live := [] }
  | .maxobjs n => some { m := { s.m with max_sized_memobj_pool_objs := n }, live := s.live }

/-- The states reachable from the empty pool under the assumptions on the
environment. -/
inductive PoolReachable (dev : Device) : PoolState → Prop where
  | init : PoolReachable dev { m := MemMgr.init, live := [] }
  | step (s s' : PoolState) (op : PoolOp) :
      PoolReachable dev s → poolStep dev s op = some s' → PoolReachable dev s'

/-- A client loop of `n` rounds `id = obtain_ocl_buffer (size); release_ocl_buffer (id);`.
An error of `obtain_ocl_buffer` ends the loop. -/
def poolRounds (dev : Device) (size : Nat) : Nat → MemMgr → Option MemMgr
  | 0, m => some m
  | n + 1, m =>
    match obtain_ocl_buffer dev size m with
    | none => none
    | some (.error _, m1) => some m1
    | some (.ok id, m1) => poolRounds dev size n (release_ocl_buffer id m1)

/-- The invariant of the memory manager.  Both maps have one entry per key; a
bucket is not empty and holds no identity twice; a retained identity is live,
was allocated with the size that is the key of its bucket, and is not in
`assigned`; an identity in `assigned` is live and recorded with the size it was
allocated with; a live identity is in `assigned` or retained; and buffers are
retained only while `assigned` is not empty. -/
def PoolInv (s : PoolState) : Prop :=
  (s.m.memobj_pool.map Prod.fst).Nodup ∧
  (s.m.assigned_ocl_memobjs.map Prod.fst).Nodup ∧
  (∀ K l, mapFind s.m.memobj_pool K = some l → l ≠ [] ∧ l.Nodup) ∧
  (∀ K l b, mapFind s.m.memobj_pool K = some l → b ∈ l →
    mapFind s.live b = some K ∧ mapFind s.m.assigned_ocl_memobjs b = none) ∧
  (∀ id S, mapFind s.m.assigned_ocl_memobjs id = some S → mapFind s.live id = some S) ∧
  (∀ id S, mapFind s.live id = some S →
    mapFind s.m.assigned_ocl_memobjs id = some S ∨
      ∃ l, mapFind s.m.memobj_pool S = some l ∧ id ∈ l) ∧
  (s.m.memobj_pool ≠ [] → s.m.assigned_ocl_memobjs ≠ [])

/-- The state after a sequence of calls; `none` when an assumption on the
environment is violated on the way. -/
def poolRun (dev : Device) : PoolState → List PoolOp → Option PoolState
  | s, [] => some s
  | s, op :: ops =>
    match poolStep dev s op with
    | none => none
    | some s1 => poolRun dev s1 ops

/-- A client program: four buffers of 8 bytes are obtained and the first three
of them are released. -/
def exPoolOps : List PoolOp :=
  [.obtain 8, .obtain 8, .obtain 8, .obtain 8, .release 100, .release 101, .release 102]

/-- The state after `exPoolOps` on the example device: the bucket for 8 bytes is
filled to capacity and one buffer is in use. -/
def exPool : PoolState :=
  { m := { memobj_pool := [(8, [100, 101, 102])], max_sized_memobj_pool_objs := 3,
           assigned_ocl_memobjs := [(103, 8)], createCalls := 4, releaseCalls := [] },
    live := [(103, 8), (102, 8), (101, 8), (100, 8)] }

/-! ## Concatenation: `OclArray::cat` -/

/-- `assure_valid_array_prog ()`.  When the kernel program of the array type is not
a valid object, a context is assured and the program is built under it;
`array_prog_ok` tells whether that succeeds.  A valid program was built under
the active context, in which case `assure_opencl_context` would change nothing
either. -/
def assure_valid_array_prog {α : Type} (dev : Device) (w : World α) :
    Except OclError Unit × World α :=
  match assure_opencl_context dev w.ctx with
  | (.error e, c) => (.error e, { w with ctx := c })
  | (.ok _, c) =>
    if dev.array_prog_ok then (.ok (), { w with ctx := c })
    else (.error .array_prog_error, { w with ctx := c })

/-- The dimension vector `dv` at the start of `cat`: the dimensions of the first
operand, brought to `dim + 1` dimensions when it has at most `dim`. -/
def catDv0 (dim : Nat) (a0 : OclArray) : dim_vector :=
  if dim ≥ a0.dimensions.length then a0.dimensions.redim (dim + 1) else a0.dimensions

/-- The dimension vector `dvi` of an operand in the loops of `cat`: `dims ()`, brought to
`ndim` dimensions when it has at most that many. -/
def catDims (ndim : Nat) (a : OclArray) : dim_vector :=
  if ndim ≥ a.dimensions.length then a.dimensions.redim ndim else a.dimensions

/-- One pass through the first loop of `cat`, for the operand `a`; the state is
the pair of `dv` and `dvc`. -/
def catShapeStep {α : Type} (w : World α) (dim ndim : Nat) (st : dim_vector × dim_vector)
    (a : OclArray) : Except OclError (dim_vector × dim_vector) :=
  match a.assure_valid w with
  | .error e => .error e
  | .ok _ =>
    let dvi := catDims ndim a
    let dv := st.1.set dim (st.1.elem dim + dvi.elem dim)
    let dvi1 := dvi.set dim 1
    let dvc := if st.2.numel 0 = 0 then dvi1 else st.2
    if dvc ≠ dvi1 then .error .dimension_mismatch else .ok (dv, dvc)

/-- The first loop of `cat`, over the operands after the first one. -/
def catShape {α : Type} (w : World α) (dim ndim : Nat) :
    List OclArray → dim_vector × dim_vector → Except OclError (dim_vector × dim_vector)
  | [], st => .ok st
  | a :: rest, st =>
    match catShapeStep w dim ndim st a with
    | .error e => .error e
    | .ok st1 => catShape w dim ndim rest st1

/-- The kernel `ocl_cat` run for the work items `0 .. n - 1`, in the order of
their ids: work item `i` copies `data_src [ofs_src + i]` to
`data_dst [offs + i % fac1 + i / fac1 * fac2]`.  A write outside the destination
buffer is dropped and a read outside the source buffer yields `default`. -/
def ocl_cat {α : Type} [Inhabited α] (data_dst data_src : List α)
    (ofs_src offs fac1 fac2 n : Nat) : List α :=
  (List.range n).foldl
    (fun d i => d.set (offs + i % fac1 + i / fac1 * fac2) (data_src.getD (ofs_src + i) default))
    data_dst

/-- One pass through the second loop of `cat`, for the operand `a`; the state is
`offset` and the program state. -/
def catCopyStep {α : Type} [Inhabited α] (dim ndim : Nat) (dv : dim_vector)
    (spdim : Nat) (result : OclArray) (st : Nat × World α) (a : OclArray) :
    Except OclError Nat × World α :=
  if a.numel = 0 then (.ok st.1, st.2)
  else
    let dvi := catDims ndim a
    let fac1 := spdim * dvi.elem dim
    let fac2 := spdim * dv.elem dim
    match st.2.rep? result.rep, st.2.rep? a.rep with
    | some rr, some ra =>
      if !rr.is_valid st.2.ctx then (.error .inoperable, st.2)
      else if !ra.is_valid st.2.ctx then (.error .inoperable, st.2)
      else
        match checkWork (dvi.numel 0 : Int) 0 with
        | .error e => (.error e, st.2)
        | .ok _ =>
          let d := ocl_cat rr.data ra.data a.slice_ofs.toNat (st.1 * spdim) fac1 fac2
            (dvi.numel 0)
          (.ok (st.1 + dvi.elem dim), st.2.setRep result.rep { rr with data := d })
    | _, _ => (.error .undefined_behaviour, st.2)

/-- The second loop of `cat`, over all operands. -/
def catCopy {α : Type} [Inhabited α] (dim ndim : Nat) (dv : dim_vector) (spdim : Nat)
    (result : OclArray) : List OclArray → Nat × World α → Except OclError Nat × World α
  | [], st => (.ok st.1, st.2)
  | a :: rest, st =>
    match catCopyStep dim ndim dv spdim result st a with
    | (.error e, w1) => (.error e, w1)
    | (.ok offset, w1) => catCopy dim ndim dv spdim result rest (offset, w1)

/-- The static method `cat (dim, n, array_list)`.  An error raised in the second loop
unwinds through the destructor of the local `result`. -/
def OclArray.cat {α : Type} [Inhabited α] (dev : Device) (dim : Int)
    (array_list : List OclArray) (w : World α) : Except OclError OclArray × World α :=
  match assure_valid_array_prog dev w with
  | (.error e, w1) => (.error e, w1)
  | (.ok _, w1) =>
    if dim < 0 then (.error .invalid_dimension, w1)
    else
      match array_list with
      | [] => (.ok (OclArray.mkEmpty w1).1, (OclArray.mkEmpty w1).2)
      | a0 :: rest =>
        match a0.assure_valid w1 with
        | .error e => (.error e, w1)
        | .ok _ =>
          if rest.isEmpty then (.ok (a0.mkCopy w1).1, (a0.mkCopy w1).2)
          else
            let dv0 := catDv0 dim.toNat a0
            match catShape w1 dim.toNat dv0.length rest (dv0, dv0.set dim.toNat 1) with
            | .error e => (.error e, w1)
            | .ok (dv, _) =>
              match OclArray.mkDims dev dv w1 with
              | (.error e, w2) => (.error e, w2)
              | (.ok result, w2) =>
                if result.numel = 0 then (.ok result, w2)
                else
                  match catCopy dim.toNat dv0.length dv (dv.take dim.toNat).prod result
                      (a0 :: rest) (0, w2) with
                  | (.error e, w3) => (.error e, w3.unref result.rep)
                  | (.ok _, w3) => (.ok result, w3)

/-- An operand of `cat` that is valid and not empty, with a window of
`product (dims)` elements that lies inside the buffer of its rep. -/
def CatInput {α : Type} (w : World α) (a : OclArray) : Prop :=
  ∃ r, w.rep? a.rep = some r ∧ r.is_valid w.ctx = true ∧ 0 < a.slice_len ∧
    ((a.dimensions.prod : Nat) : Int) = a.slice_len ∧ 0 ≤ a.slice_ofs ∧
    a.slice_ofs + a.slice_len ≤ (r.data.length : Int)

/-- An operand of `cat` that is valid and has a window of `product (dims)` elements,
which lies inside the buffer of its rep when it is not empty. -/
def CatOperand {α : Type} (w : World α) (a : OclArray) : Prop :=
  ∃ r, w.rep? a.rep = some r ∧ r.is_valid w.ctx = true ∧
    ((a.dimensions.prod : Nat) : Int) = a.slice_len ∧
    (0 < a.slice_len → 0 ≤ a.slice_ofs ∧ a.slice_ofs + a.slice_len ≤ (r.data.length : Int))

/-- The dimension vector of the result of `cat` on operands whose extents agree
outside `dim`: that of the first operand with the sum of the extents along
`dim` at position `dim`. -/
def catResultDims (dim : Nat) (array_list : List OclArray) : dim_vector :=
  match array_list with
  | [] => []
  | a0 :: _ =>
    (catDv0 dim a0).set dim ((array_list.map (fun a => a.dimensions.elem dim)).sum)

/-- The amount by which the operand `a` advances `offset` in the second loop of
`cat`: nothing when it is skipped as empty, its extent along `dim` otherwise. -/
def catExtent (dim ndim : Nat) (a : OclArray) : Nat :=
  if a.numel = 0 then 0 else (catDims ndim a).elem dim

/-- The value of `offset` when the second loop of `cat` reaches operand number `k`. -/
def catOffset (dim ndim : Nat) (l : List OclArray) (k : Nat) : Nat :=
  ((l.take k).map (catExtent dim ndim)).sum

/-- The column-major linear index of the multi-index `idx` in an array of the
extents `dv`. -/
def colMajor : dim_vector → List Nat → Nat
  | d :: dv, i :: idx => i + d * colMajor dv idx
  | _, _ => 0

/-- The position in the buffer of the result at which the kernel launched by `cat`
for operand number `k` stores the element of its work item `i`:
`offs + i % fac1 + i / fac1 * fac2` with `offs = offset * spdim`,
`fac1 = spdim * dvi (dim)` and `fac2 = spdim * dv (dim)`, where `offset` is the sum
of the extents along `dim` of the operands before `k` and `dv (dim)` the sum over
all operands. -/
def catDest (dim : Nat) (array_list : List OclArray) (k i : Nat) : Nat :=
  match array_list with
  | [] => 0
  | a0 :: _ =>
    let spdim := ((catDv0 dim a0).take dim).prod
    let ext := array_list.map (fun a => a.dimensions.elem dim)
    let offset := (ext.take k).sum
    let fac1 := spdim * ext.getD k 0
    let fac2 := spdim * ext.sum
    offset * spdim + i % fac1 + i / fac1 * fac2

/-- The handle of a 2x2 array on the rep at address 1. -/
def exSecond : OclArray :=
  { dimensions := [2, 2], rep := 1, slice_ofs := 0, slice_len := 4, is_logical := false }

/-- The example state after a second host array, 2x2 with the elements 7 to 10, has
been copied to the device. -/
def exWorld2 : World Int := (OclArray.mkHost exDevice [7, 8, 9, 10] [2, 2] exWorld).2

/-- The handle of the 2x5 array that `cat` makes in the state `exWorld2`. -/
def exCatResult : OclArray :=
  { dimensions := [2, 5], rep := 2, slice_ofs := 0, slice_len := 10, is_logical := false }

/-- An empty view of dimensions 0x3 on the rep of the example array, as made by
`linear_slice (0, 0)` followed by a reshape. -/
def exEmptyView : OclArray :=
  { dimensions := [0, 3], rep := 0, slice_ofs := 0, slice_len := 0, is_logical := false }

/-- A device on which every allocation attempt fails. -/
def exDeadDevice : Device :=
  { clCreateBuffer := fun _ _ => none, clCreateContext := true, array_prog_ok := true,
    sizeof_T := 8 }

/-- The states of the memory manager that are reached from the empty pool by calls
of `obtain_ocl_buffer`, `release_ocl_buffer` and `reset_memmgr`, in any order and with
any arguments, while `max_sized_memobj_pool_objs` keeps the value `max`. -/
inductive MemReachable (dev : Device) (max : Nat) : MemMgr → Prop where
  | init : MemReachable dev max { MemMgr.init with max_sized_memobj_pool_objs := max }
  | obtain (m m' : MemMgr) (size : Nat) (r : Except OclError Nat) :
      MemReachable dev max m → obtain_ocl_buffer dev size m = some (r, m') →
      MemReachable dev max m'
  | release (m : MemMgr) (mem_obj : Nat) :
      MemReachable dev max m → MemReachable dev max (release_ocl_buffer mem_obj m)
  | reset (m : MemMgr) : MemReachable dev max m → MemReachable dev max (reset_memmgr m)

/-- The buckets of a pool are non-empty and hold at most `max` buffers. -/
def BucketsOK (max : Nat) (pool : List (Nat × List Nat)) : Prop :=
  ∀ e ∈ pool, e.2 ≠ [] ∧ e.2.length ≤ max

/-- The handle of the second column of the example array, as `column (1)` returns
it. -/
def exColumn : OclArray :=
  { dimensions := [2, 1], rep := 0, slice_ofs := 2, slice_len := 2, is_logical := false }

/-! ## Subscript lists: the quantities of the claims on `index_helper` -/

/-- The dimension vector `dv` on which `index_helper` works for `ial` subscripts. -/
def OclArray.indexDv (self : OclArray) (ial : Nat) : dim_vector :=
  if ial = 1 then (self.dimensions.redim ial).redim 2 else self.dimensions.redim ial

/-- The indices that a subscript selects in a dimension of extent `n`: `xelem (j)`
for the `j` below `length (n)`. -/
def idx_vector.indices (ix : idx_vector) (n : Nat) : List Nat :=
  (List.range (ix.length n)).map (fun (j : Nat) => (ix.xelem (j : Int)).toNat)

/-- A property of subscript and extent that holds for all subscripts of a list,
the first of which stands at position `i`. -/
def AllAt (P : idx_vector → Nat → Prop) (dv : dim_vector) : List idx_vector → Nat → Prop
  | [], _ => True
  | ix :: rest, i => P ix (dv.elem i) ∧ AllAt P dv rest (i + 1)

/-- The multi-indices selected by a list of subscripts, the first of which stands
at position `i`: one selected index per subscript. -/
def Selected (dv : dim_vector) : List idx_vector → Nat → List Nat → Prop
  | [], _, [] => True
  | ix :: rest, i, k :: idx => k ∈ ix.indices (dv.elem i) ∧ Selected dv rest (i + 1) idx
  | _, _, _ => False

/-- The column-major linear offset of a multi-index whose first entry belongs to
position `i`: the sum of the entries times the strides, the stride of a position
being the product of the extents before it. -/
def linOffset (dv : dim_vector) : Nat → List Nat → Nat
  | _, [] => 0
  | i, k :: idx => k * (dv.take i).prod + linOffset dv (i + 1) idx

/-- The number of multi-indices selected by a list of subscripts: the product of
the selection lengths. -/
def selCount (dv : dim_vector) : List idx_vector → Nat → Nat
  | [], _ => 1
  | ix :: rest, i => ix.length (dv.elem i) * selCount dv rest (i + 1)

/-- A subscript that is a colon, a scalar inside the extent `n`, or a range of
step 1 inside the extent `n`. -/
def SubscriptOK : idx_vector → Nat → Prop
  | .colon, _ => True
  | .scalar k, n => k < n
  | .range start len step, n => step = 1 ∧ start + len ≤ n
  | _, _ => False

/-- The subscript passes the range check of `index_helper` for the extent `n`. -/
def ExtentOK (ix : idx_vector) (n : Nat) : Prop := ix.extent n = n

/-- The subscript is treated as a colon by `index_helper`: it is a colon or
equivalent to one for the extent `n`. -/
def ColonLike (ix : idx_vector) (n : Nat) : Prop :=
  ix.idx_class = .class_colon ∨ ix.is_colon_equiv n = true

/-- The subscript is treated as a range by `index_helper`. -/
def RangeLike (ix : idx_vector) (n : Nat) : Prop :=
  ¬ ColonLike ix n ∧ ix.idx_class = .class_range

/-- The subscript is treated as a scalar by `index_helper`. -/
def ScalarLike (ix : idx_vector) (n : Nat) : Prop :=
  ¬ ColonLike ix n ∧ ix.idx_class = .class_scalar

/-- The subscript is neither treated as a colon nor as a range nor as a scalar. -/
def OtherLike (ix : idx_vector) (n : Nat) : Prop :=
  ¬ ColonLike ix n ∧ ix.idx_class ≠ .class_range ∧ ix.idx_class ≠ .class_scalar

/-- A range with `xelem (1) - xelem (0) == 1`. -/
def UnitStep (ix : idx_vector) : Prop := ix.xelem 1 - ix.xelem 0 = 1

/-- The example array seen as a row of six elements: the 1x6 reshape, a second
handle on its rep. -/
def exRow : OclArray :=
  { dimensions := [1, 6], rep := 0, slice_ofs := 0, slice_len := 6, is_logical := false }

/-- The subscript patterns that `index_helper` refuses although every subscript is
in range: a subscript treated as a range whose step is not 1; a subscript treated
as a range that follows a subscript treated as a range or as a scalar; a
subscript that is neither treated as a colon nor as a range nor as a scalar. -/
def NonContiguousPattern (dv : dim_vector) (ia : List idx_vector) : Prop :=
  (∃ pre y post, ia = pre ++ y :: post ∧ RangeLike y (dv.elem pre.length) ∧ ¬ UnitStep y) ∨
  (∃ p1 x p2 y post, ia = p1 ++ x :: (p2 ++ y :: post) ∧
    (RangeLike x (dv.elem p1.length) ∨ ScalarLike x (dv.elem p1.length)) ∧
    RangeLike y (dv.elem (p1.length + 1 + p2.length))) ∨
  (∃ pre y post, ia = pre ++ y :: post ∧ OtherLike y (dv.elem pre.length))

/-- The state of the loop of `index_helper` before the subscript at position `i`, for
subscripts in range: `s` is the stride of position `i`, the bounds satisfy
`0 <= l <= u <= s`, they are `0` and `s` as long as only colons have been seen,
and `all_colons` is set only then. -/
def RangeInv (dv : dim_vector) (i : Nat) (st : IndexState) : Prop :=
  st.s = (((dv.take i).prod : Nat) : Int) ∧ 0 ≤ st.l ∧ st.l ≤ st.u ∧ st.u ≤ st.s ∧
  (st.first_range < 0 → st.l = 0 ∧ st.u = st.s) ∧
  (st.all_colons = true → st.first_range < 0)

/-- The view `linear_slice (1, 5)` of the example array: four elements as a
column. -/
def exQuad : OclArray :=
  { dimensions := [4, 1], rep := 0, slice_ofs := 1, slice_len := 4, is_logical := false }

/-- The state with the 2x3 array, the view `exQuad` on its rep and the 2x2
array: the rep of the 2x3 array has two handles. -/
def exWorld3 : World Int := exWorld2.incCount 0

/-! ## Dimension-wise reductions -/

/-- The method `first_non_singleton ()` of `dim_vector`: the position of the first
extent other than 1, and 0 when there is none. -/
def dim_vector.first_non_singleton (dv : dim_vector) : Nat :=
  if dv.findIdx (fun d => d != 1) < dv.length then dv.findIdx (fun d => d != 1) else 0

/-- The method `dim_wise_op_newdims (dim, new_dimensions, len, fac)`; the outputs are returned
as the tuple `(new_dimensions, len, fac)`. -/
def OclArray.dim_wise_op_newdims (self : OclArray) (dim : Int) : dim_vector × Int × Int :=
  let dim1 : Int := if dim < 0 then (self.dimensions.first_non_singleton : Int) else dim
  if dim1 < (self.dimensions.length : Int) then
    (self.dimensions.set dim1.toNat 1, (self.dimensions.elem dim1.toNat : Int),
      (((self.dimensions.take dim1.toNat).prod : Nat) : Int))
  else (self.dimensions, 1, self.slice_len)

/-- The call `array_prog.set_kernel_arg (kernel_index, arg_index, arg)` for an array argument: an
argument whose rep is not valid is refused. -/
def set_kernel_arg {α : Type} (arg : OclArray) (w : World α) : Except OclError Unit :=
  match w.rep? arg.rep with
  | none => .error .undefined_behaviour
  | some r => if r.is_valid w.ctx then .ok () else .error .inoperable

/-- The work size `slice_len / len` of the dimension-wise operations, a division of
two values of the signed index type: the division by 0 is undefined. -/
def reduceWorkSize (slice_len len : Int) : Except OclError Int :=
  if len = 0 then .error .undefined_behaviour else .ok (slice_len.tdiv len)

/-- The method `map1r (kernel, dim)`.  `kernel data_src ofs_src len fac i` is the value that
work item `i` of the kernel writes to `data_dst [i]`.  An error raised after the
local `result` has been made unwinds through its destructor. -/
def OclArray.map1r {α : Type} [Inhabited α] (dev : Device)
    (kernel : List α → Nat → Nat → Nat → Nat → α) (self : OclArray) (dim : Int)
    (w : World α) : Except OclError OclArray × World α :=
  match self.assure_valid w with
  | .error e => (.error e, w)
  | .ok _ =>
    match assure_valid_array_prog dev w with
    | (.error e, w1) => (.error e, w1)
    | (.ok _, w1) =>
      let nd := self.dim_wise_op_newdims dim
      match OclArray.mkDims dev nd.1 w1 with
      | (.error e, w2) => (.error e, w2)
      | (.ok result, w2) =>
        match set_kernel_arg result w2 with
        | .error e => (.error e, w2.unref result.rep)
        | .ok _ =>
          match set_kernel_arg self w2 with
          | .error e => (.error e, w2.unref result.rep)
          | .ok _ =>
            match reduceWorkSize self.slice_len nd.2.1 with
            | .error e => (.error e, w2)
            | .ok n =>
              match checkWork n 0 with
              | .error e => (.error e, w2.unref result.rep)
              | .ok _ =>
                match w2.rep? result.rep, w2.rep? self.rep with
                | some rr, some rs =>
                  let d := writeRange rr.data 0 n.toNat
                    (fun i => kernel rs.data self.slice_ofs.toNat nd.2.1.toNat nd.2.2.toNat i)
                  (.ok result, w2.setRep result.rep { rr with data := d })
                | _, _ => (.error .undefined_behaviour, w2)

/-- The kernel run of `map1ri`: work item `i` writes the value to `data_dst1 [i]` and,
when an index array has been passed, the index to `data_dst2 [i]`. -/
def runIndexKernel {α : Type} (kernel : List α → Nat → Nat → Nat → Nat → α × Nat)
    (ofIdx : Nat → α) (self result : OclArray) (result_indices : Option OclArray)
    (len fac n : Nat) (w : World α) : Except OclError Unit × World α :=
  match w.rep? result.rep, w.rep? self.rep with
  | some rr, some rs =>
    let d1 := writeRange rr.data 0 n
      (fun i => (kernel rs.data self.slice_ofs.toNat len fac i).1)
    let w1 := w.setRep result.rep { rr with data := d1 }
    match result_indices with
    | none => (.ok (), w1)
    | some ri =>
      match w1.rep? ri.rep with
      | none => (.error .undefined_behaviour, w1)
      | some rx =>
        let d2 := writeRange rx.data 0 n
          (fun i => ofIdx (kernel rs.data self.slice_ofs.toNat len fac i).2)
        (.ok (), w1.setRep ri.rep { rx with data := d2 })
  | _, _ => (.error .undefined_behaviour, w)

/-- The method `map1ri (kernel, dim, indices)`; `indices` tells whether an index array has
been passed, and the array assigned to `*indices` is returned next to the
result.  `kernel data_src ofs_src len fac i` is the pair of the value and the index that
work item `i` computes, `ofIdx` the conversion of an index to the element type of
the index array, and `sizeof_idx` the size of such an element.  The rep of the
index array is kept in the same heap as the other reps.  The empty array that
`result_indices` and `*indices` hold before the assignments shares the empty rep of
the index element type, which is not part of the state.  An error raised after
a local array has been made unwinds through its destructor. -/
def OclArray.map1ri {α : Type} [Inhabited α] (dev : Device)
    (kernel : List α → Nat → Nat → Nat → Nat → α × Nat) (ofIdx : Nat → α) (sizeof_idx : Nat)
    (self : OclArray) (dim : Int) (indices : Bool) (w : World α) :
    Except OclError (OclArray × Option OclArray) × World α :=
  match self.assure_valid w with
  | .error e => (.error e, w)
  | .ok _ =>
    match assure_valid_array_prog dev w with
    | (.error e, w1) => (.error e, w1)
    | (.ok _, w1) =>
      let nd := self.dim_wise_op_newdims dim
      match OclArray.mkDims dev nd.1 w1 with
      | (.error e, w2) => (.error e, w2)
      | (.ok result, w2) =>
        let made : Except OclError (Option OclArray) × World α :=
          if indices then
            match OclArray.mkDims { dev with sizeof_T := sizeof_idx } nd.1 w2 with
            | (.error e, w3) => (.error e, w3)
            | (.ok ri, w3) => (.ok (some ri), w3)
          else (.ok none, w2)
        match made with
        | (.error e, w3) => (.error e, w3.unref result.rep)
        | (.ok result_indices, w3) =>
          let unwind : World α :=
            match result_indices with
            | none => w3.unref result.rep
            | some ri => (w3.unref ri.rep).unref result.rep
          match set_kernel_arg result w3 with
          | .error e => (.error e, unwind)
          | .ok _ =>
            match set_kernel_arg (result_indices.getD result) w3 with
            | .error e => (.error e, unwind)
            | .ok _ =>
              match set_kernel_arg self w3 with
              | .error e => (.error e, unwind)
              | .ok _ =>
                match reduceWorkSize self.slice_len nd.2.1 with
                | .error e => (.error e, w3)
                | .ok n =>
                  match checkWork n 0 with
                  | .error e => (.error e, unwind)
                  | .ok _ =>
                    match runIndexKernel kernel ofIdx self result result_indices
                        nd.2.1.toNat nd.2.2.toNat n.toNat w3 with
                    | (.error e, w4) => (.error e, w4)
                    | (.ok _, w4) => (.ok (result, result_indices), w4)

/-- The loop of the kernels `ocl_max` and `ocl_min` for work item `i`, with `cmp` for
`IS_GT` or `IS_LT`: the pair `(val, km)` after the loop.  Before the first
pass `val` and `km` are not initialised; a read outside the buffer gives an
arbitrary value. -/
def extremumKernel {α : Type} [Inhabited α] (cmp : α → α → Bool) (data_src : List α)
    (ofs_src len fac i : Nat) : α × Nat :=
  (List.range len).foldl
    (fun (st : α × Nat) k =>
      let j := i % fac + k * fac + i / fac * fac * len
      let v := data_src.getD (ofs_src + j) default
      if k = 0 ∨ cmp v st.1 = true then (v, k) else st)
    (default, 0)

/-- The kernel `ocl_max` for an integer element type. -/
def ocl_max : List Int → Nat → Nat → Nat → Nat → Int × Nat :=
  extremumKernel (fun a b => decide (a > b))

/-- The kernel `ocl_min` for an integer element type. -/
def ocl_min : List Int → Nat → Nat → Nat → Nat → Int × Nat :=
  extremumKernel (fun a b => decide (a < b))

/-- The method `max (indices, dim)`, or `max (dim)` when no index array is passed, of an array
of an integer element type. -/
def OclArray.max (dev : Device) (sizeof_idx : Nat) (self : OclArray) (dim : Int)
    (indices : Bool) (w : World Int) : Except OclError (OclArray × Option OclArray) × World Int :=
  self.map1ri dev ocl_max (fun k => (k : Int)) sizeof_idx dim indices w

/-- The method `min (indices, dim)`, or `min (dim)` when no index array is passed, of an array
of an integer element type. -/
def OclArray.min (dev : Device) (sizeof_idx : Nat) (self : OclArray) (dim : Int)
    (indices : Bool) (w : World Int) : Except OclError (OclArray × Option OclArray) × World Int :=
  self.map1ri dev ocl_min (fun k => (k : Int)) sizeof_idx dim indices w

/-- The view `linear_slice (2, 2)` of the example array: no elements, dimensions 0x1. -/
def exNoElems : OclArray :=
  { dimensions := [0, 1], rep := 0, slice_ofs := 2, slice_len := 0, is_logical := false }

/-- The handle of a column of four elements on the rep at address 0. -/
def exVector : OclArray :=
  { dimensions := [4, 1], rep := 0, slice_ofs := 0, slice_len := 4, is_logical := false }

/-- The state after the host column `[3; 5; 5; 2]` has been copied to the device at
program start. -/
def exVectorWorld : World Int :=
  (OclArray.mkHost exDevice [3, 5, 5, 2] [4, 1] (World.init Int)).2

/-- The handle of the 1x1 result that `max` and `min` make in the state
`exVectorWorld`. -/
def exExtremum : OclArray :=
  { dimensions := [1, 1], rep := 1, slice_ofs := 0, slice_len := 1, is_logical := false }

/-- The handle of the 1x1 index array that `max` and `min` make in the state
`exVectorWorld`. -/
def exExtremumIndex : OclArray :=
  { dimensions := [1, 1], rep := 2, slice_ofs := 0, slice_len := 1, is_logical := false }

/-- The operands of `cat` that are not empty: those for which the second loop of
`cat` launches a kernel. -/
def nonEmptyInputs (l : List OclArray) : List OclArray :=
  l.filter (fun a => a.numel != 0)

/-- An empty view of dimensions 2x0 on the rep of the example array, as made by
`linear_slice (0, 0)` followed by a reshape. -/
def exEmptyCols : OclArray :=
  { dimensions := [2, 0], rep := 0, slice_ofs := 0, slice_len := 0, is_logical := false }

/-- An empty view of dimensions 0x0 on the rep of the example array, as made by
`linear_slice (0, 0)` followed by a reshape. -/
def exEmptyNone : OclArray :=
  { dimensions := [0, 0], rep := 0, slice_ofs := 0, slice_len := 0, is_logical := false }

/-- An empty view of dimensions 0x5 on the rep of the example array, as made by
`linear_slice (0, 0)` followed by a reshape. -/
def exEmptyWide : OclArray :=
  { dimensions := [0, 5], rep := 0, slice_ofs := 0, slice_len := 0, is_logical := false }

/-- The state after two views have been made of the 2x3 example array: three
handles on its rep. -/
def exTwoViews : World Int := (exWorld.incCount 0).incCount 0

/-! ## Lemmas on the association lists -/

theorem mapFind_mapReplace {V : Type} (m : List (Nat × V)) (k k' : Nat) (v : V) :
    mapFind (mapReplace m k v) k' =
      if k' = k then (mapFind m k).map (fun _ => v) else mapFind m k' := by
  induction m with
  | nil => simp [mapReplace, mapFind]
  | cons e t ih =>
    obtain ⟨k0, v0⟩ := e
    simp only [mapReplace]
    by_cases h2 : k = k0
    · subst h2
      simp only [if_true, mapFind]
      by_cases h3 : k' = k <;> simp [h3]
    · simp only [h2, if_false, mapFind, ih]
      by_cases h3 : k' = k0
      · have h4 : k' ≠ k := fun h => h2 (h ▸ h3)
        simp [h3, h4, Ne.symm h2]
      · simp [h3]

theorem mapFind_mapInsert {V : Type} (m : List (Nat × V)) (k k' : Nat) (v : V)
    (hk : mapFind m k = none) :
    mapFind (mapInsert m k v) k' = if k' = k then some v else mapFind m k' := by
  induction m with
  | nil => simp [mapInsert, mapFind]
  | cons e t ih =>
    obtain ⟨k0, v0⟩ := e
    have hk0 : k ≠ k0 := by
      intro h
      simp [mapFind, h] at hk
    have hkt : mapFind t k = none := by
      simpa [mapFind, hk0] using hk
    simp only [mapInsert]
    by_cases h1 : k < k0
    · simp only [h1, if_true, mapFind]
    · simp only [h1, if_false, mapFind, ih hkt]
      by_cases h3 : k' = k0
      · have h4 : k' ≠ k := fun h => hk0 (h ▸ h3)
        simp [h3, h4, Ne.symm hk0]
      · simp [h3]

theorem mapFind_mapSet {V : Type} (m : List (Nat × V)) (k k' : Nat) (v : V) :
    mapFind (mapSet m k v) k' = if k' = k then some v else mapFind m k' := by
  unfold mapSet
  cases h : mapFind m k with
  | none => simp only [mapFind_mapInsert m k k' v h]
  | some w =>
    simp only [mapFind_mapReplace, h, Option.map_some']

theorem mapFind_mapErase {V : Type} (m : List (Nat × V)) (k k' : Nat) :
    mapFind (mapErase m k) k' = if k' = k then none else mapFind m k' := by
  induction m with
  | nil => simp [mapErase, mapFind]
  | cons e t ih =>
    obtain ⟨k0, v0⟩ := e
    unfold mapErase at ih ⊢
    by_cases h1 : k0 = k
    · subst h1
      simp only [List.filter, beq_self_eq_true, Bool.not_true, ih, mapFind]
      by_cases h2 : k' = k0 <;> simp [h2]
    · have hb : (!(k0 == k)) = true := by simp [h1]
      simp only [List.filter, hb, mapFind, ih]
      by_cases h2 : k' = k0
      · have : k' ≠ k := fun h => h1 (h2 ▸ h)
        simp [h2, h1]
      · simp [h2]

theorem mapCount_eq_zero_iff {V : Type} (m : List (Nat × V)) (k : Nat) :
    mapCount m k = 0 ↔ mapFind m k = none := by
  unfold mapCount
  cases mapFind m k <;> simp

theorem mapFind_mem {V : Type} (m : List (Nat × V)) (k : Nat) (v : V)
    (h : mapFind m k = some v) : (k, v) ∈ m := by
  induction m with
  | nil => simp [mapFind] at h
  | cons e t ih =>
    obtain ⟨k0, v0⟩ := e
    by_cases h1 : k = k0
    · subst h1
      simp [mapFind] at h
      simp [h]
    · simp [mapFind, h1] at h
      exact List.mem_cons_of_mem _ (ih h)

theorem mapMaxKey_eq_none {V : Type} (m : List (Nat × V)) :
    mapMaxKey m = none ↔ m = [] := by
  cases m with
  | nil => simp [mapMaxKey]
  | cons e t =>
    obtain ⟨k0, v0⟩ := e
    simp only [mapMaxKey]
    cases mapMaxKey t <;> simp

theorem mapMaxKey_find {V : Type} (m : List (Nat × V)) (K : Nat)
    (h : mapMaxKey m = some K) : ∃ v, mapFind m K = some v := by
  induction m generalizing K with
  | nil => simp [mapMaxKey] at h
  | cons e t ih =>
    obtain ⟨k0, v0⟩ := e
    simp only [mapMaxKey] at h
    by_cases h1 : K = k0
    · subst h1
      exact ⟨v0, by simp [mapFind]⟩
    · cases ht : mapMaxKey t with
      | none =>
        rw [ht] at h
        simp at h
        exact absurd h.symm h1
      | some k' =>
        rw [ht] at h
        simp only [Option.some.injEq] at h
        have hK : K = k' := by
          rcases le_total k0 k' with hle | hle
          · rw [max_eq_right hle] at h
            exact h.symm
          · rw [max_eq_left hle] at h
            exact absurd h.symm h1
        obtain ⟨v, hv⟩ := ih k' ht
        subst hK
        exact ⟨v, by simp only [mapFind, h1, if_false, hv]⟩

theorem mem_mapErase {V : Type} (m : List (Nat × V)) (k : Nat) (e : Nat × V)
    (h : e ∈ mapErase m k) : e ∈ m := by
  unfold mapErase at h
  exact (List.mem_filter.mp h).1

theorem mem_mapReplace {V : Type} (m : List (Nat × V)) (k : Nat) (v : V) (e : Nat × V)
    (h : e ∈ mapReplace m k v) : e ∈ m ∨ e = (k, v) := by
  induction m with
  | nil => simp [mapReplace] at h
  | cons e0 t ih =>
    obtain ⟨k0, v0⟩ := e0
    simp only [mapReplace] at h
    by_cases h1 : k = k0
    · simp only [h1, if_true, List.mem_cons] at h
      rcases h with h | h
      · right
        rw [h, h1]
      · left
        exact List.mem_cons_of_mem _ h
    · simp only [h1, if_false, List.mem_cons] at h
      rcases h with h | h
      · left
        rw [h]
        exact List.mem_cons_self _ _
      · rcases ih h with h2 | h2
        · left
          exact List.mem_cons_of_mem _ h2
        · right
          exact h2

theorem retained_mapErase_le (m : List (Nat × List Nat)) (k : Nat) :
    retained (mapErase m k) ≤ retained m := by
  induction m with
  | nil => simp [mapErase, retained]
  | cons e t ih =>
    obtain ⟨k0, v0⟩ := e
    unfold mapErase retained at ih ⊢
    by_cases h1 : k0 = k
    · simp only [List.filter, h1, beq_self_eq_true, Bool.not_true, List.map_cons, List.sum_cons]
      omega
    · have hb : (!(k0 == k)) = true := by simp [h1]
      simp only [List.filter, hb, List.map_cons, List.sum_cons]
      omega

theorem retained_mapErase (m : List (Nat × List Nat)) (k : Nat) (v : List Nat)
    (h : mapFind m k = some v) : retained (mapErase m k) + v.length ≤ retained m := by
  induction m with
  | nil => simp [mapFind] at h
  | cons e t ih =>
    obtain ⟨k0, v0⟩ := e
    by_cases h1 : k = k0
    · subst h1
      simp [mapFind] at h
      subst h
      have := retained_mapErase_le t k
      unfold mapErase retained at this ⊢
      simp only [List.filter, beq_self_eq_true, Bool.not_true, List.map_cons, List.sum_cons]
      omega
    · simp [mapFind, h1] at h
      have := ih h
      have hb : (!(k0 == k)) = true := by simp [Ne.symm h1]
      unfold mapErase retained at this ⊢
      simp only [List.filter, hb, List.map_cons, List.sum_cons]
      omega

theorem retained_mapReplace (m : List (Nat × List Nat)) (k : Nat) (v l : List Nat)
    (h : mapFind m k = some v) :
    retained (mapReplace m k l) + v.length = retained m + l.length := by
  induction m with
  | nil => simp [mapFind] at h
  | cons e t ih =>
    obtain ⟨k0, v0⟩ := e
    by_cases h1 : k = k0
    · subst h1
      simp [mapFind] at h
      subst h
      simp only [mapReplace, if_true, retained, List.map_cons, List.sum_cons]
      omega
    · simp [mapFind, h1] at h
      have := ih h
      simp only [mapReplace, h1, if_false, retained, List.map_cons, List.sum_cons] at this ⊢
      omega

/-- The pool after one eviction from the bucket `K`, whose content was `l ++ [b]`. -/
theorem evict_progress (pool : List (Nat × List Nat)) (K : Nat) (l : List Nat) (b : Nat)
    (hK : mapFind pool K = some (l ++ [b])) (hwf : ∀ e ∈ pool, e.2 ≠ []) :
    retained (if l.isEmpty then mapErase pool K else mapSet pool K l) < retained pool ∧
    (∀ e ∈ (if l.isEmpty then mapErase pool K else mapSet pool K l), e.2 ≠ []) ∧
    (∀ s, s ≠ K → mapFind (if l.isEmpty then mapErase pool K else mapSet pool K l) s
      = mapFind pool s) := by
  cases l with
  | nil =>
    simp only [List.isEmpty_nil, if_true]
    refine ⟨?_, ?_, ?_⟩
    · have := retained_mapErase pool K _ hK
      simp at this
      omega
    · intro e he
      exact hwf e (mem_mapErase _ _ _ he)
    · intro s hs
      simp [mapFind_mapErase, hs]
  | cons a t =>
    simp only [List.isEmpty_cons, Bool.false_eq_true, if_false]
    refine ⟨?_, ?_, ?_⟩
    · have := retained_mapReplace pool K _ (a :: t) hK
      simp only [mapSet, hK]
      simp at this
      omega
    · intro e he
      simp only [mapSet, hK] at he
      rcases mem_mapReplace _ _ _ _ he with h | h
      · exact hwf e h
      · rw [h]
        simp
    · intro s hs
      simp [mapFind_mapSet, hs]

/-- The state in which the loop of `obtain_ocl_buffer` retries after a failed
attempt: one more `clCreateBuffer` call, buffer `b` freed, bucket `K` cut down
to `l`. -/
theorem obtainLoop_evict (dev : Device) (size fuel : Nat) (m : MemMgr) (K : Nat)
    (l : List Nat) (b : Nat)
    (hfail : dev.clCreateBuffer m.createCalls size = none)
    (hmax : mapMaxKey m.memobj_pool = some K)
    (hK : mapFind m.memobj_pool K = some (l ++ [b])) :
    obtainLoop dev size (fuel + 1) m =
      obtainLoop dev size fuel
        { m with createCalls := m.createCalls + 1,
                 releaseCalls := m.releaseCalls ++ [b],
                 memobj_pool := if l.isEmpty then mapErase m.memobj_pool K
                                else mapSet m.memobj_pool K l } := by
  have hlast : (l ++ [b]).getLast? = some b := by simp
  simp only [obtainLoop, new_ocl_buffer, hfail, hmax, hK, Option.getD_some, hlast,
    List.dropLast_concat, delete_ocl_buffer]
  cases l with
  | nil => rfl
  | cons a t => rfl

theorem obtainLoop_mono (dev : Device) (size : Nat) :
    ∀ (fuel : Nat) (m : MemMgr) (x : Except OclError Nat × MemMgr),
      obtainLoop dev size fuel m = some x → obtainLoop dev size (fuel + 1) m = some x := by
  intro fuel
  induction fuel with
  | zero =>
    intro m x h
    simp [obtainLoop] at h
  | succ f ih =>
    intro m x h
    cases hc : dev.clCreateBuffer m.createCalls size with
    | some id =>
      simp only [obtainLoop, new_ocl_buffer, hc] at h ⊢
      exact h
    | none =>
      cases hmax : mapMaxKey m.memobj_pool with
      | none =>
        simp only [obtainLoop, new_ocl_buffer, hc, hmax] at h ⊢
        exact h
      | some K =>
        obtain ⟨v, hv⟩ := mapMaxKey_find _ _ hmax
        rcases List.eq_nil_or_concat v with hnil | ⟨l, b, hlb⟩
        · subst hnil
          simp only [obtainLoop, new_ocl_buffer, hc, hmax, hv, Option.getD_some,
            List.getLast?_nil] at h ⊢
          exact h
        · rw [List.concat_eq_append] at hlb
          subst hlb
          rw [obtainLoop_evict dev size _ m K l b hc hmax hv] at h ⊢
          exact ih _ _ h

theorem obtainLoop_mono_le (dev : Device) (size : Nat) (fuel fuel' : Nat) (m : MemMgr)
    (x : Except OclError Nat × MemMgr) (hle : fuel ≤ fuel')
    (h : obtainLoop dev size fuel m = some x) : obtainLoop dev size fuel' m = some x := by
  induction hle with
  | refl => exact h
  | step _ ih => exact obtainLoop_mono dev size _ m x ih

/-- What the loop of `obtain_ocl_buffer` achieves from a pool whose buckets are all
non-empty, given fuel beyond the number of retained buffers. -/
theorem obtainLoop_spec (dev : Device) (size : Nat) :
    ∀ (fuel : Nat) (m : MemMgr), (∀ e ∈ m.memobj_pool, e.2 ≠ []) →
      retained m.memobj_pool < fuel →
      ∃ r m', obtainLoop dev size fuel m = some (r, m') ∧
        m'.assigned_ocl_memobjs = m.assigned_ocl_memobjs ∧
        m'.max_sized_memobj_pool_objs = m.max_sized_memobj_pool_objs ∧
        m.createCalls < m'.createCalls ∧
        (∀ j, m.createCalls ≤ j → j + 1 < m'.createCalls → dev.clCreateBuffer j size = none) ∧
        m'.releaseCalls.length + m.createCalls + 1 = m.releaseCalls.length + m'.createCalls ∧
        m'.createCalls ≤ m.createCalls + retained m.memobj_pool + 1 ∧
        (∀ e, r = .error e → e = .device_error ∧ m'.memobj_pool = [] ∧
          dev.clCreateBuffer (m'.createCalls - 1) size = none) ∧
        (∀ id, r = .ok id → dev.clCreateBuffer (m'.createCalls - 1) size = some id) ∧
        (∀ e ∈ m'.memobj_pool, e.2 ≠ []) ∧
        (∀ s, mapFind m.memobj_pool s = none → mapFind m'.memobj_pool s = none) := by
  intro fuel
  induction fuel with
  | zero =>
    intro m _ h
    omega
  | succ f ih =>
    intro m hwf hfuel
    cases hc : dev.clCreateBuffer m.createCalls size with
    | some id =>
      refine ⟨.ok id, { m with createCalls := m.createCalls + 1 }, ?_, rfl, rfl, ?_, ?_, ?_, ?_,
        ?_, ?_, hwf, fun s hs => hs⟩
      · simp only [obtainLoop, new_ocl_buffer, hc]
      · simp
      · intro j h1 h2
        simp at h2
        omega
      · simp only
        omega
      · simp
      · intro e he
        cases he
      · intro id' hid'
        cases hid'
        simpa using hc
    | none =>
      cases hmax : mapMaxKey m.memobj_pool with
      | none =>
        have hp : m.memobj_pool = [] := (mapMaxKey_eq_none _).mp hmax
        refine ⟨.error .device_error, { m with createCalls := m.createCalls + 1 }, ?_, rfl, rfl,
          ?_, ?_, ?_, ?_, ?_, ?_, hwf, fun s hs => hs⟩
        · simp only [obtainLoop, new_ocl_buffer, hc, hmax]
        · simp
        · intro j h1 h2
          simp at h2
          omega
        · simp only
          omega
        · simp
        · intro e he
          cases he
          exact ⟨rfl, hp, by simpa using hc⟩
        · intro id' hid'
          cases hid'
      | some K =>
        obtain ⟨v, hv⟩ := mapMaxKey_find _ _ hmax
        have hvne : v ≠ [] := hwf (K, v) (mapFind_mem _ _ _ hv)
        rcases List.eq_nil_or_concat v with hnil | ⟨l, b, hlb⟩
        · exact absurd hnil hvne
        · rw [List.concat_eq_append] at hlb
          subst hlb
          obtain ⟨hlt, hwf', hframe⟩ := evict_progress m.memobj_pool K l b hv hwf
          rw [obtainLoop_evict dev size f m K l b hc hmax hv]
          obtain ⟨r, m', hrun, h1, h2, h3, h4, h5, h6, h7, h8, h9, h10⟩ :=
            ih { m with createCalls := m.createCalls + 1,
                        releaseCalls := m.releaseCalls ++ [b],
                        memobj_pool := if l.isEmpty then mapErase m.memobj_pool K
                                       else mapSet m.memobj_pool K l } hwf' (by
              show retained (if l.isEmpty then mapErase m.memobj_pool K
                else mapSet m.memobj_pool K l) < f
              omega)
          refine ⟨r, m', hrun, h1, h2, ?_, ?_, ?_, ?_, h7, h8, h9, ?_⟩
          · simp at h3
            omega
          · intro j hj1 hj2
            by_cases hj : j = m.createCalls
            · rw [hj]
              exact hc
            · exact h4 j (by simp; omega) hj2
          · simp at h5
            omega
          · simp only at h6
            omega
          · intro s hs
            apply h10
            show mapFind (if l.isEmpty then mapErase m.memobj_pool K
                else mapSet m.memobj_pool K l) s = none
            by_cases hsK : s = K
            · rw [hsK, hv] at hs
              cases hs
            · rw [hframe s hsK]
              exact hs

/-! ## Lemmas on the heap of reps -/

theorem rep?_of_heap {α : Type} (w1 w2 : World α) (p : Nat) (h : w1.heap = w2.heap) :
    w1.rep? p = w2.rep? p := by
  unfold World.rep?
  rw [h]

theorem rep?_lt {α : Type} (w : World α) (p : Nat) (r : OclArrayRep α)
    (h : w.rep? p = some r) : p < w.heap.length := by
  unfold World.rep? at h
  by_contra hlt
  have : w.heap[p]? = none := List.getElem?_eq_none (by omega)
  rw [this] at h
  cases h

theorem rep?_eq_some_iff {α : Type} (w : World α) (p : Nat) (r : OclArrayRep α) :
    w.rep? p = some r ↔ w.heap[p]? = some (some r) := by
  unfold World.rep?
  cases h : w.heap[p]? with
  | none => simp
  | some o =>
    cases o with
    | none => simp
    | some r' => simp

theorem rep?_setRep {α : Type} (w : World α) (p q : Nat) (r : OclArrayRep α)
    (hp : p < w.heap.length) :
    (w.setRep p r).rep? q = if q = p then some r else w.rep? q := by
  unfold World.setRep World.rep?
  by_cases h : q = p
  · subst h
    simp [hp]
  · simp [h, List.getElem?_set_ne (Ne.symm h)]

theorem heap_length_setRep {α : Type} (w : World α) (p : Nat) (r : OclArrayRep α) :
    (w.setRep p r).heap.length = w.heap.length := by
  simp [World.setRep]

theorem rep?_newRep {α : Type} (w : World α) (q : Nat) (r : OclArrayRep α) :
    (w.newRep r).2.rep? q = if q = w.heap.length then some r else w.rep? q := by
  unfold World.newRep World.rep?
  by_cases h : q = w.heap.length
  · subst h
    simp
  · simp only [h, if_false]
    rcases Nat.lt_or_gt_of_ne h with hlt | hgt
    · rw [List.getElem?_append_left hlt]
    · have h1 : (w.heap ++ [some r])[q]? = none :=
        List.getElem?_eq_none (by simp; omega)
      have h2 : w.heap[q]? = none := List.getElem?_eq_none (by omega)
      rw [h1, h2]

theorem create_memobj_heap {α : Type} (dev : Device) (size : Nat) (w : World α) :
    (OclMemoryObject.create dev size w).2.heap = w.heap ∧
    (OclMemoryObject.create dev size w).2.nil_rep = w.nil_rep := by
  unfold OclMemoryObject.create
  cases assure_opencl_context dev w.ctx with
  | mk res c =>
    cases res with
    | error e => exact ⟨rfl, rfl⟩
    | ok id =>
      simp only
      split_ifs
      · exact ⟨rfl, rfl⟩
      · cases obtain_ocl_buffer dev size w.mem with
        | none => exact ⟨rfl, rfl⟩
        | some x =>
          obtain ⟨r, m⟩ := x
          cases r <;> exact ⟨rfl, rfl⟩

theorem allocate_heap {α : Type} (dev : Device) (len : Int) (w : World α) :
    (OclArrayRep.allocate dev len w).2.heap = w.heap ∧
    (OclArrayRep.allocate dev len w).2.nil_rep = w.nil_rep :=
  create_memobj_heap dev _ w

/-- Effect of `new OclArrayRep (a, slice_ofs_src, slice_len)` on the heap. -/
theorem createCopy_spec {α : Type} (dev : Device) (a : Nat) (ofs len : Int) (w : World α) :
    (∀ e w', OclArrayRep.createCopy dev a ofs len w = (.error e, w') →
      w'.heap = w.heap ∧ w'.nil_rep = w.nil_rep) ∧
    (∀ p w', OclArrayRep.createCopy dev a ofs len w = (.ok p, w') →
      p = w.heap.length ∧ w'.nil_rep = w.nil_rep ∧
      ∃ rn : OclArrayRep α, w'.heap = w.heap ++ [some rn] ∧ rn.count = 1 ∧ rn.len = len ∧
        (len ≤ 0 → rn.memobj = none ∧ rn.data = []) ∧
        (0 < len → ∃ ra o, w.rep? a = some ra ∧ rn.memobj = some o ∧
          o.object_context_still_valid w'.ctx = true ∧
          0 ≤ ofs ∧ ofs + len ≤ ra.len ∧
          rn.data = (ra.data.drop ofs.toNat).take len.toNat)) := by
  unfold OclArrayRep.createCopy
  by_cases hlen : len > 0
  · simp only [hlen, if_true]
    cases hra : w.rep? a with
    | none =>
      simp only
      refine ⟨?_, ?_⟩
      · intro e w' h
        cases h
        exact ⟨rfl, rfl⟩
      · intro p w' h
        cases h
    | some ra =>
      simp only
      by_cases hv : ra.is_valid w.ctx = true
      · simp only [hv, Bool.not_true, Bool.false_eq_true, if_false]
        have hh := allocate_heap dev len w
        cases hal : OclArrayRep.allocate dev len w with
        | mk res w1 =>
          rw [hal] at hh
          cases res with
          | error e =>
            simp only
            refine ⟨?_, ?_⟩
            · intro e' w' h
              cases h
              exact hh
            · intro p w' h
              cases h
          | ok o =>
            simp only
            by_cases h1 : opencl_context_id_active w1.ctx o.assctd_ctx_id = true
            · by_cases h2 : ra.is_valid w1.ctx = true
              · by_cases h3 : ofs < 0 ∨ ofs + len > ra.len
                · simp only [h1, h2, h3, Bool.not_true, Bool.false_eq_true, if_false, if_true]
                  refine ⟨?_, ?_⟩
                  · intro e' w' h
                    cases h
                    exact hh
                  · intro p w' h
                    cases h
                · simp only [h1, h2, h3, Bool.not_true, Bool.false_eq_true, if_false]
                  refine ⟨?_, ?_⟩
                  · intro e' w' h
                    cases h
                  · intro p w' h
                    simp only [World.newRep, Prod.mk.injEq, Except.ok.injEq] at h
                    obtain ⟨hp, hw⟩ := h
                    subst hw
                    refine ⟨?_, hh.2,
                      ⟨some o, len, 1, (ra.data.drop ofs.toNat).take len.toNat⟩,
                      ?_, rfl, rfl, ?_, ?_⟩
                    · rw [← hp, hh.1]
                    · rw [show w1.heap = w.heap from hh.1]
                    · intro hle
                      omega
                    · intro _
                      refine ⟨ra, o, rfl, rfl, h1, ?_, ?_, rfl⟩ <;> omega
              · simp only [Bool.not_eq_true] at h2
                simp only [h1, h2, Bool.not_true, Bool.false_eq_true, if_false,
                  Bool.not_false, if_true]
                refine ⟨?_, ?_⟩
                · intro e' w' h
                  cases h
                  exact hh
                · intro p w' h
                  cases h
            · simp only [Bool.not_eq_true] at h1
              simp only [h1, Bool.not_false, if_true]
              refine ⟨?_, ?_⟩
              · intro e' w' h
                cases h
                exact hh
              · intro p w' h
                cases h
      · simp only [Bool.not_eq_true] at hv
        simp only [hv, Bool.not_false, if_true]
        refine ⟨?_, ?_⟩
        · intro e w' h
          cases h
          exact ⟨rfl, rfl⟩
        · intro p w' h
          cases h
  · simp only [hlen, if_false]
    refine ⟨?_, ?_⟩
    · intro e w' h
      cases h
    · intro p w' h
      simp only [World.newRep, Prod.mk.injEq, Except.ok.injEq] at h
      obtain ⟨hp, hw⟩ := h
      subst hw
      refine ⟨hp.symm, rfl, ⟨none, len, 1, []⟩, rfl, rfl, rfl, ?_, ?_⟩
      · intro _
        exact ⟨rfl, rfl⟩
      · intro h0
        exact h0.elim

theorem rep?_of_heap_append {α : Type} (w w' : World α) (rn : OclArrayRep α)
    (h : w'.heap = w.heap ++ [some rn]) (q : Nat) :
    w'.rep? q = if q = w.heap.length then some rn else w.rep? q := by
  rw [← rep?_newRep w q rn]
  exact rep?_of_heap _ _ _ h

theorem take_drop_getElem? {α : Type} (l : List α) (a n i : Nat) (hi : i < n) :
    ((l.drop a).take n)[i]? = l[a + i]? := by
  rw [List.getElem?_take_of_lt hi, List.getElem?_drop]

/-! ## Buffer pool: reuse, eviction, release -/

/-- Claim C8 (pool reuse is LIFO).  If the bucket for `size` ends in `b`, that is
`b` was pushed last, `obtain_ocl_buffer` returns `b`, calls neither
`clCreateBuffer` nor `clReleaseMemObject`, leaves `l` in the bucket (erasing the
bucket when `l` is empty), leaves every other bucket as it was and records
`assigned[b] = size`.  The second part ties the back of the bucket to
`release_ocl_buffer`: a buffer that was just retained is the one returned. -/
theorem obtain_reuse_is_lifo (dev : Device) (size : Nat) (m : MemMgr) :
    (∀ l b, mapFind m.memobj_pool size = some (l ++ [b]) →
      ∃ m', obtain_ocl_buffer dev size m = some (.ok b, m') ∧
        m'.createCalls = m.createCalls ∧ m'.releaseCalls = m.releaseCalls ∧
        mapFind m'.memobj_pool size = (if l = [] then none else some l) ∧
        (∀ s, s ≠ size → mapFind m'.memobj_pool s = mapFind m.memobj_pool s) ∧
        mapFind m'.assigned_ocl_memobjs b = some size ∧
        (∀ id, id ≠ b →
          mapFind m'.assigned_ocl_memobjs id = mapFind m.assigned_ocl_memobjs id) ∧
        m'.max_sized_memobj_pool_objs = m.max_sized_memobj_pool_objs) ∧
    (∀ id, mapFind m.assigned_ocl_memobjs id = some size →
      mapErase m.assigned_ocl_memobjs id ≠ [] →
      ((mapFind m.memobj_pool size).getD []).length < m.max_sized_memobj_pool_objs →
      ∃ m', obtain_ocl_buffer dev size (release_ocl_buffer id m) = some (.ok id, m') ∧
        m'.createCalls = m.createCalls ∧ m'.releaseCalls = m.releaseCalls) := by
  have key : ∀ (m : MemMgr) (l : List Nat) (b : Nat),
      mapFind m.memobj_pool size = some (l ++ [b]) →
      ∃ m', obtain_ocl_buffer dev size m = some (.ok b, m') ∧
        m'.createCalls = m.createCalls ∧ m'.releaseCalls = m.releaseCalls ∧
        mapFind m'.memobj_pool size = (if l = [] then none else some l) ∧
        (∀ s, s ≠ size → mapFind m'.memobj_pool s = mapFind m.memobj_pool s) ∧
        mapFind m'.assigned_ocl_memobjs b = some size ∧
        (∀ id, id ≠ b →
          mapFind m'.assigned_ocl_memobjs id = mapFind m.assigned_ocl_memobjs id) ∧
        m'.max_sized_memobj_pool_objs = m.max_sized_memobj_pool_objs := by
    intro m l b h
    have hc : mapCount m.memobj_pool size ≠ 0 := by
      rw [Ne, mapCount_eq_zero_iff, h]; simp
    unfold obtain_ocl_buffer
    have hlast : (l ++ [b]).getLast? = some b := by simp
    simp only [hc, if_false, h, Option.getD_some, hlast, List.dropLast_concat]
    by_cases hl : l = []
    · subst hl
      refine ⟨_, rfl, ?_⟩
      simp +contextual [mapFind_mapErase, mapFind_mapSet]
    · have hl' : l.isEmpty = false := by
        cases l with
        | nil => exact absurd rfl hl
        | cons a t => rfl
      refine ⟨_, rfl, ?_⟩
      simp +contextual [hl', hl, mapFind_mapSet]
  refine ⟨key m, ?_⟩
  intro id hid hne hlt
  have hrel : release_ocl_buffer id m =
      { m with assigned_ocl_memobjs := mapErase m.assigned_ocl_memobjs id,
               memobj_pool := mapSet m.memobj_pool size
                 (((mapFind m.memobj_pool size).getD []) ++ [id]) } := by
    unfold release_ocl_buffer
    have he : (mapErase m.assigned_ocl_memobjs id).isEmpty = false := by
      cases hq : mapErase m.assigned_ocl_memobjs id with
      | nil => exact absurd hq hne
      | cons a t => rfl
    have hcount : ¬ ((if mapCount m.memobj_pool size = 0 then 0
        else ((mapFind m.memobj_pool size).getD []).length) ≥ m.max_sized_memobj_pool_objs) := by
      split_ifs <;> omega
    simp only [hid, he, hcount, if_false, Bool.false_eq_true]
  obtain ⟨m', h1, h2, h3, _⟩ := key (release_ocl_buffer id m)
    ((mapFind m.memobj_pool size).getD []) id (by rw [hrel]; simp [mapFind_mapSet])
  refine ⟨m', h1, ?_, ?_⟩
  · rw [h2, hrel]
  · rw [h3, hrel]

/-- Claim C10 (release retention policy).  An identity that is not in `assigned`
is freed at once and nothing else changes.  An identity recorded with `size`,
whose removal leaves `assigned` non-empty, is removed from `assigned`; it is
then freed for real, all buckets staying as they were, when the bucket for
`size` holds `max_sized_memobj_pool_objs` entries (or more), and is appended to
that bucket without any device free otherwise. -/
theorem release_retention_policy (id : Nat) (m : MemMgr) :
    (mapFind m.assigned_ocl_memobjs id = none →
      release_ocl_buffer id m = { m with releaseCalls := m.releaseCalls ++ [id] }) ∧
    (∀ size, mapFind m.assigned_ocl_memobjs id = some size →
      mapErase m.assigned_ocl_memobjs id ≠ [] →
      mapFind (release_ocl_buffer id m).assigned_ocl_memobjs id = none ∧
      (m.max_sized_memobj_pool_objs ≤ ((mapFind m.memobj_pool size).getD []).length →
        release_ocl_buffer id m =
          { m with assigned_ocl_memobjs := mapErase m.assigned_ocl_memobjs id,
                   releaseCalls := m.releaseCalls ++ [id] }) ∧
      (((mapFind m.memobj_pool size).getD []).length < m.max_sized_memobj_pool_objs →
        release_ocl_buffer id m =
          { m with assigned_ocl_memobjs := mapErase m.assigned_ocl_memobjs id,
                   memobj_pool := mapSet m.memobj_pool size
                     (((mapFind m.memobj_pool size).getD []) ++ [id]) })) := by
  refine ⟨?_, ?_⟩
  · intro h
    simp [release_ocl_buffer, h, delete_ocl_buffer]
  · intro size hid hne
    have he : (mapErase m.assigned_ocl_memobjs id).isEmpty = false := by
      cases hq : mapErase m.assigned_ocl_memobjs id with
      | nil => exact absurd hq hne
      | cons a t => rfl
    have hcnt : (if mapCount m.memobj_pool size = 0 then 0
        else ((mapFind m.memobj_pool size).getD []).length) =
        ((mapFind m.memobj_pool size).getD []).length := by
      split_ifs with h0
      · rw [mapCount_eq_zero_iff] at h0
        simp [h0]
      · rfl
    have hrel : release_ocl_buffer id m =
        if ((mapFind m.memobj_pool size).getD []).length ≥ m.max_sized_memobj_pool_objs then
          { m with assigned_ocl_memobjs := mapErase m.assigned_ocl_memobjs id,
                   releaseCalls := m.releaseCalls ++ [id] }
        else
          { m with assigned_ocl_memobjs := mapErase m.assigned_ocl_memobjs id,
                   memobj_pool := mapSet m.memobj_pool size
                     (((mapFind m.memobj_pool size).getD []) ++ [id]) } := by
      unfold release_ocl_buffer
      simp only [hid, he, hcnt, delete_ocl_buffer, Bool.false_eq_true, if_false]
    refine ⟨?_, ?_, ?_⟩
    · rw [hrel]
      split_ifs <;> simp [mapFind_mapErase]
    · intro hle
      rw [hrel, if_pos hle]
    · intro hlt
      rw [hrel, if_neg (by omega)]

/-- Claim C9 (eviction under allocation pressure).  The pool has no bucket for
`size` and all its buckets are non-empty.  First part: when the allocation
attempt fails and `K` is the largest size key, with bucket `l ++ [b]`, then
`obtain_ocl_buffer` frees exactly `b`, cuts that bucket down to `l` (erasing it
when empty) and goes on as from that state.  Second part: the call returns;
every attempt but the last failed and each of them freed one buffer; the result
is an error exactly when the last attempt failed with no bucket left, the error
is the device error and `assigned` is unchanged; on success the identity
returned by the device is recorded in `assigned` with `size`. -/
theorem obtain_eviction_under_pressure (dev : Device) (size : Nat) (m : MemMgr)
    (hnb : mapFind m.memobj_pool size = none)
    (hwf : ∀ e ∈ m.memobj_pool, e.2 ≠ []) :
    (∀ K l b, dev.clCreateBuffer m.createCalls size = none →
      mapMaxKey m.memobj_pool = some K →
      mapFind m.memobj_pool K = some (l ++ [b]) →
      obtain_ocl_buffer dev size m =
        obtain_ocl_buffer dev size
          { m with createCalls := m.createCalls + 1,
                   releaseCalls := m.releaseCalls ++ [b],
                   memobj_pool := if l.isEmpty then mapErase m.memobj_pool K
                                  else mapSet m.memobj_pool K l }) ∧
    (∃ r m', obtain_ocl_buffer dev size m = some (r, m') ∧
      m.createCalls < m'.createCalls ∧
      (∀ j, m.createCalls ≤ j → j + 1 < m'.createCalls → dev.clCreateBuffer j size = none) ∧
      m'.releaseCalls.length + m.createCalls + 1 = m.releaseCalls.length + m'.createCalls ∧
      ((∃ e, r = .error e) ↔
        (dev.clCreateBuffer (m'.createCalls - 1) size = none ∧ m'.memobj_pool = [])) ∧
      (∀ e, r = .error e →
        e = .device_error ∧ m'.assigned_ocl_memobjs = m.assigned_ocl_memobjs) ∧
      (∀ id, r = .ok id →
        dev.clCreateBuffer (m'.createCalls - 1) size = some id ∧
        m'.assigned_ocl_memobjs = mapSet m.assigned_ocl_memobjs id size ∧
        mapFind m'.assigned_ocl_memobjs id = some size)) := by
  have hcount : mapCount m.memobj_pool size = 0 := (mapCount_eq_zero_iff _ _).mpr hnb
  refine ⟨?_, ?_⟩
  · intro K l b hfail hmax hK
    obtain ⟨hlt, hwf', hframe⟩ := evict_progress m.memobj_pool K l b hK hwf
    have hKs : size ≠ K := by
      intro h
      rw [h, hK] at hnb
      cases hnb
    have hcount' : mapCount (if l.isEmpty then mapErase m.memobj_pool K
        else mapSet m.memobj_pool K l) size = 0 := by
      rw [mapCount_eq_zero_iff, hframe size hKs]
      exact hnb
    obtain ⟨r, m', hrun, _⟩ := obtainLoop_spec dev size
      (retained (if l.isEmpty then mapErase m.memobj_pool K
        else mapSet m.memobj_pool K l) + 1)
      { m with createCalls := m.createCalls + 1,
               releaseCalls := m.releaseCalls ++ [b],
               memobj_pool := if l.isEmpty then mapErase m.memobj_pool K
                              else mapSet m.memobj_pool K l } hwf' (Nat.lt_succ_self _)
    have hrun' := obtainLoop_mono_le dev size _ (retained m.memobj_pool) _ _ (by omega) hrun
    unfold obtain_ocl_buffer
    simp only [hcount, hcount', if_true]
    rw [obtainLoop_evict dev size _ m K l b hfail hmax hK, hrun', hrun]
  · obtain ⟨r, m', hrun, h1, _, h3, h4, h5, _, h7, h8, _, _⟩ :=
      obtainLoop_spec dev size (retained m.memobj_pool + 1) m hwf (Nat.lt_succ_self _)
    cases r with
    | error e =>
      refine ⟨.error e, m', ?_, h3, h4, h5, ?_, ?_, ?_⟩
      · unfold obtain_ocl_buffer
        simp only [hcount, if_true, hrun]
      · obtain ⟨_, hp, hf⟩ := h7 e rfl
        exact ⟨fun _ => ⟨hf, hp⟩, fun _ => ⟨e, rfl⟩⟩
      · intro e' he'
        cases he'
        exact ⟨(h7 e rfl).1, h1⟩
      · intro id hid
        cases hid
    | ok id =>
      refine ⟨.ok id, MemMgr.mk m'.memobj_pool m'.max_sized_memobj_pool_objs
        (mapSet m'.assigned_ocl_memobjs id size) m'.createCalls m'.releaseCalls,
        ?_, h3, h4, h5, ?_, ?_, ?_⟩
      · unfold obtain_ocl_buffer
        simp only [hcount, if_true, hrun]
      · constructor
        · rintro ⟨e, he⟩
          cases he
        · rintro ⟨hf, _⟩
          have := h8 id rfl
          simp only at hf
          rw [this] at hf
          cases hf
      · intro e he
        cases he
      · intro id' hid'
        cases hid'
        refine ⟨h8 id rfl, ?_, ?_⟩
        · simp only [h1]
        · simp [mapFind_mapSet]

/-! ## Array handles -/

/-- Claim C2 (postcondition of `make_unique`).  A handle on a rep with `count > 1`
points, after a successful `make_unique`, at a rep at a fresh address with
`count == 1` and `len == slice_len` whose element `i` is element
`slice_ofs + i` of the old rep; `slice_ofs` is 0, `slice_len` and the
dimensions are as before, and the count of the old rep has gone down by one.
On a rep with `count == 1` nothing changes, and a second `make_unique` after a
successful one changes nothing. -/
theorem make_unique_postcondition {α : Type} (dev : Device) (h : OclArray) (w : World α)
    (r : OclArrayRep α) (hr : w.rep? h.rep = some r) :
    (1 < r.count → ∀ h' w', h.make_unique dev w = (.ok (), h', w') →
      h'.rep = w.heap.length ∧ w.rep? h'.rep = none ∧
      (∃ rn, w'.rep? h'.rep = some rn ∧ rn.count = 1 ∧ rn.len = h.slice_len ∧
        ∀ i : Nat, (i : Int) < h.slice_len → rn.data[i]? = r.data[h.slice_ofs.toNat + i]?) ∧
      h'.slice_ofs = 0 ∧ h'.slice_len = h.slice_len ∧ h'.dimensions = h.dimensions ∧
      w'.rep? h.rep = some { r with count := r.count - 1 }) ∧
    (r.count = 1 → h.make_unique dev w = (.ok (), h, w)) ∧
    (∀ h' w', h.make_unique dev w = (.ok (), h', w') →
      h'.make_unique dev w' = (.ok (), h', w')) := by
  have hlt : h.rep < w.heap.length := rep?_lt w _ _ hr
  have hmain : 1 < r.count → ∀ h' w', h.make_unique dev w = (.ok (), h', w') →
      h'.rep = w.heap.length ∧ w.rep? h'.rep = none ∧
      (∃ rn, w'.rep? h'.rep = some rn ∧ rn.count = 1 ∧ rn.len = h.slice_len ∧
        ∀ i : Nat, (i : Int) < h.slice_len → rn.data[i]? = r.data[h.slice_ofs.toNat + i]?) ∧
      h'.slice_ofs = 0 ∧ h'.slice_len = h.slice_len ∧ h'.dimensions = h.dimensions ∧
      w'.rep? h.rep = some { r with count := r.count - 1 } := by
    intro hc h' w' hrun
    unfold OclArray.make_unique at hrun
    simp only [hr, gt_iff_lt, hc, if_true] at hrun
    obtain ⟨_, hok⟩ := createCopy_spec dev h.rep h.slice_ofs h.slice_len
      (w.setRep h.rep { r with count := r.count - 1 })
    cases hcc : OclArrayRep.createCopy dev h.rep h.slice_ofs h.slice_len
        (w.setRep h.rep { r with count := r.count - 1 }) with
    | mk res w2 =>
      rw [hcc] at hrun
      cases res with
      | error e => simp at hrun
      | ok p =>
        simp only [Prod.mk.injEq, true_and] at hrun
        obtain ⟨hh', hw'⟩ := hrun
        subst hh' hw'
        obtain ⟨hp, _, rn, hheap, hcount, hlen, hle, hpos⟩ := hok p w2 hcc
        rw [heap_length_setRep] at hp
        have hrep1 : (w.setRep h.rep { r with count := r.count - 1 }).rep? h.rep
            = some { r with count := r.count - 1 } := by
          rw [rep?_setRep _ _ _ _ hlt]
          simp
        have hnew : ∀ q, w2.rep? q = if q = w.heap.length then some rn
            else (w.setRep h.rep { r with count := r.count - 1 }).rep? q := by
          intro q
          rw [rep?_of_heap_append _ w2 rn hheap q, heap_length_setRep]
        refine ⟨hp, ?_, ⟨rn, ?_, hcount, hlen, ?_⟩, rfl, rfl, rfl, ?_⟩
        · show w.rep? p = none
          rw [hp]
          cases hq : w.rep? w.heap.length with
          | none => rfl
          | some r0 => exact absurd (rep?_lt w _ _ hq) (lt_irrefl _)
        · show w2.rep? p = some rn
          rw [hnew p, if_pos hp]
        · intro i hi
          have hpos' : 0 < h.slice_len := by omega
          obtain ⟨ra, o, hra, _, _, _, _, hdata⟩ := hpos hpos'
          rw [hrep1] at hra
          cases hra
          rw [hdata]
          exact take_drop_getElem? _ _ _ _ (by omega)
        · rw [hnew h.rep, if_neg (by omega), hrep1]
  refine ⟨hmain, ?_, ?_⟩
  · intro hc
    unfold OclArray.make_unique
    simp [hr, hc]
  · intro h' w' hrun
    by_cases hc : 1 < r.count
    · obtain ⟨_, _, ⟨rn, hrn, hcount, _⟩, _⟩ := hmain hc h' w' hrun
      unfold OclArray.make_unique
      simp [hrn, hcount]
    · unfold OclArray.make_unique at hrun
      simp only [hr, gt_iff_lt, hc, if_false, Prod.mk.injEq, true_and] at hrun
      obtain ⟨hh', hw'⟩ := hrun
      subst hh' hw'
      unfold OclArray.make_unique
      simp [hr, hc]

/-- The example state is the one the host-copy constructor produces at program
start. -/
theorem exWorld_reachable :
    OclArray.mkHost exDevice [1, 2, 3, 4, 5, 6] [2, 3] (World.init Int)
      = (.ok exArray, exWorld) := by
  rfl

/-- Claim C5, at the failing input.  On the 2x3 array, whose columns are 0, 1, 2,
`column (3)` raises no error: it returns a view of 2 elements at offset 6,
past the 6 elements of the buffer.  Likewise `page (1)` on this array of one
page returns a view of 6 elements at offset 6. -/
theorem column_accepts_index_past_last :
    (exArray.column 3 exWorld).1
      = .ok { dimensions := [2, 1], rep := 0, slice_ofs := 6, slice_len := 2,
              is_logical := false } ∧
    (exArray.page 1 exWorld).1
      = .ok { dimensions := [2, 3], rep := 0, slice_ofs := 6, slice_len := 6,
              is_logical := false } ∧
    (exArray.dimensions.numel 1 = 3 ∧ exArray.dimensions.numel 2 = 1) := by
  refine ⟨rfl, rfl, rfl, rfl⟩

theorem rep?_incCount {α : Type} (w : World α) (p q : Nat) (r : OclArrayRep α)
    (hr : w.rep? p = some r) :
    (w.incCount p).rep? q = if q = p then some { r with count := r.count + 1 } else w.rep? q := by
  unfold World.incCount
  rw [hr]
  exact rep?_setRep w p q _ (rep?_lt w p r hr)

theorem assure_valid_ok {α : Type} (a : OclArray) (w : World α) (r : OclArrayRep α)
    (hr : w.rep? a.rep = some r) (hv : r.is_valid w.ctx = true) :
    a.assure_valid w = .ok () := by
  simp [OclArray.assure_valid, hr, hv]

theorem mkSlice_ok {α : Type} (a : OclArray) (dv : dim_vector) (l u : Int) (w : World α)
    (r : OclArrayRep α) (hr : w.rep? a.rep = some r) (hv : r.is_valid w.ctx = true) :
    a.mkSlice dv l u w =
      (.ok { dimensions := dv.chop_trailing_singletons, rep := a.rep,
             slice_ofs := a.slice_ofs + l, slice_len := u - l, is_logical := a.is_logical },
        w.incCount a.rep) := by
  simp [OclArray.mkSlice, hr, hv]

/-- Claim C6 (windowing of `linear_slice`).  For a valid handle `A` and
`0 <= lo <= up <= A.numel ()`, `linear_slice (lo, up)` returns a handle `S` on
the rep of `A` with `up - lo` elements, dimensions `(up - lo, 1)` and
`slice_ofs == A.slice_ofs + lo`; the rep is the old one with its count raised
by one (so no data is copied), and element `i` of `S` is element `lo + i` of
`A`. -/
theorem linear_slice_windowing {α : Type} (A : OclArray) (w : World α) (r : OclArrayRep α)
    (lo up : Int) (hr : w.rep? A.rep = some r) (hv : r.is_valid w.ctx = true)
    (hlo : 0 ≤ lo) (hle : lo ≤ up) (hup : up ≤ A.numel) :
    ∃ S w', A.linear_slice lo up w = (.ok S, w') ∧
      S.numel = up - lo ∧ S.dimensions = [(up - lo).toNat, 1] ∧
      S.rep = A.rep ∧ S.slice_ofs = A.slice_ofs + lo ∧
      w'.rep? A.rep = some { r with count := r.count + 1 } ∧
      (∀ q, q ≠ A.rep → w'.rep? q = w.rep? q) ∧
      w'.ctx = w.ctx ∧ w'.mem = w.mem ∧
      (∀ i, 0 ≤ i → i < up - lo → S.elem? w' i = A.elem? w (lo + i)) := by
  have hrun : A.linear_slice lo up w =
      (.ok { dimensions := [(up - lo).toNat, 1], rep := A.rep,
             slice_ofs := A.slice_ofs + lo, slice_len := up - lo,
             is_logical := A.is_logical }, w.incCount A.rep) := by
    unfold OclArray.linear_slice
    rw [assure_valid_ok A w r hr hv]
    have h1 : ¬ lo < 0 := by omega
    have h2 : ¬ up > A.numel := by omega
    have h3 : ¬ up < lo := by omega
    simp only [h1, h2, h3, if_false]
    rw [mkSlice_ok A _ lo up w r hr hv]
    rfl
  have hinc := rep?_incCount w A.rep
  refine ⟨_, _, hrun, rfl, rfl, rfl, rfl, ?_, ?_, ?_, ?_, ?_⟩
  · rw [hinc A.rep r hr]
    simp
  · intro q hq
    rw [hinc q r hr]
    simp [hq]
  · simp [World.incCount, hr, World.setRep]
  · simp [World.incCount, hr, World.setRep]
  · intro i hi0 hi
    unfold OclArray.elem?
    simp only [hinc A.rep r hr, if_true, hr]
    have hA : 0 ≤ lo + i ∧ lo + i < A.slice_len := by
      unfold OclArray.numel at hup
      omega
    have hS : 0 ≤ i ∧ i < up - lo := ⟨hi0, hi⟩
    simp only [hA, hS, and_self, if_true, add_assoc]

/-- Claim C7 as stated fails for an array that is not valid: the empty array made
by the default constructor has 0 elements, the dimension vector 0x0 has the
product 0, and yet the reshape is refused with the inoperable-object error. -/
theorem reshape_of_empty_array_is_refused :
    ((dim_vector.safe_numel [0, 0] : Nat) : Int)
        = (OclArray.mkEmpty (World.init Int)).1.numel ∧
      (OclArray.mkEmpty (World.init Int)).1.mkReshape [0, 0]
          (OclArray.mkEmpty (World.init Int)).2
        = (.error .inoperable, (OclArray.mkEmpty (World.init Int)).2) := by
  exact ⟨rfl, rfl⟩

/-- Claim C7, amended to valid arrays.  For a valid array `A`, `reshape (A, dv)`
with `product (dv) == A.numel ()` returns a handle with the dimensions `dv`
(trailing singletons beyond the second dropped) on the rep, `slice_ofs` and
`slice_len` of `A`, hence with the same elements in linear order, and the rep
is the old one with its count raised by one; with
`product (dv) != A.numel ()` it fails with the reshape error and the state,
and so `A` and the count of its rep, is unchanged.  For an array that is not
valid, `reshape (A, dv)` fails with the error of an inoperable object and leaves the
state unchanged, whatever `dv` is. -/
theorem reshape_identity {α : Type} (A : OclArray) (w : World α) (r : OclArrayRep α)
    (dv : dim_vector) (hr : w.rep? A.rep = some r) :
    (r.is_valid w.ctx = true →
      (((dv.safe_numel : Nat) : Int) = A.numel →
        ∃ B w', A.mkReshape dv w = (.ok B, w') ∧
          B.dimensions = dv.chop_trailing_singletons ∧
          B.rep = A.rep ∧ B.slice_ofs = A.slice_ofs ∧ B.slice_len = A.slice_len ∧
          w'.rep? A.rep = some { r with count := r.count + 1 } ∧
          (∀ q, q ≠ A.rep → w'.rep? q = w.rep? q) ∧
          (∀ i, B.elem? w' i = A.elem? w i) ∧
          B.observe w' = A.observe w) ∧
      (((dv.safe_numel : Nat) : Int) ≠ A.numel →
        A.mkReshape dv w = (.error .reshape_mismatch, w))) ∧
    (r.is_valid w.ctx = false → A.mkReshape dv w = (.error .inoperable, w)) := by
  have hinc := rep?_incCount w A.rep
  refine ⟨fun hv => ⟨?_, ?_⟩, ?_⟩
  · intro hn
    refine ⟨{ dimensions := dv.chop_trailing_singletons, rep := A.rep,
              slice_ofs := A.slice_ofs, slice_len := A.slice_len,
              is_logical := A.is_logical }, w.incCount A.rep,
      by simp [OclArray.mkReshape, hr, hv, hn], rfl, rfl, rfl, rfl, ?_, ?_, ?_, ?_⟩
    · rw [hinc A.rep r hr]
      simp
    · intro q hq
      rw [hinc q r hr]
      simp [hq]
    · intro i
      unfold OclArray.elem?
      simp only [hinc A.rep r hr, if_true, hr]
    · unfold OclArray.observe
      simp only [hinc A.rep r hr, if_true, hr]
  · intro hn
    simp [OclArray.mkReshape, hr, hv, hn]
  · intro hv
    simp [OclArray.mkReshape, hr, hv]

/-! ## Effect of the primitive operations on the heap -/

theorem rep?_heap_set_none {α : Type} (w w' : World α) (p q : Nat)
    (h : w'.heap = w.heap.set p none) :
    w'.rep? q = if q = p then none else w.rep? q := by
  unfold World.rep?
  rw [h]
  by_cases hq : q = p
  · subst hq
    simp only [if_true]
    by_cases hlt : q < w.heap.length
    · simp [hlt]
    · have : (w.heap.set q none)[q]? = none := List.getElem?_eq_none (by simp; omega)
      rw [this]
  · simp [hq, List.getElem?_set_ne (Ne.symm hq)]

theorem deleteRep_spec {α : Type} (w : World α) (p : Nat) :
    (w.deleteRep p).heap.length = w.heap.length ∧
    (w.deleteRep p).nil_rep = w.nil_rep ∧ (w.deleteRep p).ctx = w.ctx ∧
    ∀ q, (w.deleteRep p).rep? q = if q = p then none else w.rep? q := by
  unfold World.deleteRep
  cases hr : w.rep? p with
  | none =>
    refine ⟨rfl, rfl, rfl, ?_⟩
    intro q
    by_cases hq : q = p
    · simp [hq, hr]
    · simp [hq]
  | some r =>
    simp only
    cases r.memobj with
    | none =>
      refine ⟨by simp, rfl, rfl, ?_⟩
      intro q
      exact rep?_heap_set_none w _ p q rfl
    | some o =>
      simp only
      split_ifs
      · refine ⟨by simp, rfl, rfl, ?_⟩
        intro q
        exact rep?_heap_set_none w _ p q rfl
      · refine ⟨by simp, rfl, rfl, ?_⟩
        intro q
        exact rep?_heap_set_none w _ p q rfl

theorem setRep_spec {α : Type} (w : World α) (p : Nat) (r0 r : OclArrayRep α)
    (hr : w.rep? p = some r0) :
    (w.setRep p r).heap.length = w.heap.length ∧
    (w.setRep p r).nil_rep = w.nil_rep ∧ (w.setRep p r).ctx = w.ctx ∧
    ∀ q, (w.setRep p r).rep? q = if q = p then some r else w.rep? q :=
  ⟨heap_length_setRep w p r, rfl, rfl, fun q => rep?_setRep w p q r (rep?_lt w p r0 hr)⟩

theorem unref_spec {α : Type} (w : World α) (p : Nat) (r : OclArrayRep α)
    (hr : w.rep? p = some r) :
    (w.unref p).heap.length = w.heap.length ∧
    (w.unref p).nil_rep = w.nil_rep ∧ (w.unref p).ctx = w.ctx ∧
    ∀ q, (w.unref p).rep? q =
      if q = p then (if r.count - 1 = 0 then none else some { r with count := r.count - 1 })
      else w.rep? q := by
  unfold World.unref
  rw [hr]
  simp only
  obtain ⟨h1, h2, h3, h4⟩ := setRep_spec w p r { r with count := r.count - 1 } hr
  by_cases hc : r.count - 1 = 0
  · simp only [if_pos hc]
    obtain ⟨d1, d2, d3, d4⟩ := deleteRep_spec (w.setRep p { r with count := r.count - 1 }) p
    refine ⟨by rw [d1, h1], by rw [d2, h2], by rw [d3, h3], ?_⟩
    intro q
    rw [d4 q]
    by_cases hq : q = p
    · simp [hq]
    · simp [hq, h4 q]
  · simp only [if_neg hc]
    exact ⟨h1, h2, h3, h4⟩

theorem unref_dead {α : Type} (w : World α) (p : Nat) (hr : w.rep? p = none) :
    w.unref p = w := by
  unfold World.unref
  rw [hr]

theorem incCount_spec {α : Type} (w : World α) (p : Nat) (r : OclArrayRep α)
    (hr : w.rep? p = some r) :
    (w.incCount p).heap.length = w.heap.length ∧
    (w.incCount p).nil_rep = w.nil_rep ∧ (w.incCount p).ctx = w.ctx ∧
    ∀ q, (w.incCount p).rep? q =
      if q = p then some { r with count := r.count + 1 } else w.rep? q := by
  unfold World.incCount
  rw [hr]
  exact setRep_spec w p r _ hr

theorem rep?_fresh {α : Type} (w : World α) : w.rep? w.heap.length = none := by
  cases hq : w.rep? w.heap.length with
  | none => rfl
  | some r0 => exact absurd (rep?_lt w _ _ hq) (lt_irrefl _)

theorem newRep_spec {α : Type} (w : World α) (r : OclArrayRep α) :
    (w.newRep r).1 = w.heap.length ∧
    (w.newRep r).2.heap.length = w.heap.length + 1 ∧
    (w.newRep r).2.nil_rep = w.nil_rep ∧ (w.newRep r).2.ctx = w.ctx ∧
    ∀ q, (w.newRep r).2.rep? q = if q = w.heap.length then some r else w.rep? q :=
  ⟨rfl, by simp [World.newRep], rfl, rfl, fun q => rep?_newRep w q r⟩

/-- Effect of `nil_rep ()`: the pointer it returns is the address of a live rep
of length 0 without buffer. -/
theorem nil_rep_spec {α : Type} (w : World α) :
    (∀ p, w.nil_rep = some p → nil_rep w = (p, w)) ∧
    (w.nil_rep = none →
      (nil_rep w).1 = w.heap.length ∧
      (nil_rep w).2.heap.length = w.heap.length + 1 ∧
      (nil_rep w).2.nil_rep = some w.heap.length ∧ (nil_rep w).2.ctx = w.ctx ∧
      ∀ q, (nil_rep w).2.rep? q =
        if q = w.heap.length then some { memobj := none, len := 0, count := 1, data := [] }
        else w.rep? q) := by
  refine ⟨?_, ?_⟩
  · intro p hp
    simp [nil_rep, hp]
  · intro hn
    simp only [nil_rep, hn]
    refine ⟨rfl, by simp [World.newRep], rfl, rfl, ?_⟩
    intro q
    rw [← rep?_newRep w q]
    rfl

/-- Effect of `new OclArrayRep (n)` on the heap. -/
theorem create_spec {α : Type} [Inhabited α] (dev : Device) (n : Int) (w : World α) :
    (∀ e w', OclArrayRep.create dev n w = (.error e, w') →
      w'.heap = w.heap ∧ w'.nil_rep = w.nil_rep) ∧
    (∀ p w', OclArrayRep.create dev n w = (.ok p, w') →
      p = w.heap.length ∧ w'.nil_rep = w.nil_rep ∧
      ∃ rn : OclArrayRep α, w'.heap = w.heap ++ [some rn] ∧ rn.count = 1 ∧ rn.len = n) := by
  unfold OclArrayRep.create
  by_cases hn : n > 0
  · simp only [hn, if_true]
    have hh := allocate_heap dev n w
    cases hal : OclArrayRep.allocate dev n w with
    | mk res w1 =>
      rw [hal] at hh
      cases res with
      | error e =>
        refine ⟨?_, ?_⟩
        · intro e' w' h
          cases h
          exact hh
        · intro p w' h
          cases h
      | ok o =>
        refine ⟨?_, ?_⟩
        · intro e' w' h
          cases h
        · intro p w' h
          simp only [World.newRep, Prod.mk.injEq, Except.ok.injEq] at h
          obtain ⟨hp, hw⟩ := h
          subst hw
          refine ⟨?_, hh.2, ⟨some o, n, 1, List.replicate n.toNat default⟩, ?_, rfl, rfl⟩
          · rw [← hp, hh.1]
          · rw [show w1.heap = w.heap from hh.1]
  · simp only [hn, if_false]
    refine ⟨?_, ?_⟩
    · intro e w' h
      cases h
    · intro p w' h
      simp only [World.newRep, Prod.mk.injEq, Except.ok.injEq] at h
      obtain ⟨hp, hw⟩ := h
      subst hw
      exact ⟨hp.symm, rfl, ⟨none, n, 1, []⟩, rfl, rfl, rfl⟩

/-- Effect of `new OclArrayRep (d, l)` on the heap. -/
theorem createHost_spec {α : Type} (dev : Device) (d : List α) (n : Int) (w : World α) :
    (∀ e w', OclArrayRep.createHost dev d n w = (.error e, w') →
      w'.heap = w.heap ∧ w'.nil_rep = w.nil_rep) ∧
    (∀ p w', OclArrayRep.createHost dev d n w = (.ok p, w') →
      p = w.heap.length ∧ w'.nil_rep = w.nil_rep ∧
      ∃ rn : OclArrayRep α, w'.heap = w.heap ++ [some rn] ∧ rn.count = 1 ∧ rn.len = n) := by
  unfold OclArrayRep.createHost
  by_cases hn : n > 0
  · simp only [hn, if_true]
    have hh := allocate_heap dev n w
    cases hal : OclArrayRep.allocate dev n w with
    | mk res w1 =>
      rw [hal] at hh
      cases res with
      | error e =>
        refine ⟨?_, ?_⟩
        · intro e' w' h
          cases h
          exact hh
        · intro p w' h
          cases h
      | ok o =>
        simp only
        by_cases h1 : opencl_context_id_active w1.ctx o.assctd_ctx_id = true
        · simp only [h1, Bool.not_true, Bool.false_eq_true, if_false]
          refine ⟨?_, ?_⟩
          · intro e' w' h
            cases h
          · intro p w' h
            simp only [World.newRep, Prod.mk.injEq, Except.ok.injEq] at h
            obtain ⟨hp, hw⟩ := h
            subst hw
            refine ⟨?_, hh.2, ⟨some o, n, 1, d.take n.toNat⟩, ?_, rfl, rfl⟩
            · rw [← hp, hh.1]
            · rw [show w1.heap = w.heap from hh.1]
        · simp only [Bool.not_eq_true] at h1
          simp only [h1, Bool.not_false, if_true]
          refine ⟨?_, ?_⟩
          · intro e' w' h
            cases h
            exact hh
          · intro p w' h
            cases h
  · simp only [hn, if_false]
    refine ⟨?_, ?_⟩
    · intro e w' h
      cases h
    · intro p w' h
      simp only [World.newRep, Prod.mk.injEq, Except.ok.injEq] at h
      obtain ⟨hp, hw⟩ := h
      subst hw
      exact ⟨hp.symm, rfl, ⟨none, n, 1, []⟩, rfl, rfl, rfl⟩

/-! ## Counting the objects that point at a rep -/

theorem refs_append (hs : List (Option OclArray)) (h : Option OclArray) (p : Nat) :
    refs (hs ++ [h]) p = refs hs p + (if pointsTo p h = true then 1 else 0) := by
  unfold refs
  rw [List.countP_append]
  simp [List.countP_cons]

theorem refs_set (hs : List (Option OclArray)) (i : Nat) (h0 h : Option OclArray) (p : Nat)
    (hi : hs[i]? = some h0) :
    refs (hs.set i h) p + (if pointsTo p h0 = true then 1 else 0)
      = refs hs p + (if pointsTo p h = true then 1 else 0) := by
  induction hs generalizing i with
  | nil => simp at hi
  | cons x t ih =>
    cases i with
    | zero =>
      simp only [List.getElem?_cons_zero, Option.some.injEq] at hi
      subst hi
      simp only [List.set_cons_zero, refs, List.countP_cons]
      omega
    | succ k =>
      simp only [List.getElem?_cons_succ] at hi
      have := ih k hi
      simp only [List.set_cons_succ, refs, List.countP_cons] at this ⊢
      omega

theorem refs_pos (hs : List (Option OclArray)) (i : Nat) (a : OclArray)
    (hi : hs[i]? = some (some a)) : 1 ≤ refs hs a.rep := by
  have h := refs_set hs i (some a) none a.rep hi
  simp [pointsTo] at h
  omega

theorem refs_two (hs : List (Option OclArray)) (i j : Nat) (a b : OclArray)
    (hij : i ≠ j) (hi : hs[i]? = some (some a)) (hj : hs[j]? = some (some b))
    (hab : b.rep = a.rep) : 2 ≤ refs hs a.rep := by
  have h := refs_set hs i (some a) none a.rep hi
  have hj' : (hs.set i none)[j]? = some (some b) := by
    rw [List.getElem?_set_ne hij]
    exact hj
  have h2 := refs_pos (hs.set i none) j b hj'
  rw [hab] at h2
  simp [pointsTo] at h
  omega

theorem handle?_eq_some {α : Type} (M : Machine α) (i : Nat) (a : OclArray) :
    M.handle? i = some a ↔ M.handles[i]? = some (some a) := by
  unfold Machine.handle?
  cases h : M.handles[i]? with
  | none => simp
  | some o =>
    cases o with
    | none => simp
    | some b => simp

/-- The invariant at an address in terms of the count found there, the number
of objects pointing there and whether the address is that of the nil rep. -/
theorem refInvAt_iff {α : Type} (M : Machine α) (p : Nat) :
    RefInvAt M p ↔
      match (M.w.rep? p).map (fun r => r.count) with
      | none => refs M.handles p = 0 ∧ M.w.nil_rep ≠ some p
      | some c =>
        c = (refs M.handles p : Int) + (if M.w.nil_rep = some p then 1 else 0) ∧ 1 ≤ c := by
  unfold RefInvAt
  cases M.w.rep? p <;> simp

/-- An object in the store points at a live rep. -/
theorem live_of_handle {α : Type} (M : Machine α) (hinv : RefInv M) (i : Nat) (a : OclArray)
    (ha : M.handle? i = some a) : ∃ r, M.w.rep? a.rep = some r ∧
      r.count = (refs M.handles a.rep : Int) + (if M.w.nil_rep = some a.rep then 1 else 0) ∧
      1 ≤ refs M.handles a.rep := by
  have hpos := refs_pos M.handles i a ((handle?_eq_some M i a).mp ha)
  have h := hinv a.rep
  unfold RefInvAt at h
  cases hr : M.w.rep? a.rep with
  | none =>
    rw [hr] at h
    omega
  | some r =>
    rw [hr] at h
    exact ⟨r, rfl, h.1, hpos⟩

theorem refInv_init (α : Type) : RefInv (Machine.init α) := by
  intro p
  simp [RefInvAt, Machine.init, World.init, World.rep?, refs]

theorem refs_push (hs : List (Option OclArray)) (a : OclArray) (q : Nat) :
    (refs (hs ++ [some a]) q : Int) = refs hs q + (if a.rep = q then 1 else 0) := by
  rw [refs_append]
  by_cases h : a.rep = q <;> simp [pointsTo, h]

theorem refs_set_some (hs : List (Option OclArray)) (i : Nat) (a b : OclArray) (q : Nat)
    (hi : hs[i]? = some (some a)) :
    (refs (hs.set i (some b)) q : Int)
      = refs hs q - (if a.rep = q then 1 else 0) + (if b.rep = q then 1 else 0) := by
  have h := refs_set hs i (some a) (some b) q hi
  by_cases h1 : a.rep = q <;> by_cases h2 : b.rep = q <;> simp [pointsTo, h1, h2] at h ⊢ <;> omega

theorem refs_set_none (hs : List (Option OclArray)) (i : Nat) (a : OclArray) (q : Nat)
    (hi : hs[i]? = some (some a)) :
    (refs (hs.set i none) q : Int) = refs hs q - (if a.rep = q then 1 else 0) := by
  have h := refs_set hs i (some a) none q hi
  by_cases h1 : a.rep = q <;> simp [pointsTo, h1] at h ⊢ <;> omega

/-- The invariant at an address, read off the count stored there. -/
theorem refInvAt_intro {α : Type} (M : Machine α) (p : Nat) :
    (M.w.rep? p = none → refs M.handles p = 0 ∧ M.w.nil_rep ≠ some p) →
    (∀ r, M.w.rep? p = some r →
      r.count = (refs M.handles p : Int) + (if M.w.nil_rep = some p then 1 else 0)
        ∧ 1 ≤ r.count) →
    RefInvAt M p := by
  intro h1 h2
  unfold RefInvAt
  cases h : M.w.rep? p with
  | none => exact h1 h
  | some r => exact h2 r h

theorem refInvAt_none {α : Type} (M : Machine α) (p : Nat) (h : RefInvAt M p)
    (hr : M.w.rep? p = none) : refs M.handles p = 0 ∧ M.w.nil_rep ≠ some p := by
  unfold RefInvAt at h
  rw [hr] at h
  exact h

theorem refInvAt_some {α : Type} (M : Machine α) (p : Nat) (r : OclArrayRep α)
    (h : RefInvAt M p) (hr : M.w.rep? p = some r) :
    r.count = (refs M.handles p : Int) + (if M.w.nil_rep = some p then 1 else 0)
      ∧ 1 ≤ r.count := by
  unfold RefInvAt at h
  rw [hr] at h
  exact h

/-- The invariant carries over to an address at which the rep, the number of
objects and the role as nil rep are the same in both states. -/
theorem refInvAt_same {α : Type} (M M' : Machine α) (p : Nat) (h : RefInvAt M p)
    (hrep : M'.w.rep? p = M.w.rep? p) (hrefs : (refs M'.handles p : Int) = refs M.handles p)
    (hnil : M'.w.nil_rep = M.w.nil_rep) : RefInvAt M' p := by
  unfold RefInvAt at h ⊢
  rw [hrep, hnil]
  have : refs M'.handles p = refs M.handles p := by omega
  rw [this]
  exact h

/-- The count stored at an address, 0 when no rep lives there. -/
theorem refInvAt_count {α : Type} (M : Machine α) (p : Nat) (h : RefInvAt M p) :
    (match M.w.rep? p with
      | none => (0 : Int)
      | some r => r.count)
      = (refs M.handles p : Int) + (if M.w.nil_rep = some p then 1 else 0) ∧
    (∀ r, M.w.rep? p = some r → 1 ≤ r.count) := by
  unfold RefInvAt at h
  cases hr : M.w.rep? p with
  | none =>
    rw [hr] at h
    simp only
    obtain ⟨h1, h2⟩ := h
    simp [h1, h2]
  | some r =>
    rw [hr] at h
    simp only
    refine ⟨h.1, ?_⟩
    intro r' hr'
    cases hr'
    exact h.2

/-- The master step of the refcount argument.  At the address `p` the number of
objects changes by `d` and the role as nil rep may change; if the count found
at `p` afterwards is the old count changed by the same amounts, no rep being
left there when that is 0, the invariant holds at `p` afterwards. -/
theorem refInvAt_balanced {α : Type} (M M' : Machine α) (p : Nat) (d : Int)
    (h : RefInvAt M p)
    (hrefs : (refs M'.handles p : Int) = refs M.handles p + d)
    (hcount : ∀ c' : Int,
      c' = (match M.w.rep? p with
              | none => (0 : Int)
              | some r => r.count) + d
            + (if M'.w.nil_rep = some p then 1 else 0)
            - (if M.w.nil_rep = some p then 1 else 0) →
      (c' = 0 → M'.w.rep? p = none) ∧
      (c' ≠ 0 → ∃ r', M'.w.rep? p = some r' ∧ r'.count = c')) :
    RefInvAt M' p := by
  obtain ⟨h0, _⟩ := refInvAt_count M p h
  obtain ⟨hz, hnz⟩ := hcount _ rfl
  rw [h0] at hz hnz
  have key : (refs M.handles p : Int) + (if M.w.nil_rep = some p then 1 else 0) + d
        + (if M'.w.nil_rep = some p then 1 else 0)
        - (if M.w.nil_rep = some p then 1 else 0)
      = (refs M'.handles p : Int) + (if M'.w.nil_rep = some p then 1 else 0) := by
    rw [hrefs]
    ring
  rw [key] at hz hnz
  apply refInvAt_intro
  · intro hnone
    by_cases hc : (refs M'.handles p : Int) + (if M'.w.nil_rep = some p then 1 else 0) = 0
    · by_cases hn' : M'.w.nil_rep = some p
      · simp only [hn', if_true] at hc
        omega
      · simp only [hn', if_false] at hc
        exact ⟨by omega, hn'⟩
    · obtain ⟨r', hr', _⟩ := hnz hc
      rw [hnone] at hr'
      cases hr'
  · intro r hsome
    by_cases hc : (refs M'.handles p : Int) + (if M'.w.nil_rep = some p then 1 else 0) = 0
    · rw [hz hc] at hsome
      cases hsome
    · obtain ⟨r', hr', hc'⟩ := hnz hc
      rw [hsome] at hr'
      cases hr'
      rw [hc']
      refine ⟨rfl, ?_⟩
      by_cases hn' : M'.w.nil_rep = some p
      · simp only [hn', if_true] at hc ⊢
        omega
      · simp only [hn', if_false] at hc ⊢
        omega

/-- An address that an operation does not touch. -/
theorem refInvAt_untouched {α : Type} (M M' : Machine α) (p : Nat) (h : RefInvAt M p)
    (hrep : M'.w.rep? p = M.w.rep? p)
    (hrefs : (refs M'.handles p : Int) = refs M.handles p + 0)
    (hnil : M'.w.nil_rep = M.w.nil_rep) : RefInvAt M' p :=
  refInvAt_same M M' p h hrep (by omega) hnil

/-- The destructor keeps the refcount invariant. -/
theorem refInv_destroy {α : Type} (M : Machine α) (hinv : RefInv M) (i : Nat) (a : OclArray)
    (ha : M.handle? i = some a) :
    RefInv { w := a.destroy M.w, handles := M.handles.set i none } := by
  obtain ⟨r, hr, hcnt, hpos⟩ := live_of_handle M hinv i a ha
  obtain ⟨_, hnil, _, hrep⟩ := unref_spec M.w a.rep r hr
  have hi := (handle?_eq_some M i a).mp ha
  intro q
  apply refInvAt_balanced M _ q (-(if a.rep = q then 1 else 0)) (hinv q)
  · rw [refs_set_none M.handles i a q hi]
    rfl
  · intro c' hc'
    simp only [OclArray.destroy, hrep q, hnil] at hc' ⊢
    by_cases hqa : q = a.rep
    · subst hqa
      simp only [hr, if_true] at hc' ⊢
      have : c' = r.count - 1 := by omega
      subst this
      constructor
      · intro h0
        rw [if_pos h0]
      · intro h0
        rw [if_neg h0]
        exact ⟨_, rfl, rfl⟩
    · simp only [hqa, Ne.symm hqa, if_false] at hc' ⊢
      obtain ⟨_, hge⟩ := refInvAt_count M q (hinv q)
      cases hq : M.w.rep? q with
      | none =>
        rw [hq] at hc'
        constructor
        · intro _
          rfl
        · intro h0
          simp only at hc'
          omega
      | some r0 =>
        rw [hq] at hc'
        have := hge r0 hq
        simp only at hc'
        constructor
        · intro h0
          omega
        · intro _
          exact ⟨r0, rfl, by omega⟩

/-! ## Results of the operations that make a view -/

theorem mkSlice_result {α : Type} (a b : OclArray) (dv : dim_vector) (l u : Int)
    (w w' : World α) (h : a.mkSlice dv l u w = (.ok b, w')) :
    (∃ r, w.rep? a.rep = some r ∧ r.is_valid w.ctx = true) ∧ w' = w.incCount a.rep ∧
    b = { dimensions := dv.chop_trailing_singletons, rep := a.rep,
          slice_ofs := a.slice_ofs + l, slice_len := u - l, is_logical := a.is_logical } := by
  unfold OclArray.mkSlice at h
  cases hr : w.rep? a.rep with
  | none =>
    rw [hr] at h
    cases h
  | some r =>
    rw [hr] at h
    by_cases hv : r.is_valid w.ctx = true
    · simp only [hv, Bool.not_true, Bool.false_eq_true, if_false, Prod.mk.injEq,
        Except.ok.injEq] at h
      exact ⟨⟨r, rfl, hv⟩, h.2.symm, h.1.symm⟩
    · simp only [Bool.not_eq_true] at hv
      simp [hv] at h

theorem mkReshape_result {α : Type} (a b : OclArray) (dv : dim_vector)
    (w w' : World α) (h : a.mkReshape dv w = (.ok b, w')) :
    (∃ r, w.rep? a.rep = some r ∧ r.is_valid w.ctx = true) ∧ w' = w.incCount a.rep ∧
    ((dv.safe_numel : Nat) : Int) = a.numel ∧
    b = { dimensions := dv.chop_trailing_singletons, rep := a.rep,
          slice_ofs := a.slice_ofs, slice_len := a.slice_len, is_logical := a.is_logical } := by
  unfold OclArray.mkReshape at h
  cases hr : w.rep? a.rep with
  | none =>
    rw [hr] at h
    cases h
  | some r =>
    rw [hr] at h
    by_cases hv : r.is_valid w.ctx = true
    · by_cases hn : ((dv.safe_numel : Nat) : Int) = a.numel
      · simp only [hv, hn, Bool.not_true, Bool.false_eq_true, if_false, ne_eq,
          not_true_eq_false, Prod.mk.injEq, Except.ok.injEq] at h
        exact ⟨⟨r, rfl, hv⟩, h.2.symm, hn, h.1.symm⟩
      · simp [hv, hn] at h
    · simp only [Bool.not_eq_true] at hv
      simp [hv] at h

theorem assure_valid_result {α : Type} (a : OclArray) (w : World α)
    (h : a.assure_valid w = .ok ()) : ∃ r, w.rep? a.rep = some r ∧ r.is_valid w.ctx = true := by
  unfold OclArray.assure_valid at h
  cases hr : w.rep? a.rep with
  | none =>
    rw [hr] at h
    cases h
  | some r =>
    rw [hr] at h
    by_cases hv : r.is_valid w.ctx = true
    · exact ⟨r, rfl, hv⟩
    · simp [hv] at h

theorem column_result {α : Type} (a b : OclArray) (k : Int) (w w' : World α)
    (h : a.column k w = (.ok b, w')) :
    0 ≤ k ∧ k ≤ (a.dimensions.numel 1 : Int) ∧ w' = w.incCount a.rep ∧
    b = { dimensions := dim_vector.chop_trailing_singletons [a.dimensions.elem 0, 1],
          rep := a.rep, slice_ofs := a.slice_ofs + k * (a.dimensions.elem 0 : Int),
          slice_len := (a.dimensions.elem 0 : Int), is_logical := a.is_logical } := by
  unfold OclArray.column at h
  cases hv : a.assure_valid w with
  | error e =>
    rw [hv] at h
    cases h
  | ok u =>
    rw [hv] at h
    simp only at h
    by_cases hk : k < 0 ∨ k > (a.dimensions.numel 1 : Int)
    · simp [hk] at h
    · simp only [hk, if_false] at h
      obtain ⟨_, hw, hb⟩ := mkSlice_result a b _ _ _ w w' h
      refine ⟨by omega, by omega, hw, ?_⟩
      rw [hb]
      simp

theorem page_result {α : Type} (a b : OclArray) (k : Int) (w w' : World α)
    (h : a.page k w = (.ok b, w')) :
    0 ≤ k ∧ k ≤ (a.dimensions.numel 2 : Int) ∧ w' = w.incCount a.rep ∧
    b = { dimensions :=
            dim_vector.chop_trailing_singletons [a.dimensions.elem 0, a.dimensions.elem 1],
          rep := a.rep,
          slice_ofs := a.slice_ofs
            + k * ((a.dimensions.elem 0 : Int) * (a.dimensions.elem 1 : Int)),
          slice_len := (a.dimensions.elem 0 : Int) * (a.dimensions.elem 1 : Int),
          is_logical := a.is_logical } := by
  unfold OclArray.page at h
  cases hv : a.assure_valid w with
  | error e =>
    rw [hv] at h
    cases h
  | ok u =>
    rw [hv] at h
    simp only at h
    by_cases hk : k < 0 ∨ k > (a.dimensions.numel 2 : Int)
    · simp [hk] at h
    · simp only [hk, if_false] at h
      obtain ⟨_, hw, hb⟩ := mkSlice_result a b _ _ _ w w' h
      refine ⟨by omega, by omega, hw, ?_⟩
      rw [hb]
      simp

theorem linear_slice_result {α : Type} (a b : OclArray) (lo up : Int) (w w' : World α)
    (h : a.linear_slice lo up w = (.ok b, w')) :
    0 ≤ lo ∧ up ≤ a.numel ∧ w' = w.incCount a.rep ∧
    b = { dimensions :=
            dim_vector.chop_trailing_singletons [((if up < lo then lo else up) - lo).toNat, 1],
          rep := a.rep, slice_ofs := a.slice_ofs + lo,
          slice_len := (if up < lo then lo else up) - lo, is_logical := a.is_logical } := by
  unfold OclArray.linear_slice at h
  cases hv : a.assure_valid w with
  | error e =>
    rw [hv] at h
    cases h
  | ok u =>
    rw [hv] at h
    simp only at h
    by_cases h1 : lo < 0
    · simp [h1] at h
    · by_cases h2 : up > a.numel
      · simp [h1, h2] at h
      · simp only [h1, h2, if_false] at h
        obtain ⟨_, hw, hb⟩ := mkSlice_result a b _ _ _ w w' h
        exact ⟨by omega, by omega, hw, hb⟩

theorem index_result {α : Type} (a b : OclArray) (ia : List idx_vector) (w w' : World α)
    (h : a.index ia w = (.ok b, w')) :
    (ia.length = 0 ∧ (b, w') = OclArray.mkEmpty w) ∨
    (ia.length ≠ 0 ∧ ∃ dv rdv l u, a.index_helper ia = .ok (dv, rdv, true, l, u) ∧
      a.mkReshape dv.chop_trailing_singletons w = (.ok b, w')) ∨
    (ia.length ≠ 0 ∧ ∃ dv rdv l u, a.index_helper ia = .ok (dv, rdv, false, l, u) ∧
      a.mkSlice rdv l u w = (.ok b, w')) := by
  unfold OclArray.index at h
  cases hv : a.assure_valid w with
  | error e =>
    rw [hv] at h
    cases h
  | ok u =>
    rw [hv] at h
    simp only at h
    by_cases h0 : ia.length = 0
    · left
      simp only [h0, if_true, Prod.mk.injEq, Except.ok.injEq] at h
      exact ⟨h0, by rw [← h.1, ← h.2]⟩
    · right
      simp only [h0, if_false] at h
      cases hh : a.index_helper ia with
      | error e =>
        rw [hh] at h
        cases h
      | ok t =>
        obtain ⟨dv, rdv, ac, l, u⟩ := t
        rw [hh] at h
        simp only at h
        cases ac with
        | true =>
          left
          simp only [if_true] at h
          exact ⟨h0, dv, rdv, l, u, rfl, h⟩
        | false =>
          right
          simp only [Bool.false_eq_true, if_false] at h
          exact ⟨h0, dv, rdv, l, u, rfl, h⟩

/-! ## The refcount invariant is kept by every operation -/

/-- A new object on a rep that is alive, whose count goes up by one. -/
theorem refInv_push_inc {α : Type} (M : Machine α) (hinv : RefInv M) (p : Nat)
    (r : OclArrayRep α) (b : OclArray) (hr : M.w.rep? p = some r) (hb : b.rep = p) :
    RefInv { w := M.w.incCount p, handles := M.handles ++ [some b] } := by
  obtain ⟨_, hnil, _, hrep⟩ := incCount_spec M.w p r hr
  intro q
  by_cases hq : q = p
  · subst hq
    obtain ⟨h1, h2⟩ := refInvAt_some M q r (hinv q) hr
    apply refInvAt_intro
    · intro hnone
      simp only [hrep q, if_true] at hnone
      cases hnone
    · intro r' hsome
      simp only [hrep q, if_true, Option.some.injEq] at hsome
      subst hsome
      simp only [hnil, refs_push, hb, if_true]
      constructor <;> omega
  · apply refInvAt_same M _ q (hinv q)
    · simp only [hrep q, hq, if_false]
    · simp only [refs_push, hb, Ne.symm hq, if_false, add_zero]
    · exact hnil

/-- A new object on a rep made for it at a fresh address. -/
theorem refInv_push_new {α : Type} (M : Machine α) (hinv : RefInv M) (w' : World α)
    (rn : OclArrayRep α) (b : OclArray) (hb : b.rep = M.w.heap.length)
    (hnil : w'.nil_rep = M.w.nil_rep) (hcount : rn.count = 1)
    (hrep : ∀ q, w'.rep? q = if q = M.w.heap.length then some rn else M.w.rep? q) :
    RefInv { w := w', handles := M.handles ++ [some b] } := by
  intro q
  by_cases hq : q = M.w.heap.length
  · subst hq
    obtain ⟨h1, h2⟩ := refInvAt_none M _ (hinv _) (rep?_fresh M.w)
    apply refInvAt_intro
    · intro hnone
      simp only [hrep, if_true] at hnone
      cases hnone
    · intro r' hsome
      simp only [hrep, if_true, Option.some.injEq] at hsome
      subst hsome
      simp only [hnil, refs_push, hb, if_true, h2, if_false, h1]
      constructor <;> omega
  · apply refInvAt_same M _ q (hinv q)
    · simp only [hrep q, hq, if_false]
    · simp only [refs_push, hb, Ne.symm hq, if_false, add_zero]
    · exact hnil

/-- The empty constructor keeps the refcount invariant. -/
theorem refInv_mkEmpty {α : Type} (M : Machine α) (hinv : RefInv M) :
    RefInv { w := (OclArray.mkEmpty M.w).2, handles := M.handles ++ [some (OclArray.mkEmpty M.w).1] }
    := by
  obtain ⟨hsome, hnone⟩ := nil_rep_spec M.w
  cases hn : M.w.nil_rep with
  | some p0 =>
    have h1 := hsome p0 hn
    have hlive : ∃ r, M.w.rep? p0 = some r := by
      cases hr : M.w.rep? p0 with
      | none => exact absurd hn (refInvAt_none M p0 (hinv p0) hr).2
      | some r => exact ⟨r, rfl⟩
    obtain ⟨r, hr⟩ := hlive
    have : OclArray.mkEmpty M.w =
        ({ dimensions := [0, 0], rep := p0, slice_ofs := 0, slice_len := M.w.repLen p0,
           is_logical := false }, M.w.incCount p0) := by
      simp only [OclArray.mkEmpty, h1]
    rw [this]
    exact refInv_push_inc M hinv p0 r _ hr rfl
  | none =>
    obtain ⟨h1, _, h3, _, h5⟩ := hnone hn
    have hlive : (nil_rep M.w).2.rep? M.w.heap.length
        = some { memobj := none, len := 0, count := 1, data := [] } := by
      rw [h5]
      simp
    obtain ⟨_, i2, _, i4⟩ := incCount_spec (nil_rep M.w).2 M.w.heap.length _ hlive
    have : ∃ b : OclArray, OclArray.mkEmpty M.w =
        (b, (nil_rep M.w).2.incCount M.w.heap.length) ∧ b.rep = M.w.heap.length := by
      refine ⟨(OclArray.mkEmpty M.w).1, ?_, ?_⟩
      · simp only [OclArray.mkEmpty, h1]
      · exact h1
    obtain ⟨b, hb, hbrep⟩ := this
    rw [hb]
    intro q
    by_cases hq : q = M.w.heap.length
    · subst hq
      obtain ⟨g1, g2⟩ := refInvAt_none M _ (hinv _) (rep?_fresh M.w)
      apply refInvAt_intro
      · intro hx
        simp only [i4, if_true] at hx
        cases hx
      · intro r' hx
        simp only [i4, if_true, Option.some.injEq] at hx
        subst hx
        simp only [i2, h3, refs_push, hbrep, if_true, g1]
        constructor <;> norm_num
    · have e1 : ¬ (some M.w.heap.length = some q) := by
        simp only [Option.some.injEq]
        exact Ne.symm hq
      have e2 : ¬ (M.w.nil_rep = some q) := by
        simp [hn]
      have hrefs : refs (M.handles ++ [some b]) q = refs M.handles q := by
        have := refs_push M.handles b q
        simp only [hbrep, Ne.symm hq, if_false, add_zero] at this
        omega
      have hrepq : ((nil_rep M.w).2.incCount M.w.heap.length).rep? q = M.w.rep? q := by
        simp only [i4, hq, if_false, h5]
      apply refInvAt_intro
      · intro hx
        simp only [hrepq] at hx
        obtain ⟨g1, _⟩ := refInvAt_none M q (hinv q) hx
        simp only [hrefs, i2, h3]
        exact ⟨g1, e1⟩
      · intro r' hx
        simp only [hrepq] at hx
        obtain ⟨g1, g2⟩ := refInvAt_some M q r' (hinv q) hx
        simp only [hrefs, i2, h3, e1, if_false]
        simp only [e2, if_false] at g1
        exact ⟨g1, g2⟩

/-- The invariant depends on the state only through the counts, the nil rep
and the number of objects at each address. -/
theorem refInv_congr {α : Type} (M M' : Machine α) (hinv : RefInv M)
    (hrep : ∀ q, (M'.w.rep? q).map (fun r => r.count) = (M.w.rep? q).map (fun r => r.count))
    (hnil : M'.w.nil_rep = M.w.nil_rep)
    (hrefs : ∀ q, refs M'.handles q = refs M.handles q) : RefInv M' := by
  intro q
  have h := (refInvAt_iff M q).mp (hinv q)
  rw [refInvAt_iff, hrep q, hnil, hrefs q]
  exact h

theorem refs_replace (hs : List (Option OclArray)) (i : Nat) (a b : OclArray) (q : Nat)
    (hi : hs[i]? = some (some a)) :
    refs (hs.set i (some b)) q = refs (hs.set i none ++ [some b]) q := by
  have h1 := refs_set_some hs i a b q hi
  have h2 := refs_set_none hs i a q hi
  have h3 := refs_push (hs.set i none) b q
  omega

/-- Object `i` leaves its rep and becomes the only object on a rep made for it
at a fresh address. -/
theorem refInv_replace_new {α : Type} (M : Machine α) (hinv : RefInv M) (i : Nat)
    (a : OclArray) (ha : M.handle? i = some a) (w' : World α)
    (rn : OclArrayRep α) (b : OclArray) (hb : b.rep = M.w.heap.length)
    (hnil : w'.nil_rep = M.w.nil_rep) (hcount : rn.count = 1)
    (hrep : ∀ q, w'.rep? q = if q = M.w.heap.length then some rn
      else (M.w.unref a.rep).rep? q) :
    RefInv { w := w', handles := M.handles.set i (some b) } := by
  obtain ⟨r, hr, _, _⟩ := live_of_handle M hinv i a ha
  obtain ⟨hlen, hnil1, _, _⟩ := unref_spec M.w a.rep r hr
  have h1 := refInv_destroy M hinv i a ha
  have h2 := refInv_push_new _ h1 w' rn b (by simp only [OclArray.destroy, hlen, hb])
    (by simp only [OclArray.destroy, hnil1, hnil]) hcount
    (by
      intro q
      simp only [OclArray.destroy, hlen]
      exact hrep q)
  apply refInv_congr _ _ h2
  · intro q
    rfl
  · rfl
  · intro q
    exact refs_replace M.handles i a b q ((handle?_eq_some M i a).mp ha)

/-- Object `i` leaves its rep and becomes one more object on a rep that stays
alive. -/
theorem refInv_replace_inc {α : Type} (M : Machine α) (hinv : RefInv M) (i : Nat)
    (a : OclArray) (ha : M.handle? i = some a) (p : Nat) (r : OclArrayRep α) (b : OclArray)
    (hb : b.rep = p) (hr : (M.w.unref a.rep).rep? p = some r) :
    RefInv { w := (M.w.unref a.rep).incCount p, handles := M.handles.set i (some b) } := by
  have h1 := refInv_destroy M hinv i a ha
  have h2 := refInv_push_inc _ h1 p r b hr hb
  apply refInv_congr _ _ h2
  · intro q
    rfl
  · rfl
  · intro q
    exact refs_replace M.handles i a b q ((handle?_eq_some M i a).mp ha)

/-- Effect of the kernel `ocl_fill` on the heap: only the data of the rep of the
array changes. -/
theorem fillRange_spec {α : Type} (dev : Device) (self : OclArray) (ofs len : Int) (val : α)
    (w : World α) :
    (∀ e w', self.fillRange dev ofs len val w = (.error e, w') → w' = w) ∧
    (∀ w', self.fillRange dev ofs len val w = (.ok (), w') →
      ∃ r d, w.rep? self.rep = some r ∧ r.is_valid w.ctx = true ∧ 0 ≤ ofs ∧ 0 < len ∧
        d = writeRange r.data ofs.toNat len.toNat (fun _ => val) ∧
        w' = w.setRep self.rep { r with data := d }) := by
  unfold OclArray.fillRange
  cases hr : w.rep? self.rep with
  | none =>
    refine ⟨?_, ?_⟩
    · intro e w' h
      cases h
      rfl
    · intro w' h
      cases h
  | some r =>
    simp only
    by_cases hv : r.is_valid w.ctx = true
    · by_cases hp : dev.array_prog_ok = true
      · simp only [hv, hp, Bool.not_true, Bool.false_eq_true, if_false]
        unfold checkWork
        by_cases h0 : len = 0
        · simp only [h0, if_true]
          refine ⟨?_, ?_⟩
          · intro e w' h
            cases h
            rfl
          · intro w' h
            cases h
        · by_cases h1 : len < 0 ∨ ofs < 0
          · simp only [h0, h1, if_true, if_false]
            refine ⟨?_, ?_⟩
            · intro e w' h
              cases h
              rfl
            · intro w' h
              cases h
          · simp only [h0, h1, if_false]
            refine ⟨?_, ?_⟩
            · intro e w' h
              cases h
            · intro w' h
              simp only [Prod.mk.injEq, true_and] at h
              exact ⟨r, _, rfl, hv, by omega, by omega, rfl, h.symm⟩
      · simp only [Bool.not_eq_true] at hp
        simp only [hv, hp, Bool.not_true, Bool.false_eq_true, if_false, Bool.not_false, if_true]
        refine ⟨?_, ?_⟩
        · intro e w' h
          cases h
          rfl
        · intro w' h
          cases h
    · simp only [Bool.not_eq_true] at hv
      simp only [hv, Bool.not_false, if_true]
      refine ⟨?_, ?_⟩
      · intro e w' h
        cases h
        rfl
      · intro w' h
        cases h

theorem mkDims_result {α : Type} [Inhabited α] (dev : Device) (dv : dim_vector) (b : OclArray)
    (w w' : World α) (h : OclArray.mkDims dev dv w = (.ok b, w')) :
    b.rep = w.heap.length ∧ w'.nil_rep = w.nil_rep ∧
    b.dimensions = dv.chop_trailing_singletons ∧ b.slice_ofs = 0 ∧
    ∃ rn : OclArrayRep α, w'.heap = w.heap ++ [some rn] ∧ rn.count = 1 ∧
      rn.len = (dv.safe_numel : Int) ∧ b.slice_len = rn.len := by
  unfold OclArray.mkDims at h
  obtain ⟨_, hok⟩ := create_spec dev (dv.safe_numel : Int) w
  cases hc : OclArrayRep.create dev (dv.safe_numel : Int) w with
  | mk res w1 =>
    rw [hc] at h
    cases res with
    | error e => cases h
    | ok p =>
      simp only [Prod.mk.injEq, Except.ok.injEq] at h
      obtain ⟨hb, hw⟩ := h
      subst hw
      obtain ⟨hp, hnil, rn, hheap, hcount, hlen⟩ := hok p w1 hc
      subst hb
      refine ⟨hp, hnil, rfl, rfl, rn, hheap, hcount, hlen, ?_⟩
      have hq : w1.rep? p = some rn := by
        rw [rep?_of_heap_append w w1 rn hheap p, if_pos hp]
      simp only [World.repLen, hq]

theorem mkHost_result {α : Type} (dev : Device) (d : List α) (dv : dim_vector) (b : OclArray)
    (w w' : World α) (h : OclArray.mkHost dev d dv w = (.ok b, w')) :
    b.rep = w.heap.length ∧ w'.nil_rep = w.nil_rep ∧
    b.dimensions = dv ∧ b.slice_ofs = 0 ∧
    ∃ rn : OclArrayRep α, w'.heap = w.heap ++ [some rn] ∧ rn.count = 1 ∧
      rn.len = (dv.safe_numel : Int) ∧ b.slice_len = rn.len := by
  unfold OclArray.mkHost at h
  obtain ⟨_, hok⟩ := createHost_spec dev d (dv.safe_numel : Int) w
  cases hc : OclArrayRep.createHost dev d (dv.safe_numel : Int) w with
  | mk res w1 =>
    rw [hc] at h
    cases res with
    | error e => cases h
    | ok p =>
      simp only [Prod.mk.injEq, Except.ok.injEq] at h
      obtain ⟨hb, hw⟩ := h
      subst hw
      obtain ⟨hp, hnil, rn, hheap, hcount, hlen⟩ := hok p w1 hc
      subst hb
      exact ⟨hp, hnil, rfl, rfl, rn, hheap, hcount, hlen, hlen.symm⟩

theorem mkFill_result {α : Type} [Inhabited α] (dev : Device) (dv : dim_vector) (val : α)
    (b : OclArray) (w w' : World α) (h : OclArray.mkFill dev dv val w = (.ok b, w')) :
    b.rep = w.heap.length ∧ w'.nil_rep = w.nil_rep ∧
    b.dimensions = dv.chop_trailing_singletons ∧ b.slice_ofs = 0 ∧
    ∃ rn : OclArrayRep α, (∀ q, w'.rep? q = if q = w.heap.length then some rn else w.rep? q) ∧
      w'.heap.length = w.heap.length + 1 ∧
      rn.count = 1 ∧ rn.len = (dv.safe_numel : Int) ∧ b.slice_len = rn.len := by
  unfold OclArray.mkFill at h
  cases hc : OclArray.mkDims dev dv w with
  | mk res w1 =>
    rw [hc] at h
    cases res with
    | error e => cases h
    | ok a =>
      simp only at h
      obtain ⟨h1, h2, h3, h4, rn, hheap, hcount, hlen, hsl⟩ := mkDims_result dev dv a w w1 hc
      obtain ⟨_, hok⟩ := fillRange_spec dev a a.slice_ofs a.slice_len val w1
      cases hf : a.fillRange dev a.slice_ofs a.slice_len val w1 with
      | mk res2 w2 =>
        rw [hf] at h
        cases res2 with
        | error e => cases h
        | ok u =>
          simp only [Prod.mk.injEq, Except.ok.injEq] at h
          obtain ⟨hb, hw⟩ := h
          subst hb hw
          obtain ⟨r, d, hr, _, _, _, _, hw2⟩ := hok w2 hf
          have hr' : r = rn := by
            rw [rep?_of_heap_append w w1 rn hheap, h1, if_pos rfl] at hr
            cases hr
            rfl
          subst hr'
          refine ⟨h1, ?_, h3, h4, { r with data := d }, ?_, ?_, hcount, hlen, hsl⟩
          · rw [hw2]
            exact h2
          · intro q
            rw [hw2, rep?_setRep _ _ _ _ (rep?_lt _ _ _ hr), h1,
              rep?_of_heap_append w w1 r hheap q]
            by_cases hq : q = w.heap.length <;> simp [hq]
          · rw [hw2, heap_length_setRep, hheap]
            simp

/-- The outcome of a successful `make_unique ()`. -/
theorem make_unique_result {α : Type} (dev : Device) (a a' : OclArray) (w w' : World α)
    (r : OclArrayRep α) (hr : w.rep? a.rep = some r)
    (h : a.make_unique dev w = (.ok (), a', w')) :
    (r.count ≤ 1 ∧ a' = a ∧ w' = w) ∨
    (1 < r.count ∧ a' = { a with rep := w.heap.length, slice_ofs := 0 } ∧
      w'.nil_rep = w.nil_rep ∧ w'.heap.length = w.heap.length + 1 ∧
      ∃ rn : OclArrayRep α, rn.count = 1 ∧ rn.len = a.slice_len ∧
        (0 < a.slice_len → 0 ≤ a.slice_ofs ∧ a.slice_ofs + a.slice_len ≤ r.len ∧
          rn.data = (r.data.drop a.slice_ofs.toNat).take a.slice_len.toNat) ∧
        ∀ q, w'.rep? q = if q = w.heap.length then some rn
          else if q = a.rep then some { r with count := r.count - 1 } else w.rep? q) := by
  unfold OclArray.make_unique at h
  rw [hr] at h
  simp only at h
  by_cases hc : r.count > 1
  · right
    simp only [hc, if_true] at h
    have hlt := rep?_lt w _ _ hr
    obtain ⟨_, hok⟩ := createCopy_spec dev a.rep a.slice_ofs a.slice_len
      (w.setRep a.rep { r with count := r.count - 1 })
    cases hcc : OclArrayRep.createCopy dev a.rep a.slice_ofs a.slice_len
        (w.setRep a.rep { r with count := r.count - 1 }) with
    | mk res w2 =>
      rw [hcc] at h
      cases res with
      | error e => simp at h
      | ok p =>
        simp only [Prod.mk.injEq, true_and] at h
        obtain ⟨ha', hw'⟩ := h
        subst hw'
        obtain ⟨hp, hnil, rn, hheap, hcount, hlen, _, hpos⟩ := hok p w2 hcc
        rw [heap_length_setRep] at hp
        subst hp
        refine ⟨hc, ha'.symm, hnil, ?_, rn, hcount, hlen, ?_, ?_⟩
        · rw [hheap]
          simp [World.setRep]
        · intro h0
          obtain ⟨ra, o, hra, _, _, g1, g2, g3⟩ := hpos h0
          rw [rep?_setRep _ _ _ _ hlt, if_pos rfl] at hra
          cases hra
          exact ⟨g1, g2, g3⟩
        · intro q
          rw [rep?_of_heap_append _ w2 rn hheap q, heap_length_setRep,
            rep?_setRep _ _ _ _ hlt]
  · left
    simp only [hc, if_false, Prod.mk.injEq, true_and] at h
    exact ⟨by omega, h.1.symm, h.2.symm⟩

/-- The heap after `unref` of a rep with more than one count. -/
theorem unref_shared {α : Type} (w : World α) (p : Nat) (r : OclArrayRep α)
    (hr : w.rep? p = some r) (hc : 1 < r.count) (q : Nat) :
    (w.unref p).rep? q = if q = p then some { r with count := r.count - 1 } else w.rep? q := by
  obtain ⟨_, _, _, h⟩ := unref_spec w p r hr
  rw [h q]
  have : ¬ (r.count - 1 = 0) := by omega
  simp only [this, if_false]

theorem refs_set_self (hs : List (Option OclArray)) (i : Nat) (a : OclArray) (q : Nat)
    (hi : hs[i]? = some (some a)) : refs (hs.set i (some a)) q = refs hs q := by
  have := refs_set_some hs i a a q hi
  omega

/-- The method `make_unique ()` keeps the refcount invariant. -/
theorem refInv_make_unique {α : Type} (dev : Device) (M : Machine α) (hinv : RefInv M)
    (i : Nat) (a a' : OclArray) (w' : World α) (ha : M.handle? i = some a)
    (h : a.make_unique dev M.w = (.ok (), a', w')) :
    RefInv { w := w', handles := M.handles.set i (some a') } := by
  obtain ⟨r, hr, _, _⟩ := live_of_handle M hinv i a ha
  have hi := (handle?_eq_some M i a).mp ha
  rcases make_unique_result dev a a' M.w w' r hr h with ⟨_, h1, h2⟩ | ⟨hc, h1, hnil, _, rn, hcount, _, _, hrep⟩
  · rw [h1, h2]
    exact refInv_congr M _ hinv (fun q => rfl) rfl (fun q => refs_set_self _ i a q hi)
  · apply refInv_replace_new M hinv i a ha w' rn a' (by rw [h1]) hnil hcount
    intro q
    rw [hrep q, unref_shared M.w a.rep r hr hc q]

/-- The outcome of a successful `fill (val)`. -/
theorem fill_result {α : Type} [Inhabited α] (dev : Device) (a a' : OclArray) (val : α)
    (w w' : World α) (r : OclArrayRep α) (hr : w.rep? a.rep = some r)
    (h : a.fill dev val w = (.ok (), a', w')) :
    (r.count ≤ 1 ∧ a' = a ∧ ∃ d, w' = w.setRep a.rep { r with data := d }) ∨
    (1 < r.count ∧ a' = { a with rep := w.heap.length, slice_ofs := 0 } ∧
      w'.nil_rep = w.nil_rep ∧ w'.heap.length = w.heap.length + 1 ∧
      ∃ rn : OclArrayRep α, rn.count = 1 ∧ rn.len = a.slice_len ∧
        ∀ q, w'.rep? q = if q = w.heap.length then some rn
          else if q = a.rep then some { r with count := r.count - 1 } else w.rep? q) := by
  unfold OclArray.fill at h
  rw [hr] at h
  simp only at h
  have hlt := rep?_lt w _ _ hr
  by_cases hc : r.count > 1
  · right
    simp only [hc, if_true] at h
    obtain ⟨_, hok⟩ := create_spec dev a.slice_len
      (w.setRep a.rep { r with count := r.count - 1 })
    cases hcc : OclArrayRep.create dev a.slice_len
        (w.setRep a.rep { r with count := r.count - 1 }) with
    | mk res w2 =>
      rw [hcc] at h
      cases res with
      | error e => simp at h
      | ok p =>
        simp only at h
        obtain ⟨hp, hnil, rn, hheap, hcount, hlen⟩ := hok p w2 hcc
        rw [heap_length_setRep] at hp
        subst hp
        obtain ⟨_, hfok⟩ := fillRange_spec dev
          ({ a with rep := w.heap.length, slice_ofs := 0 } : OclArray) 0 a.slice_len val w2
        cases hf : OclArray.fillRange dev
            ({ a with rep := w.heap.length, slice_ofs := 0 } : OclArray) 0 a.slice_len val w2 with
        | mk res2 w3 =>
          rw [hf] at h
          cases res2 with
          | error e => simp at h
          | ok u =>
            simp only [Prod.mk.injEq, true_and] at h
            obtain ⟨ha', hw'⟩ := h
            subst hw'
            obtain ⟨r2, d, hr2, _, _, _, _, hw3⟩ := hfok w3 hf
            simp only at hr2 hw3
            have hnew : ∀ q, w2.rep? q = if q = w.heap.length then some rn
                else if q = a.rep then some { r with count := r.count - 1 } else w.rep? q := by
              intro q
              rw [rep?_of_heap_append _ w2 rn hheap q, heap_length_setRep,
                rep?_setRep _ _ _ _ hlt]
            have hr2' : r2 = rn := by
              rw [hnew, if_pos rfl] at hr2
              cases hr2
              rfl
            subst hr2'
            refine ⟨hc, ha'.symm, ?_, ?_, { r2 with data := d }, hcount, hlen, ?_⟩
            · rw [hw3]
              exact hnil
            · rw [hw3, heap_length_setRep, hheap]
              simp [World.setRep]
            · intro q
              rw [hw3, rep?_setRep _ _ _ _ (rep?_lt _ _ _ hr2), hnew q]
              by_cases hq : q = w.heap.length <;> simp [hq]
  · left
    simp only [hc, if_false] at h
    obtain ⟨_, hfok⟩ := fillRange_spec dev a a.slice_ofs a.slice_len val w
    cases hf : a.fillRange dev a.slice_ofs a.slice_len val w with
    | mk res2 w3 =>
      rw [hf] at h
      cases res2 with
      | error e => simp at h
      | ok u =>
        simp only [Prod.mk.injEq, true_and] at h
        obtain ⟨ha', hw'⟩ := h
        subst hw'
        obtain ⟨r2, d, hr2, _, _, _, _, hw3⟩ := hfok w3 hf
        rw [hr] at hr2
        cases hr2
        exact ⟨by omega, ha'.symm, d, hw3⟩

/-- The method `fill (val)` keeps the refcount invariant. -/
theorem refInv_fill {α : Type} [Inhabited α] (dev : Device) (M : Machine α) (hinv : RefInv M)
    (i : Nat) (a a' : OclArray) (val : α) (w' : World α) (ha : M.handle? i = some a)
    (h : a.fill dev val M.w = (.ok (), a', w')) :
    RefInv { w := w', handles := M.handles.set i (some a') } := by
  obtain ⟨r, hr, _, _⟩ := live_of_handle M hinv i a ha
  have hi := (handle?_eq_some M i a).mp ha
  rcases fill_result dev a a' val M.w w' r hr h with
    ⟨_, h1, d, h2⟩ | ⟨hc, h1, hnil, _, rn, hcount, _, hrep⟩
  · rw [h1, h2]
    apply refInv_congr M _ hinv
    · intro q
      simp only [rep?_setRep _ _ _ _ (rep?_lt _ _ _ hr)]
      by_cases hq : q = a.rep
      · simp [hq, hr]
      · simp [hq]
    · rfl
    · exact fun q => refs_set_self _ i a q hi
  · apply refInv_replace_new M hinv i a ha w' rn a' (by rw [h1]) hnil hcount
    intro q
    rw [hrep q, unref_shared M.w a.rep r hr hc q]

/-- The outcome of a successful `clear (dv)`. -/
theorem clearDims_result {α : Type} [Inhabited α] (dev : Device) (a a' : OclArray)
    (dv : dim_vector) (w w' : World α) (r : OclArrayRep α) (hr : w.rep? a.rep = some r)
    (h : a.clearDims dev dv w = (.ok (), a', w')) :
    a'.rep = w.heap.length ∧ w'.nil_rep = w.nil_rep ∧
    a'.dimensions = dv.chop_trailing_singletons ∧ a'.slice_ofs = 0 ∧
    ∃ rn : OclArrayRep α, rn.count = 1 ∧ rn.len = (dv.safe_numel : Int) ∧
      a'.slice_len = rn.len ∧
      ∀ q, w'.rep? q = if q = w.heap.length then some rn else (w.unref a.rep).rep? q := by
  unfold OclArray.clearDims at h
  simp only at h
  obtain ⟨hlen, hnil, _, _⟩ := unref_spec w a.rep r hr
  obtain ⟨_, hok⟩ := create_spec dev (dv.safe_numel : Int) (w.unref a.rep)
  cases hcc : OclArrayRep.create dev (dv.safe_numel : Int) (w.unref a.rep) with
  | mk res w2 =>
    rw [hcc] at h
    cases res with
    | error e => simp at h
    | ok p =>
      simp only [Prod.mk.injEq, true_and] at h
      obtain ⟨ha', hw'⟩ := h
      subst hw'
      obtain ⟨hp, hnil2, rn, hheap, hcount, hlen2⟩ := hok p w2 hcc
      rw [hlen] at hp
      subst hp
      have hnew : ∀ q, w2.rep? q = if q = w.heap.length then some rn
          else (w.unref a.rep).rep? q := by
        intro q
        rw [rep?_of_heap_append _ w2 rn hheap q, hlen]
      subst ha'
      refine ⟨rfl, by rw [hnil2, hnil], rfl, rfl, rn, hcount, hlen2, ?_, hnew⟩
      simp only [World.repLen, hnew, if_true]

/-- The outcome of a successful `maybe_economize ()`. -/
theorem maybe_economize_result {α : Type} (dev : Device) (a a' : OclArray) (w w' : World α)
    (r : OclArrayRep α) (hr : w.rep? a.rep = some r)
    (h : a.maybe_economize dev w = (.ok (), a', w')) :
    (a' = a ∧ w' = w) ∨
    (r.count = 1 ∧ a' = { a with rep := w.heap.length, slice_ofs := 0 } ∧
      w'.nil_rep = w.nil_rep ∧
      ∃ rn : OclArrayRep α, rn.count = 1 ∧ rn.len = a.slice_len ∧
        ∀ q, w'.rep? q = if q = w.heap.length then some rn
          else if q = a.rep then none else w.rep? q) := by
  unfold OclArray.maybe_economize at h
  rw [hr] at h
  simp only at h
  by_cases hc : r.count = 1 ∧ a.slice_len ≠ r.len
  · right
    rw [if_pos hc] at h
    obtain ⟨_, hok⟩ := createCopy_spec dev a.rep a.slice_ofs a.slice_len w
    cases hcc : OclArrayRep.createCopy dev a.rep a.slice_ofs a.slice_len w with
    | mk res w2 =>
      rw [hcc] at h
      cases res with
      | error e => simp at h
      | ok p =>
        simp only [Prod.mk.injEq, true_and] at h
        obtain ⟨ha', hw'⟩ := h
        subst hw'
        obtain ⟨hp, hnil, rn, hheap, hcount, hlen, _, _⟩ := hok p w2 hcc
        subst hp
        obtain ⟨_, d2, _, d4⟩ := deleteRep_spec w2 a.rep
        refine ⟨hc.1, ha'.symm, by rw [d2, hnil], rn, hcount, hlen, ?_⟩
        intro q
        rw [d4 q, rep?_of_heap_append _ w2 rn hheap q]
        have hne : a.rep ≠ w.heap.length := Nat.ne_of_lt (rep?_lt w _ _ hr)
        by_cases h1 : q = a.rep
        · simp [h1, hne]
        · simp [h1]
  · left
    rw [if_neg hc] at h
    simp only [Prod.mk.injEq, true_and] at h
    exact ⟨h.1.symm, h.2.symm⟩

theorem refs_same_rep (hs : List (Option OclArray)) (i : Nat) (a b c : OclArray) (q : Nat)
    (hi : hs[i]? = some (some a)) (hbc : b.rep = c.rep) :
    refs (hs.set i (some b)) q = refs (hs.set i none ++ [some c]) q := by
  have h1 := refs_set_some hs i a b q hi
  have h2 := refs_set_none hs i a q hi
  have h3 := refs_push (hs.set i none) c q
  rw [hbc] at h1
  omega

/-- The method `clear (dv)` keeps the refcount invariant. -/
theorem refInv_clearDims {α : Type} [Inhabited α] (dev : Device) (M : Machine α)
    (hinv : RefInv M) (i : Nat) (a a' : OclArray) (dv : dim_vector) (w' : World α)
    (ha : M.handle? i = some a) (h : a.clearDims dev dv M.w = (.ok (), a', w')) :
    RefInv { w := w', handles := M.handles.set i (some a') } := by
  obtain ⟨r, hr, _, _⟩ := live_of_handle M hinv i a ha
  obtain ⟨h1, hnil, _, _, rn, hcount, _, _, hrep⟩ := clearDims_result dev a a' dv M.w w' r hr h
  exact refInv_replace_new M hinv i a ha w' rn a' h1 hnil hcount hrep

/-- The method `maybe_economize ()` keeps the refcount invariant. -/
theorem refInv_maybe_economize {α : Type} (dev : Device) (M : Machine α)
    (hinv : RefInv M) (i : Nat) (a a' : OclArray) (w' : World α)
    (ha : M.handle? i = some a) (h : a.maybe_economize dev M.w = (.ok (), a', w')) :
    RefInv { w := w', handles := M.handles.set i (some a') } := by
  obtain ⟨r, hr, _, _⟩ := live_of_handle M hinv i a ha
  have hi := (handle?_eq_some M i a).mp ha
  rcases maybe_economize_result dev a a' M.w w' r hr h with
    ⟨h1, h2⟩ | ⟨hc, h1, hnil, rn, hcount, _, hrep⟩
  · rw [h1, h2]
    exact refInv_congr M _ hinv (fun q => rfl) rfl (fun q => refs_set_self _ i a q hi)
  · apply refInv_replace_new M hinv i a ha w' rn a' (by rw [h1]) hnil hcount
    intro q
    obtain ⟨_, _, _, hun⟩ := unref_spec M.w a.rep r hr
    rw [hrep q, hun q]
    have : r.count - 1 = 0 := by omega
    simp only [this, if_true]

/-- The method `clear ()` keeps the refcount invariant. -/
theorem refInv_clear {α : Type} (M : Machine α) (hinv : RefInv M) (i : Nat) (a : OclArray)
    (ha : M.handle? i = some a) :
    RefInv { w := (a.clear M.w).2, handles := M.handles.set i (some (a.clear M.w).1) } := by
  have h1 := refInv_destroy M hinv i a ha
  have h2 := refInv_mkEmpty _ h1
  apply refInv_congr _ _ h2
  · intro q
    rfl
  · rfl
  · intro q
    exact refs_same_rep M.handles i a _ _ q ((handle?_eq_some M i a).mp ha) rfl

theorem handle?_set_ne {α : Type} (M : Machine α) (w' : World α) (i j : Nat)
    (o : Option OclArray) (hij : i ≠ j) :
    Machine.handle? { w := w', handles := M.handles.set i o } j = M.handle? j := by
  unfold Machine.handle?
  simp only [List.getElem?_set_ne hij]

/-- The assignment operator keeps the refcount invariant. -/
theorem refInv_assignOp {α : Type} (M : Machine α) (hinv : RefInv M) (i j : Nat)
    (a b : OclArray) (hij : i ≠ j) (ha : M.handle? i = some a) (hb : M.handle? j = some b) :
    RefInv { w := (a.assignOp b M.w).2,
             handles := M.handles.set i (some (a.assignOp b M.w).1) } := by
  have h1 := refInv_destroy M hinv i a ha
  have hb' : Machine.handle? { w := a.destroy M.w, handles := M.handles.set i none } j
      = some b := by
    rw [handle?_set_ne M _ i j none hij]
    exact hb
  obtain ⟨r, hr, _, _⟩ := live_of_handle _ h1 j b hb'
  exact refInv_replace_inc M hinv i a ha b.rep r b rfl hr

/-- Every successful operation keeps the refcount invariant. -/
theorem refInv_step {α : Type} [Inhabited α] (dev : Device) (M M' : Machine α)
    (op : HandleOp α) (hinv : RefInv M) (h : step dev M op = some M') : RefInv M' := by
  cases op with
  | mkEmpty =>
    simp only [step, Machine.push, Option.some.injEq] at h
    subst h
    exact refInv_mkEmpty M hinv
  | mkDims dv =>
    simp only [step, Machine.push] at h
    cases hc : OclArray.mkDims dev dv M.w with
    | mk res w' =>
      rw [hc] at h
      cases res with
      | error e => cases h
      | ok b =>
        simp only [Option.some.injEq] at h
        subst h
        obtain ⟨h1, h2, _, _, rn, hheap, hcount, _⟩ := mkDims_result dev dv b M.w w' hc
        exact refInv_push_new M hinv w' rn b h1 h2 hcount
          (fun q => rep?_of_heap_append M.w w' rn hheap q)
  | mkFill dv val =>
    simp only [step, Machine.push] at h
    cases hc : OclArray.mkFill dev dv val M.w with
    | mk res w' =>
      rw [hc] at h
      cases res with
      | error e => cases h
      | ok b =>
        simp only [Option.some.injEq] at h
        subst h
        obtain ⟨h1, h2, _, _, rn, hrep, _, hcount, _⟩ := mkFill_result dev dv val b M.w w' hc
        exact refInv_push_new M hinv w' rn b h1 h2 hcount hrep
  | mkHost d dv =>
    simp only [step, Machine.push] at h
    cases hc : OclArray.mkHost dev d dv M.w with
    | mk res w' =>
      rw [hc] at h
      cases res with
      | error e => cases h
      | ok b =>
        simp only [Option.some.injEq] at h
        subst h
        obtain ⟨h1, h2, _, _, rn, hheap, hcount, _⟩ := mkHost_result dev d dv b M.w w' hc
        exact refInv_push_new M hinv w' rn b h1 h2 hcount
          (fun q => rep?_of_heap_append M.w w' rn hheap q)
  | mkCopy i =>
    simp only [step] at h
    cases ha : M.handle? i with
    | none =>
      rw [ha] at h
      cases h
    | some a =>
      rw [ha] at h
      simp only [Machine.push, Option.some.injEq] at h
      subst h
      obtain ⟨r, hr, _, _⟩ := live_of_handle M hinv i a ha
      exact refInv_push_inc M hinv a.rep r a hr rfl
  | assignOp i j =>
    simp only [step] at h
    cases ha : M.handle? i with
    | none =>
      rw [ha] at h
      cases h
    | some a =>
      cases hb : M.handle? j with
      | none =>
        rw [ha, hb] at h
        cases h
      | some b =>
        rw [ha, hb] at h
        simp only at h
        by_cases hij : i = j
        · simp only [hij, if_true, Option.some.injEq] at h
          subst h
          exact hinv
        · simp only [hij, if_false, Option.some.injEq] at h
          subst h
          exact refInv_assignOp M hinv i j a b hij ha hb
  | reshape i dv =>
    simp only [step] at h
    cases ha : M.handle? i with
    | none =>
      rw [ha] at h
      cases h
    | some a =>
      rw [ha] at h
      simp only [Machine.push] at h
      cases hc : a.mkReshape dv M.w with
      | mk res w' =>
        rw [hc] at h
        cases res with
        | error e => cases h
        | ok b =>
          simp only [Option.some.injEq] at h
          subst h
          obtain ⟨⟨r, hr, _⟩, hw, _, hb⟩ := mkReshape_result a b dv M.w w' hc
          rw [hw]
          exact refInv_push_inc M hinv a.rep r b hr (by rw [hb])
  | column i k =>
    simp only [step] at h
    cases ha : M.handle? i with
    | none =>
      rw [ha] at h
      cases h
    | some a =>
      rw [ha] at h
      simp only [Machine.push] at h
      cases hc : a.column k M.w with
      | mk res w' =>
        rw [hc] at h
        cases res with
        | error e => cases h
        | ok b =>
          simp only [Option.some.injEq] at h
          subst h
          obtain ⟨r, hr, _, _⟩ := live_of_handle M hinv i a ha
          obtain ⟨_, _, hw, hb⟩ := column_result a b k M.w w' hc
          rw [hw]
          exact refInv_push_inc M hinv a.rep r b hr (by rw [hb])
  | page i k =>
    simp only [step] at h
    cases ha : M.handle? i with
    | none =>
      rw [ha] at h
      cases h
    | some a =>
      rw [ha] at h
      simp only [Machine.push] at h
      cases hc : a.page k M.w with
      | mk res w' =>
        rw [hc] at h
        cases res with
        | error e => cases h
        | ok b =>
          simp only [Option.some.injEq] at h
          subst h
          obtain ⟨r, hr, _, _⟩ := live_of_handle M hinv i a ha
          obtain ⟨_, _, hw, hb⟩ := page_result a b k M.w w' hc
          rw [hw]
          exact refInv_push_inc M hinv a.rep r b hr (by rw [hb])
  | linear_slice i lo up =>
    simp only [step] at h
    cases ha : M.handle? i with
    | none =>
      rw [ha] at h
      cases h
    | some a =>
      rw [ha] at h
      simp only [Machine.push] at h
      cases hc : a.linear_slice lo up M.w with
      | mk res w' =>
        rw [hc] at h
        cases res with
        | error e => cases h
        | ok b =>
          simp only [Option.some.injEq] at h
          subst h
          obtain ⟨r, hr, _, _⟩ := live_of_handle M hinv i a ha
          obtain ⟨_, _, hw, hb⟩ := linear_slice_result a b lo up M.w w' hc
          rw [hw]
          exact refInv_push_inc M hinv a.rep r b hr (by rw [hb])
  | index i ia =>
    simp only [step] at h
    cases ha : M.handle? i with
    | none =>
      rw [ha] at h
      cases h
    | some a =>
      rw [ha] at h
      simp only [Machine.push] at h
      cases hc : a.index ia M.w with
      | mk res w' =>
        rw [hc] at h
        cases res with
        | error e => cases h
        | ok b =>
          simp only [Option.some.injEq] at h
          subst h
          obtain ⟨r, hr, _, _⟩ := live_of_handle M hinv i a ha
          rcases index_result a b ia M.w w' hc with
            ⟨_, he⟩ | ⟨_, dv, rdv, l, u, _, hm⟩ | ⟨_, dv, rdv, l, u, _, hm⟩
          · have h1 : b = (OclArray.mkEmpty M.w).1 := congrArg Prod.fst he
            have h2 : w' = (OclArray.mkEmpty M.w).2 := congrArg Prod.snd he
            rw [h1, h2]
            exact refInv_mkEmpty M hinv
          · obtain ⟨_, hw, _, hb⟩ := mkReshape_result a b _ M.w w' hm
            rw [hw]
            exact refInv_push_inc M hinv a.rep r b hr (by rw [hb])
          · obtain ⟨_, hw, hb⟩ := mkSlice_result a b _ _ _ M.w w' hm
            rw [hw]
            exact refInv_push_inc M hinv a.rep r b hr (by rw [hb])
  | make_unique i =>
    simp only [step] at h
    cases ha : M.handle? i with
    | none =>
      rw [ha] at h
      cases h
    | some a =>
      rw [ha] at h
      simp only [Machine.update] at h
      cases hc : a.make_unique dev M.w with
      | mk res x =>
        obtain ⟨a', w'⟩ := x
        rw [hc] at h
        cases res with
        | error e => cases h
        | ok u =>
          simp only [Option.some.injEq] at h
          subst h
          exact refInv_make_unique dev M hinv i a a' w' ha hc
  | fill i val =>
    simp only [step] at h
    cases ha : M.handle? i with
    | none =>
      rw [ha] at h
      cases h
    | some a =>
      rw [ha] at h
      simp only [Machine.update] at h
      cases hc : a.fill dev val M.w with
      | mk res x =>
        obtain ⟨a', w'⟩ := x
        rw [hc] at h
        cases res with
        | error e => cases h
        | ok u =>
          simp only [Option.some.injEq] at h
          subst h
          exact refInv_fill dev M hinv i a a' val w' ha hc
  | clear i =>
    simp only [step] at h
    cases ha : M.handle? i with
    | none =>
      rw [ha] at h
      cases h
    | some a =>
      rw [ha] at h
      simp only [Machine.update, Option.some.injEq] at h
      subst h
      exact refInv_clear M hinv i a ha
  | clearDims i dv =>
    simp only [step] at h
    cases ha : M.handle? i with
    | none =>
      rw [ha] at h
      cases h
    | some a =>
      rw [ha] at h
      simp only [Machine.update] at h
      cases hc : a.clearDims dev dv M.w with
      | mk res x =>
        obtain ⟨a', w'⟩ := x
        rw [hc] at h
        cases res with
        | error e => cases h
        | ok u =>
          simp only [Option.some.injEq] at h
          subst h
          exact refInv_clearDims dev M hinv i a a' dv w' ha hc
  | maybe_economize i =>
    simp only [step] at h
    cases ha : M.handle? i with
    | none =>
      rw [ha] at h
      cases h
    | some a =>
      rw [ha] at h
      simp only [Machine.update] at h
      cases hc : a.maybe_economize dev M.w with
      | mk res x =>
        obtain ⟨a', w'⟩ := x
        rw [hc] at h
        cases res with
        | error e => cases h
        | ok u =>
          simp only [Option.some.injEq] at h
          subst h
          exact refInv_maybe_economize dev M hinv i a a' w' ha hc
  | destroy i =>
    simp only [step] at h
    cases ha : M.handle? i with
    | none =>
      rw [ha] at h
      cases h
    | some a =>
      rw [ha] at h
      simp only [Option.some.injEq] at h
      subst h
      exact refInv_destroy M hinv i a ha

/-- Claim C3 (refcount invariant).  In every state that a program reaches from
the start by successful operations on array objects (the four constructors,
copy construction, assignment, reshape, `column`, `page`, `linear_slice`,
`index`, `make_unique`, `fill`, both `clear`, `maybe_economize`, destruction),
at every address: a live rep other than the one of `nil_rep ()` has a count of
at least 1 equal to the number of live objects whose `rep` is that address,
and an address whose rep has been deleted has no live object pointing at it,
so that a rep is deleted exactly when its last object goes. -/
theorem refcount_invariant {α : Type} [Inhabited α] (dev : Device) (M : Machine α)
    (hreach : Reachable dev M) :
    ∀ p,
      (∀ r, M.w.rep? p = some r → M.w.nil_rep ≠ some p →
        r.count = (refs M.handles p : Int) ∧ 1 ≤ refs M.handles p) ∧
      (M.w.rep? p = none → refs M.handles p = 0) := by
  have hinv : RefInv M := by
    induction hreach with
    | init => exact refInv_init α
    | step M M' op _ hstep ih => exact refInv_step dev M M' op ih hstep
  intro p
  refine ⟨?_, ?_⟩
  · intro r hr hn
    obtain ⟨h1, h2⟩ := refInvAt_some M p r (hinv p) hr
    simp only [hn, if_false, add_zero] at h1
    exact ⟨h1, by omega⟩
  · intro hr
    exact (refInvAt_none M p (hinv p) hr).1

/-! ## Copy on write: what a write leaves untouched -/

theorem kept_mono {α : Type} (p : Nat) (d : List α) (n k k' : Int) (w : World α)
    (hk : k' ≤ k) (h : Kept p d n k w) : Kept p d n k' w := by
  obtain ⟨r, h1, h2, h3, h4⟩ := h
  exact ⟨r, h1, h2, h3, by omega⟩

theorem kept_of_heap_eq {α : Type} (p : Nat) (d : List α) (n k : Int) (w w' : World α)
    (hh : w'.heap = w.heap) (h : Kept p d n k w) : Kept p d n k w' := by
  obtain ⟨r, h1, h2, h3, h4⟩ := h
  exact ⟨r, by rw [rep?_of_heap w' w p hh]; exact h1, h2, h3, h4⟩

theorem kept_lt {α : Type} (p : Nat) (d : List α) (n k : Int) (w : World α)
    (h : Kept p d n k w) : p < w.heap.length := by
  obtain ⟨r, h1, _⟩ := h
  exact rep?_lt w p r h1

theorem kept_append {α : Type} (p : Nat) (d : List α) (n k : Int) (w w' : World α)
    (rn : OclArrayRep α) (hh : w'.heap = w.heap ++ [some rn]) (h : Kept p d n k w) :
    Kept p d n k w' := by
  have hlt := kept_lt p d n k w h
  obtain ⟨r, h1, h2, h3, h4⟩ := h
  refine ⟨r, ?_, h2, h3, h4⟩
  rw [rep?_of_heap_append w w' rn hh p, if_neg (by omega)]
  exact h1

theorem kept_setRep_other {α : Type} (p q : Nat) (d : List α) (n k : Int) (w : World α)
    (r' : OclArrayRep α) (hq : q ≠ p) (h : Kept p d n k w) : Kept p d n k (w.setRep q r') := by
  obtain ⟨r, h1, h2, h3, h4⟩ := h
  refine ⟨r, ?_, h2, h3, h4⟩
  unfold World.setRep World.rep?
  simp only [List.getElem?_set_ne hq]
  exact h1

theorem kept_incCount {α : Type} (p q : Nat) (d : List α) (n k : Int) (w : World α)
    (h : Kept p d n k w) : Kept p d n k (w.incCount q) := by
  by_cases hq : q = p
  · subst hq
    obtain ⟨r, h1, h2, h3, h4⟩ := h
    obtain ⟨_, _, _, hrep⟩ := incCount_spec w q r h1
    exact ⟨{ r with count := r.count + 1 }, by rw [hrep q, if_pos rfl], h2, h3,
      by show k ≤ r.count + 1; omega⟩
  · unfold World.incCount
    cases hr : w.rep? q with
    | none => exact h
    | some r => exact kept_setRep_other p q d n k w _ hq h

theorem kept_incCount_same {α : Type} (p : Nat) (d : List α) (n k : Int) (w : World α)
    (h : Kept p d n k w) : Kept p d n (k + 1) (w.incCount p) := by
  obtain ⟨r, h1, h2, h3, h4⟩ := h
  obtain ⟨_, _, _, hrep⟩ := incCount_spec w p r h1
  exact ⟨{ r with count := r.count + 1 }, by rw [hrep p, if_pos rfl], h2, h3,
    by show k + 1 ≤ r.count + 1; omega⟩

theorem kept_unref_other {α : Type} (p q : Nat) (d : List α) (n k : Int) (w : World α)
    (hq : q ≠ p) (h : Kept p d n k w) : Kept p d n k (w.unref q) := by
  cases hr : w.rep? q with
  | none =>
    rw [unref_dead w q hr]
    exact h
  | some r0 =>
    obtain ⟨r, h1, h2, h3, h4⟩ := h
    obtain ⟨_, _, _, hrep⟩ := unref_spec w q r0 hr
    exact ⟨r, by rw [hrep p, if_neg (Ne.symm hq)]; exact h1, h2, h3, h4⟩

theorem kept_unref_same {α : Type} (p : Nat) (d : List α) (n k : Int) (w : World α)
    (hk : 1 ≤ k) (h : Kept p d n (k + 1) w) : Kept p d n k (w.unref p) := by
  obtain ⟨r, h1, h2, h3, h4⟩ := h
  obtain ⟨_, _, _, hrep⟩ := unref_spec w p r h1
  have : ¬ (r.count - 1 = 0) := by omega
  exact ⟨{ r with count := r.count - 1 }, by rw [hrep p, if_pos rfl, if_neg this], h2, h3,
    by show k ≤ r.count - 1; omega⟩

theorem kept_create {α : Type} [Inhabited α] (dev : Device) (m : Int) (p : Nat) (d : List α)
    (n k : Int) (w w' : World α) (res : Except OclError Nat)
    (hrun : OclArrayRep.create dev m w = (res, w')) (h : Kept p d n k w) :
    Kept p d n k w' ∧ (∀ q, res = .ok q → q = w.heap.length ∧
      w'.heap.length = w.heap.length + 1) := by
  obtain ⟨herr, hok⟩ := create_spec dev m w
  cases res with
  | error e =>
    exact ⟨kept_of_heap_eq p d n k w w' (herr e w' hrun).1 h, fun q hq => by cases hq⟩
  | ok q =>
    obtain ⟨hq, _, rn, hheap, _, _⟩ := hok q w' hrun
    refine ⟨kept_append p d n k w w' rn hheap h, ?_⟩
    intro q' hq'
    cases hq'
    exact ⟨hq, by rw [hheap]; simp⟩

theorem kept_createCopy {α : Type} (dev : Device) (a : Nat) (ofs m : Int) (p : Nat)
    (d : List α) (n k : Int) (w w' : World α) (res : Except OclError Nat)
    (hrun : OclArrayRep.createCopy dev a ofs m w = (res, w')) (h : Kept p d n k w) :
    Kept p d n k w' ∧ (∀ q, res = .ok q → q = w.heap.length ∧
      w'.heap.length = w.heap.length + 1) := by
  obtain ⟨herr, hok⟩ := createCopy_spec dev a ofs m w
  cases res with
  | error e =>
    exact ⟨kept_of_heap_eq p d n k w w' (herr e w' hrun).1 h, fun q hq => by cases hq⟩
  | ok q =>
    obtain ⟨hq, _, rn, hheap, _, _⟩ := hok q w' hrun
    refine ⟨kept_append p d n k w w' rn hheap h, ?_⟩
    intro q' hq'
    cases hq'
    exact ⟨hq, by rw [hheap]; simp⟩

/-- The kernels and the buffer copy change at most the rep they write to. -/
theorem fillRange_frame {α : Type} (dev : Device) (self : OclArray) (ofs len : Int) (val : α)
    (w w' : World α) (res : Except OclError Unit)
    (hrun : self.fillRange dev ofs len val w = (res, w')) :
    w' = w ∨ ∃ r', w' = w.setRep self.rep r' := by
  obtain ⟨herr, hok⟩ := fillRange_spec dev self ofs len val w
  cases res with
  | error e => exact Or.inl (herr e w' hrun)
  | ok u =>
    obtain ⟨r, dd, _, _, _, _, _, hw⟩ := hok w' hrun
    exact Or.inr ⟨_, hw⟩

theorem fill0_frame {α : Type} [Inhabited α] (dev : Device) (self : OclArray) (ofs len : Int)
    (a : OclArray) (w w' : World α) (res : Except OclError Unit)
    (hrun : self.fill0 dev ofs len a w = (res, w')) :
    w' = w ∨ ∃ r', w' = w.setRep self.rep r' := by
  unfold OclArray.fill0 at hrun
  split at hrun
  · split_ifs at hrun
    · cases hrun
      exact Or.inl rfl
    · cases hrun
      exact Or.inl rfl
    · cases hrun
      exact Or.inl rfl
    · split at hrun
      · cases hrun
        exact Or.inl rfl
      · cases hrun
        exact Or.inr ⟨_, rfl⟩
  · cases hrun
    exact Or.inl rfl

theorem copy_frame {α : Type} [Inhabited α] (w w' : World α) (q a : Nat)
    (so sd len : Int) (res : Except OclError Unit)
    (hrun : w.copy_from_oclbuffer q a so sd len = (res, w')) :
    w' = w ∨ ∃ r', w' = w.setRep q r' := by
  unfold World.copy_from_oclbuffer at hrun
  split at hrun
  · split_ifs at hrun
    · cases hrun
      exact Or.inl rfl
    · cases hrun
      exact Or.inl rfl
    · cases hrun
      exact Or.inl rfl
    · cases hrun
      exact Or.inl rfl
    · cases hrun
      exact Or.inr ⟨_, rfl⟩
  · cases hrun
    exact Or.inl rfl

theorem kept_frame {α : Type} (p q : Nat) (d : List α) (n k : Int) (w w' : World α)
    (hq : q ≠ p) (hw : w' = w ∨ ∃ r', w' = w.setRep q r') (h : Kept p d n k w) :
    Kept p d n k w' := by
  rcases hw with hw | ⟨r', hw⟩
  · rw [hw]
    exact h
  · rw [hw]
    exact kept_setRep_other p q d n k w r' hq h

theorem kept_mkDims {α : Type} [Inhabited α] (dev : Device) (dv : dim_vector) (p : Nat)
    (d : List α) (n k : Int) (w w' : World α) (res : Except OclError OclArray)
    (hrun : OclArray.mkDims dev dv w = (res, w')) (h : Kept p d n k w) :
    Kept p d n k w' ∧ (∀ b, res = .ok b → b.rep ≠ p) := by
  have hlt := kept_lt p d n k w h
  unfold OclArray.mkDims at hrun
  cases hc : OclArrayRep.create dev (dv.safe_numel : Int) w with
  | mk res1 w1 =>
    obtain ⟨hk, hq⟩ := kept_create dev _ p d n k w w1 res1 hc h
    rw [hc] at hrun
    cases res1 with
    | error e =>
      simp only [Prod.mk.injEq] at hrun
      obtain ⟨hr, hw⟩ := hrun
      subst hr hw
      exact ⟨hk, fun b hb => by cases hb⟩
    | ok q =>
      simp only [Prod.mk.injEq] at hrun
      obtain ⟨hr, hw⟩ := hrun
      subst hr hw
      refine ⟨hk, ?_⟩
      intro b hb
      cases hb
      have := (hq q rfl).1
      simp only
      omega

theorem kept_mkFill {α : Type} [Inhabited α] (dev : Device) (dv : dim_vector) (val : α)
    (p : Nat) (d : List α) (n k : Int) (w w' : World α) (res : Except OclError OclArray)
    (hrun : OclArray.mkFill dev dv val w = (res, w')) (h : Kept p d n k w) :
    Kept p d n k w' ∧ (∀ b, res = .ok b → b.rep ≠ p) := by
  unfold OclArray.mkFill at hrun
  cases hc : OclArray.mkDims dev dv w with
  | mk res1 w1 =>
    obtain ⟨hk, hq⟩ := kept_mkDims dev dv p d n k w w1 res1 hc h
    rw [hc] at hrun
    cases res1 with
    | error e =>
      simp only [Prod.mk.injEq] at hrun
      obtain ⟨hr, hw⟩ := hrun
      subst hr hw
      exact ⟨hk, fun b hb => by cases hb⟩
    | ok a =>
      simp only at hrun
      have ha := hq a rfl
      cases hf : a.fillRange dev a.slice_ofs a.slice_len val w1 with
      | mk res2 w2 =>
        have hk2 := kept_frame p a.rep d n k w1 w2 ha (fillRange_frame dev a _ _ val w1 w2 res2 hf) hk
        rw [hf] at hrun
        cases res2 with
        | error e =>
          simp only [Prod.mk.injEq] at hrun
          obtain ⟨hr, hw⟩ := hrun
          subst hr hw
          exact ⟨hk2, fun b hb => by cases hb⟩
        | ok u =>
          simp only [Prod.mk.injEq] at hrun
          obtain ⟨hr, hw⟩ := hrun
          subst hr hw
          refine ⟨hk2, ?_⟩
          intro b hb
          cases hb
          exact ha

theorem kept_make_unique {α : Type} (dev : Device) (self : OclArray) (p : Nat)
    (d : List α) (n k : Int) (w w1 : World α) (res : Except OclError Unit) (self1 : OclArray)
    (hself : self.rep = p) (hk : 1 ≤ k) (h : Kept p d n (k + 1) w)
    (hrun : self.make_unique dev w = (res, self1, w1)) :
    Kept p d n k w1 ∧ (∀ u, res = .ok u → self1.rep ≠ p) := by
  have hlt := kept_lt p d n _ w h
  obtain ⟨r, h1, h2, h3, h4⟩ := h
  subst hself
  unfold OclArray.make_unique at hrun
  rw [h1] at hrun
  have hc : r.count > 1 := by omega
  simp only [hc, if_true] at hrun
  have hk1 : Kept self.rep d n k (w.setRep self.rep { r with count := r.count - 1 }) := by
    refine ⟨{ r with count := r.count - 1 }, ?_, h2, h3, by show k ≤ r.count - 1; omega⟩
    rw [rep?_setRep _ _ _ _ hlt, if_pos rfl]
  cases hcc : OclArrayRep.createCopy dev self.rep self.slice_ofs self.slice_len
      (w.setRep self.rep { r with count := r.count - 1 }) with
  | mk res1 w2 =>
    obtain ⟨hk2, hq⟩ := kept_createCopy dev _ _ _ self.rep d n k _ w2 res1 hcc hk1
    rw [hcc] at hrun
    cases res1 with
    | error e =>
      simp only [Prod.mk.injEq] at hrun
      obtain ⟨hr, _, hw⟩ := hrun
      subst hr hw
      exact ⟨hk2, fun u hu => by cases hu⟩
    | ok q =>
      simp only [Prod.mk.injEq] at hrun
      obtain ⟨hr, hs, hw⟩ := hrun
      subst hr hs hw
      refine ⟨hk2, ?_⟩
      intro u _
      have := (hq q rfl).1
      rw [heap_length_setRep] at this
      simp only
      omega

theorem kept_mkReshape {α : Type} (a : OclArray) (dv : dim_vector) (p : Nat)
    (d : List α) (n k : Int) (w w' : World α) (res : Except OclError OclArray)
    (hrun : a.mkReshape dv w = (res, w')) (h : Kept p d n k w) :
    (∀ e, res = .error e → Kept p d n k w') ∧
    (∀ b, res = .ok b → b.rep = a.rep ∧
      (a.rep = p → Kept p d n (k + 1) w') ∧ (a.rep ≠ p → Kept p d n k w')) := by
  cases res with
  | error e =>
    refine ⟨?_, fun b hb => by cases hb⟩
    intro e' _
    unfold OclArray.mkReshape at hrun
    split at hrun
    · cases hrun
      exact h
    · split_ifs at hrun
      · cases hrun
        exact h
      · cases hrun
        exact h
      · cases hrun
  | ok b =>
    refine ⟨(fun e he => by cases he), ?_⟩
    intro b' hb'
    cases hb'
    obtain ⟨_, hw, _, hb⟩ := mkReshape_result a b dv w w' hrun
    rw [hw, hb]
    refine ⟨rfl, ?_, ?_⟩
    · intro hp
      rw [hp]
      exact kept_incCount_same p d n k w h
    · intro _
      exact kept_incCount p a.rep d n k w h

/-- Indexed assignment of a scalar through an object on a shared rep leaves the
data of that rep as it was. -/
theorem assign_frame {α : Type} [Inhabited α] (dev : Device) (self : OclArray)
    (ia : List idx_vector) (v : α) (p : Nat) (d : List α) (n : Int) (w w1 : World α)
    (res : Except OclError Unit) (self1 : OclArray)
    (hself : self.rep = p) (h : Kept p d n 2 w)
    (hrun : self.assign dev ia v w = (res, self1, w1)) : Kept p d n 1 w1 := by
  have h1 := kept_mono p d n 2 1 w (by omega) h
  unfold OclArray.assign at hrun
  split at hrun
  · cases hrun
    exact h1
  · split_ifs at hrun
    · cases hrun
      exact h1
    · cases hrun
      exact h1
    · cases hrun
      exact h1
    · split at hrun
      · cases hrun
        exact h1
      · split_ifs at hrun
        · cases hf : OclArray.mkFill dev self.dimensions v w with
          | mk res1 w2 =>
            obtain ⟨hk, hne⟩ := kept_mkFill dev _ v p d n 2 w w2 res1 hf h
            rw [hf] at hrun
            cases res1 with
            | error e =>
              cases hrun
              exact kept_mono p d n 2 1 _ (by omega) hk
            | ok tmp =>
              simp only [OclArray.assignOp, OclArray.destroy, Prod.mk.injEq] at hrun
              obtain ⟨_, _, hw⟩ := hrun
              subst hw
              have ht := hne tmp rfl
              rw [hself]
              exact kept_unref_other p tmp.rep d n 1 _ ht
                (kept_incCount p tmp.rep d n 1 _ (kept_unref_same p d n 1 _ (by omega) hk))
        · cases hm : self.make_unique dev w with
          | mk res1 x =>
            obtain ⟨self2, w2⟩ := x
            obtain ⟨hk, hne⟩ := kept_make_unique dev self p d n 1 w w2 res1 self2 hself
              (by omega) h hm
            rw [hm] at hrun
            cases res1 with
            | error e =>
              cases hrun
              exact hk
            | ok u =>
              simp only at hrun
              cases hf : self2.fillRange dev _ _ v w2 with
              | mk res2 w3 =>
                have hk3 := kept_frame p self2.rep d n 1 w2 w3 (hne u rfl)
                  (fillRange_frame dev self2 _ _ v w2 w3 res2 hf) hk
                rw [hf] at hrun
                cases res2 with
                | error e =>
                  cases hrun
                  exact hk3
                | ok u2 =>
                  cases hrun
                  exact hk3

theorem assignFillAll_frame {α : Type} [Inhabited α] (dev : Device) (self : OclArray)
    (rhs : Option OclArray) (l u : Int) (p : Nat) (d : List α) (n : Int)
    (w w1 : World α) (res : Except OclError Unit) (self1 : OclArray)
    (hself : self.rep = p) (h : Kept p d n 2 w)
    (hrun : self.assignFillAll dev rhs l u w = (res, self1, w1)) : Kept p d n 1 w1 := by
  unfold OclArray.assignFillAll at hrun
  cases hf : OclArray.mkDims dev self.dimensions w with
  | mk res1 w2 =>
    obtain ⟨hk, hne⟩ := kept_mkDims dev _ p d n 2 w w2 res1 hf h
    rw [hf] at hrun
    cases res1 with
    | error e =>
      cases hrun
      exact kept_mono p d n 2 1 _ (by omega) hk
    | ok tmp =>
      simp only [OclArray.assignOp, OclArray.destroy] at hrun
      have ht := hne tmp rfl
      have hk3 : Kept p d n 1 (((w2.unref self.rep).incCount tmp.rep).unref tmp.rep) := by
        rw [hself]
        exact kept_unref_other p tmp.rep d n 1 _ ht
          (kept_incCount p tmp.rep d n 1 _ (kept_unref_same p d n 1 _ (by omega) hk))
      cases hz : tmp.fill0 dev l (u - l) (rhs.getD tmp)
          (((w2.unref self.rep).incCount tmp.rep).unref tmp.rep) with
      | mk res2 w4 =>
        have hk4 := kept_frame p tmp.rep d n 1 _ w4 ht
          (fill0_frame dev tmp _ _ _ _ w4 res2 hz) hk3
        rw [hz] at hrun
        cases res2 with
        | error e =>
          cases hrun
          exact hk4
        | ok u2 =>
          cases hrun
          exact hk4

theorem assignFillPart_frame {α : Type} [Inhabited α] (dev : Device) (self : OclArray)
    (rhs : Option OclArray) (l u : Int) (p : Nat) (d : List α) (n : Int)
    (w w1 : World α) (res : Except OclError Unit) (self1 : OclArray)
    (hself : self.rep = p) (h : Kept p d n 2 w)
    (hrun : self.assignFillPart dev rhs l u w = (res, self1, w1)) : Kept p d n 1 w1 := by
  unfold OclArray.assignFillPart at hrun
  cases hm : self.make_unique dev w with
  | mk res1 x =>
    obtain ⟨self2, w2⟩ := x
    obtain ⟨hk, hne⟩ := kept_make_unique dev self p d n 1 w w2 res1 self2 hself
      (by omega) h hm
    rw [hm] at hrun
    cases res1 with
    | error e =>
      cases hrun
      exact hk
    | ok u0 =>
      simp only at hrun
      cases hz : self2.fill0 dev l (u - l) (rhs.getD self2) w2 with
      | mk res2 w3 =>
        have hk3 := kept_frame p self2.rep d n 1 w2 w3 (hne u0 rfl)
          (fill0_frame dev self2 _ _ _ w2 w3 res2 hz) hk
        rw [hz] at hrun
        cases res2 with
        | error e =>
          cases hrun
          exact hk3
        | ok u2 =>
          cases hrun
          exact hk3

theorem assignShallow_frame {α : Type} (self rhs0 : OclArray) (p : Nat) (d : List α)
    (n : Int) (w w1 : World α) (res : Except OclError Unit) (self1 : OclArray)
    (hself : self.rep = p) (h : Kept p d n 2 w)
    (hrun : self.assignShallow rhs0 w = (res, self1, w1)) : Kept p d n 1 w1 := by
  unfold OclArray.assignShallow at hrun
  cases hm : OclArray.mkReshape rhs0 self.dimensions w with
  | mk res1 w2 =>
    obtain ⟨herr, hok⟩ := kept_mkReshape _ _ p d n 2 w w2 res1 hm h
    rw [hm] at hrun
    cases res1 with
    | error e =>
      cases hrun
      exact kept_mono p d n 2 1 _ (by omega) (herr e rfl)
    | ok tmp =>
      simp only [OclArray.assignOp, OclArray.destroy, Prod.mk.injEq] at hrun
      obtain ⟨_, _, hw⟩ := hrun
      subst hw
      obtain ⟨htr, hsame, hother⟩ := hok tmp rfl
      rw [hself]
      by_cases hx : rhs0.rep = p
      · have ht : tmp.rep = p := by rw [htr, hx]
        rw [ht]
        have k3 := hsame hx
        have k2 : Kept p d n 2 (w2.unref p) :=
          kept_unref_same p d n 2 _ (by omega) k3
        exact kept_unref_same p d n 1 _ (by omega) (kept_incCount p p d n 2 _ k2)
      · have ht : tmp.rep ≠ p := by rw [htr]; exact hx
        have k2 := hother hx
        exact kept_unref_other p tmp.rep d n 1 _ ht
          (kept_incCount p tmp.rep d n 1 _ (kept_unref_same p d n 1 _ (by omega) k2))

theorem assignCopy_frame {α : Type} [Inhabited α] (dev : Device) (self : OclArray)
    (rhs : Option OclArray) (l u : Int) (p : Nat) (d : List α) (n : Int)
    (w w1 : World α) (res : Except OclError Unit) (self1 : OclArray)
    (hself : self.rep = p) (h : Kept p d n 2 w)
    (hrun : self.assignCopy dev rhs l u w = (res, self1, w1)) : Kept p d n 1 w1 := by
  unfold OclArray.assignCopy at hrun
  cases hm : self.make_unique dev w with
  | mk res1 x =>
    obtain ⟨self2, w2⟩ := x
    obtain ⟨hk, hne⟩ := kept_make_unique dev self p d n 1 w w2 res1 self2 hself
      (by omega) h hm
    rw [hm] at hrun
    cases res1 with
    | error e =>
      cases hrun
      exact hk
    | ok u0 =>
      simp only at hrun
      cases hz : w2.copy_from_oclbuffer self2.rep (rhs.getD self2).rep
          (rhs.getD self2).slice_ofs l (u - l) with
      | mk res2 w3 =>
        have hk3 := kept_frame p self2.rep d n 1 w2 w3 (hne u0 rfl)
          (copy_frame w2 w3 _ _ _ _ _ res2 hz) hk
        rw [hz] at hrun
        cases res2 with
        | error e =>
          cases hrun
          exact hk3
        | ok u2 =>
          cases hrun
          exact hk3

/-- Indexed assignment of an array through an object on a shared rep leaves the
data of that rep as it was. -/
theorem assignArray_frame {α : Type} [Inhabited α] (dev : Device) (self : OclArray)
    (ia : List idx_vector) (rhs : Option OclArray) (p : Nat) (d : List α) (n : Int)
    (w w1 : World α) (res : Except OclError Unit) (self1 : OclArray)
    (hself : self.rep = p) (h : Kept p d n 2 w)
    (hrun : self.assignArray dev ia rhs w = (res, self1, w1)) : Kept p d n 1 w1 := by
  have h1 := kept_mono p d n 2 1 w (by omega) h
  unfold OclArray.assignArray at hrun
  simp only at hrun
  cases hih : self.index_helper ia with
  | error e =>
    simp only [hih] at hrun
    split at hrun
    · split_ifs at hrun <;> (cases hrun; exact h1)
    · cases hrun
      exact h1
  | ok t =>
    obtain ⟨dv, rdv0, ac, l, u⟩ := t
    simp only [hih] at hrun
    split at hrun
    · split_ifs at hrun
      all_goals first
        | (cases hrun; exact h1)
        | exact assignFillAll_frame dev self rhs l u p d n w w1 res self1 hself h hrun
        | exact assignFillPart_frame dev self rhs l u p d n w w1 res self1 hself h hrun
        | exact assignShallow_frame self _ p d n w w1 res self1 hself h hrun
        | exact assignCopy_frame dev self rhs l u p d n w w1 res self1 hself h hrun
    · cases hrun
      exact h1

theorem observe_of_kept {α : Type} (A : OclArray) (w w' : World α) (r : OclArrayRep α)
    (hr : w.rep? A.rep = some r) (k : Int) (h : Kept A.rep r.data r.len k w') :
    A.observe w' = A.observe w ∧ (∀ i, A.elem? w' i = A.elem? w i) ∧
    A.observe w = some ((r.data.drop A.slice_ofs.toNat).take A.slice_len.toNat) := by
  obtain ⟨r', h1, h2, _, _⟩ := h
  refine ⟨?_, ?_, ?_⟩
  · simp only [OclArray.observe, hr, h1, h2]
  · intro i
    simp only [OclArray.elem?, hr, h1, h2]
  · simp only [OclArray.observe, hr]

/-- The copy-on-write law in the states that satisfy the refcount invariant, which
are the states reached by successful operations.  `A`, `B` are two live objects
on one rep (a shallow copy, or a slice view such as the result of
`linear_slice`).  Then an indexed assignment through `B`, with a scalar or with an
array on the right-hand side, whatever the subscripts and whether or not it
succeeds, leaves every element that `A` observes through its window as it was.
As `A` and `B` are any two such objects, the same holds with their roles
exchanged. -/
theorem copy_on_write {α : Type} [Inhabited α] (dev : Device) (M : Machine α)
    (hinv : RefInv M) (i j : Nat) (A B : OclArray) (hij : i ≠ j)
    (hA : M.handle? i = some A) (hB : M.handle? j = some B) (hAB : B.rep = A.rep)
    (ia : List idx_vector) :
    (∃ xs, A.observe M.w = some xs) ∧
    (∀ v res B' w', B.assign dev ia v M.w = (res, B', w') →
      A.observe w' = A.observe M.w ∧ ∀ k, A.elem? w' k = A.elem? M.w k) ∧
    (∀ rhs res B' w', B.assignArray dev ia rhs M.w = (res, B', w') →
      A.observe w' = A.observe M.w ∧ ∀ k, A.elem? w' k = A.elem? M.w k) := by
  obtain ⟨r, hr, hcnt, _⟩ := live_of_handle M hinv i A hA
  have h2 := refs_two M.handles i j A B hij ((handle?_eq_some M i A).mp hA)
    ((handle?_eq_some M j B).mp hB) hAB
  have hk : Kept A.rep r.data r.len 2 M.w := by
    refine ⟨r, hr, rfl, rfl, ?_⟩
    split_ifs at hcnt <;> omega
  refine ⟨⟨_, (observe_of_kept A M.w M.w r hr 2 hk).2.2⟩, ?_, ?_⟩
  · intro v res B' w' hrun
    have := assign_frame dev B ia v A.rep r.data r.len M.w w' res B' hAB hk hrun
    obtain ⟨h1, h2, _⟩ := observe_of_kept A M.w w' r hr 1 this
    exact ⟨h1, h2⟩
  · intro rhs res B' w' hrun
    have := assignArray_frame dev B ia rhs A.rep r.data r.len M.w w' res B' hAB hk hrun
    obtain ⟨h1, h2, _⟩ := observe_of_kept A M.w w' r hr 1 this
    exact ⟨h1, h2⟩

/-! ## Products of extents -/

theorem prod_dropWhile_one (l : List Nat) :
    (l.dropWhile (fun d => d == 1)).prod = l.prod := by
  induction l with
  | nil => rfl
  | cons x t ih =>
    by_cases hx : x = 1
    · subst hx
      simp only [List.dropWhile_cons, beq_self_eq_true, if_true, ih, List.prod_cons, one_mul]
    · have : (x == 1) = false := by simp [hx]
      simp only [List.dropWhile_cons, this, Bool.false_eq_true, if_false]

theorem prod_dropTrailingOnes (l : List Nat) : (dropTrailingOnes l).prod = l.prod := by
  unfold dropTrailingOnes
  rw [List.prod_reverse, prod_dropWhile_one, List.prod_reverse]

theorem prod_chop_trailing_singletons (dv : dim_vector) :
    (dim_vector.chop_trailing_singletons dv).prod = dv.prod := by
  unfold dim_vector.chop_trailing_singletons
  split
  · simp only [List.prod_cons, prod_dropTrailingOnes]
  · rfl

theorem prod_replicate_one (n : Nat) : (List.replicate n 1).prod = 1 := by
  induction n with
  | zero => rfl
  | succ k ih => simp [List.replicate_succ, ih]

theorem prod_redim (dv : dim_vector) (n : Nat) : (dim_vector.redim dv n).prod = dv.prod := by
  unfold dim_vector.redim
  by_cases h1 : dv.length = n
  · simp only [h1, if_true]
  · by_cases h2 : dv.length < n
    · simp [h1, h2, prod_replicate_one]
    · simp only [h1, h2, if_false]
      split_ifs <;>
        simp only [List.prod_append, List.prod_cons, List.prod_nil, mul_one,
          List.prod_take_mul_prod_drop]

theorem prod_take_succ_getD (l : List Nat) (i : Nat) :
    (l.take (i + 1)).prod = (l.take i).prod * l.getD i 1 := by
  induction l generalizing i with
  | nil => simp
  | cons x t ih =>
    cases i with
    | zero => simp
    | succ k =>
      simp only [List.take_succ_cons, List.prod_cons, List.getD_cons_succ]
      rw [ih k]
      ring

theorem take_succ_set (l : List Nat) (i n : Nat) (hi : i < l.length) :
    (l.set i n).take (i + 1) = l.take i ++ [n] := by
  induction l generalizing i with
  | nil => simp at hi
  | cons x t ih =>
    cases i with
    | zero => simp
    | succ k =>
      simp only [List.length_cons, Nat.add_lt_add_iff_right] at hi
      simp only [List.set_cons_succ, List.take_succ_cons, List.cons_append, ih k hi]

theorem colon_equiv_length (ix : idx_vector) (n : Nat)
    (h : ix.idx_class = .class_colon ∨ ix.is_colon_equiv n = true) : ix.length n = n := by
  cases ix with
  | colon => rfl
  | range start len step =>
    rcases h with h | h
    · cases h
    · simp only [idx_vector.is_colon_equiv, Bool.and_eq_true, beq_iff_eq] at h
      exact h.2
  | scalar data =>
    rcases h with h | h
    · cases h
    · simp only [idx_vector.is_colon_equiv, Bool.and_eq_true, beq_iff_eq] at h
      simp only [idx_vector.length]
      exact h.1.symm
  | vector data =>
    rcases h with h | h
    · cases h
    · simp [idx_vector.is_colon_equiv] at h
  | mask data =>
    rcases h with h | h
    · cases h
    · simp only [idx_vector.is_colon_equiv, Bool.and_eq_true, beq_iff_eq] at h
      exact h.1

theorem range_facts (ix : idx_vector) (n : Nat) (hc : ix.idx_class = .class_range)
    (hstep : ix.xelem 1 - ix.xelem 0 = 1) (hext : ix.extent n = n) :
    0 ≤ ix.xelem 0 ∧ ix.xelem (ix.length n : Int) = ix.xelem 0 + (ix.length n : Int) ∧
    (0 < ix.length n → ix.xelem 0 + (ix.length n : Int) ≤ (n : Int)) := by
  cases ix with
  | range start len step =>
    simp only [idx_vector.xelem, idx_vector.length] at hstep ⊢
    have hs : step = 1 := by omega
    subst hs
    refine ⟨by omega, by ring, ?_⟩
    intro hpos
    simp only [idx_vector.extent] at hext
    have h0 : len ≠ 0 := by omega
    simp only [h0, if_false] at hext
    have h1 : ¬ ((1 : Int) < 0) := by omega
    simp only [h1, if_false, Int.toNat_one, one_mul] at hext
    have : start + 1 + (len - 1) ≤ max n (start + 1 + (len - 1)) := le_max_right _ _
    rw [hext] at this
    omega
  | colon => cases hc
  | scalar data => cases hc
  | vector data => cases hc
  | mask data => cases hc

theorem scalar_facts (ix : idx_vector) (n : Nat) (hc : ix.idx_class = .class_scalar)
    (hext : ix.extent n = n) :
    0 ≤ ix.xelem 0 ∧ ix.xelem 0 + 1 ≤ (n : Int) ∧ ix.length n = 1 := by
  cases ix with
  | scalar data =>
    simp only [idx_vector.xelem, idx_vector.length, idx_vector.extent] at hext ⊢
    have : data + 1 ≤ max n (data + 1) := le_max_right _ _
    rw [hext] at this
    refine ⟨by omega, by omega, trivial⟩
  | colon => cases hc
  | range start len step => cases hc
  | vector data => cases hc
  | mask data => cases hc

/-- One pass through the loop body of `index_helper` keeps `IndexInv`. -/
theorem index_step_inv (dv : dim_vector) (i : Nat) (ix : idx_vector) (st st' : IndexState)
    (hrun : index_step dv i ix st = .ok st') (hinv : IndexInv dv i st)
    (hi : i < st.rdv.length) :
    IndexInv dv (i + 1) st' ∧ st'.rdv.length = st.rdv.length ∧
    st'.rdv.drop (i + 1) = st.rdv.drop (i + 1) := by
  obtain ⟨hs, hl, hul, hbound, hfirst⟩ := hinv
  unfold index_step at hrun
  by_cases hext : ix.extent (dv.elem i) = dv.elem i
  swap
  · simp [hext] at hrun
  simp only [hext, ne_eq, not_true_eq_false, if_false] at hrun
  have hs' : (((dv.take (i + 1)).prod : Nat) : Int) = st.s * (dv.elem i : Int) := by
    rw [prod_take_succ_getD, hs]
    push_cast
    rfl
  have htake : ∀ n : Nat, ((((st.rdv.set i n).take (i + 1)).prod : Nat) : Int)
      = (st.u - st.l) * (n : Int) := by
    intro n
    rw [take_succ_set _ _ _ hi, hul]
    simp
  have hs0 : 0 ≤ st.s := by
    rw [hs]
    exact Int.natCast_nonneg _
  have hd0 : (0 : Int) ≤ (dv.elem i : Int) := Int.natCast_nonneg _
  by_cases hcol : ix.idx_class = .class_colon ∨ ix.is_colon_equiv (dv.elem i) = true
  · simp only [hcol, if_true] at hrun
    by_cases hfr : st.first_range ≥ (0 : Int)
    · simp [hfr] at hrun
    · simp only [hfr, if_false, Except.ok.injEq] at hrun
      subst hrun
      obtain ⟨hl0, hu0⟩ := hfirst (by omega)
      have hlen := colon_equiv_length ix (dv.elem i) hcol
      refine ⟨⟨?_, ?_, ?_, ?_, ?_⟩, by simp, by simp [List.drop_set_of_lt]⟩
      · simp only [hs']
      · simp only [hl]
      · simp only [htake, hlen, hl0, hu0]
        ring
      · intro _
        simp only [le_refl]
      · intro _
        exact ⟨hl0, rfl⟩
  · simp only [hcol, if_false] at hrun
    by_cases hr : ix.idx_class = .class_range
    · simp only [hr, if_true] at hrun
      by_cases hbad : st.first_range ≥ (0 : Int) ∨ st.first_scalar ≥ (0 : Int)
          ∨ ix.xelem 1 - ix.xelem 0 ≠ 1
      · simp [hbad] at hrun
      · simp only [hbad, if_false, Except.ok.injEq] at hrun
        subst hrun
        have hfr : st.first_range < 0 := by
          by_contra hh
          exact hbad (Or.inl (by omega))
        have hstep : ix.xelem 1 - ix.xelem 0 = 1 := by
          by_contra hh
          exact hbad (Or.inr (Or.inr hh))
        obtain ⟨hl0, hu0⟩ := hfirst hfr
        obtain ⟨hx0, hxn, hxb⟩ := range_facts ix (dv.elem i) hr hstep hext
        refine ⟨⟨?_, ?_, ?_, ?_, ?_⟩, by simp, by simp [List.drop_set_of_lt]⟩
        · simp only [hs']
        · exact mul_nonneg hs0 hx0
        · simp only [htake, hxn, hl0, hu0]
          ring
        · intro hpos
          simp only [hxn] at hpos ⊢
          have hlenpos : 0 < ix.length (dv.elem i) := by
            by_contra hh
            have : ix.length (dv.elem i) = 0 := by omega
            rw [this] at hpos
            simp at hpos
          exact mul_le_mul_of_nonneg_left (hxb hlenpos) hs0
        · intro hneg
          simp only at hneg
          omega
    · simp only [hr, if_false] at hrun
      by_cases hsc : ix.idx_class = .class_scalar
      · simp only [hsc, if_true, Except.ok.injEq] at hrun
        subst hrun
        obtain ⟨hx0, hxb, hlen⟩ := scalar_facts ix (dv.elem i) hsc hext
        refine ⟨⟨?_, ?_, ?_, ?_, ?_⟩, by simp, by simp [List.drop_set_of_lt]⟩
        · simp only [hs']
        · have := mul_nonneg hs0 hx0
          simp only
          omega
        · simp only [htake, hlen]
          push_cast
          ring
        · intro hpos
          simp only at hpos ⊢
          have hu : st.u ≤ st.s := hbound (by omega)
          have h1 : st.s * (ix.xelem 0 + 1) ≤ st.s * (dv.elem i : Int) :=
            mul_le_mul_of_nonneg_left hxb hs0
          have h2 : st.s * (ix.xelem 0 + 1) = st.s * ix.xelem 0 + st.s := by ring
          omega
        · intro hneg
          simp only at hneg
          split_ifs at hneg <;> omega
      · simp [hsc] at hrun

theorem index_loop_inv (dv : dim_vector) :
    ∀ (ia : List idx_vector) (i : Nat) (st st' : IndexState),
      index_loop dv ia i st = .ok st' → IndexInv dv i st → i + ia.length ≤ st.rdv.length →
      IndexInv dv (i + ia.length) st' ∧ st'.rdv.length = st.rdv.length ∧
      st'.rdv.drop (i + ia.length) = st.rdv.drop (i + ia.length) := by
  intro ia
  induction ia with
  | nil =>
    intro i st st' hrun hinv _
    simp only [index_loop, Except.ok.injEq] at hrun
    subst hrun
    exact ⟨hinv, rfl, rfl⟩
  | cons ix rest ih =>
    intro i st st' hrun hinv hlen
    simp only [index_loop] at hrun
    simp only [List.length_cons] at hlen ⊢
    cases hstep : index_step dv i ix st with
    | error e =>
      rw [hstep] at hrun
      cases hrun
    | ok st1 =>
      rw [hstep] at hrun
      simp only at hrun
      obtain ⟨h1, h2, h3⟩ := index_step_inv dv i ix st st1 hstep hinv (by omega)
      obtain ⟨g1, g2, g3⟩ := ih (i + 1) st1 st' hrun h1 (by omega)
      have e : i + 1 + rest.length = i + (rest.length + 1) := by omega
      rw [e] at g1 g3
      refine ⟨g1, by rw [g2, h2], ?_⟩
      rw [g3]
      have : st1.rdv.drop (i + (rest.length + 1))
          = (st1.rdv.drop (i + 1)).drop rest.length := by
        rw [List.drop_drop]
        congr 1
        omega
      rw [this, h3, List.drop_drop, e]

theorem redim_length (dv : dim_vector) (n : Nat) (hn : 2 ≤ n) :
    (dim_vector.redim dv n).length = n := by
  unfold dim_vector.redim
  by_cases h1 : dv.length = n
  · simp only [h1, if_true]
  · by_cases h2 : dv.length < n
    · simp only [h1, h2, if_true, if_false, List.length_append, List.length_replicate]
      omega
    · have h3 : ¬ n < 1 := by omega
      have h4 : n ≠ 1 := by omega
      simp only [h1, h2, h3, h4, if_false, List.length_append, List.length_take,
        List.length_cons, List.length_nil]
      omega

theorem redim_one_two (dv : dim_vector) :
    dim_vector.redim (dim_vector.redim dv 1) 2 = [dv.prod, 1] := by
  cases dv with
  | nil => rfl
  | cons x t =>
    cases t with
    | nil => simp [dim_vector.redim]
    | cons y t2 =>
      simp [dim_vector.redim]

/-- The outputs of `index_helper`: the extents `dv` and the result dimensions
`rdv` have the products `numel` and `u - l`, `l` is not negative, and a
non-empty range `l .. u` ends inside the array. -/
theorem index_helper_spec (a : OclArray) (ia : List idx_vector) (dv rdv : dim_vector)
    (ac : Bool) (l u : Int) (hne : ia.length ≠ 0)
    (h : a.index_helper ia = .ok (dv, rdv, ac, l, u)) :
    dv.prod = a.dimensions.prod ∧ 0 ≤ l ∧ u - l = ((rdv.prod : Nat) : Int) ∧
    (0 < u - l → u ≤ ((a.dimensions.prod : Nat) : Int)) := by
  unfold OclArray.index_helper at h
  simp only at h
  split at h
  · cases h
  · rename_i st hloop
    simp only [Except.ok.injEq, Prod.mk.injEq] at h
    obtain ⟨hdv, hrdv, _, hl, hu⟩ := h
    subst hl hu
    have hinv0 : IndexInv dv 0
        { rdv := if ia.length = 1 then [1, 1] else List.replicate (max ia.length 2) 0,
          all_colons := true, first_range := -1, first_scalar := -1,
          s := 1, l := 0, u := 1 } := by
      refine ⟨by simp, le_refl _, by simp, ?_, ?_⟩
      · intro _
        exact le_refl _
      · intro _
        exact ⟨rfl, rfl⟩
    rw [hdv] at hloop
    have hlen0 : 0 + ia.length ≤
        (if ia.length = 1 then [1, 1] else List.replicate (max ia.length 2) 0 : List Nat).length
        := by
      split_ifs with h1
      · simp [h1]
      · simp
    obtain ⟨⟨hs, hl0, hul, hbound, _⟩, hrl, hrd⟩ :=
      index_loop_inv dv ia 0 _ st hloop hinv0 hlen0
    simp only [zero_add] at hs hul hrl hrd
    have hdvprod : dv.prod = a.dimensions.prod ∧ (dv.take ia.length).prod = dv.prod := by
      by_cases h1 : ia.length = 1
      · simp only [h1, if_true] at hdv
        rw [redim_one_two] at hdv
        rw [← hdv, h1]
        simp
      · simp only [h1, if_false] at hdv
        have hlen : dv.length = ia.length := by
          rw [← hdv]
          exact redim_length _ _ (by omega)
        refine ⟨by rw [← hdv]; exact prod_redim _ _, ?_⟩
        rw [← hlen, List.take_length]
    have hrprod : rdv.prod = (st.rdv.take ia.length).prod := by
      rw [← hrdv, prod_chop_trailing_singletons]
      by_cases h1 : ia.length = 1
      · simp only [h1, if_true] at hrl hrd
        simp only [List.length_cons, List.length_nil, List.drop_succ_cons, List.drop_zero] at hrl hrd
        have hst : ∃ x, st.rdv = [x, 1] := by
          match hq : st.rdv with
          | [] => simp [hq] at hrl
          | [_] => simp [hq] at hrl
          | [x, y] =>
            simp only [hq, List.drop_succ_cons, List.drop_zero, List.cons.injEq, and_true] at hrd
            exact ⟨x, by rw [hrd]⟩
          | _ :: _ :: _ :: _ => simp [hq] at hrl
        obtain ⟨x, hx⟩ := hst
        simp only [h1, hx, true_and, dim_vector.elem]
        split_ifs <;> simp
      · have h2 : ¬ (ia.length = 1 ∧ (a.dimensions.length ≠ 2 ∨ a.dimensions.elem 1 ≠ 1)) :=
          fun hh => h1 hh.1
        simp only [h2, if_false]
        simp only [h1, if_false, List.length_replicate] at hrl
        have : st.rdv.length = ia.length := by
          rw [hrl]
          omega
        rw [← this, List.take_length]
    refine ⟨hdvprod.1, hl0, ?_, ?_⟩
    · rw [hul, hrprod]
    · intro hpos
      have := hbound hpos
      rw [hs, hdvprod.2, hdvprod.1] at this
      exact this

/-! ## The window invariant is kept by every operation -/

theorem evolves_of_heap_eq {α : Type} (w w' : World α) (h : w'.heap = w.heap) :
    Evolves w w' := by
  refine ⟨by rw [h], ?_⟩
  intro q r' _ hr'
  rw [rep?_of_heap w' w q h] at hr'
  exact ⟨r', hr', rfl⟩

/-- A state whose reps are given address by address: the old ones, except that
the rep at `p` may be replaced by one of the same length or deleted, and that
new reps may appear beyond the old heap. -/
theorem evolves_of_formula {α : Type} (w w' : World α) (p : Nat)
    (o : Option (OclArrayRep α)) (hlen : w.heap.length ≤ w'.heap.length)
    (ho : ∀ r1, o = some r1 → ∃ r, w.rep? p = some r ∧ r1.len = r.len)
    (hrep : ∀ q, q < w.heap.length → w'.rep? q = if q = p then o else w.rep? q) :
    Evolves w w' := by
  refine ⟨hlen, ?_⟩
  intro q r' hq hr'
  rw [hrep q hq] at hr'
  by_cases hqp : q = p
  · rw [if_pos hqp] at hr'
    rw [hqp]
    exact ho r' hr'
  · rw [if_neg hqp] at hr'
    exact ⟨r', hr', rfl⟩

theorem evolves_deleteRep {α : Type} (w : World α) (p : Nat) : Evolves w (w.deleteRep p) := by
  obtain ⟨h1, _, _, h4⟩ := deleteRep_spec w p
  exact evolves_of_formula w _ p none (by rw [h1]) (fun r1 h => by cases h) (fun q _ => h4 q)

theorem refInv_of_reachable {α : Type} [Inhabited α] (dev : Device) (M : Machine α)
    (hreach : Reachable dev M) : RefInv M := by
  induction hreach with
  | init => exact refInv_init α
  | step M M' op _ hstep ih => exact refInv_step dev M M' op ih hstep

theorem exMachine_reachable : Reachable exDevice exMachine :=
  Reachable.step (Machine.init Int) exMachine (.mkHost [1, 2, 3, 4, 5, 6] [2, 3])
    Reachable.init rfl

theorem exViewMachine_reachable : Reachable exDevice exViewMachine :=
  Reachable.step exMachine exViewMachine (.linear_slice 0 1 3) exMachine_reachable rfl

theorem count_allRetained (pool : List (Nat × List Nat)) (b : Nat) :
    (allRetained pool).count b = (pool.map (fun e => e.2.count b)).sum := by
  induction pool with
  | nil => rfl
  | cons e t ih =>
    have h : allRetained (e :: t) = e.2 ++ allRetained t := by
      simp [allRetained]
    rw [h, List.count_append, ih]
    simp

/-- With an empty pool `obtain_ocl_buffer` makes exactly one call of
`clCreateBuffer` and frees nothing. -/
theorem obtain_of_empty_pool (dev : Device) (size : Nat) (m : MemMgr)
    (hp : m.memobj_pool = []) :
    (∀ b, dev.clCreateBuffer m.createCalls size = some b →
      obtain_ocl_buffer dev size m = some (.ok b,
        { m with createCalls := m.createCalls + 1,
                 assigned_ocl_memobjs := mapSet m.assigned_ocl_memobjs b size })) ∧
    (dev.clCreateBuffer m.createCalls size = none →
      obtain_ocl_buffer dev size m = some (.error .device_error,
        { m with createCalls := m.createCalls + 1 })) := by
  constructor
  · intro b hb
    simp [obtain_ocl_buffer, mapCount, mapFind, hp, retained, obtainLoop, new_ocl_buffer, hb]
  · intro hb
    simp [obtain_ocl_buffer, mapCount, mapFind, hp, retained, obtainLoop, new_ocl_buffer, hb,
      mapMaxKey]

/-- Claim C11 (whole-pool flush).  When `id` is the only entry of `assigned`,
`release_ocl_buffer (id)` appends to the record of `clReleaseMemObject` calls
first `id` and then the retained buffers of all buckets in iteration order, so
that every buffer is freed once for each position it holds in a bucket, and
leaves `assigned` and the bucket map empty.  A following `obtain_ocl_buffer`,
for whatever size, makes one call of `clCreateBuffer`, frees nothing more, and
returns the buffer of the device or fails with the device error. -/
theorem whole_pool_flush (dev : Device) (m : MemMgr) (id size : Nat)
    (h : m.assigned_ocl_memobjs = [(id, size)]) :
    release_ocl_buffer id m =
      { m with assigned_ocl_memobjs := [], memobj_pool := [],
               releaseCalls := m.releaseCalls ++ id :: allRetained m.memobj_pool } ∧
    (∀ b, (id :: allRetained m.memobj_pool).count b =
      (if b = id then 1 else 0) + (m.memobj_pool.map (fun e => e.2.count b)).sum) ∧
    (∀ S, ∃ r m', obtain_ocl_buffer dev S (release_ocl_buffer id m) = some (r, m') ∧
      m'.createCalls = m.createCalls + 1 ∧
      m'.releaseCalls = (release_ocl_buffer id m).releaseCalls ∧
      (∀ b, r = .ok b → dev.clCreateBuffer m.createCalls S = some b ∧
        m'.assigned_ocl_memobjs = [(b, S)]) ∧
      (∀ e, r = .error e → dev.clCreateBuffer m.createCalls S = none ∧
        e = .device_error ∧ m'.assigned_ocl_memobjs = [])) := by
  have hrel : release_ocl_buffer id m =
      { m with assigned_ocl_memobjs := [], memobj_pool := [],
               releaseCalls := m.releaseCalls ++ id :: allRetained m.memobj_pool } := by
    simp [release_ocl_buffer, h, mapFind, mapErase, delete_ocl_buffer]
  refine ⟨hrel, ?_, ?_⟩
  · intro b
    rw [List.count_cons, count_allRetained]
    by_cases hb : b = id
    · simp [hb]
      omega
    · have : ¬ id = b := fun e => hb e.symm
      simp [hb, this]
  · intro S
    rw [hrel]
    obtain ⟨hok, herr⟩ := obtain_of_empty_pool dev S
      { m with assigned_ocl_memobjs := [], memobj_pool := [],
               releaseCalls := m.releaseCalls ++ id :: allRetained m.memobj_pool } rfl
    cases hc : dev.clCreateBuffer m.createCalls S with
    | none =>
      refine ⟨_, _, herr hc, rfl, rfl, ?_, ?_⟩
      · intro b hb
        cases hb
      · intro e he
        cases he
        exact ⟨rfl, rfl, rfl⟩
    | some b =>
      refine ⟨_, _, hok b hc, rfl, rfl, ?_, ?_⟩
      · intro b' hb'
        cases hb'
        exact ⟨rfl, rfl⟩
      · intro e he
        cases he

/-- Claim C14 (`reset_memmgr` and context destruction).  `reset_memmgr` leaves
`assigned` and the bucket map empty and the records of `clCreateBuffer` and
`clReleaseMemObject` calls, hence the freed buffers, as they were.
`destroy_opencl_context` with an active context (the library being loaded, as it
is whenever a context is active) sets `active_opencl_context_id` to 0, keeps
`next_opencl_context_id`, and resets the memory manager in this way; without an
active context it changes nothing, whatever the library flag. -/
theorem reset_and_context_destruction {α : Type} (w : World α) :
    ((reset_memmgr w.mem).assigned_ocl_memobjs = [] ∧
      (reset_memmgr w.mem).memobj_pool = [] ∧
      (reset_memmgr w.mem).releaseCalls = w.mem.releaseCalls ∧
      (reset_memmgr w.mem).createCalls = w.mem.createCalls ∧
      (reset_memmgr w.mem).max_sized_memobj_pool_objs = w.mem.max_sized_memobj_pool_objs) ∧
    (w.ctx.active_opencl_context_id ≠ 0 →
      destroy_opencl_context true w =
        { w with ctx := { active_opencl_context_id := 0,
                          next_opencl_context_id := w.ctx.next_opencl_context_id },
                 mem := reset_memmgr w.mem }) ∧
    (w.ctx.active_opencl_context_id = 0 →
      ∀ cl_lib_loaded, destroy_opencl_context cl_lib_loaded w = w) := by
  refine ⟨⟨rfl, rfl, rfl, rfl, rfl⟩, ?_, ?_⟩
  · intro h
    simp [destroy_opencl_context, opencl_context_active, h]
  · intro h l
    simp [destroy_opencl_context, opencl_context_active, h]

theorem opencl_context_id_active_iff (c : Context) (s : Nat) :
    opencl_context_id_active c s = true ↔ (s ≠ 0 ∧ s = c.active_opencl_context_id) := by
  simp only [opencl_context_id_active, Bool.and_eq_true, beq_iff_eq, bne_iff_ne, ne_eq]
  constructor
  · rintro ⟨h1, h2⟩
    exact ⟨h2, h1.symm⟩
  · rintro ⟨h1, h2⟩
    exact ⟨h2.symm, h1⟩

/-- Claim C15 (definition of the validity check).  `object_context_still_valid`
is true exactly when the stamp is not 0 and equals the active context id.  An
object constructed with `need_context == false` is stamped 0, and a stamp 0 is
valid in no state.  A rep without buffer is valid in no state, and such are
the reps of length 0: the one that `new OclArrayRep (n)` makes for `n <= 0`
and the rep of `nil_rep ()`. -/
theorem validity_check_definition :
    (∀ (c : Context) (o : OclMemoryObject), o.object_context_still_valid c = true ↔
      (o.assctd_ctx_id ≠ 0 ∧ o.assctd_ctx_id = c.active_opencl_context_id)) ∧
    (∀ (dev : Device) (c : Context), OclContextObject.create dev false c = (.ok 0, c)) ∧
    (∀ (c : Context) (o : OclMemoryObject), o.assctd_ctx_id = 0 →
      o.object_context_still_valid c = false) ∧
    (∀ (α : Type) (c : Context) (r : OclArrayRep α), r.memobj = none →
      r.is_valid c = false) ∧
    (∀ (α : Type) [Inhabited α] (dev : Device) (n : Int) (w : World α), n ≤ 0 →
      ∃ w', OclArrayRep.create dev n w = (.ok w.heap.length, w') ∧
        ∃ r, w'.rep? w.heap.length = some r ∧ r.len = n ∧ r.memobj = none ∧
          ∀ c, r.is_valid c = false) ∧
    (∀ (α : Type) (w : World α), w.nil_rep = none →
      ∃ r, (nil_rep w).2.rep? (nil_rep w).1 = some r ∧ r.len = 0 ∧ r.memobj = none ∧
        ∀ c, r.is_valid c = false) := by
  refine ⟨?_, ?_, ?_, ?_, ?_, ?_⟩
  · intro c o
    exact opencl_context_id_active_iff c o.assctd_ctx_id
  · intro dev c
    rfl
  · intro c o h
    simp [OclMemoryObject.object_context_still_valid, opencl_context_id_active, h]
  · intro α c r h
    simp [OclArrayRep.is_valid, h]
  · intro α _ dev n w hn
    have hn' : ¬ n > 0 := by omega
    refine ⟨(w.newRep ⟨none, n, 1, []⟩).2, ?_, ?_⟩
    · simp [OclArrayRep.create, hn', World.newRep]
    · refine ⟨{ memobj := none, len := n, count := 1, data := [] }, ?_, rfl, rfl, ?_⟩
      · simp [World.rep?, World.newRep]
      · intro c
        rfl
  · intro α w hw
    obtain ⟨h1, _, _, _, h5⟩ := (nil_rep_spec w).2 hw
    refine ⟨{ memobj := none, len := 0, count := 1, data := [] }, ?_, rfl, rfl, ?_⟩
    · rw [h1, h5, if_pos rfl]
    · intro c
      rfl

/-! ## Context ids over sequences of calls -/

theorem assure_opencl_context_active (dev : Device) (c : Context)
    (h : c.active_opencl_context_id ≠ 0) :
    assure_opencl_context dev c = (.ok c.active_opencl_context_id, c) := by
  simp [assure_opencl_context, h]

theorem assure_opencl_context_new (dev : Device) (c c' : Context) (id : Nat)
    (h0 : c.active_opencl_context_id = 0)
    (h : assure_opencl_context dev c = (.ok id, c')) :
    id = c.next_opencl_context_id ∧ c'.active_opencl_context_id = c.next_opencl_context_id ∧
    c'.next_opencl_context_id = (c.next_opencl_context_id + 1) % 2 ^ 64 := by
  unfold assure_opencl_context at h
  rw [if_neg (by simp [h0])] at h
  split_ifs at h
  · simp only [Prod.mk.injEq, Except.ok.injEq] at h
    obtain ⟨h1, h2⟩ := h
    subst h2
    exact ⟨h1.symm, rfl, rfl⟩
  · simp at h

/-- One call keeps `active < next`, does not lower `next`, raises it by at most
one, and leaves the active id as it was, or 0, or at the old `next` or above. -/
theorem ctxStep_spec {α : Type} (dev : Device) (w : World α) (op : CtxOp)
    (hinv : w.ctx.active_opencl_context_id < w.ctx.next_opencl_context_id)
    (hwrap : w.ctx.next_opencl_context_id + 1 < 2 ^ 64) :
    w.ctx.next_opencl_context_id ≤ (ctxStep dev w op).ctx.next_opencl_context_id ∧
    (ctxStep dev w op).ctx.next_opencl_context_id ≤ w.ctx.next_opencl_context_id + 1 ∧
    (ctxStep dev w op).ctx.active_opencl_context_id
      < (ctxStep dev w op).ctx.next_opencl_context_id ∧
    ((ctxStep dev w op).ctx.active_opencl_context_id = w.ctx.active_opencl_context_id ∨
      (ctxStep dev w op).ctx.active_opencl_context_id = 0 ∨
      w.ctx.next_opencl_context_id ≤ (ctxStep dev w op).ctx.active_opencl_context_id) := by
  cases op with
  | assure =>
    by_cases h0 : w.ctx.active_opencl_context_id = 0
    · by_cases hd : dev.clCreateContext = true
      · have e : (ctxStep dev w .assure).ctx =
            { active_opencl_context_id := w.ctx.next_opencl_context_id,
              next_opencl_context_id := w.ctx.next_opencl_context_id + 1 } := by
          simp [ctxStep, assure_opencl_context, h0, hd]
          omega
        rw [e]
        dsimp only
        omega
      · have e : (ctxStep dev w .assure).ctx = w.ctx := by
          simp [ctxStep, assure_opencl_context, h0, hd]
        rw [e]
        omega
    · have e : (ctxStep dev w .assure).ctx = w.ctx := by
        simp [ctxStep, assure_opencl_context, h0]
      rw [e]
      omega
  | destroy =>
    by_cases h0 : w.ctx.active_opencl_context_id = 0
    · have e : (ctxStep dev w .destroy).ctx = w.ctx := by
        simp [ctxStep, destroy_opencl_context, opencl_context_active, h0]
      rw [e]
      omega
    · have e : (ctxStep dev w .destroy).ctx =
          { active_opencl_context_id := 0,
            next_opencl_context_id := w.ctx.next_opencl_context_id } := by
        simp [ctxStep, destroy_opencl_context, opencl_context_active, h0]
      rw [e]
      dsimp only
      omega

theorem ctxRun_spec {α : Type} (dev : Device) (ops : List CtxOp) :
    ∀ (w : World α), w.ctx.active_opencl_context_id < w.ctx.next_opencl_context_id →
      w.ctx.next_opencl_context_id + ops.length < 2 ^ 64 →
      w.ctx.next_opencl_context_id ≤ (ctxRun dev w ops).ctx.next_opencl_context_id ∧
      (ctxRun dev w ops).ctx.active_opencl_context_id
        < (ctxRun dev w ops).ctx.next_opencl_context_id ∧
      ((ctxRun dev w ops).ctx.active_opencl_context_id = w.ctx.active_opencl_context_id ∨
        (ctxRun dev w ops).ctx.active_opencl_context_id = 0 ∨
        w.ctx.next_opencl_context_id ≤ (ctxRun dev w ops).ctx.active_opencl_context_id) := by
  induction ops with
  | nil =>
    intro w hinv _
    exact ⟨le_refl _, hinv, Or.inl rfl⟩
  | cons op ops ih =>
    intro w hinv hwrap
    simp only [List.length_cons] at hwrap
    obtain ⟨h1, h2, h3, h4⟩ := ctxStep_spec dev w op hinv (by omega)
    obtain ⟨k1, k2, k3⟩ := ih (ctxStep dev w op) h3 (by omega)
    have hrun : ctxRun dev w (op :: ops) = ctxRun dev (ctxStep dev w op) ops := rfl
    rw [hrun]
    refine ⟨by omega, k2, ?_⟩
    rcases k3 with k | k | k
    · rcases h4 with h | h | h
      · exact Or.inl (k.trans h)
      · exact Or.inr (Or.inl (k.trans h))
      · exact Or.inr (Or.inr (by omega))
    · exact Or.inr (Or.inl k)
    · exact Or.inr (Or.inr (by omega))

/-- Claim C16 (epoch invalidation is permanent).  The state has
`active_opencl_context_id < next_opencl_context_id`, as at program start and
after every call, and no wrap-around of `next_opencl_context_id` occurs.
(a) `assure_opencl_context` with an active context returns the active id and
changes nothing.  (b) Every successful `assure_opencl_context` returns a stamp
that is not 0, is the active id, is below the new `next_opencl_context_id`, and
is valid; `active < next` holds again.  (c) When it creates a context, the id
is the old `next_opencl_context_id`, hence greater than every stamp handed out
before, and all those stamps are invalid under the new context.  (d) After
`destroy_opencl_context`, and after any further sequence of
`assure_opencl_context` and `destroy_opencl_context` calls, every stamp handed
out before the destruction is invalid.  (e) Without an active context,
`assure_opencl_context` creates one when `clCreateContext` succeeds: it returns the
old `next_opencl_context_id`, makes it the active id and advances
`next_opencl_context_id` by one; when `clCreateContext` fails it raises the error and
changes nothing.  (f) `destroy_opencl_context` with an active context sets the
active id to 0 and leaves `next_opencl_context_id` as it is, so that the
context created next gets a greater id than the destroyed one, under which
the stamp of the new context is valid and the stamp of the destroyed one is
not. -/
theorem epoch_invalidation_is_permanent {α : Type} (dev : Device) (w : World α)
    (hinv : w.ctx.active_opencl_context_id < w.ctx.next_opencl_context_id) :
    (w.ctx.active_opencl_context_id ≠ 0 →
      assure_opencl_context dev w.ctx = (.ok w.ctx.active_opencl_context_id, w.ctx)) ∧
    (∀ id c', w.ctx.next_opencl_context_id + 1 < 2 ^ 64 →
      assure_opencl_context dev w.ctx = (.ok id, c') →
      id ≠ 0 ∧ c'.active_opencl_context_id = id ∧ id < c'.next_opencl_context_id ∧
      opencl_context_id_active c' id = true) ∧
    (w.ctx.active_opencl_context_id = 0 → ∀ id c',
      assure_opencl_context dev w.ctx = (.ok id, c') →
      id = w.ctx.next_opencl_context_id ∧
      (∀ s, s < w.ctx.next_opencl_context_id → s < id ∧
        opencl_context_id_active c' s = false)) ∧
    (∀ s, s < w.ctx.next_opencl_context_id → ∀ ops : List CtxOp,
      w.ctx.next_opencl_context_id + ops.length < 2 ^ 64 →
      opencl_context_id_active (ctxRun dev (destroy_opencl_context true w) ops).ctx s
        = false) ∧
    (w.ctx.active_opencl_context_id = 0 →
      (dev.clCreateContext = true →
        assure_opencl_context dev w.ctx
          = (.ok w.ctx.next_opencl_context_id,
              { active_opencl_context_id := w.ctx.next_opencl_context_id,
                next_opencl_context_id := (w.ctx.next_opencl_context_id + 1) % 2 ^ 64 })) ∧
      (dev.clCreateContext = false →
        assure_opencl_context dev w.ctx = (.error .device_error, w.ctx))) ∧
    (w.ctx.active_opencl_context_id ≠ 0 →
      (destroy_opencl_context true w).ctx
        = { active_opencl_context_id := 0,
            next_opencl_context_id := w.ctx.next_opencl_context_id } ∧
      (dev.clCreateContext = true → w.ctx.next_opencl_context_id + 1 < 2 ^ 64 →
        ∃ c', assure_opencl_context dev (destroy_opencl_context true w).ctx
            = (.ok w.ctx.next_opencl_context_id, c') ∧
          w.ctx.active_opencl_context_id < w.ctx.next_opencl_context_id ∧
          opencl_context_id_active c' w.ctx.next_opencl_context_id = true ∧
          opencl_context_id_active c' w.ctx.active_opencl_context_id = false)) := by
  refine ⟨assure_opencl_context_active dev w.ctx, ?_, ?_, ?_, ?_, ?_⟩
  · intro id c' hwrap h
    by_cases h0 : w.ctx.active_opencl_context_id = 0
    · obtain ⟨h1, h2, h3⟩ := assure_opencl_context_new dev w.ctx c' id h0 h
      rw [Nat.mod_eq_of_lt hwrap] at h3
      have hid : id ≠ 0 := by omega
      refine ⟨hid, by omega, by omega, ?_⟩
      rw [opencl_context_id_active_iff]
      exact ⟨hid, by omega⟩
    · rw [assure_opencl_context_active dev w.ctx h0] at h
      simp only [Prod.mk.injEq, Except.ok.injEq] at h
      obtain ⟨h1, h2⟩ := h
      subst h2
      refine ⟨by omega, h1, by omega, ?_⟩
      rw [opencl_context_id_active_iff]
      exact ⟨by omega, h1.symm⟩
  · intro h0 id c' h
    obtain ⟨h1, h2, _⟩ := assure_opencl_context_new dev w.ctx c' id h0 h
    refine ⟨h1, ?_⟩
    intro s hs
    refine ⟨by omega, ?_⟩
    cases hv : opencl_context_id_active c' s with
    | false => rfl
    | true =>
      rw [opencl_context_id_active_iff] at hv
      omega
  · intro s hs ops hwrap
    have hd : (destroy_opencl_context true w).ctx.active_opencl_context_id = 0 ∧
        (destroy_opencl_context true w).ctx.next_opencl_context_id
          = w.ctx.next_opencl_context_id := by
      by_cases h0 : w.ctx.active_opencl_context_id = 0
      · simp [destroy_opencl_context, opencl_context_active, h0]
      · simp [destroy_opencl_context, opencl_context_active, h0]
    obtain ⟨k1, k2, k3⟩ := ctxRun_spec dev ops (destroy_opencl_context true w)
      (by omega) (by omega)
    cases hv : opencl_context_id_active
        (ctxRun dev (destroy_opencl_context true w) ops).ctx s with
    | false => rfl
    | true =>
      rw [opencl_context_id_active_iff] at hv
      omega
  · intro h0
    refine ⟨fun hc => ?_, fun hc => ?_⟩
    · simp [assure_opencl_context, h0, hc]
    · simp [assure_opencl_context, h0, hc]
  · intro h0
    have hd : (destroy_opencl_context true w).ctx
        = { active_opencl_context_id := 0,
            next_opencl_context_id := w.ctx.next_opencl_context_id } := by
      simp [destroy_opencl_context, opencl_context_active, h0]
    refine ⟨hd, fun hc hwrap => ?_⟩
    refine ⟨⟨w.ctx.next_opencl_context_id, (w.ctx.next_opencl_context_id + 1) % 2 ^ 64⟩,
      by rw [hd]; simp [assure_opencl_context, hc], hinv, ?_, ?_⟩
    · rw [opencl_context_id_active_iff]
      exact ⟨by omega, rfl⟩
    · cases hv : opencl_context_id_active
          { active_opencl_context_id := w.ctx.next_opencl_context_id,
            next_opencl_context_id := (w.ctx.next_opencl_context_id + 1) % 2 ^ 64 }
          w.ctx.active_opencl_context_id with
      | false => rfl
      | true =>
        rw [opencl_context_id_active_iff] at hv
        have := hv.2
        simp only at this
        omega

/-! ## Destruction of a memory object -/

theorem deleteRep_eq_destroy {α : Type} (w : World α) (p : Nat) (r : OclArrayRep α)
    (o : OclMemoryObject) (hr : w.rep? p = some r) (ho : r.memobj = some o) :
    w.deleteRep p = o.destroy { w with heap := w.heap.set p none } := by
  simp only [World.deleteRep, hr, ho, OclMemoryObject.destroy]

/-- Claim C17 (dropping a stale buffer does not touch the pool).  The destructor
of an `OclMemoryObject` whose stamp is not the active context id leaves the
whole state, and so the memory manager with its records of device calls, as it
is; with a valid stamp it makes exactly the call
`release_ocl_buffer (ocl_mem_buffer)`.  `delete rep` runs this destructor on the
buffer of the rep, and so does the release of the last handle of a rep, whose
count is 1. -/
theorem stale_buffer_is_dropped {α : Type} (w : World α) (p : Nat) (r : OclArrayRep α)
    (o : OclMemoryObject) (hr : w.rep? p = some r) (ho : r.memobj = some o) :
    (o.object_context_still_valid w.ctx = false →
      o.destroy w = w ∧ (w.deleteRep p).mem = w.mem ∧
      (r.count = 1 → (w.unref p).mem = w.mem ∧ (w.unref p).rep? p = none)) ∧
    (o.object_context_still_valid w.ctx = true →
      o.destroy w = { w with mem := release_ocl_buffer o.ocl_mem_buffer w.mem } ∧
      (w.deleteRep p).mem = release_ocl_buffer o.ocl_mem_buffer w.mem ∧
      (r.count = 1 → (w.unref p).mem = release_ocl_buffer o.ocl_mem_buffer w.mem ∧
        (w.unref p).rep? p = none)) ∧
    (w.deleteRep p).ctx = w.ctx ∧ (w.deleteRep p).rep? p = none := by
  have hdel := deleteRep_eq_destroy w p r o hr ho
  obtain ⟨_, _, hdc, hdr⟩ := deleteRep_spec w p
  have hun : r.count = 1 → w.unref p = (w.setRep p { r with count := r.count - 1 }).deleteRep p := by
    intro hc
    simp [World.unref, hr, hc]
  have hset : (w.setRep p { r with count := r.count - 1 }).rep? p
      = some { r with count := r.count - 1 } := by
    rw [(setRep_spec w p r _ hr).2.2.2, if_pos rfl]
  have hdel2 := deleteRep_eq_destroy (w.setRep p { r with count := r.count - 1 }) p
    { r with count := r.count - 1 } o hset ho
  refine ⟨?_, ?_, hdc, ?_⟩
  · intro hv
    have e1 : o.destroy w = w := by simp [OclMemoryObject.destroy, hv]
    refine ⟨e1, ?_, ?_⟩
    · rw [hdel]
      simp [OclMemoryObject.destroy, hv]
    · intro hc
      rw [hun hc]
      refine ⟨?_, ?_⟩
      · rw [hdel2]
        simp [OclMemoryObject.destroy, World.setRep, hv]
      · rw [(deleteRep_spec _ p).2.2.2, if_pos rfl]
  · intro hv
    have e1 : o.destroy w = { w with mem := release_ocl_buffer o.ocl_mem_buffer w.mem } := by
      simp [OclMemoryObject.destroy, hv]
    refine ⟨e1, ?_, ?_⟩
    · rw [hdel]
      simp [OclMemoryObject.destroy, hv]
    · intro hc
      rw [hun hc]
      refine ⟨?_, ?_⟩
      · rw [hdel2]
        simp [OclMemoryObject.destroy, World.setRep, hv]
      · rw [(deleteRep_spec _ p).2.2.2, if_pos rfl]
  · rw [hdr, if_pos rfl]

/-! ## The invariant of the memory manager -/

theorem mapFind_eq_none_iff {V : Type} (m : List (Nat × V)) (k : Nat) :
    mapFind m k = none ↔ k ∉ m.map Prod.fst := by
  induction m with
  | nil => simp [mapFind]
  | cons e t ih =>
    obtain ⟨k', v⟩ := e
    by_cases h : k = k'
    · simp [mapFind, h]
    · simp [mapFind, h, ih]

theorem mapFind_of_mem {V : Type} (m : List (Nat × V)) (k : Nat) (v : V)
    (hnd : (m.map Prod.fst).Nodup) (h : (k, v) ∈ m) : mapFind m k = some v := by
  induction m with
  | nil => cases h
  | cons e t ih =>
    obtain ⟨k', v'⟩ := e
    simp only [List.map_cons, List.nodup_cons] at hnd
    rcases List.mem_cons.mp h with h1 | h1
    · cases h1
      simp [mapFind]
    · have hk : k ≠ k' := by
        intro e
        apply hnd.1
        rw [← e]
        exact List.mem_map_of_mem Prod.fst h1
      simp only [mapFind, hk, if_false]
      exact ih hnd.2 h1

theorem mapFind_ne_nil {V : Type} (m : List (Nat × V)) (k : Nat) (v : V)
    (h : mapFind m k = some v) : m ≠ [] := by
  intro e
  rw [e] at h
  cases h

theorem keys_mapErase {V : Type} (m : List (Nat × V)) (k : Nat) :
    (mapErase m k).map Prod.fst = (m.map Prod.fst).filter (fun x => !(x == k)) := by
  induction m with
  | nil => rfl
  | cons e t ih =>
    simp only [mapErase, List.filter_cons, List.map_cons] at ih ⊢
    by_cases h : e.1 = k
    · simp [h, ih]
    · simp [h, ih]

theorem nodup_keys_mapErase {V : Type} (m : List (Nat × V)) (k : Nat)
    (hnd : (m.map Prod.fst).Nodup) : ((mapErase m k).map Prod.fst).Nodup := by
  rw [keys_mapErase]
  exact hnd.filter _

theorem keys_mapReplace {V : Type} (m : List (Nat × V)) (k : Nat) (v : V) :
    (mapReplace m k v).map Prod.fst = m.map Prod.fst := by
  induction m with
  | nil => rfl
  | cons e t ih =>
    obtain ⟨k', v'⟩ := e
    by_cases h : k = k'
    · simp [mapReplace, h]
    · simp [mapReplace, h, ih]

theorem keys_mapInsert_perm {V : Type} (m : List (Nat × V)) (k : Nat) (v : V) :
    ((mapInsert m k v).map Prod.fst).Perm (k :: m.map Prod.fst) := by
  induction m with
  | nil => simp [mapInsert]
  | cons e t ih =>
    obtain ⟨k', v'⟩ := e
    by_cases h : k < k'
    · simp [mapInsert, h]
    · simp only [mapInsert, h, if_false, List.map_cons]
      exact (List.Perm.cons k' ih).trans (List.Perm.swap k k' _)

theorem nodup_keys_mapSet {V : Type} (m : List (Nat × V)) (k : Nat) (v : V)
    (hnd : (m.map Prod.fst).Nodup) : ((mapSet m k v).map Prod.fst).Nodup := by
  unfold mapSet
  cases hf : mapFind m k with
  | some x =>
    simp only
    rw [keys_mapReplace]
    exact hnd
  | none =>
    simp only
    rw [(keys_mapInsert_perm m k v).nodup_iff, List.nodup_cons]
    exact ⟨(mapFind_eq_none_iff m k).mp hf, hnd⟩

theorem mem_allRetained (pool : List (Nat × List Nat)) (b : Nat) :
    b ∈ allRetained pool ↔ ∃ e ∈ pool, b ∈ e.2 := by
  simp [allRetained, List.mem_flatten]
  constructor
  · rintro ⟨l, ⟨k, hk⟩, hb⟩
    exact ⟨k, l, hk, hb⟩
  · rintro ⟨k, l, hk, hb⟩
    exact ⟨l, ⟨k, hk⟩, hb⟩

theorem mem_allRetained_of_find (pool : List (Nat × List Nat)) (K : Nat) (l : List Nat)
    (b : Nat) (h : mapFind pool K = some l) (hb : b ∈ l) : b ∈ allRetained pool :=
  (mem_allRetained pool b).mpr ⟨(K, l), mapFind_mem pool K l h, hb⟩

theorem mapFind_dropFreed (live : List (Nat × Nat)) (freed : List Nat) (id : Nat) :
    mapFind (dropFreed live freed) id = if id ∈ freed then none else mapFind live id := by
  induction live with
  | nil => simp [dropFreed, mapFind]
  | cons e t ih =>
    obtain ⟨k, v⟩ := e
    unfold dropFreed at ih ⊢
    by_cases hk : k ∈ freed
    · have : (freed.contains k) = true := by simpa using hk
      simp only [List.filter_cons, this, Bool.not_true, Bool.false_eq_true, if_false, ih]
      by_cases hid : id = k
      · simp [hid, hk]
      · simp [mapFind, hid]
    · have : (freed.contains k) = false := by simpa using hk
      simp only [List.filter_cons, this, Bool.not_false, if_true, mapFind, ih]
      by_cases hid : id = k
      · simp [hid, hk]
      · simp [hid]

theorem dropFreed_nil (live : List (Nat × Nat)) : dropFreed live [] = live := by
  simp [dropFreed]

/-- The bucket map after the back of the non-empty bucket `K` has been taken off. -/
theorem mapFind_pop (pool : List (Nat × List Nat)) (K : Nat) (l : List Nat) (K' : Nat) :
    (mapFind (if l.isEmpty then mapErase pool K else mapSet pool K l) K')
      = if K' = K then (if l = [] then none else some l) else mapFind pool K' := by
  cases l with
  | nil => simp [mapFind_mapErase]
  | cons a t => simp [mapFind_mapSet]

theorem nodup_keys_pop (pool : List (Nat × List Nat)) (K : Nat) (l : List Nat)
    (hnd : (pool.map Prod.fst).Nodup) :
    ((if l.isEmpty then mapErase pool K else mapSet pool K l).map Prod.fst).Nodup := by
  split_ifs
  · exact nodup_keys_mapErase pool K hnd
  · exact nodup_keys_mapSet pool K l hnd

/-- What the loop of `obtain_ocl_buffer` does to the buckets: every bucket keeps a
front part of its content, and the buffers taken off are exactly the ones
freed. -/
theorem obtainLoop_pool (dev : Device) (size : Nat) :
    ∀ (fuel : Nat) (m : MemMgr) (r : Except OclError Nat) (m' : MemMgr),
      obtainLoop dev size fuel m = some (r, m') →
      (∀ e ∈ m.memobj_pool, e.2 ≠ []) →
      ∃ F, m'.releaseCalls = m.releaseCalls ++ F ∧
        (∀ K, ∃ t, (mapFind m.memobj_pool K).getD [] = (mapFind m'.memobj_pool K).getD [] ++ t ∧
          ∀ b ∈ t, b ∈ F) ∧
        (∀ b ∈ F, ∃ K t, (mapFind m.memobj_pool K).getD []
            = (mapFind m'.memobj_pool K).getD [] ++ t ∧ b ∈ t) ∧
        ((m.memobj_pool.map Prod.fst).Nodup → (m'.memobj_pool.map Prod.fst).Nodup) := by
  intro fuel
  induction fuel with
  | zero =>
    intro m r m' h
    simp [obtainLoop] at h
  | succ f ih =>
    intro m r m' h hwf
    cases hc : dev.clCreateBuffer m.createCalls size with
    | some id =>
      simp only [obtainLoop, new_ocl_buffer, hc, Option.some.injEq, Prod.mk.injEq] at h
      obtain ⟨_, h2⟩ := h
      subst h2
      exact ⟨[], by simp, fun K => ⟨[], by simp⟩, (fun b hb => by cases hb), fun hnd => hnd⟩
    | none =>
      cases hmax : mapMaxKey m.memobj_pool with
      | none =>
        simp only [obtainLoop, new_ocl_buffer, hc, hmax, Option.some.injEq, Prod.mk.injEq] at h
        obtain ⟨_, h2⟩ := h
        subst h2
        exact ⟨[], by simp, fun K => ⟨[], by simp⟩, (fun b hb => by cases hb), fun hnd => hnd⟩
      | some K =>
        obtain ⟨v, hv⟩ := mapMaxKey_find _ _ hmax
        have hvne : v ≠ [] := hwf (K, v) (mapFind_mem _ _ _ hv)
        rcases List.eq_nil_or_concat v with hnil | ⟨l, b, hlb⟩
        · exact absurd hnil hvne
        · rw [List.concat_eq_append] at hlb
          subst hlb
          obtain ⟨_, hwf', _⟩ := evict_progress m.memobj_pool K l b hv hwf
          rw [obtainLoop_evict dev size f m K l b hc hmax hv] at h
          obtain ⟨F, h1, h2, h3, h4⟩ := ih _ r m' h hwf'
          have hpop : ∀ K', (mapFind m.memobj_pool K').getD []
              = (mapFind (if l.isEmpty then mapErase m.memobj_pool K
                  else mapSet m.memobj_pool K l) K').getD [] ++ (if K' = K then [b] else []) := by
            intro K'
            rw [mapFind_pop]
            by_cases hK : K' = K
            · rw [hK, hv]
              by_cases hl : l = []
              · simp [hl]
              · simp [hl]
            · simp [hK]
          refine ⟨b :: F, ?_, ?_, ?_, ?_⟩
          · rw [h1]
            simp
          · intro K'
            obtain ⟨t, ht, htF⟩ := h2 K'
            refine ⟨t ++ (if K' = K then [b] else []), ?_, ?_⟩
            · rw [hpop K']
              simp only at ht
              rw [ht, List.append_assoc]
            · intro x hx
              rcases List.mem_append.mp hx with hx | hx
              · exact List.mem_cons_of_mem _ (htF x hx)
              · split_ifs at hx
                · simp only [List.mem_singleton] at hx
                  rw [hx]
                  exact List.mem_cons_self _ _
                · cases hx
          · intro x hx
            rcases List.mem_cons.mp hx with hx | hx
            · obtain ⟨t, ht, _⟩ := h2 K
              refine ⟨K, t ++ [b], ?_, ?_⟩
              · rw [hpop K]
                simp only at ht
                rw [ht, List.append_assoc]
                simp
              · rw [hx]
                simp
            · obtain ⟨K', t, ht, hxt⟩ := h3 x hx
              refine ⟨K', t ++ (if K' = K then [b] else []), ?_, ?_⟩
              · rw [hpop K']
                simp only at ht
                rw [ht, List.append_assoc]
              · exact List.mem_append_left _ hxt
          · intro hnd
            exact h4 (nodup_keys_pop m.memobj_pool K l hnd)

/-- The three outcomes of `release_ocl_buffer` for an identity recorded in
`assigned`. -/
theorem release_known (id size : Nat) (m : MemMgr)
    (hid : mapFind m.assigned_ocl_memobjs id = some size) :
    (mapErase m.assigned_ocl_memobjs id = [] ∧
      release_ocl_buffer id m =
        { m with assigned_ocl_memobjs := [], memobj_pool := [],
                 releaseCalls := m.releaseCalls ++ id :: allRetained m.memobj_pool }) ∨
    (mapErase m.assigned_ocl_memobjs id ≠ [] ∧
      m.max_sized_memobj_pool_objs ≤ ((mapFind m.memobj_pool size).getD []).length ∧
      release_ocl_buffer id m =
        { m with assigned_ocl_memobjs := mapErase m.assigned_ocl_memobjs id,
                 releaseCalls := m.releaseCalls ++ [id] }) ∨
    (mapErase m.assigned_ocl_memobjs id ≠ [] ∧
      ((mapFind m.memobj_pool size).getD []).length < m.max_sized_memobj_pool_objs ∧
      release_ocl_buffer id m =
        { m with assigned_ocl_memobjs := mapErase m.assigned_ocl_memobjs id,
                 memobj_pool := mapSet m.memobj_pool size
                   (((mapFind m.memobj_pool size).getD []) ++ [id]) }) := by
  by_cases hne : mapErase m.assigned_ocl_memobjs id = []
  · left
    refine ⟨hne, ?_⟩
    simp [release_ocl_buffer, hid, hne, delete_ocl_buffer]
  · right
    have he : (mapErase m.assigned_ocl_memobjs id).isEmpty = false := by
      cases hq : mapErase m.assigned_ocl_memobjs id with
      | nil => exact absurd hq hne
      | cons a t => rfl
    have hcnt : (if mapCount m.memobj_pool size = 0 then 0
        else ((mapFind m.memobj_pool size).getD []).length) =
        ((mapFind m.memobj_pool size).getD []).length := by
      split_ifs with h0
      · rw [mapCount_eq_zero_iff] at h0
        simp [h0]
      · rfl
    have hrel : release_ocl_buffer id m =
        if ((mapFind m.memobj_pool size).getD []).length ≥ m.max_sized_memobj_pool_objs then
          { m with assigned_ocl_memobjs := mapErase m.assigned_ocl_memobjs id,
                   releaseCalls := m.releaseCalls ++ [id] }
        else
          { m with assigned_ocl_memobjs := mapErase m.assigned_ocl_memobjs id,
                   memobj_pool := mapSet m.memobj_pool size
                     (((mapFind m.memobj_pool size).getD []) ++ [id]) } := by
      unfold release_ocl_buffer
      simp only [hid, he, hcnt, delete_ocl_buffer, Bool.false_eq_true, if_false]
    by_cases hle : m.max_sized_memobj_pool_objs ≤ ((mapFind m.memobj_pool size).getD []).length
    · left
      exact ⟨hne, hle, by rw [hrel, if_pos hle]⟩
    · right
      exact ⟨hne, by omega, by rw [hrel, if_neg hle]⟩

theorem freedBetween_append (m m' : MemMgr) (F : List Nat)
    (h : m'.releaseCalls = m.releaseCalls ++ F) : freedBetween m m' = F := by
  simp [freedBetween, h]

theorem freedBetween_same (m m' : MemMgr) (h : m'.releaseCalls = m.releaseCalls) :
    freedBetween m m' = [] := by
  simp [freedBetween, h]

theorem poolInv_init : PoolInv { m := MemMgr.init, live := [] } := by
  refine ⟨by simp [MemMgr.init], by simp [MemMgr.init], ?_, ?_, ?_, ?_, ?_⟩
  · intro K l h
    simp [MemMgr.init, mapFind] at h
  · intro K l b h
    simp [MemMgr.init, mapFind] at h
  · intro id S h
    simp [MemMgr.init, mapFind] at h
  · intro id S h
    simp [mapFind] at h
  · intro h
    simp [MemMgr.init] at h

theorem poolInv_reset (s : PoolState) : PoolInv { m := reset_memmgr s.m, live := [] } := by
  refine ⟨by simp [reset_memmgr], by simp [reset_memmgr], ?_, ?_, ?_, ?_, ?_⟩
  · intro K l h
    simp [reset_memmgr, mapFind] at h
  · intro K l b h
    simp [reset_memmgr, mapFind] at h
  · intro id S h
    simp [reset_memmgr, mapFind] at h
  · intro id S h
    simp [mapFind] at h
  · intro h
    simp [reset_memmgr] at h

theorem poolInv_maxobjs (s : PoolState) (n : Nat) (hinv : PoolInv s) :
    PoolInv { m := { s.m with max_sized_memobj_pool_objs := n }, live := s.live } := hinv

theorem find_of_mem_getD (pool : List (Nat × List Nat)) (S b : Nat)
    (hb : b ∈ (mapFind pool S).getD []) :
    mapFind pool S = some ((mapFind pool S).getD []) := by
  cases h : mapFind pool S with
  | none =>
    rw [h] at hb
    cases hb
  | some l => rfl

theorem poolInv_release (s : PoolState) (id S : Nat) (hinv : PoolInv s)
    (hid : mapFind s.m.assigned_ocl_memobjs id = some S) :
    PoolInv { m := release_ocl_buffer id s.m,
              live := dropFreed s.live (freedBetween s.m (release_ocl_buffer id s.m)) } := by
  obtain ⟨hk, ha, h3, h4, h5, h6, h7⟩ := hinv
  rcases release_known id S s.m hid with ⟨hempty, hrel⟩ | ⟨hne, hle, hrel⟩ | ⟨hne, hlt, hrel⟩
  · have hF : freedBetween s.m (release_ocl_buffer id s.m)
        = id :: allRetained s.m.memobj_pool :=
      freedBetween_append _ _ _ (by rw [hrel])
    rw [hF, hrel]
    refine ⟨by simp, by simp, ?_, ?_, ?_, ?_, ?_⟩
    · intro K l h
      simp [mapFind] at h
    · intro K l b h
      simp [mapFind] at h
    · intro x S' h
      simp [mapFind] at h
    · intro x S' hx
      simp only [mapFind_dropFreed] at hx
      split_ifs at hx with hxF
      exfalso
      rcases h6 x S' hx with hax | ⟨l, hl, hxl⟩
      · have hxid : x ≠ id := fun e => hxF (by rw [e]; exact List.mem_cons_self _ _)
        have : mapFind (mapErase s.m.assigned_ocl_memobjs id) x = some S' := by
          rw [mapFind_mapErase, if_neg hxid]
          exact hax
        rw [hempty] at this
        cases this
      · exact hxF (List.mem_cons_of_mem _ (mem_allRetained_of_find _ S' l x hl hxl))
    · intro h
      exact absurd rfl h
  · have hF : freedBetween s.m (release_ocl_buffer id s.m) = [id] :=
      freedBetween_append _ _ _ (by rw [hrel])
    rw [hF, hrel]
    refine ⟨hk, nodup_keys_mapErase _ _ ha, h3, ?_, ?_, ?_, fun _ => hne⟩
    · intro K l b hl hb
      obtain ⟨q1, q2⟩ := h4 K l b hl hb
      have hbid : b ≠ id := by
        intro e
        rw [e, hid] at q2
        cases q2
      refine ⟨?_, ?_⟩
      · simp only [mapFind_dropFreed, List.mem_singleton, hbid, if_false]
        exact q1
      · simp only [mapFind_mapErase, hbid, if_false]
        exact q2
    · intro x S' hx
      simp only [mapFind_mapErase] at hx
      split_ifs at hx with hxid
      simp only [mapFind_dropFreed, List.mem_singleton, hxid, if_false]
      exact h5 x S' hx
    · intro x S' hx
      simp only [mapFind_dropFreed, List.mem_singleton] at hx
      split_ifs at hx with hxid
      rcases h6 x S' hx with hax | hr
      · left
        simp only [mapFind_mapErase, hxid, if_false]
        exact hax
      · exact Or.inr hr
  · have hF : freedBetween s.m (release_ocl_buffer id s.m) = [] :=
      freedBetween_same _ _ (by rw [hrel])
    rw [hF, hrel, dropFreed_nil]
    have hidl : id ∉ (mapFind s.m.memobj_pool S).getD [] := by
      intro hmem
      have := (h4 S _ id (find_of_mem_getD _ S id hmem) hmem).2
      rw [hid] at this
      cases this
    refine ⟨nodup_keys_mapSet _ _ _ hk, nodup_keys_mapErase _ _ ha, ?_, ?_, ?_, ?_,
      fun _ => hne⟩
    · intro K l hl
      simp only [mapFind_mapSet] at hl
      split_ifs at hl with hK
      · simp only [Option.some.injEq] at hl
        rw [← hl]
        refine ⟨by simp, ?_⟩
        rw [List.nodup_append]
        refine ⟨?_, List.nodup_singleton _, ?_⟩
        · cases hq : mapFind s.m.memobj_pool S with
          | none => simp
          | some l0 => exact (h3 S l0 hq).2
        · intro x hx hy
          simp only [List.mem_singleton] at hy
          rw [hy] at hx
          exact hidl hx
      · exact h3 K l hl
    · intro K l b hl hb
      simp only [mapFind_mapSet] at hl
      split_ifs at hl with hK
      · simp only [Option.some.injEq] at hl
        rw [← hl] at hb
        rcases List.mem_append.mp hb with hb | hb
        · obtain ⟨q1, q2⟩ := h4 S _ b (find_of_mem_getD _ S b hb) hb
          have hbid : b ≠ id := by
            intro e
            rw [e, hid] at q2
            cases q2
          rw [hK]
          refine ⟨q1, ?_⟩
          simp only [mapFind_mapErase, hbid, if_false]
          exact q2
        · simp only [List.mem_singleton] at hb
          rw [hb, hK]
          exact ⟨h5 id S hid, by simp [mapFind_mapErase]⟩
      · obtain ⟨q1, q2⟩ := h4 K l b hl hb
        refine ⟨q1, ?_⟩
        simp only [mapFind_mapErase]
        split_ifs
        · rfl
        · exact q2
    · intro x S' hx
      simp only [mapFind_mapErase] at hx
      split_ifs at hx with hxid
      exact h5 x S' hx
    · intro x S' hx
      rcases h6 x S' hx with hax | ⟨l, hl, hxl⟩
      · by_cases hxid : x = id
        · right
          rw [hxid, hid] at hax
          simp only [Option.some.injEq] at hax
          rw [← hax, hxid]
          exact ⟨_, by rw [mapFind_mapSet, if_pos rfl], by simp⟩
        · left
          simp only [mapFind_mapErase, hxid, if_false]
          exact hax
      · right
        by_cases hS : S' = S
        · rw [hS] at hl ⊢
          refine ⟨_, by rw [mapFind_mapSet, if_pos rfl], ?_⟩
          rw [hl]
          exact List.mem_append_left _ hxl
        · exact ⟨l, by rw [mapFind_mapSet, if_neg hS]; exact hl, hxl⟩

/-- The reuse branch of `obtain_ocl_buffer`. -/
theorem obtain_reuse (dev : Device) (size : Nat) (m : MemMgr) (l : List Nat) (b : Nat)
    (h : mapFind m.memobj_pool size = some (l ++ [b])) :
    obtain_ocl_buffer dev size m = some (.ok b,
      { m with memobj_pool := if l.isEmpty then mapErase m.memobj_pool size
                              else mapSet m.memobj_pool size l,
               assigned_ocl_memobjs := mapSet m.assigned_ocl_memobjs b size }) := by
  have hc : mapCount m.memobj_pool size ≠ 0 := by
    rw [Ne, mapCount_eq_zero_iff, h]
    simp
  have hlast : (l ++ [b]).getLast? = some b := by simp
  unfold obtain_ocl_buffer
  simp only [hc, if_false, h, Option.getD_some, hlast, List.dropLast_concat]
  cases l with
  | nil => rfl
  | cons a t => rfl

theorem mapFind_cons_live (live : List (Nat × Nat)) (id size x : Nat) :
    mapFind ((id, size) :: live) x = if x = id then some size else mapFind live x := by
  simp [mapFind]

theorem poolInv_reuse (s : PoolState) (size : Nat) (l : List Nat) (b : Nat) (hinv : PoolInv s)
    (hb : mapFind s.m.memobj_pool size = some (l ++ [b])) :
    PoolInv { m := { s.m with memobj_pool := if l.isEmpty then mapErase s.m.memobj_pool size
                                             else mapSet s.m.memobj_pool size l,
                              assigned_ocl_memobjs := mapSet s.m.assigned_ocl_memobjs b size },
              live := s.live } := by
  obtain ⟨hk, ha, h3, h4, h5, h6, h7⟩ := hinv
  have hnd : (l ++ [b]).Nodup := (h3 size _ hb).2
  have hbl : b ∉ l := by
    intro hm
    rw [List.nodup_append] at hnd
    exact hnd.2.2 hm (by simp)
  obtain ⟨hbl1, hbl2⟩ := h4 size _ b hb (by simp)
  refine ⟨nodup_keys_pop _ _ _ hk, nodup_keys_mapSet _ _ _ ha, ?_, ?_, ?_, ?_, ?_⟩
  · intro K l' hl'
    simp only [mapFind_pop] at hl'
    split_ifs at hl' with hK hl
    · simp only [Option.some.injEq] at hl'
      rw [← hl']
      exact ⟨hl, hnd.of_append_left⟩
    · exact h3 K l' hl'
  · intro K l' x hl' hx
    simp only [mapFind_pop] at hl'
    split_ifs at hl' with hK hl
    · simp only [Option.some.injEq] at hl'
      rw [← hl'] at hx
      obtain ⟨q1, q2⟩ := h4 size _ x hb (List.mem_append_left _ hx)
      have hxb : x ≠ b := fun e => hbl (e ▸ hx)
      rw [hK]
      refine ⟨q1, ?_⟩
      simp only [mapFind_mapSet, hxb, if_false]
      exact q2
    · obtain ⟨q1, q2⟩ := h4 K l' x hl' hx
      have hxb : x ≠ b := by
        intro e
        rw [e, hbl1] at q1
        simp only [Option.some.injEq] at q1
        exact hK q1.symm
      refine ⟨q1, ?_⟩
      simp only [mapFind_mapSet, hxb, if_false]
      exact q2
  · intro x S' hx
    simp only [mapFind_mapSet] at hx
    split_ifs at hx with hxb
    · simp only [Option.some.injEq] at hx
      rw [hxb, ← hx]
      exact hbl1
    · exact h5 x S' hx
  · intro x S' hx
    by_cases hxb : x = b
    · left
      rw [hxb, hbl1] at hx
      simp only [Option.some.injEq] at hx
      simp only [mapFind_mapSet, hxb, if_true, hx]
    · rcases h6 x S' hx with hax | ⟨l', hl', hxl'⟩
      · left
        simp only [mapFind_mapSet, hxb, if_false]
        exact hax
      · right
        by_cases hS : S' = size
        · rw [hS] at hl'
          rw [hb] at hl'
          simp only [Option.some.injEq] at hl'
          rw [← hl'] at hxl'
          have hxl : x ∈ l := by
            rcases List.mem_append.mp hxl' with h | h
            · exact h
            · simp only [List.mem_singleton] at h
              exact absurd h hxb
          have hlne : l ≠ [] := List.ne_nil_of_mem hxl
          refine ⟨l, ?_, hxl⟩
          simp only [mapFind_pop, hS, if_true, hlne, if_false]
        · refine ⟨l', ?_, hxl'⟩
          simp only [mapFind_pop, hS, if_false]
          exact hl'
  · intro _
    exact mapFind_ne_nil _ b size (by rw [mapFind_mapSet, if_pos rfl])

theorem poolInv_add (s : PoolState) (id size : Nat) (hinv : PoolInv s)
    (hfresh : mapFind s.live id = none) :
    PoolInv { m := { s.m with assigned_ocl_memobjs := mapSet s.m.assigned_ocl_memobjs id size },
              live := (id, size) :: s.live } := by
  obtain ⟨hk, ha, h3, h4, h5, h6, h7⟩ := hinv
  refine ⟨hk, nodup_keys_mapSet _ _ _ ha, h3, ?_, ?_, ?_, ?_⟩
  · intro K l x hl hx
    obtain ⟨q1, q2⟩ := h4 K l x hl hx
    have hxid : x ≠ id := by
      intro e
      rw [e, hfresh] at q1
      cases q1
    refine ⟨?_, ?_⟩
    · rw [mapFind_cons_live, if_neg hxid]
      exact q1
    · simp only [mapFind_mapSet, hxid, if_false]
      exact q2
  · intro x S' hx
    simp only [mapFind_mapSet] at hx
    rw [mapFind_cons_live]
    split_ifs at hx ⊢ with hxid
    · exact hx
    · exact h5 x S' hx
  · intro x S' hx
    rw [mapFind_cons_live] at hx
    split_ifs at hx with hxid
    · left
      simp only [mapFind_mapSet, hxid, if_true]
      exact hx
    · rcases h6 x S' hx with hax | hr
      · left
        simp only [mapFind_mapSet, hxid, if_false]
        exact hax
      · exact Or.inr hr
  · intro _
    exact mapFind_ne_nil _ id size (by rw [mapFind_mapSet, if_pos rfl])

/-- The invariant after the loop of `obtain_ocl_buffer` has taken buffers off the
backs of buckets and freed them. -/
theorem poolInv_evicted (s : PoolState) (m1 : MemMgr) (F : List Nat) (hinv : PoolInv s)
    (hA : m1.assigned_ocl_memobjs = s.m.assigned_ocl_memobjs)
    (hpre : ∀ K, ∃ t, (mapFind s.m.memobj_pool K).getD []
      = (mapFind m1.memobj_pool K).getD [] ++ t ∧ ∀ b ∈ t, b ∈ F)
    (hF : ∀ b ∈ F, ∃ K t, (mapFind s.m.memobj_pool K).getD []
      = (mapFind m1.memobj_pool K).getD [] ++ t ∧ b ∈ t)
    (hne1 : ∀ e ∈ m1.memobj_pool, e.2 ≠ [])
    (hk1 : (m1.memobj_pool.map Prod.fst).Nodup) :
    PoolInv { m := m1, live := dropFreed s.live F } := by
  obtain ⟨hk, ha, h3, h4, h5, h6, h7⟩ := hinv
  have hsome : ∀ K l1, mapFind m1.memobj_pool K = some l1 →
      l1 ≠ [] ∧ ∃ t, mapFind s.m.memobj_pool K = some (l1 ++ t) ∧ ∀ b ∈ t, b ∈ F := by
    intro K l1 hl1
    have hl1ne : l1 ≠ [] := hne1 (K, l1) (mapFind_mem _ _ _ hl1)
    obtain ⟨t, ht, htF⟩ := hpre K
    rw [hl1] at ht
    simp only [Option.getD_some] at ht
    refine ⟨hl1ne, t, ?_, htF⟩
    cases hq : mapFind s.m.memobj_pool K with
    | none =>
      rw [hq] at ht
      simp only [Option.getD_none] at ht
      have : l1 = [] := (List.append_eq_nil.mp ht.symm).1
      exact absurd this hl1ne
    | some l =>
      rw [hq] at ht
      simp only [Option.getD_some] at ht
      rw [ht]
  have hretF : ∀ b ∈ F, ∃ K l, mapFind s.m.memobj_pool K = some l ∧ b ∈ l := by
    intro b hb
    obtain ⟨K, t, ht, hbt⟩ := hF b hb
    have hmem : b ∈ (mapFind s.m.memobj_pool K).getD [] := by
      rw [ht]
      exact List.mem_append_right _ hbt
    exact ⟨K, _, find_of_mem_getD _ K b hmem, hmem⟩
  have hkept : ∀ K l1 x, mapFind m1.memobj_pool K = some l1 → x ∈ l1 → x ∉ F := by
    intro K l1 x hl1 hx hxF
    obtain ⟨_, t, hpool, _⟩ := hsome K l1 hl1
    obtain ⟨K2, t2, ht2, hxt2⟩ := hF x hxF
    have hmem2 : x ∈ (mapFind s.m.memobj_pool K2).getD [] := by
      rw [ht2]
      exact List.mem_append_right _ hxt2
    have q1 := (h4 K _ x hpool (List.mem_append_left _ hx)).1
    have q2 := (h4 K2 _ x (find_of_mem_getD _ K2 x hmem2) hmem2).1
    rw [q1] at q2
    simp only [Option.some.injEq] at q2
    rw [← q2, hpool, hl1] at ht2
    simp only [Option.getD_some] at ht2
    have ht : t = t2 := List.append_cancel_left ht2
    have hnd := (h3 K _ hpool).2
    rw [List.nodup_append] at hnd
    exact hnd.2.2 hx (ht ▸ hxt2)
  refine ⟨hk1, by rw [hA]; exact ha, ?_, ?_, ?_, ?_, ?_⟩
  · intro K l1 hl1
    obtain ⟨h1, t, hpool, _⟩ := hsome K l1 hl1
    exact ⟨h1, (h3 K _ hpool).2.of_append_left⟩
  · intro K l1 x hl1 hx
    obtain ⟨_, t, hpool, _⟩ := hsome K l1 hl1
    obtain ⟨q1, q2⟩ := h4 K _ x hpool (List.mem_append_left _ hx)
    refine ⟨?_, by rw [hA]; exact q2⟩
    rw [mapFind_dropFreed, if_neg (hkept K l1 x hl1 hx)]
    exact q1
  · intro x S' hx
    rw [hA] at hx
    rw [mapFind_dropFreed]
    split_ifs with hxF
    · obtain ⟨K, l, hl, hxl⟩ := hretF x hxF
      have := (h4 K l x hl hxl).2
      rw [hx] at this
      cases this
    · exact h5 x S' hx
  · intro x S' hx
    rw [mapFind_dropFreed] at hx
    split_ifs at hx with hxF
    rcases h6 x S' hx with hax | ⟨l, hl, hxl⟩
    · exact Or.inl (by rw [hA]; exact hax)
    · right
      obtain ⟨t, ht, htF⟩ := hpre S'
      rw [hl] at ht
      simp only [Option.getD_some] at ht
      rw [ht] at hxl
      rcases List.mem_append.mp hxl with h | h
      · exact ⟨_, find_of_mem_getD _ S' x h, h⟩
      · exact absurd (htF x h) hxF
  · intro hp
    rw [hA]
    apply h7
    cases hq : m1.memobj_pool with
    | nil => exact absurd hq hp
    | cons e t =>
      have hmem : e ∈ m1.memobj_pool := by
        rw [hq]
        exact List.mem_cons_self _ _
      have hfind := mapFind_of_mem m1.memobj_pool e.1 e.2 hk1 hmem
      obtain ⟨_, t', hpool, _⟩ := hsome e.1 e.2 hfind
      exact mapFind_ne_nil _ _ _ hpool

theorem nonempty_buckets (s : PoolState) (hinv : PoolInv s) :
    ∀ e ∈ s.m.memobj_pool, e.2 ≠ [] := by
  intro e he
  exact (hinv.2.2.1 e.1 e.2 (mapFind_of_mem _ _ _ hinv.1 he)).1

theorem poolInv_obtain (dev : Device) (s s' : PoolState) (size : Nat) (hinv : PoolInv s)
    (h : poolStep dev s (.obtain size) = some s') : PoolInv s' := by
  have hwf := nonempty_buckets s hinv
  cases hq : mapFind s.m.memobj_pool size with
  | some v =>
    have hvne : v ≠ [] := (hinv.2.2.1 size v hq).1
    rcases List.eq_nil_or_concat v with hnil | ⟨l, b, hlb⟩
    · exact absurd hnil hvne
    · rw [List.concat_eq_append] at hlb
      subst hlb
      have hob := obtain_reuse dev size s.m l b hq
      simp only [poolStep, hob, if_true, Option.some.injEq] at h
      subst h
      have hF : freedBetween s.m
          { s.m with memobj_pool := if l.isEmpty then mapErase s.m.memobj_pool size
                                    else mapSet s.m.memobj_pool size l,
                     assigned_ocl_memobjs := mapSet s.m.assigned_ocl_memobjs b size } = [] :=
        freedBetween_same _ _ rfl
      rw [hF, dropFreed_nil]
      exact poolInv_reuse s size l b hinv hq
  | none =>
    have hc : mapCount s.m.memobj_pool size = 0 := (mapCount_eq_zero_iff _ _).mpr hq
    obtain ⟨r, m1, hrun, hA, _, hcalls, _, _, _, _, _, hne1, _⟩ :=
      obtainLoop_spec dev size (retained s.m.memobj_pool + 1) s.m hwf (by omega)
    obtain ⟨F, hrc, hpre, hF, hk1⟩ := obtainLoop_pool dev size _ s.m r m1 hrun hwf
    have hev := poolInv_evicted s m1 F hinv hA hpre hF hne1 (hk1 hinv.1)
    cases r with
    | error e =>
      have hob : obtain_ocl_buffer dev size s.m = some (.error e, m1) := by
        simp only [obtain_ocl_buffer, hc, if_true, hrun]
      simp only [poolStep, hob, Option.some.injEq] at h
      subst h
      rw [freedBetween_append s.m m1 F hrc]
      exact hev
    | ok id =>
      have hob : obtain_ocl_buffer dev size s.m = some (.ok id,
          { m1 with assigned_ocl_memobjs := mapSet m1.assigned_ocl_memobjs id size }) := by
        simp only [obtain_ocl_buffer, hc, if_true, hrun]
      have hFb : freedBetween s.m
          { m1 with assigned_ocl_memobjs := mapSet m1.assigned_ocl_memobjs id size } = F :=
        freedBetween_append _ _ F hrc
      have hcne : ¬ m1.createCalls = s.m.createCalls := by omega
      simp only [poolStep, hob, hFb, hcne, if_false] at h
      split_ifs at h with hfresh
      simp only [Option.some.injEq] at h
      subst h
      exact poolInv_add { m := m1, live := dropFreed s.live F } id size hev hfresh

theorem poolInv_step (dev : Device) (s s' : PoolState) (op : PoolOp) (hinv : PoolInv s)
    (h : poolStep dev s op = some s') : PoolInv s' := by
  cases op with
  | obtain size => exact poolInv_obtain dev s s' size hinv h
  | release id =>
    cases hid : mapFind s.m.assigned_ocl_memobjs id with
    | none => simp [poolStep, hid] at h
    | some S =>
      simp only [poolStep, hid, Option.some.injEq] at h
      subst h
      exact poolInv_release s id S hinv hid
  | reset =>
    simp only [poolStep, Option.some.injEq] at h
    subst h
    exact poolInv_reset s
  | maxobjs n =>
    simp only [poolStep, Option.some.injEq] at h
    subst h
    exact poolInv_maxobjs s n hinv

theorem poolInv_of_reachable (dev : Device) (s : PoolState) (h : PoolReachable dev s) :
    PoolInv s := by
  induction h with
  | init => exact poolInv_init
  | step s s' op _ hstep ih => exact poolInv_step dev s s' op ih hstep

theorem poolReachable_run (dev : Device) (ops : List PoolOp) :
    ∀ (s s' : PoolState), PoolReachable dev s → poolRun dev s ops = some s' →
      PoolReachable dev s' := by
  induction ops with
  | nil =>
    intro s s' hs h
    simp only [poolRun, Option.some.injEq] at h
    exact h ▸ hs
  | cons op ops ih =>
    intro s s' hs h
    cases hq : poolStep dev s op with
    | none => simp [poolRun, hq] at h
    | some s1 =>
      simp only [poolRun, hq] at h
      exact ih s1 s' (PoolReachable.step s s1 op hs hq) h

theorem exPool_reachable : PoolReachable exDevice exPool :=
  poolReachable_run exDevice exPoolOps _ exPool PoolReachable.init rfl

/-- Claim C13 (pool partition invariant).  In every state reached from the empty
pool by `obtain_ocl_buffer`, `release_ocl_buffer`, `reset_memmgr` and the
setting of `maxobjs`, where the device returns only identities that are not
live and a client releases only identities recorded in `assigned`: both maps
have one entry per key, and every identity is in exactly one of three
classes.  An identity that is not live (never allocated, freed, or gone with
its context) is neither in `assigned` nor in a bucket.  A live identity,
allocated with size `S`, is either in `assigned`, recorded with `S`, and in no
bucket, or it is not in `assigned` and holds exactly one position of the bucket
with the key `S` and no position of any other bucket. -/
theorem pool_partition_invariant (dev : Device) (s : PoolState)
    (hreach : PoolReachable dev s) :
    (s.m.assigned_ocl_memobjs.map Prod.fst).Nodup ∧
    (s.m.memobj_pool.map Prod.fst).Nodup ∧
    ∀ id,
      (mapFind s.live id = none →
        mapFind s.m.assigned_ocl_memobjs id = none ∧
        ∀ K l, mapFind s.m.memobj_pool K = some l → id ∉ l) ∧
      (∀ S, mapFind s.live id = some S →
        (mapFind s.m.assigned_ocl_memobjs id = some S ∧
          ∀ K l, mapFind s.m.memobj_pool K = some l → id ∉ l) ∨
        (mapFind s.m.assigned_ocl_memobjs id = none ∧
          ∃ l, mapFind s.m.memobj_pool S = some l ∧ l.count id = 1 ∧
            ∀ K l', mapFind s.m.memobj_pool K = some l' → id ∈ l' → K = S)) := by
  obtain ⟨hk, ha, h3, h4, h5, h6, _⟩ := poolInv_of_reachable dev s hreach
  refine ⟨ha, hk, ?_⟩
  intro id
  refine ⟨?_, ?_⟩
  · intro hlive
    refine ⟨?_, ?_⟩
    · cases hq : mapFind s.m.assigned_ocl_memobjs id with
      | none => rfl
      | some S =>
        have := h5 id S hq
        rw [hlive] at this
        cases this
    · intro K l hl hmem
      have := (h4 K l id hl hmem).1
      rw [hlive] at this
      cases this
  · intro S hlive
    rcases h6 id S hlive with hax | ⟨l, hl, hmem⟩
    · left
      refine ⟨hax, ?_⟩
      intro K l hl hmem
      have := (h4 K l id hl hmem).2
      rw [hax] at this
      cases this
    · right
      refine ⟨(h4 S l id hl hmem).2, l, hl, List.count_eq_one_of_mem (h3 S l hl).2 hmem, ?_⟩
      intro K l' hl' hmem'
      have := (h4 K l' id hl' hmem').1
      rw [hlive] at this
      simp only [Option.some.injEq] at this
      exact this.symm

/-- The release of a buffer that is retained: the state afterwards. -/
theorem release_retains (m1 : MemMgr) (live : List (Nat × Nat)) (b size : Nat)
    (l1 : List Nat) (hinv1 : PoolInv { m := m1, live := live })
    (hfind : mapFind m1.assigned_ocl_memobjs b = some size)
    (hne : mapErase m1.assigned_ocl_memobjs b ≠ [])
    (hgetD : (mapFind m1.memobj_pool size).getD [] = l1)
    (hlt : l1.length < m1.max_sized_memobj_pool_objs) :
    PoolInv { m := release_ocl_buffer b m1, live := live } ∧
    release_ocl_buffer b m1 =
      { m1 with assigned_ocl_memobjs := mapErase m1.assigned_ocl_memobjs b,
                memobj_pool := mapSet m1.memobj_pool size (l1 ++ [b]) } := by
  rcases release_known b size m1 hfind with ⟨hempty, _⟩ | ⟨_, hle, _⟩ | ⟨_, _, hrel⟩
  · exact absurd hempty hne
  · rw [hgetD] at hle
    omega
  · rw [hgetD] at hrel
    have hinv2 := poolInv_release _ b size hinv1 hfind
    have hF : freedBetween m1 (release_ocl_buffer b m1) = [] :=
      freedBetween_same _ _ (by rw [hrel])
    simp only at hinv2
    rw [hF, dropFreed_nil] at hinv2
    exact ⟨hinv2, hrel⟩

/-- One round `id = obtain_ocl_buffer (size); release_ocl_buffer (id);` on a bucket filled
to capacity: the buffer at the back is reused and retained again. -/
theorem poolRound_warm (dev : Device) (m : MemMgr) (live : List (Nat × Nat)) (size : Nat)
    (l : List Nat) (hinv : PoolInv { m := m, live := live })
    (hb : mapFind m.memobj_pool size = some l)
    (hcap : l.length = m.max_sized_memobj_pool_objs) :
    ∃ id m1, obtain_ocl_buffer dev size m = some (.ok id, m1) ∧
      PoolInv { m := release_ocl_buffer id m1, live := live } ∧
      mapFind (release_ocl_buffer id m1).memobj_pool size = some l ∧
      (release_ocl_buffer id m1).max_sized_memobj_pool_objs = m.max_sized_memobj_pool_objs ∧
      (release_ocl_buffer id m1).createCalls = m.createCalls ∧
      (release_ocl_buffer id m1).releaseCalls = m.releaseCalls := by
  have hlne : l ≠ [] := (hinv.2.2.1 size l hb).1
  rcases List.eq_nil_or_concat l with hnil | ⟨l1, b, hlb⟩
  · exact absurd hnil hlne
  · rw [List.concat_eq_append] at hlb
    subst hlb
    have hob := obtain_reuse dev size m l1 b hb
    have hinv1 := poolInv_reuse { m := m, live := live } size l1 b hinv hb
    refine ⟨b, _, hob, ?_⟩
    have hfind : mapFind (mapSet m.assigned_ocl_memobjs b size) b = some size := by
      rw [mapFind_mapSet, if_pos rfl]
    have hgetD : (mapFind (if l1.isEmpty then mapErase m.memobj_pool size
        else mapSet m.memobj_pool size l1) size).getD [] = l1 := by
      rw [mapFind_pop, if_pos rfl]
      by_cases h1 : l1 = []
      · simp [h1]
      · simp [h1]
    have hne : mapErase (mapSet m.assigned_ocl_memobjs b size) b ≠ [] := by
      have hane : m.assigned_ocl_memobjs ≠ [] := hinv.2.2.2.2.2.2 (mapFind_ne_nil _ _ _ hb)
      cases hq : m.assigned_ocl_memobjs with
      | nil => exact absurd hq hane
      | cons e t =>
        have hfe : mapFind m.assigned_ocl_memobjs e.1 = some e.2 := by
          rw [hq]
          simp [mapFind]
        have hbn : mapFind m.assigned_ocl_memobjs b = none :=
          (hinv.2.2.2.1 size _ b hb (by simp)).2
        have heb : e.1 ≠ b := by
          intro e'
          rw [e', hbn] at hfe
          cases hfe
        rw [← hq]
        apply mapFind_ne_nil _ e.1 e.2
        rw [mapFind_mapErase, if_neg heb, mapFind_mapSet, if_neg heb]
        exact hfe
    have hlt : l1.length < m.max_sized_memobj_pool_objs := by
      simp only [List.length_append, List.length_singleton] at hcap
      omega
    obtain ⟨hinv2, hrel⟩ := release_retains _ live b size l1 hinv1 hfind hne hgetD hlt
    refine ⟨hinv2, ?_, ?_, ?_, ?_⟩
    · rw [hrel]
      simp only [mapFind_mapSet, if_true]
    · rw [hrel]
    · rw [hrel]
    · rw [hrel]

theorem poolRounds_warm (dev : Device) (live : List (Nat × Nat)) (size : Nat) (l : List Nat) :
    ∀ (n : Nat) (m : MemMgr), PoolInv { m := m, live := live } →
      mapFind m.memobj_pool size = some l → l.length = m.max_sized_memobj_pool_objs →
      ∃ m', poolRounds dev size n m = some m' ∧ m'.createCalls = m.createCalls ∧
        m'.releaseCalls = m.releaseCalls ∧ mapFind m'.memobj_pool size = some l := by
  intro n
  induction n with
  | zero =>
    intro m _ hb _
    exact ⟨m, rfl, rfl, rfl, hb⟩
  | succ k ih =>
    intro m hinv hb hcap
    obtain ⟨id, m1, hob, hinv2, hb2, hmax, hcc, hrc⟩ :=
      poolRound_warm dev m live size l hinv hb hcap
    obtain ⟨m', hrun, h1, h2, h3⟩ := ih _ hinv2 hb2 (by rw [hmax]; exact hcap)
    refine ⟨m', ?_, by rw [h1, hcc], by rw [h2, hrc], h3⟩
    simp only [poolRounds, hob]
    exact hrun

/-- Claim C12 (pool reuse bound).  In a state reached from the empty pool under
the assumptions on the environment, let the bucket for `size` hold
`max_sized_memobj_pool_objs` buffers.  Then `n` rounds
`id = obtain_ocl_buffer (size); release_ocl_buffer (id);`, for every `n`, run to
the end without any call of `clCreateBuffer` (hence with at most one) and
without any call of `clReleaseMemObject`, and leave the bucket as it was. -/
theorem pool_reuse_bound (dev : Device) (s : PoolState) (hreach : PoolReachable dev s)
    (size : Nat) (l : List Nat) (hb : mapFind s.m.memobj_pool size = some l)
    (hcap : l.length = s.m.max_sized_memobj_pool_objs) (n : Nat) :
    ∃ m', poolRounds dev size n s.m = some m' ∧
      m'.createCalls = s.m.createCalls ∧ m'.createCalls ≤ s.m.createCalls + 1 ∧
      m'.releaseCalls = s.m.releaseCalls ∧ mapFind m'.memobj_pool size = some l := by
  obtain ⟨m', h1, h2, h3, h4⟩ :=
    poolRounds_warm dev s.live size l n s.m (poolInv_of_reachable dev s hreach) hb hcap
  exact ⟨m', h1, h2, by omega, h3, h4⟩

/-! ## Concatenation: the kernel -/

/-- A sequence of writes `d [f i] = g i` for `i = 0 .. n - 1` with distinct
in-range positions: position `f i` holds `g i` afterwards, and a position that
is not written keeps its content. -/
theorem scatter_spec {α : Type} (f : Nat → Nat) (g : Nat → α) :
    ∀ (n : Nat) (dst : List α),
      ((List.range n).foldl (fun d i => d.set (f i) (g i)) dst).length = dst.length ∧
      (∀ i, i < n → (∀ i', i' < n → f i' = f i → i' = i) → f i < dst.length →
        ((List.range n).foldl (fun d i => d.set (f i) (g i)) dst)[f i]? = some (g i)) ∧
      (∀ j, (∀ i, i < n → f i ≠ j) →
        ((List.range n).foldl (fun d i => d.set (f i) (g i)) dst)[j]? = dst[j]?) := by
  intro n
  induction n with
  | zero =>
    intro dst
    refine ⟨rfl, ?_, ?_⟩
    · intro i hi
      omega
    · intro j _
      rfl
  | succ k ih =>
    intro dst
    obtain ⟨h1, h2, h3⟩ := ih dst
    rw [List.range_succ, List.foldl_append]
    simp only [List.foldl_cons, List.foldl_nil]
    refine ⟨?_, ?_, ?_⟩
    · rw [List.length_set, h1]
    · intro i hi hinj hlt
      by_cases hik : i = k
      · rw [hik, List.getElem?_set_self]
        rw [h1, ← hik]
        exact hlt
      · have hne : f k ≠ f i := fun e => hik (hinj k (by omega) e).symm
        rw [List.getElem?_set_ne hne]
        exact h2 i (by omega) (fun i' hi' e => hinj i' (by omega) e) hlt
    · intro j hj
      have hne : f k ≠ j := hj k (by omega)
      rw [List.getElem?_set_ne hne]
      exact h3 j (fun i hi => hj i (by omega))

/-- The position that work item `i` of `ocl_cat` writes, for `M = fac2`, `m = fac1`
and `o = offs` with `o + m <= M`: its quotient and remainder by `M`. -/
theorem catPos_divmod (o m M i : Nat) (hm : 0 < m) (hoM : o + m ≤ M) :
    (o + i % m + i / m * M) / M = i / m ∧ (o + i % m + i / m * M) % M = o + i % m := by
  have hlt : o + i % m < M := by
    have := Nat.mod_lt i hm
    omega
  have hM : 0 < M := by omega
  constructor
  · rw [Nat.add_mul_div_right _ _ hM, Nat.div_eq_of_lt hlt, Nat.zero_add]
  · rw [Nat.add_mul_mod_self_right, Nat.mod_eq_of_lt hlt]

theorem catPos_inj (o m M i i' : Nat) (hm : 0 < m) (hoM : o + m ≤ M)
    (h : o + i % m + i / m * M = o + i' % m + i' / m * M) : i = i' := by
  obtain ⟨h1, h2⟩ := catPos_divmod o m M i hm hoM
  obtain ⟨h1', h2'⟩ := catPos_divmod o m M i' hm hoM
  rw [h] at h1 h2
  rw [h1'] at h1
  rw [h2'] at h2
  have hmod : i % m = i' % m := by omega
  rw [← Nat.mod_add_div i m, ← Nat.mod_add_div i' m, hmod, h1]

theorem catPos_lt (o m M p i : Nat) (hm : 0 < m) (hoM : o + m ≤ M) (hi : i < m * p) :
    o + i % m + i / m * M < M * p := by
  have hq : i / m < p := by
    rw [Nat.div_lt_iff_lt_mul hm]
    rw [Nat.mul_comm] at hi
    exact hi
  have hr := Nat.mod_lt i hm
  have : (i / m + 1) * M ≤ p * M := Nat.mul_le_mul_right M hq
  rw [Nat.mul_comm M p]
  nlinarith

/-- The effect of one run of the kernel `ocl_cat` with `fac1 = m`, `fac2 = M`,
`offs = o`, `o + m <= M`, over `n` work items on a destination of `M * p`
elements, `n <= m * p`: work item `i` has put its element at its position, and
every position whose remainder by `M` lies outside `o .. o + m - 1` is
untouched. -/
theorem ocl_cat_spec {α : Type} [Inhabited α] (dst src : List α) (ofs o m M p n : Nat)
    (hm : 0 < m) (hoM : o + m ≤ M) (hn : n ≤ m * p) (hlen : dst.length = M * p) :
    (ocl_cat dst src ofs o m M n).length = dst.length ∧
    (∀ i, i < n → (ocl_cat dst src ofs o m M n)[o + i % m + i / m * M]?
      = some (src.getD (ofs + i) default)) ∧
    (∀ j, (j % M < o ∨ o + m ≤ j % M) → (ocl_cat dst src ofs o m M n)[j]? = dst[j]?) := by
  obtain ⟨h1, h2, h3⟩ := scatter_spec (fun i => o + i % m + i / m * M)
    (fun i => src.getD (ofs + i) default) n dst
  refine ⟨h1, ?_, ?_⟩
  · intro i hi
    apply h2 i hi
    · intro i' _ e
      exact catPos_inj o m M i' i hm hoM e
    · rw [hlen]
      exact catPos_lt o m M p i hm hoM (by omega)
  · intro j hj
    apply h3
    intro i _ e
    have := (catPos_divmod o m M i hm hoM).2
    rw [e] at this
    have := Nat.mod_lt i hm
    omega

theorem setRep_setRep {α : Type} (w : World α) (p : Nat) (r r' : OclArrayRep α) :
    (w.setRep p r).setRep p r' = w.setRep p r' := by
  simp [World.setRep, List.set_set]

theorem catOffset_zero (dim ndim : Nat) (l : List OclArray) : catOffset dim ndim l 0 = 0 := by
  simp [catOffset]

theorem catOffset_succ (dim ndim : Nat) (a : OclArray) (l : List OclArray) (k : Nat) :
    catOffset dim ndim (a :: l) (k + 1) = catExtent dim ndim a + catOffset dim ndim l k := by
  simp [catOffset]

theorem catOffset_le (dim ndim : Nat) (l : List OclArray) (k : Nat) :
    catOffset dim ndim l k ≤ (l.map (catExtent dim ndim)).sum := by
  induction l generalizing k with
  | nil => simp [catOffset]
  | cons a t ih =>
    cases k with
    | zero => simp [catOffset]
    | succ k =>
      rw [catOffset_succ]
      simp only [List.map_cons, List.sum_cons]
      have := ih k
      omega

/-- The second loop of `cat` on operands that are skipped as empty or else valid,
distinct from the result, with `n = fac1 * p` elements: it runs to the end, only
the data of the result changes, every work item of every operand that is not
skipped has put its element at its position, and the positions below the
first offset are untouched. -/
theorem catCopy_spec {α : Type} [Inhabited α] (dim ndim : Nat) (dv : dim_vector)
    (spdim p : Nat) (R : OclArray) (hsp : 0 < spdim) (hp : 0 < p) :
    ∀ (l : List OclArray) (off : Nat) (w : World α) (rr : OclArrayRep α),
      w.rep? R.rep = some rr → rr.is_valid w.ctx = true →
      rr.data.length = spdim * dv.elem dim * p →
      off + (l.map (catExtent dim ndim)).sum ≤ dv.elem dim →
      (∀ a ∈ l, a.numel ≠ 0 → a.rep ≠ R.rep ∧ 0 < (catDims ndim a).elem dim ∧
        (catDims ndim a).numel 0 = spdim * (catDims ndim a).elem dim * p ∧
        ∃ ra, w.rep? a.rep = some ra ∧ ra.is_valid w.ctx = true) →
      ∃ dst', catCopy dim ndim dv spdim R l (off, w)
          = (.ok (off + (l.map (catExtent dim ndim)).sum),
              w.setRep R.rep { rr with data := dst' }) ∧
        dst'.length = rr.data.length ∧
        (∀ j, j % (spdim * dv.elem dim) < off * spdim → dst'[j]? = rr.data[j]?) ∧
        (∀ k (hk : k < l.length), (l.get ⟨k, hk⟩).numel ≠ 0 →
          ∀ ra, w.rep? (l.get ⟨k, hk⟩).rep = some ra →
          ∀ i, i < (catDims ndim (l.get ⟨k, hk⟩)).numel 0 →
            dst'[(off + catOffset dim ndim l k) * spdim
                + i % (spdim * (catDims ndim (l.get ⟨k, hk⟩)).elem dim)
                + i / (spdim * (catDims ndim (l.get ⟨k, hk⟩)).elem dim)
                  * (spdim * dv.elem dim)]?
              = some (ra.data.getD ((l.get ⟨k, hk⟩).slice_ofs.toNat + i) default)) := by
  intro l
  induction l with
  | nil =>
    intro off w rr hrr _ _ _ _
    refine ⟨rr.data, ?_, rfl, fun _ _ => rfl, ?_⟩
    · have : w.setRep R.rep { rr with data := rr.data } = w := by
        unfold World.setRep
        have hh : w.heap.set R.rep (some rr) = w.heap := by
          unfold World.rep? at hrr
          apply List.ext_getElem?
          intro q
          by_cases hq : q = R.rep
          · rw [hq]
            cases hg : w.heap[R.rep]? with
            | none => simp [hg] at hrr
            | some x =>
              rw [hg] at hrr
              cases x with
              | none => simp at hrr
              | some y =>
                simp only [Option.some.injEq] at hrr
                have hlt : R.rep < w.heap.length := by
                  by_contra hc
                  rw [List.getElem?_eq_none (by omega)] at hg
                  cases hg
                rw [List.getElem?_set_self hlt, hrr]
          · rw [List.getElem?_set_ne (fun e => hq e.symm)]
        rw [hh]
      simp [catCopy, this]
    · intro k hk
      simp at hk
  | cons a t ih =>
    intro off w rr hrr hval hlen hsum hops
    simp only [List.map_cons, List.sum_cons] at hsum
    by_cases hnum : a.numel = 0
    · -- the operand is skipped
      have hext : catExtent dim ndim a = 0 := by simp [catExtent, hnum]
      obtain ⟨dst', h1, h2, h3, h4⟩ := ih off w rr hrr hval hlen (by omega)
        (fun x hx => hops x (List.mem_cons_of_mem _ hx))
      refine ⟨dst', ?_, h2, h3, ?_⟩
      · simp only [catCopy, catCopyStep, hnum, if_true, List.map_cons, List.sum_cons, hext,
          Nat.zero_add]
        exact h1
      · intro k hk hne ra hra i hi
        cases k with
        | zero => exact absurd hnum hne
        | succ k =>
          have := h4 k (by simpa using hk) hne ra hra i hi
          rw [catOffset_succ, hext, Nat.zero_add]
          exact this
    · -- the operand is copied by the kernel
      obtain ⟨haR, hdpos, hnumel, ra, hra, hraval⟩ := hops a (List.mem_cons_self _ _) hnum
      have hext : catExtent dim ndim a = (catDims ndim a).elem dim := by
        simp [catExtent, hnum]
      rw [hext] at hsum
      have hmpos : 0 < spdim * (catDims ndim a).elem dim := Nat.mul_pos hsp hdpos
      have hoM : off * spdim + spdim * (catDims ndim a).elem dim ≤ spdim * dv.elem dim := by
        have : (off + (catDims ndim a).elem dim) * spdim ≤ dv.elem dim * spdim :=
          Nat.mul_le_mul_right spdim (by omega)
        nlinarith
      obtain ⟨k1, k2, k3⟩ := ocl_cat_spec rr.data ra.data a.slice_ofs.toNat (off * spdim)
        (spdim * (catDims ndim a).elem dim) (spdim * dv.elem dim) p
        ((catDims ndim a).numel 0) hmpos hoM (by rw [hnumel]) hlen
      have hnpos : 0 < (catDims ndim a).numel 0 := by
        rw [hnumel]
        exact Nat.mul_pos hmpos hp
      have hwork : checkWork (((catDims ndim a).numel 0 : Nat) : Int) 0 = .ok () := by
        unfold checkWork
        rw [if_neg (by omega), if_neg (by omega)]
      obtain ⟨d1, hd1⟩ : ∃ d1, d1 = ocl_cat rr.data ra.data a.slice_ofs.toNat (off * spdim)
          (spdim * (catDims ndim a).elem dim) (spdim * dv.elem dim)
          ((catDims ndim a).numel 0) := ⟨_, rfl⟩
      rw [← hd1] at k1 k2 k3
      obtain ⟨_, _, hctx1, hrep1⟩ := setRep_spec w R.rep rr { rr with data := d1 } hrr
      have hrun : catCopy dim ndim dv spdim R (a :: t) (off, w) =
          catCopy dim ndim dv spdim R t (off + (catDims ndim a).elem dim,
            w.setRep R.rep { rr with data := d1 }) := by
        rw [hd1]
        simp only [catCopy, catCopyStep, hnum, if_false, hrr, hra, hval, hraval, hwork,
          Bool.not_true, Bool.false_eq_true]
      obtain ⟨dst', h1, h2, h3, h4⟩ := ih (off + (catDims ndim a).elem dim) _ _
        (by rw [hrep1, if_pos rfl]) (by rw [hctx1]; exact hval) (by rw [← hlen]; exact k1)
        (by omega)
        (fun x hx hxne => by
          obtain ⟨q1, q2, q3, rx, q4, q5⟩ := hops x (List.mem_cons_of_mem _ hx) hxne
          refine ⟨q1, q2, q3, rx, ?_, ?_⟩
          · rw [hrep1, if_neg q1]
            exact q4
          · rw [hctx1]
            exact q5)
      have hzone : ∀ i, i < (catDims ndim a).numel 0 →
          (off * spdim + i % (spdim * (catDims ndim a).elem dim)
            + i / (spdim * (catDims ndim a).elem dim) * (spdim * dv.elem dim))
            % (spdim * dv.elem dim)
          < (off + (catDims ndim a).elem dim) * spdim := by
        intro i _
        rw [(catPos_divmod (off * spdim) _ _ i hmpos hoM).2]
        have := Nat.mod_lt i hmpos
        nlinarith
      refine ⟨dst', ?_, ?_, ?_, ?_⟩
      · rw [hrun, h1, setRep_setRep]
        simp only [List.map_cons, List.sum_cons, hext, Nat.add_assoc]
      · rw [h2]
        exact k1
      · intro j hj
        rw [h3 j (by nlinarith)]
        exact k3 j (Or.inl hj)
      · intro k hk hne ra' hra' i hi
        cases k with
        | zero =>
          simp only [List.get_eq_getElem, List.getElem_cons_zero] at hra' hi ⊢
          rw [hra] at hra'
          simp only [Option.some.injEq] at hra'
          rw [← hra', catOffset_zero, Nat.add_zero, h3 _ (hzone i hi)]
          exact k2 i hi
        | succ k =>
          have hk' : k < t.length := by simpa using hk
          simp only [List.get_eq_getElem, List.getElem_cons_succ] at hne hra' hi ⊢
          have hmem : t[k] ∈ t := List.getElem_mem _
          obtain ⟨q1, _⟩ := hops t[k] (List.mem_cons_of_mem _ hmem) hne
          have hra1 := hrep1 t[k].rep
          rw [if_neg q1, hra'] at hra1
          have := h4 k hk' hne ra' hra1 i hi
          simp only [List.get_eq_getElem] at this
          rw [catOffset_succ, hext, ← Nat.add_assoc]
          exact this
/-! ## Concatenation: the dimension vectors -/

theorem elem_redim_pad (dv : dim_vector) (n j : Nat) (h : dv.length ≤ n) :
    (dim_vector.redim dv n).elem j = dv.elem j := by
  unfold dim_vector.redim dim_vector.elem
  by_cases h1 : dv.length = n
  · rw [if_pos h1]
  · rw [if_neg h1, if_pos (by omega)]
    by_cases hj : j < dv.length
    · rw [List.getD_append _ _ _ _ hj]
    · rw [List.getD_append_right _ _ _ _ (by omega)]
      rw [List.getD_eq_default dv 1 (by omega)]
      simp [List.getElem?_getD_replicate_default_eq]

theorem length_redim_pad (dv : dim_vector) (n : Nat) (h : dv.length ≤ n) :
    (dim_vector.redim dv n).length = n := by
  unfold dim_vector.redim
  by_cases h1 : dv.length = n
  · rw [if_pos h1]
    exact h1
  · rw [if_neg h1, if_pos (by omega)]
    simp
    omega

theorem elem_catDims (ndim : Nat) (a : OclArray) (j : Nat) :
    (catDims ndim a).elem j = a.dimensions.elem j := by
  unfold catDims
  split_ifs with h
  · exact elem_redim_pad _ _ _ h
  · rfl

theorem length_catDims (ndim : Nat) (a : OclArray) (h : a.dimensions.length ≤ ndim) :
    (catDims ndim a).length = ndim := by
  unfold catDims
  rw [if_pos h]
  exact length_redim_pad _ _ h

theorem prod_catDims (ndim : Nat) (a : OclArray) :
    (catDims ndim a).numel 0 = a.dimensions.prod := by
  unfold catDims dim_vector.numel
  split_ifs
  · simp [prod_redim]
  · simp

theorem elem_set (l : dim_vector) (d v j : Nat) :
    dim_vector.elem (l.set d v) j = if j = d ∧ d < l.length then v else dim_vector.elem l j := by
  unfold dim_vector.elem
  by_cases hj : j = d
  · by_cases hd : d < l.length
    · rw [hj, if_pos ⟨rfl, hd⟩]
      simp [List.getD_eq_getElem?_getD, List.getElem?_set_self hd]
    · rw [if_neg (fun h => hd h.2), List.set_eq_of_length_le (by omega)]
  · rw [if_neg (fun h => hj h.1)]
    simp [List.getD_eq_getElem?_getD, List.getElem?_set_ne (fun e => hj e.symm)]

theorem eq_of_elem_eq (l1 l2 : dim_vector) (hlen : l1.length = l2.length)
    (h : ∀ j, dim_vector.elem l1 j = dim_vector.elem l2 j) : l1 = l2 := by
  apply List.ext_getElem hlen
  intro j h1 h2
  have := h j
  unfold dim_vector.elem at this
  rw [List.getD_eq_getElem _ _ h1, List.getD_eq_getElem _ _ h2] at this
  exact this

/-- The product of a dimension vector, split at position `d`. -/
theorem prod_split (l : dim_vector) (d : Nat) :
    l.prod = (l.take d).prod * dim_vector.elem l d * (l.drop (d + 1)).prod := by
  have h1 : l = l.take (d + 1) ++ l.drop (d + 1) := (List.take_append_drop _ _).symm
  conv_lhs => rw [h1]
  rw [List.prod_append, prod_take_succ_getD]
  rfl

theorem take_set_self (l : dim_vector) (d v : Nat) : (l.set d v).take d = l.take d := by
  apply List.ext_getElem?
  intro j
  by_cases hj : j < d
  · rw [List.getElem?_take_of_lt hj, List.getElem?_take_of_lt hj,
      List.getElem?_set_ne (by omega)]
  · rw [List.getElem?_take_eq_none (by omega), List.getElem?_take_eq_none (by omega)]

theorem drop_set_self (l : dim_vector) (d v : Nat) :
    (l.set d v).drop (d + 1) = l.drop (d + 1) := by
  apply List.ext_getElem?
  intro j
  rw [List.getElem?_drop, List.getElem?_drop, List.getElem?_set_ne (by omega)]

theorem dropTrailingOnes_append (l : List Nat) :
    ∃ k, l = dropTrailingOnes l ++ List.replicate k 1 := by
  induction l using List.reverseRecOn with
  | nil => exact ⟨0, rfl⟩
  | append_singleton t x ih =>
    obtain ⟨k, hk⟩ := ih
    by_cases hx : x = 1
    · refine ⟨k + 1, ?_⟩
      have : dropTrailingOnes (t ++ [x]) = dropTrailingOnes t := by
        simp [dropTrailingOnes, hx, List.dropWhile]
      rw [this, List.replicate_succ', ← List.append_assoc, ← hk, hx]
    · refine ⟨0, ?_⟩
      have : dropTrailingOnes (t ++ [x]) = t ++ [x] := by
        simp [dropTrailingOnes, hx, List.dropWhile]
      rw [this]
      simp

theorem getD_dropTrailingOnes (l : List Nat) (j : Nat) :
    (dropTrailingOnes l).getD j 1 = l.getD j 1 := by
  obtain ⟨k, hk⟩ := dropTrailingOnes_append l
  conv_rhs => rw [hk]
  by_cases hj : j < (dropTrailingOnes l).length
  · rw [List.getD_append _ _ _ _ hj]
  · rw [List.getD_append_right _ _ _ _ (by omega), List.getD_eq_default _ 1 (by omega)]
    simp [List.getElem?_getD_replicate_default_eq]

theorem elem_chop (dv : dim_vector) (j : Nat) :
    dim_vector.elem (dim_vector.chop_trailing_singletons dv) j = dim_vector.elem dv j := by
  unfold dim_vector.elem
  match dv with
  | [] => rfl
  | [a] => rfl
  | a :: b :: rest =>
    simp only [dim_vector.chop_trailing_singletons]
    cases j with
    | zero => rfl
    | succ j =>
      cases j with
      | zero => rfl
      | succ j =>
        simp only [List.getD_cons_succ]
        exact getD_dropTrailingOnes rest j
theorem catShape_agree {α : Type} (w : World α) (d ndim : Nat) (dvc0 : dim_vector) :
    ∀ (rest : List OclArray) (dv : dim_vector), d < dv.length →
      (∀ a ∈ rest, a.assure_valid w = .ok () ∧ (catDims ndim a).set d 1 = dvc0) →
      catShape w d ndim rest (dv, dvc0) =
        .ok (dv.set d (dv.elem d + (rest.map (fun a => a.dimensions.elem d)).sum), dvc0) := by
  intro rest
  induction rest with
  | nil =>
    intro dv hd _
    simp only [catShape, List.map_nil, List.sum_nil, Nat.add_zero]
    congr 2
    apply eq_of_elem_eq
    · simp
    · intro j
      rw [elem_set]
      split_ifs with h
      · rw [h.1]
      · rfl
  | cons a t ih =>
    intro dv hd hall
    obtain ⟨hv, hagree⟩ := hall a (List.mem_cons_self _ _)
    have hstep : catShapeStep w d ndim (dv, dvc0) a =
        .ok (dv.set d (dv.elem d + a.dimensions.elem d), dvc0) := by
      simp only [catShapeStep, hv, hagree, ite_self, ne_eq, not_true_eq_false, if_false,
        elem_catDims]
    simp only [catShape, hstep]
    rw [ih _ (by simpa using hd) (fun x hx => hall x (List.mem_cons_of_mem _ hx))]
    congr 2
    rw [List.set_set, elem_set, if_pos ⟨rfl, hd⟩]
    simp only [List.map_cons, List.sum_cons, Nat.add_assoc]

theorem active_of_valid {α : Type} (c : Context) (r : OclArrayRep α)
    (h : r.is_valid c = true) : c.active_opencl_context_id ≠ 0 := by
  unfold OclArrayRep.is_valid at h
  cases hm : r.memobj with
  | none => simp [hm] at h
  | some o =>
    rw [hm] at h
    have := (opencl_context_id_active_iff c o.assctd_ctx_id).mp h
    omega

theorem assure_valid_array_prog_active {α : Type} (dev : Device) (w : World α)
    (hact : w.ctx.active_opencl_context_id ≠ 0) (hprog : dev.array_prog_ok = true) :
    assure_valid_array_prog dev w = (.ok (), w) := by
  simp only [assure_valid_array_prog, assure_opencl_context_active dev w.ctx hact, hprog,
    if_true]

/-- The constructor `OclArray (dv)` for a positive number of elements under an active
context: a successful call makes a valid rep of default-initialised content at
the fresh address and leaves the context as it is. -/
theorem mkDims_ok_active {α : Type} [Inhabited α] (dev : Device) (dv : dim_vector)
    (R : OclArray) (w w' : World α) (hact : w.ctx.active_opencl_context_id ≠ 0)
    (hpos : 0 < dv.prod) (h : OclArray.mkDims dev dv w = (.ok R, w')) :
    R.rep = w.heap.length ∧ R.dimensions = dv.chop_trailing_singletons ∧ R.slice_ofs = 0 ∧
    R.slice_len = (dv.prod : Int) ∧ R.is_logical = false ∧
    w'.ctx = w.ctx ∧ w'.nil_rep = w.nil_rep ∧
    ∃ rn : OclArrayRep α, w'.heap = w.heap ++ [some rn] ∧ rn.is_valid w'.ctx = true ∧
      rn.data = List.replicate dv.prod default ∧ rn.len = (dv.prod : Int) ∧ rn.count = 1 := by
  have hn : ((dim_vector.safe_numel dv : Nat) : Int) > 0 := by
    unfold dim_vector.safe_numel
    omega
  unfold OclArray.mkDims OclArrayRep.create at h
  rw [if_pos hn] at h
  unfold OclArrayRep.allocate OclMemoryObject.create at h
  rw [assure_opencl_context_active dev w.ctx hact] at h
  simp only at h
  split_ifs at h with hsz
  · simp at h
  · cases hob : obtain_ocl_buffer dev
        ((dim_vector.safe_numel dv : Int).toNat * dev.sizeof_T) w.mem with
    | none =>
      rw [hob] at h
      simp at h
    | some x =>
      obtain ⟨res, m⟩ := x
      rw [hob] at h
      cases res with
      | error e => simp at h
      | ok b =>
        simp only [World.newRep, Prod.mk.injEq, Except.ok.injEq] at h
        obtain ⟨h1, h2⟩ := h
        subst h2
        subst h1
        refine ⟨rfl, rfl, rfl, ?_, rfl, rfl, rfl, _, rfl, ?_, ?_, rfl, rfl⟩
        · simp [World.repLen, World.rep?, dim_vector.safe_numel]
        · simp [OclArrayRep.is_valid, OclMemoryObject.object_context_still_valid,
            opencl_context_id_active, hact]
        · have e : ((dim_vector.safe_numel dv : Nat) : Int).toNat = dv.prod := by
            unfold dim_vector.safe_numel
            omega
          show List.replicate ((dim_vector.safe_numel dv : Nat) : Int).toNat default = _
          rw [e]

/-! ## Concatenation: the whole operation -/

theorem elem_catDv0 (d : Nat) (a0 : OclArray) (j : Nat) :
    (catDv0 d a0).elem j = a0.dimensions.elem j := by
  unfold catDv0
  split_ifs with h
  · exact elem_redim_pad _ _ _ (by omega)
  · rfl

theorem lt_length_catDv0 (d : Nat) (a0 : OclArray) : d < (catDv0 d a0).length := by
  unfold catDv0
  split_ifs with h
  · rw [length_redim_pad _ _ (by omega)]
    omega
  · omega

theorem le_length_catDv0 (d : Nat) (a0 : OclArray) :
    a0.dimensions.length ≤ (catDv0 d a0).length := by
  unfold catDv0
  split_ifs with h
  · rw [length_redim_pad _ _ (by omega)]
    omega
  · exact le_refl _

theorem prod_catDv0 (d : Nat) (a0 : OclArray) : (catDv0 d a0).prod = a0.dimensions.prod := by
  unfold catDv0
  split_ifs
  · exact prod_redim _ _
  · rfl

theorem prod_of_same_shape (l1 l2 : dim_vector) (d : Nat) (h : l1.set d 1 = l2.set d 1) :
    l1.prod = (l2.take d).prod * dim_vector.elem l1 d * (l2.drop (d + 1)).prod := by
  rw [prod_split l1 d, ← take_set_self l1 d 1, ← drop_set_self l1 d 1, h, take_set_self,
    drop_set_self]

theorem catExtent_of_numel (d ndim : Nat) (a : OclArray) (h : a.numel ≠ 0) :
    catExtent d ndim a = a.dimensions.elem d := by
  simp [catExtent, h, elem_catDims]

theorem map_catExtent (d ndim : Nat) (l : List OclArray) (h : ∀ a ∈ l, a.numel ≠ 0) :
    l.map (catExtent d ndim) = l.map (fun a => a.dimensions.elem d) :=
  List.map_congr_left (fun a ha => catExtent_of_numel d ndim a (h a ha))

theorem assure_valid_of_valid {α : Type} (w : World α) (a : OclArray)
    (h : ∃ r, w.rep? a.rep = some r ∧ r.is_valid w.ctx = true) : a.assure_valid w = .ok () := by
  obtain ⟨r, hr, hv⟩ := h
  simp [OclArray.assure_valid, hr, hv]

/-- An operand with the extents of the first one outside `dim` has the `dvi` the
first loop of `cat` expects. -/
theorem catDims_agree (d : Nat) (a0 a : OclArray)
    (hlen : a.dimensions.length ≤ (catDv0 d a0).length)
    (hagree : ∀ j, j ≠ d → a.dimensions.elem j = a0.dimensions.elem j) :
    (catDims (catDv0 d a0).length a).set d 1 = (catDv0 d a0).set d 1 := by
  apply eq_of_elem_eq
  · simp [length_catDims _ _ hlen]
  · intro j
    rw [elem_set, elem_set, length_catDims _ _ hlen]
    by_cases hj : j = d
    · subst hj
      simp [lt_length_catDv0]
    · rw [if_neg (fun h => hj h.1), if_neg (fun h => hj h.1), elem_catDims, elem_catDv0]
      exact hagree j hj
/-- The run of `cat` on valid operands of agreeing extents outside `dim`, one of
them not empty, when the result can be allocated: the call returns the freshly
allocated array, whose buffer holds work item `i` of a non-empty operand `k` at
the position the kernel `ocl_cat` computes from the offset of that operand. -/
theorem cat_run {α : Type} [Inhabited α] (dev : Device) (dim : Int) (a0 : OclArray)
    (rest : List OclArray) (w w2 : World α) (R : OclArray)
    (hprog : dev.array_prog_ok = true) (hdim : 0 ≤ dim) (hrest : rest ≠ [])
    (hval : ∀ a ∈ a0 :: rest, ∃ r, w.rep? a.rep = some r ∧ r.is_valid w.ctx = true)
    (hwin : ∀ a ∈ a0 :: rest, ((a.dimensions.prod : Nat) : Int) = a.slice_len)
    (hsome : ∃ a ∈ a0 :: rest, a.numel ≠ 0)
    (hlen : ∀ a ∈ rest, a.dimensions.length ≤ (catDv0 dim.toNat a0).length)
    (hagree : ∀ a ∈ rest, ∀ j, j ≠ dim.toNat → a.dimensions.elem j = a0.dimensions.elem j)
    (hmk : OclArray.mkDims dev (catResultDims dim.toNat (a0 :: rest)) w = (.ok R, w2)) :
    ∃ (rn : OclArrayRep α) (dst' : List α),
      R.rep = w.heap.length ∧
      R.dimensions = (catResultDims dim.toNat (a0 :: rest)).chop_trailing_singletons ∧
      R.slice_ofs = 0 ∧
      R.slice_len = (((catDv0 dim.toNat a0).take dim.toNat).prod
        * ((a0 :: rest).map (fun a => a.dimensions.elem dim.toNat)).sum
        * ((catDv0 dim.toNat a0).drop (dim.toNat + 1)).prod : Nat) ∧
      w2.heap = w.heap ++ [some rn] ∧ w2.ctx = w.ctx ∧
      OclArray.cat dev dim (a0 :: rest) w
        = (.ok R, w2.setRep R.rep { rn with data := dst' }) ∧
      dst'.length = ((catDv0 dim.toNat a0).take dim.toNat).prod
        * ((a0 :: rest).map (fun a => a.dimensions.elem dim.toNat)).sum
        * ((catDv0 dim.toNat a0).drop (dim.toNat + 1)).prod ∧
      0 < ((catDv0 dim.toNat a0).take dim.toNat).prod ∧
      0 < ((catDv0 dim.toNat a0).drop (dim.toNat + 1)).prod ∧
      (∀ a ∈ a0 :: rest,
        a.dimensions.prod = ((catDv0 dim.toNat a0).take dim.toNat).prod
          * a.dimensions.elem dim.toNat * ((catDv0 dim.toNat a0).drop (dim.toNat + 1)).prod) ∧
      (∀ k a, (a0 :: rest)[k]? = some a → a.numel ≠ 0 → ∀ ra, w.rep? a.rep = some ra →
        ∀ i, i < a.dimensions.prod →
          dst'[(((a0 :: rest).take k).map (fun a => a.dimensions.elem dim.toNat)).sum
                * ((catDv0 dim.toNat a0).take dim.toNat).prod
              + i % (((catDv0 dim.toNat a0).take dim.toNat).prod * a.dimensions.elem dim.toNat)
              + i / (((catDv0 dim.toNat a0).take dim.toNat).prod * a.dimensions.elem dim.toNat)
                * (((catDv0 dim.toNat a0).take dim.toNat).prod
                  * ((a0 :: rest).map (fun a => a.dimensions.elem dim.toNat)).sum)]?
            = some (ra.data.getD (a.slice_ofs.toNat + i) default)) := by
  obtain ⟨d, hd⟩ : ∃ d, d = dim.toNat := ⟨_, rfl⟩
  obtain ⟨dv0, hdv0⟩ : ∃ dv0, dv0 = catDv0 d a0 := ⟨_, rfl⟩
  obtain ⟨s, hs⟩ : ∃ s, s = (dv0.take d).prod := ⟨_, rfl⟩
  obtain ⟨p, hp⟩ : ∃ p, p = (dv0.drop (d + 1)).prod := ⟨_, rfl⟩
  obtain ⟨D, hD⟩ : ∃ D, D = ((a0 :: rest).map (fun a => a.dimensions.elem d)).sum := ⟨_, rfl⟩
  rw [← hd] at hlen hagree hmk ⊢
  rw [← hdv0] at hlen ⊢
  rw [← hs, ← hp, ← hD]
  -- the shapes
  have hshape : ∀ a ∈ a0 :: rest, (catDims dv0.length a).set d 1 = dv0.set d 1 := by
    intro a ha
    rw [hdv0]
    rcases List.mem_cons.mp ha with h | h
    · subst h
      exact catDims_agree d a a (le_length_catDv0 d a) (fun _ _ => rfl)
    · exact catDims_agree d a0 a (by rw [← hdv0]; exact hlen a h) (hagree a h)
  have hprodA : ∀ a ∈ a0 :: rest, a.dimensions.prod = s * a.dimensions.elem d * p := by
    intro a ha
    have := prod_of_same_shape _ _ d (hshape a ha)
    rw [elem_catDims] at this
    rw [hs, hp, ← this]
    have h2 := prod_catDims dv0.length a
    unfold dim_vector.numel at h2
    simpa using h2.symm
  have hfac : ∀ a ∈ a0 :: rest, a.numel ≠ 0 → 0 < s ∧ 0 < a.dimensions.elem d ∧ 0 < p := by
    intro a ha hn
    have h1 : 0 < a.dimensions.prod := by
      have := hwin a ha
      unfold OclArray.numel at hn
      omega
    rw [hprodA a ha] at h1
    refine ⟨Nat.pos_of_ne_zero ?_, Nat.pos_of_ne_zero ?_, Nat.pos_of_ne_zero ?_⟩ <;>
      (intro h0; rw [h0] at h1; simp at h1)
  obtain ⟨a1, ha1, hn1⟩ := hsome
  obtain ⟨hs0, hd1, hp0⟩ := hfac a1 ha1 hn1
  have hDpos : 0 < D := by
    rw [hD]
    have := List.single_le_sum (fun _ _ => Nat.zero_le _) _
      (List.mem_map_of_mem (fun a => a.dimensions.elem d) ha1)
    simp only at this
    omega
  have hdlt : d < dv0.length := by
    rw [hdv0]
    exact lt_length_catDv0 d a0
  have hres : catResultDims d (a0 :: rest) = dv0.set d D := by
    rw [hdv0, hD]
    rfl
  have hdvprod : (catResultDims d (a0 :: rest)).prod = s * D * p := by
    rw [hres, prod_split _ d, take_set_self, drop_set_self, elem_set, if_pos ⟨rfl, hdlt⟩,
      hs, hp]
  have helemdv : dim_vector.elem (catResultDims d (a0 :: rest)) d = D := by
    rw [hres, elem_set, if_pos ⟨rfl, hdlt⟩]
  -- the context is active
  obtain ⟨r0, hr0, hv0⟩ := hval a0 (List.mem_cons_self _ _)
  have hact := active_of_valid w.ctx r0 hv0
  -- the allocation
  have hpos : 0 < (catResultDims d (a0 :: rest)).prod := by
    rw [hdvprod]
    exact Nat.mul_pos (Nat.mul_pos hs0 hDpos) hp0
  obtain ⟨hR1, hR2, hR3, hR4, _, hctx, _, rn, hheap, hrnv, hrnd, _, _⟩ :=
    mkDims_ok_active dev _ R w w2 hact hpos hmk
  rw [hdvprod] at hR4 hrnd
  have hrepR : w2.rep? R.rep = some rn := by
    simp [World.rep?, hheap, hR1]
  have hrepA : ∀ a ∈ a0 :: rest, ∀ ra, w.rep? a.rep = some ra →
      w2.rep? a.rep = some ra ∧ a.rep ≠ R.rep := by
    intro a ha ra hra
    have hlt : a.rep < w.heap.length := by
      unfold World.rep? at hra
      by_contra hge
      rw [List.getElem?_eq_none (by omega)] at hra
      simp at hra
    refine ⟨?_, by omega⟩
    unfold World.rep? at hra ⊢
    rw [hheap, List.getElem?_append_left hlt]
    exact hra
  -- the first loop
  have hcatShape : catShape w d dv0.length rest (dv0, dv0.set d 1)
      = .ok (catResultDims d (a0 :: rest), dv0.set d 1) := by
    rw [catShape_agree w d dv0.length (dv0.set d 1) rest dv0 hdlt]
    · rw [hres, hD]
      simp only [List.map_cons, List.sum_cons]
      rw [hdv0, elem_catDv0]
    · intro a ha
      exact ⟨assure_valid_of_valid w a (hval a (List.mem_cons_of_mem _ ha)),
        hshape a (List.mem_cons_of_mem _ ha)⟩
  -- the second loop
  have hzero : ∀ a ∈ a0 :: rest, a.numel = 0 → a.dimensions.elem d = 0 := by
    intro a ha hn
    have h1 : a.dimensions.prod = 0 := by
      have := hwin a ha
      unfold OclArray.numel at hn
      omega
    rw [hprodA a ha] at h1
    rcases Nat.mul_eq_zero.mp h1 with h2 | h2
    · rcases Nat.mul_eq_zero.mp h2 with h3 | h3
      · omega
      · exact h3
    · omega
  have hext : ∀ l : List OclArray, (∀ a ∈ l, a ∈ a0 :: rest) →
      l.map (catExtent d dv0.length) = l.map (fun a => a.dimensions.elem d) := by
    intro l hl
    apply List.map_congr_left
    intro a ha
    unfold catExtent
    split_ifs with hn
    · exact (hzero a (hl a ha) hn).symm
    · exact elem_catDims _ _ _
  obtain ⟨dst', hrun, hlen', _, hput⟩ := catCopy_spec d dv0.length
    (catResultDims d (a0 :: rest)) s p R hs0 hp0 (a0 :: rest) 0 w2 rn hrepR hrnv
    (by rw [hrnd, helemdv]; simp)
    (by rw [hext _ (fun _ h => h), helemdv, ← hD]; omega)
    (by
      intro a ha hna
      obtain ⟨ra, hra, hva⟩ := hval a ha
      obtain ⟨h1, h2⟩ := hrepA a ha ra hra
      refine ⟨h2, ?_, ?_, ra, h1, by rw [hctx]; exact hva⟩
      · rw [elem_catDims]
        exact (hfac a ha hna).2.1
      · rw [prod_catDims, elem_catDims]
        exact hprodA a ha)
  rw [hext _ (fun _ h => h), ← hD, Nat.zero_add] at hrun
  refine ⟨rn, dst', hR1, hR2, hR3, hR4, hheap, hctx, ?_, ?_, hs0, hp0, ?_, ?_⟩
  · unfold OclArray.cat
    rw [assure_valid_array_prog_active dev w hact hprog]
    simp only
    rw [if_neg (not_lt.mpr hdim), assure_valid_of_valid w a0 (hval a0 (List.mem_cons_self _ _))]
    simp only
    have he : rest.isEmpty = false := by
      cases rest with
      | nil => exact absurd rfl hrest
      | cons _ _ => rfl
    rw [he]
    simp only [Bool.false_eq_true, if_false]
    rw [← hd, ← hdv0, hcatShape]
    simp only
    rw [hmk]
    simp only
    have hR0 : ¬ R.numel = 0 := by
      unfold OclArray.numel
      rw [hR4]
      have := Nat.mul_pos (Nat.mul_pos hs0 hDpos) hp0
      omega
    rw [if_neg hR0]
    have hsp : ((catResultDims d (a0 :: rest)).take d).prod = s := by
      rw [hres, take_set_self, hs]
    rw [hsp, hrun]
  · rw [hlen', hrnd]
    simp
  · exact hprodA
  · intro k a hk hna ra hra i hi
    have hkl : k < (a0 :: rest).length := by
      by_contra hge
      rw [List.getElem?_eq_none (by omega)] at hk
      simp at hk
    have hget : (a0 :: rest).get ⟨k, hkl⟩ = a := by
      rw [List.getElem?_eq_getElem hkl] at hk
      simpa using hk
    have hmem : a ∈ a0 :: rest := by
      rw [← hget]
      exact List.get_mem _ _ _
    have h := hput k hkl (by rw [hget]; exact hna) ra
      (by rw [hget]; exact (hrepA a hmem ra hra).1) i
      (by rw [hget, prod_catDims]; exact hi)
    rw [hget, elem_catDims, helemdv, Nat.zero_add] at h
    have hoff : catOffset d dv0.length (a0 :: rest) k
        = (((a0 :: rest).take k).map (fun a => a.dimensions.elem d)).sum := by
      unfold catOffset
      rw [hext _ (fun b hb => List.mem_of_mem_take hb)]
    rw [hoff] at h
    exact h
/-! ## Concatenation: index arithmetic -/

theorem digits_lt (x s y t : Nat) (hx : x < s) (hy : y < t) : x + s * y < s * t := by
  have h : s * (y + 1) ≤ s * t := Nat.mul_le_mul_left s hy
  rw [Nat.mul_add, Nat.mul_one] at h
  omega

theorem digits_divmod (x s y : Nat) (hx : x < s) :
    (x + s * y) % s = x ∧ (x + s * y) / s = y := by
  constructor
  · rw [Nat.add_mul_mod_self_left, Nat.mod_eq_of_lt hx]
  · rw [Nat.add_mul_div_left _ _ (by omega), Nat.div_eq_of_lt hx, Nat.zero_add]

theorem colMajor_append (post : dim_vector) (c : List Nat) :
    ∀ (pre : dim_vector) (a : List Nat), a.length = pre.length →
      colMajor (pre ++ post) (a ++ c) = colMajor pre a + pre.prod * colMajor post c := by
  intro pre
  induction pre with
  | nil =>
    intro a ha
    have : a = [] := List.length_eq_zero.mp ha
    subst this
    simp [colMajor]
  | cons d ds ih =>
    intro a ha
    cases a with
    | nil => simp at ha
    | cons i t =>
      simp only [List.length_cons, add_left_inj] at ha
      show i + d * colMajor (ds ++ post) (t ++ c) = i + d * colMajor ds t
        + (d :: ds).prod * colMajor post c
      rw [ih t ha, List.prod_cons]
      ring

theorem colMajor_lt (dv : dim_vector) (idx : List Nat)
    (h : List.Forall₂ (fun i d => i < d) idx dv) : colMajor dv idx < dv.prod := by
  induction h with
  | nil => simp [colMajor]
  | cons hi _ ih =>
    simp only [colMajor, List.prod_cons]
    exact digits_lt _ _ _ _ hi ih

theorem split_at (l : dim_vector) (d : Nat) (h : d < l.length) :
    l = l.take d ++ dim_vector.elem l d :: l.drop (d + 1) := by
  unfold dim_vector.elem
  rw [List.getD_eq_getElem _ _ h, ← List.drop_eq_getElem_cons h, List.take_append_drop]

/-- The column-major index of a multi-index `(a, b, c)` whose part `a` runs over the
dimensions before `d`. -/
theorem colMajor_split (l : dim_vector) (d : Nat) (h : d < l.length) (a c : List Nat) (b : Nat)
    (ha : a.length = d) :
    colMajor l (a ++ b :: c)
      = colMajor (l.take d) a
        + (l.take d).prod * (b + dim_vector.elem l d * colMajor (l.drop (d + 1)) c) := by
  conv_lhs => rw [split_at l d h]
  rw [colMajor_append _ _ _ _ (by rw [List.length_take]; omega)]
  rfl

theorem zone_exists (ds : List Nat) :
    ∀ B, B < ds.sum → ∃ k b, k < ds.length ∧ b < ds.getD k 0 ∧ B = (ds.take k).sum + b := by
  induction ds with
  | nil => intro B hB; simp at hB
  | cons e t ih =>
    intro B hB
    by_cases h : B < e
    · exact ⟨0, B, by simp, by simpa using h, by simp⟩
    · simp only [List.sum_cons] at hB
      obtain ⟨k, b, hk, hb, hB'⟩ := ih (B - e) (by omega)
      refine ⟨k + 1, b, by simpa using hk, by simpa using hb, ?_⟩
      simp only [List.take_succ_cons, List.sum_cons]
      omega

theorem zone_unique (ds : List Nat) :
    ∀ k k' b b', b < ds.getD k 0 → b' < ds.getD k' 0 →
      (ds.take k).sum + b = (ds.take k').sum + b' → k = k' := by
  induction ds with
  | nil => intro k k' b b' hb; simp at hb
  | cons e t ih =>
    intro k k' b b' hb hb' h
    cases k with
    | zero =>
      cases k' with
      | zero => rfl
      | succ k' =>
        simp only [List.getD_cons_zero, List.take_zero, List.sum_nil, List.take_succ_cons,
          List.sum_cons] at hb h
        omega
    | succ k =>
      cases k' with
      | zero =>
        simp only [List.getD_cons_zero, List.take_zero, List.sum_nil, List.take_succ_cons,
          List.sum_cons] at hb' h
        omega
      | succ k' =>
        simp only [List.getD_cons_succ, List.take_succ_cons, List.sum_cons] at hb hb' h
        rw [ih k k' b b' hb hb' (by omega)]

theorem zone_le (ds : List Nat) :
    ∀ k, k < ds.length → (ds.take k).sum + ds.getD k 0 ≤ ds.sum := by
  induction ds with
  | nil => intro k hk; simp at hk
  | cons e t ih =>
    intro k hk
    cases k with
    | zero => simp
    | succ k =>
      simp only [List.getD_cons_succ, List.take_succ_cons, List.sum_cons]
      have := ih k (by simpa using hk)
      omega

/-- The destinations of the work items of all kernels of one `cat` cover the
positions below `s * sum ds * p` one to one; `ds` holds the extents of the operands
along the dimension of concatenation. -/
theorem dest_bijective (s p : Nat) (ds : List Nat) (hs : 0 < s) :
    ∀ j, j < s * ds.sum * p →
      ∃ k i, (k < ds.length ∧ i < s * ds.getD k 0 * p ∧
          (ds.take k).sum * s + i % (s * ds.getD k 0) + i / (s * ds.getD k 0) * (s * ds.sum) = j) ∧
        ∀ k' i', k' < ds.length → i' < s * ds.getD k' 0 * p →
          (ds.take k').sum * s + i' % (s * ds.getD k' 0)
            + i' / (s * ds.getD k' 0) * (s * ds.sum) = j → k' = k ∧ i' = i := by
  intro j hj
  have hM : 0 < s * ds.sum := by
    rcases Nat.eq_zero_or_pos (s * ds.sum) with h | h
    · rw [h] at hj
      simp at hj
    · exact h
  have hc : j / (s * ds.sum) < p := by
    rw [Nat.div_lt_iff_lt_mul hM, Nat.mul_comm]
    exact hj
  have hr := Nat.mod_lt j hM
  have hB : j % (s * ds.sum) / s < ds.sum := by
    rw [Nat.div_lt_iff_lt_mul hs, Nat.mul_comm ds.sum s]
    exact hr
  obtain ⟨k, b, hk, hb, hkb⟩ := zone_exists ds _ hB
  have hx := Nat.mod_lt (j % (s * ds.sum)) hs
  have hm : 0 < s * ds.getD k 0 := Nat.mul_pos hs (by omega)
  have hxb : j % (s * ds.sum) % s + s * b < s * ds.getD k 0 := digits_lt _ _ _ _ hx hb
  have hi := digits_divmod (j % (s * ds.sum) % s + s * b) (s * ds.getD k 0) (j / (s * ds.sum)) hxb
  have hdest : (ds.take k).sum * s
      + (j % (s * ds.sum) % s + s * b + s * ds.getD k 0 * (j / (s * ds.sum))) % (s * ds.getD k 0)
      + (j % (s * ds.sum) % s + s * b + s * ds.getD k 0 * (j / (s * ds.sum))) / (s * ds.getD k 0)
        * (s * ds.sum) = j := by
    rw [hi.1, hi.2]
    have h1 := Nat.mod_add_div (j % (s * ds.sum)) s
    have h2 := Nat.mod_add_div j (s * ds.sum)
    have h3 : (ds.take k).sum * s + s * b = s * (j % (s * ds.sum) / s) := by
      rw [hkb]
      ring
    rw [Nat.mul_comm (j / (s * ds.sum))]
    omega
  refine ⟨k, j % (s * ds.sum) % s + s * b + s * ds.getD k 0 * (j / (s * ds.sum)),
    ⟨hk, ?_, hdest⟩, ?_⟩
  · rw [Nat.mul_assoc s]
    have := digits_lt _ _ _ _ hxb hc
    rw [Nat.mul_assoc] at this
    exact this
  · intro k' i' hk' hi' hd'
    have hm' : 0 < s * ds.getD k' 0 := by
      rcases Nat.eq_zero_or_pos (s * ds.getD k' 0) with h | h
      · rw [h] at hi'
        simp at hi'
      · exact h
    have hoM' : (ds.take k').sum * s + s * ds.getD k' 0 ≤ s * ds.sum := by
      have := Nat.mul_le_mul_left s (zone_le ds k' hk')
      rw [Nat.mul_add] at this
      rw [Nat.mul_comm _ s]
      exact this
    have hoM : (ds.take k).sum * s + s * ds.getD k 0 ≤ s * ds.sum := by
      have := Nat.mul_le_mul_left s (zone_le ds k hk)
      rw [Nat.mul_add] at this
      rw [Nat.mul_comm _ s]
      exact this
    have e1 := (catPos_divmod _ _ (s * ds.sum) i' hm' hoM').2
    rw [hd'] at e1
    have e2 := (catPos_divmod _ _ (s * ds.sum)
      (j % (s * ds.sum) % s + s * b + s * ds.getD k 0 * (j / (s * ds.sum))) hm hoM).2
    rw [hdest] at e2
    have hr' : i' % (s * ds.getD k' 0) < s * ds.getD k' 0 := Nat.mod_lt _ hm'
    have hb' : i' % (s * ds.getD k' 0) / s < ds.getD k' 0 := by
      rw [Nat.div_lt_iff_lt_mul hs, Nat.mul_comm (ds.getD k' 0) s]
      exact hr'
    have e3 : j % (s * ds.sum) / s = (ds.take k').sum + i' % (s * ds.getD k' 0) / s := by
      rw [e1, Nat.mul_comm _ s, Nat.mul_add_div hs]
    have hkk : k' = k := zone_unique ds k' k _ _ hb' hb (by rw [← e3, ← hkb])
    subst hkk
    refine ⟨rfl, ?_⟩
    exact catPos_inj _ _ (s * ds.sum) _ _ hm hoM (by rw [hd', hdest])
/-! ## Concatenation: the elements of the result -/

theorem catOperand_of_input {α : Type} (w : World α) (a : OclArray) (h : CatInput w a) :
    CatOperand w a := by
  obtain ⟨r, h1, h2, _, h4, h5, h6⟩ := h
  exact ⟨r, h1, h2, h4, fun _ => ⟨h5, h6⟩⟩

theorem getD_map_of_getElem? (l : List OclArray) (f : OclArray → Nat) (k : Nat) (a : OclArray)
    (h : l[k]? = some a) : (l.map f).getD k 0 = f a := by
  simp [List.getD_eq_getElem?_getD, List.getElem?_map, h]

theorem catDest_eq (d : Nat) (a0 : OclArray) (rest : List OclArray) (k i : Nat) :
    catDest d (a0 :: rest) k i
      = (((a0 :: rest).map (fun a => a.dimensions.elem d)).take k).sum
          * ((catDv0 d a0).take d).prod
        + i % (((catDv0 d a0).take d).prod
            * ((a0 :: rest).map (fun a => a.dimensions.elem d)).getD k 0)
        + i / (((catDv0 d a0).take d).prod
            * ((a0 :: rest).map (fun a => a.dimensions.elem d)).getD k 0)
          * (((catDv0 d a0).take d).prod
            * ((a0 :: rest).map (fun a => a.dimensions.elem d)).sum) := rfl

/-- The result of `cat` on valid operands of agreeing extents outside `dim`, one of
them not empty, when the result can be allocated: element `i` of a non-empty
operand `k` is found in the result at the destination of work item `i` of the
kernel launched for that operand. -/
theorem cat_result {α : Type} [Inhabited α] (dev : Device) (dim : Int) (a0 : OclArray)
    (rest : List OclArray) (w w2 : World α) (R : OclArray)
    (hprog : dev.array_prog_ok = true) (hdim : 0 ≤ dim) (hrest : rest ≠ [])
    (hop : ∀ a ∈ a0 :: rest, CatOperand w a)
    (hsome : ∃ a ∈ a0 :: rest, a.numel ≠ 0)
    (hlen : ∀ a ∈ rest, a.dimensions.length ≤ (catDv0 dim.toNat a0).length)
    (hagree : ∀ a ∈ rest, ∀ j, j ≠ dim.toNat → a.dimensions.elem j = a0.dimensions.elem j)
    (hmk : OclArray.mkDims dev (catResultDims dim.toNat (a0 :: rest)) w = (.ok R, w2)) :
    ∃ w', OclArray.cat dev dim (a0 :: rest) w = (.ok R, w') ∧
      R.dimensions = (catResultDims dim.toNat (a0 :: rest)).chop_trailing_singletons ∧
      R.numel = (((catDv0 dim.toNat a0).take dim.toNat).prod
        * ((a0 :: rest).map (fun a => a.dimensions.elem dim.toNat)).sum
        * ((catDv0 dim.toNat a0).drop (dim.toNat + 1)).prod : Nat) ∧
      0 < ((catDv0 dim.toNat a0).take dim.toNat).prod ∧
      0 < ((catDv0 dim.toNat a0).drop (dim.toNat + 1)).prod ∧
      (∀ a ∈ a0 :: rest,
        a.dimensions.prod = ((catDv0 dim.toNat a0).take dim.toNat).prod
          * a.dimensions.elem dim.toNat * ((catDv0 dim.toNat a0).drop (dim.toNat + 1)).prod) ∧
      (∀ k a, (a0 :: rest)[k]? = some a → a.numel ≠ 0 → ∀ i, i < a.dimensions.prod →
        ∃ v, a.elem? w (i : Int) = some v ∧
          R.elem? w' (catDest dim.toNat (a0 :: rest) k i : Nat) = some v) := by
  obtain ⟨rn, dst', hR1, hR2, hR3, hR4, hheap, hctx, hcat, hlen', hs0, hp0, hprod, hput⟩ :=
    cat_run dev dim a0 rest w w2 R hprog hdim hrest
      (fun a ha => by
        obtain ⟨r, h1, h2, _⟩ := hop a ha
        exact ⟨r, h1, h2⟩)
      (fun a ha => by
        obtain ⟨r, _, _, h3, _⟩ := hop a ha
        exact h3)
      hsome hlen hagree hmk
  refine ⟨_, hcat, hR2, hR4, hs0, hp0, hprod, ?_⟩
  intro k a hk hna i hi
  have hkl : k < (a0 :: rest).length := by
    by_contra hge
    rw [List.getElem?_eq_none (by omega)] at hk
    simp at hk
  have hmem : a ∈ a0 :: rest := by
    rw [List.getElem?_eq_getElem hkl] at hk
    simp only [Option.some.injEq] at hk
    rw [← hk]
    exact List.getElem_mem _
  obtain ⟨ra, hra, _, hwin, hbuf⟩ := hop a hmem
  have hpos : 0 < a.slice_len := by
    unfold OclArray.numel at hna
    omega
  obtain ⟨hofs, hend⟩ := hbuf hpos
  have h := hput k a hk hna ra hra i hi
  have e1 := catDest_eq dim.toNat a0 rest k i
  rw [getD_map_of_getElem? _ _ k a hk, ← List.map_take] at e1
  rw [← e1] at h
  refine ⟨ra.data.getD (a.slice_ofs.toNat + i) default, ?_, ?_⟩
  · unfold OclArray.elem?
    rw [hra]
    simp only
    rw [if_pos ⟨by omega, by omega⟩]
    have e : (a.slice_ofs + (i : Int)).toNat = a.slice_ofs.toNat + i := by omega
    rw [e, List.getD_eq_getElem?_getD]
    have hlt : a.slice_ofs.toNat + i < ra.data.length := by omega
    rw [List.getElem?_eq_getElem hlt]
    rfl
  · have hlt : catDest dim.toNat (a0 :: rest) k i < dst'.length := by
      by_contra hge
      rw [List.getElem?_eq_none (by omega)] at h
      simp at h
    unfold OclArray.elem?
    have hrep : (w2.setRep R.rep { rn with data := dst' }).rep? R.rep
        = some { rn with data := dst' } := by
      simp [World.rep?, World.setRep, hheap, hR1]
    rw [hrep]
    simp only
    rw [hlen'] at hlt
    rw [if_pos ⟨by omega, by rw [hR4]; exact_mod_cast hlt⟩, hR3]
    simp only [Int.zero_add, Int.toNat_ofNat]
    exact h
/-- Claim C18 (concatenation placement).  For a list of at least two valid,
non-empty arrays whose extents agree in all dimensions other than `dim`, with the
array program available and the allocation of the result succeeding, `cat` returns
the new array: its extent along `dim` is the sum of the extents of the inputs and
its other extents are those of every input; the element of input `k` at the
multi-index `(x, b, c)` (`x` over the dimensions before `dim`, `b` along `dim`, `c`
over the dimensions after it, column-major order) is the element of the result at
`(x, offset_k + b, c)`, where `offset_k` is the sum of the extents along `dim` of
the inputs before `k`; that position is the destination of the work item of the
kernel that copies the element, and every position of the result is the
destination of exactly one work item of exactly one input. -/
theorem cat_placement {α : Type} [Inhabited α] (dev : Device) (dim : Int) (a0 : OclArray)
    (rest : List OclArray) (w w2 : World α) (R : OclArray)
    (hprog : dev.array_prog_ok = true) (hdim : 0 ≤ dim) (hrest : rest ≠ [])
    (hin : ∀ a ∈ a0 :: rest, CatInput w a)
    (hlen : ∀ a ∈ rest, a.dimensions.length ≤ (catDv0 dim.toNat a0).length)
    (hagree : ∀ a ∈ rest, ∀ j, j ≠ dim.toNat → a.dimensions.elem j = a0.dimensions.elem j)
    (hmk : OclArray.mkDims dev (catResultDims dim.toNat (a0 :: rest)) w = (.ok R, w2)) :
    ∃ w', OclArray.cat dev dim (a0 :: rest) w = (.ok R, w') ∧
      R.dimensions = (catResultDims dim.toNat (a0 :: rest)).chop_trailing_singletons ∧
      R.dimensions.elem dim.toNat
        = ((a0 :: rest).map (fun a => a.dimensions.elem dim.toNat)).sum ∧
      (∀ a ∈ a0 :: rest, ∀ j, j ≠ dim.toNat → R.dimensions.elem j = a.dimensions.elem j) ∧
      (∀ k a, (a0 :: rest)[k]? = some a →
        ∀ (x c : List Nat) (b : Nat), x.length = dim.toNat →
          List.Forall₂ (fun i e => i < e) (x ++ b :: c)
            (catDims (catDv0 dim.toNat a0).length a) →
          colMajor (catResultDims dim.toNat (a0 :: rest))
              (x ++ ((((a0 :: rest).take k).map (fun a => a.dimensions.elem dim.toNat)).sum + b)
                :: c)
            = catDest dim.toNat (a0 :: rest) k
                (colMajor (catDims (catDv0 dim.toNat a0).length a) (x ++ b :: c)) ∧
          ∃ v, a.elem? w (colMajor (catDims (catDv0 dim.toNat a0).length a) (x ++ b :: c) : Nat)
                = some v ∧
            R.elem? w' (colMajor (catResultDims dim.toNat (a0 :: rest))
              (x ++ ((((a0 :: rest).take k).map (fun a => a.dimensions.elem dim.toNat)).sum + b)
                :: c) : Nat) = some v) ∧
      (∀ j : Nat, (j : Int) < R.numel →
        ∃! ki : Nat × Nat, ∃ a, (a0 :: rest)[ki.1]? = some a ∧ ki.2 < a.dimensions.prod ∧
          catDest dim.toNat (a0 :: rest) ki.1 ki.2 = j) := by
  have hne : ∀ a ∈ a0 :: rest, a.numel ≠ 0 := by
    intro a ha
    obtain ⟨r, _, _, h3, _⟩ := hin a ha
    unfold OclArray.numel
    omega
  obtain ⟨w', hcat, hR2, hR4, hs0, hp0, hprod, hel⟩ :=
    cat_result dev dim a0 rest w w2 R hprog hdim hrest
      (fun a ha => catOperand_of_input w a (hin a ha))
      ⟨a0, List.mem_cons_self _ _, hne a0 (List.mem_cons_self _ _)⟩ hlen hagree hmk
  obtain ⟨d, hd⟩ : ∃ d, d = dim.toNat := ⟨_, rfl⟩
  rw [← hd] at hlen hagree hmk hR2 hR4 hs0 hp0 hprod hel ⊢
  have hdlt : d < (catDv0 d a0).length := lt_length_catDv0 d a0
  have hres : catResultDims d (a0 :: rest)
      = (catDv0 d a0).set d ((a0 :: rest).map (fun a => a.dimensions.elem d)).sum := rfl
  have hag : ∀ a ∈ a0 :: rest, ∀ j, j ≠ d → a.dimensions.elem j = a0.dimensions.elem j := by
    intro a ha j hj
    rcases List.mem_cons.mp ha with h | h
    · rw [h]
    · exact hagree a h j hj
  have hshape : ∀ a ∈ a0 :: rest,
      (catDims (catDv0 d a0).length a).set d 1 = (catDv0 d a0).set d 1 := by
    intro a ha
    rcases List.mem_cons.mp ha with h | h
    · subst h
      exact catDims_agree d a a (le_length_catDv0 d a) (fun _ _ => rfl)
    · exact catDims_agree d a0 a (hlen a h) (hagree a h)
  refine ⟨w', hcat, hR2, ?_, ?_, ?_, ?_⟩
  · rw [hR2, elem_chop, hres, elem_set, if_pos ⟨rfl, hdlt⟩]
  · intro a ha j hj
    rw [hR2, elem_chop, hres, elem_set, if_neg (fun h => hj h.1), elem_catDv0, hag a ha j hj]
  · intro k a hk x c b hx hF
    have hkl : k < (a0 :: rest).length := by
      by_contra hge
      rw [List.getElem?_eq_none (by omega)] at hk
      simp at hk
    have hmem : a ∈ a0 :: rest := by
      rw [List.getElem?_eq_getElem hkl] at hk
      simp only [Option.some.injEq] at hk
      rw [← hk]
      exact List.getElem_mem _
    obtain ⟨L, hL⟩ : ∃ L, L = catDims (catDv0 d a0).length a := ⟨_, rfl⟩
    rw [← hL] at hF ⊢
    have hLlen : d < L.length := by
      have := congrArg List.length (hshape a hmem)
      rw [← hL] at this
      simp only [List.length_set] at this
      omega
    have hLt : L.take d = (catDv0 d a0).take d := by
      rw [← take_set_self L d 1, hL, hshape a hmem, take_set_self]
    have hLd : L.drop (d + 1) = (catDv0 d a0).drop (d + 1) := by
      rw [← drop_set_self L d 1, hL, hshape a hmem, drop_set_self]
    have hLe : dim_vector.elem L d = a.dimensions.elem d := by
      rw [hL, elem_catDims]
    have hX : List.Forall₂ (fun i e => i < e) x (L.take d) := by
      have := List.forall₂_take d hF
      rwa [List.take_left' hx] at this
    have hBC : List.Forall₂ (fun i e => i < e) (b :: c) (L.drop d) := by
      have := List.forall₂_drop d hF
      rwa [List.drop_left' hx] at this
    rw [List.drop_eq_getElem_cons hLlen] at hBC
    have hb : b < a.dimensions.elem d := by
      rw [← hLe]
      unfold dim_vector.elem
      rw [List.getD_eq_getElem _ _ hLlen]
      cases hBC with
      | cons h _ => exact h
    have hC : List.Forall₂ (fun i e => i < e) c (L.drop (d + 1)) := by
      cases hBC with
      | cons _ h => exact h
    have hx' := colMajor_lt _ _ hX
    have hc' := colMajor_lt _ _ hC
    have e1 := colMajor_split L d hLlen x c b hx
    rw [hLe] at e1
    have e2 := colMajor_split (catResultDims d (a0 :: rest)) d
      (by rw [hres, List.length_set]; exact hdlt) x c
      ((((a0 :: rest).take k).map (fun a => a.dimensions.elem d)).sum + b) hx
    rw [hres, take_set_self, drop_set_self, elem_set, if_pos ⟨rfl, hdlt⟩, ← hres, ← hLt, ← hLd]
      at e2
    obtain ⟨X, hXd⟩ : ∃ X, X = colMajor (L.take d) x := ⟨_, rfl⟩
    obtain ⟨C, hCd⟩ : ∃ C, C = colMajor (L.drop (d + 1)) c := ⟨_, rfl⟩
    obtain ⟨s, hs⟩ : ∃ s, s = (L.take d).prod := ⟨_, rfl⟩
    rw [← hXd, ← hCd, ← hs] at e1 e2
    rw [← hXd, ← hs] at hx'
    rw [← hCd] at hc'
    have hxb : X + s * b < s * a.dimensions.elem d := digits_lt _ _ _ _ hx' hb
    have hdm := digits_divmod (X + s * b) (s * a.dimensions.elem d) C hxb
    have e3 : colMajor L (x ++ b :: c) = X + s * b + s * a.dimensions.elem d * C := by
      rw [e1]
      ring
    have hdest : colMajor (catResultDims d (a0 :: rest))
        (x ++ ((((a0 :: rest).take k).map (fun a => a.dimensions.elem d)).sum + b) :: c)
        = catDest d (a0 :: rest) k (colMajor L (x ++ b :: c)) := by
      rw [catDest_eq, getD_map_of_getElem? _ _ k a hk, ← List.map_take, ← hLt, ← hs, e2, e3,
        hdm.1, hdm.2]
      ring
    refine ⟨hdest, ?_⟩
    rw [hdest]
    apply hel k a hk (hne a hmem)
    rw [e3, hprod a hmem, ← hLt, ← hLd, ← hs]
    have hlt := digits_lt _ _ _ _ hxb (show C < (L.drop (d + 1)).prod from hc')
    exact hlt
  · intro j hj
    rw [hR4] at hj
    have hj' : j < ((catDv0 d a0).take d).prod
        * ((a0 :: rest).map (fun a => a.dimensions.elem d)).sum
        * ((catDv0 d a0).drop (d + 1)).prod := by exact_mod_cast hj
    obtain ⟨k, i, ⟨hk, hi, hdest⟩, huniq⟩ := dest_bijective _ _ _ hs0 j hj'
    have hkl : k < (a0 :: rest).length := by simpa using hk
    have hget : (a0 :: rest)[k]? = some ((a0 :: rest)[k]) := List.getElem?_eq_getElem hkl
    refine ⟨(k, i), ⟨(a0 :: rest)[k], hget, ?_, ?_⟩, ?_⟩
    · have hgd : ((a0 :: rest).map (fun a => a.dimensions.elem d)).getD k 0
          = ((a0 :: rest)[k]).dimensions.elem d := getD_map_of_getElem? _ _ k _ hget
      show i < ((a0 :: rest)[k]).dimensions.prod
      rw [hprod _ (List.getElem_mem _), ← hgd]
      exact hi
    · rw [catDest_eq]
      exact hdest
    · rintro ⟨k', i'⟩ ⟨a', hk', hi', hd'⟩
      simp only at hk' hi' hd'
      have hkl' : k' < (a0 :: rest).length := by
        by_contra hge
        rw [List.getElem?_eq_none (by omega)] at hk'
        simp at hk'
      have hmem' : a' ∈ a0 :: rest := by
        rw [List.getElem?_eq_getElem hkl'] at hk'
        simp only [Option.some.injEq] at hk'
        rw [← hk']
        exact List.getElem_mem _
      have hgd : ((a0 :: rest).map (fun a => a.dimensions.elem d)).getD k' 0
          = a'.dimensions.elem d := getD_map_of_getElem? _ _ k' a' hk'
      rw [hprod a' hmem', ← hgd] at hi'
      rw [catDest_eq] at hd'
      obtain ⟨h1, h2⟩ := huniq k' i' (by simpa using hkl') hi' hd'
      rw [h1, h2]
/-! ## Concatenation: the shape check -/

theorem rep_of_is_valid {α : Type} (w : World α) (a : OclArray) (h : a.is_valid w = true) :
    ∃ r, w.rep? a.rep = some r ∧ r.is_valid w.ctx = true := by
  unfold OclArray.is_valid at h
  cases hr : w.rep? a.rep with
  | none => simp [hr] at h
  | some r =>
    rw [hr] at h
    exact ⟨r, rfl, h⟩

theorem sum_map_filter_of_zero (l : List OclArray) (p : OclArray → Bool) (f : OclArray → Nat)
    (h : ∀ a ∈ l, p a = false → f a = 0) : ((l.filter p).map f).sum = (l.map f).sum := by
  induction l with
  | nil => rfl
  | cons x t ih =>
    have iht := ih (fun a ha => h a (List.mem_cons_of_mem _ ha))
    cases hp : p x with
    | true =>
      rw [List.filter_cons_of_pos hp]
      simp only [List.map_cons, List.sum_cons, iht]
    | false =>
      rw [List.filter_cons_of_neg (by simp [hp])]
      simp only [List.map_cons, List.sum_cons, iht, h x (List.mem_cons_self _ _) hp,
        Nat.zero_add]

theorem filter_take_length (l : List OclArray) (p : OclArray → Bool) (k : Nat) :
    (l.filter p).take ((l.take k).filter p).length = (l.take k).filter p := by
  have e : l.filter p = (l.take k).filter p ++ (l.drop k).filter p := by
    rw [← List.filter_append, List.take_append_drop]
  rw [e, List.take_left' rfl]

theorem getElem?_filter_of_getElem? (l : List OclArray) (p : OclArray → Bool) (k : Nat)
    (a : OclArray) (hk : l[k]? = some a) (hp : p a = true) :
    (l.filter p)[((l.take k).filter p).length]? = some a := by
  have hkl : k < l.length := by
    by_contra hge
    rw [List.getElem?_eq_none (by omega)] at hk
    cases hk
  have hdrop : l.drop k = a :: l.drop (k + 1) := by
    rw [List.drop_eq_getElem_cons hkl]
    rw [List.getElem?_eq_getElem hkl] at hk
    simp only [Option.some.injEq] at hk
    rw [hk]
  have e : l.filter p = (l.take k).filter p ++ a :: (l.drop (k + 1)).filter p := by
    rw [← List.filter_cons_of_pos hp, ← hdrop, ← List.filter_append, List.take_append_drop]
  rw [e, List.getElem?_append_right (le_refl _)]
  simp

theorem take_catDv0 (d : Nat) (a : OclArray) :
    (catDv0 d a).take d = (List.range d).map (fun j => a.dimensions.elem j) := by
  have hl := lt_length_catDv0 d a
  apply List.ext_getElem?
  intro j
  by_cases hj : j < d
  · rw [List.getElem?_take_of_lt hj, List.getElem?_map, List.getElem?_range hj]
    have he := elem_catDv0 d a j
    unfold dim_vector.elem at he
    rw [List.getD_eq_getElem _ _ (by omega)] at he
    rw [List.getElem?_eq_getElem (by omega), he]
    rfl
  · rw [List.getElem?_take_eq_none (by omega), List.getElem?_eq_none]
    simp only [List.length_map, List.length_range]
    omega

theorem take_catDv0_agree (d : Nat) (a b : OclArray)
    (h : ∀ j, j ≠ d → b.dimensions.elem j = a.dimensions.elem j) :
    (catDv0 d b).take d = (catDv0 d a).take d := by
  rw [take_catDv0, take_catDv0]
  apply List.map_congr_left
  intro j hj
  have := List.mem_range.mp hj
  exact h j (by omega)

/-- The destination of a work item when the empty operands, which have no extent
along the dimension of concatenation, are left out of the list: it is the
destination in the full list. -/
theorem catDest_nonEmpty (d : Nat) (l : List OclArray) (a0 : OclArray)
    (hhead : ∃ t, l = a0 :: t)
    (hzero : ∀ a ∈ l, a.numel = 0 → a.dimensions.elem d = 0)
    (hag : ∀ a ∈ l, ∀ j, j ≠ d → a.dimensions.elem j = a0.dimensions.elem j)
    (k : Nat) (a : OclArray) (hk : l[k]? = some a) (hna : a.numel ≠ 0) (i : Nat) :
    catDest d (nonEmptyInputs l) ((nonEmptyInputs (l.take k)).length) i = catDest d l k i := by
  obtain ⟨t, ht⟩ := hhead
  have hp : (fun (x : OclArray) => x.numel != 0) a = true := by simp [hna]
  have hz : ∀ x ∈ l, (fun (x : OclArray) => x.numel != 0) x = false →
      (fun (x : OclArray) => x.dimensions.elem d) x = 0 := by
    intro x hx hf
    apply hzero x hx
    simpa using hf
  have hget := getElem?_filter_of_getElem? l (fun (x : OclArray) => x.numel != 0) k a hk hp
  have hsum := sum_map_filter_of_zero l (fun (x : OclArray) => x.numel != 0)
    (fun x => x.dimensions.elem d) hz
  have hsumk := sum_map_filter_of_zero (l.take k) (fun (x : OclArray) => x.numel != 0)
    (fun x => x.dimensions.elem d)
    (fun x hx => hz x (List.mem_of_mem_take hx))
  have htk := filter_take_length l (fun (x : OclArray) => x.numel != 0) k
  unfold nonEmptyInputs
  cases hl' : l.filter (fun (x : OclArray) => x.numel != 0) with
  | nil =>
    rw [hl'] at hget
    simp at hget
  | cons b0 t' =>
    have hb0 : b0 ∈ l := by
      have : b0 ∈ l.filter (fun (x : OclArray) => x.numel != 0) := by
        rw [hl']
        exact List.mem_cons_self _ _
      exact (List.mem_filter.mp this).1
    have hsp : (catDv0 d b0).take d = (catDv0 d a0).take d :=
      take_catDv0_agree d a0 b0 (hag b0 hb0)
    rw [hl'] at hget hsum htk
    conv_rhs => rw [ht]
    rw [catDest_eq, catDest_eq, ← ht, hsp, getD_map_of_getElem? _ _ _ a hget,
      getD_map_of_getElem? _ _ k a hk, hsum, ← List.map_take, htk, hsumk, ← List.map_take]

theorem sum_prod_operands (l : List OclArray) (s p : Nat) (f e : OclArray → Nat)
    (h : ∀ a ∈ l, f a = s * e a * p) : (l.map f).sum = s * (l.map e).sum * p := by
  induction l with
  | nil => simp
  | cons x t ih =>
    simp only [List.map_cons, List.sum_cons, h x (List.mem_cons_self _ _),
      ih (fun a ha => h a (List.mem_cons_of_mem _ ha))]
    ring

/-- The destinations of the work items of the operands of a list cover the positions
of the result one to one. -/
theorem dest_bijective_list (d : Nat) (b0 : OclArray) (t : List OclArray) (p : Nat)
    (hs0 : 0 < ((catDv0 d b0).take d).prod)
    (hprod : ∀ a ∈ b0 :: t,
      a.dimensions.prod = ((catDv0 d b0).take d).prod * a.dimensions.elem d * p)
    (j : Nat)
    (hj : j < ((catDv0 d b0).take d).prod
      * ((b0 :: t).map (fun a => a.dimensions.elem d)).sum * p) :
    ∃! ki : Nat × Nat, ∃ a, (b0 :: t)[ki.1]? = some a ∧ ki.2 < a.dimensions.prod ∧
      catDest d (b0 :: t) ki.1 ki.2 = j := by
  obtain ⟨k, i, ⟨hk, hi, hdest⟩, huniq⟩ := dest_bijective _ _ _ hs0 j hj
  have hkl : k < (b0 :: t).length := by simpa using hk
  have hget : (b0 :: t)[k]? = some ((b0 :: t)[k]) := List.getElem?_eq_getElem hkl
  refine ⟨(k, i), ⟨(b0 :: t)[k], hget, ?_, ?_⟩, ?_⟩
  · have hgd : ((b0 :: t).map (fun a => a.dimensions.elem d)).getD k 0
        = ((b0 :: t)[k]).dimensions.elem d := getD_map_of_getElem? _ _ k _ hget
    show i < ((b0 :: t)[k]).dimensions.prod
    rw [hprod _ (List.getElem_mem _), ← hgd]
    exact hi
  · rw [catDest_eq]
    exact hdest
  · rintro ⟨k', i'⟩ ⟨a', hk', hi', hd'⟩
    simp only at hk' hi' hd'
    have hkl' : k' < (b0 :: t).length := by
      by_contra hge
      rw [List.getElem?_eq_none (by omega)] at hk'
      simp at hk'
    have hmem' : a' ∈ b0 :: t := by
      rw [List.getElem?_eq_getElem hkl'] at hk'
      simp only [Option.some.injEq] at hk'
      rw [← hk']
      exact List.getElem_mem _
    have hgd : ((b0 :: t).map (fun a => a.dimensions.elem d)).getD k' 0
        = a'.dimensions.elem d := getD_map_of_getElem? _ _ k' a' hk'
    rw [hprod a' hmem', ← hgd] at hi'
    rw [catDest_eq] at hd'
    obtain ⟨h1, h2⟩ := huniq k' i' (by simpa using hkl') hi' hd'
    rw [h1, h2]

/-- The run of `cat` on valid operands of agreeing extents outside `dim` that are all
empty: the result is made and returned without a kernel launch, it is empty,
and its other extents are those of the operands. -/
theorem cat_all_empty {α : Type} [Inhabited α] (dev : Device) (dim : Int) (a0 : OclArray)
    (rest : List OclArray) (w w2 : World α) (R : OclArray)
    (hprog : dev.array_prog_ok = true) (hdim : 0 ≤ dim) (hrest : rest ≠ [])
    (hop : ∀ a ∈ a0 :: rest, CatOperand w a)
    (hall : ∀ a ∈ a0 :: rest, a.numel = 0)
    (hlen : ∀ a ∈ rest, a.dimensions.length ≤ (catDv0 dim.toNat a0).length)
    (hagree : ∀ a ∈ rest, ∀ j, j ≠ dim.toNat → a.dimensions.elem j = a0.dimensions.elem j)
    (hmk : OclArray.mkDims dev (catResultDims dim.toNat (a0 :: rest)) w = (.ok R, w2)) :
    OclArray.cat dev dim (a0 :: rest) w = (.ok R, w2) ∧
    R.dimensions = (catResultDims dim.toNat (a0 :: rest)).chop_trailing_singletons ∧
    R.numel = 0 := by
  obtain ⟨d, hd⟩ : ∃ d, d = dim.toNat := ⟨_, rfl⟩
  obtain ⟨dv0, hdv0⟩ : ∃ dv0, dv0 = catDv0 d a0 := ⟨_, rfl⟩
  obtain ⟨s, hs⟩ : ∃ s, s = (dv0.take d).prod := ⟨_, rfl⟩
  obtain ⟨p, hp⟩ : ∃ p, p = (dv0.drop (d + 1)).prod := ⟨_, rfl⟩
  obtain ⟨D, hD⟩ : ∃ D, D = ((a0 :: rest).map (fun a => a.dimensions.elem d)).sum := ⟨_, rfl⟩
  rw [← hd] at hlen hagree hmk ⊢
  rw [← hdv0] at hlen
  have hval : ∀ a ∈ a0 :: rest, ∃ r, w.rep? a.rep = some r ∧ r.is_valid w.ctx = true := by
    intro a ha
    obtain ⟨r, h1, h2, _⟩ := hop a ha
    exact ⟨r, h1, h2⟩
  have hwin : ∀ a ∈ a0 :: rest, ((a.dimensions.prod : Nat) : Int) = a.slice_len := by
    intro a ha
    obtain ⟨r, _, _, h3, _⟩ := hop a ha
    exact h3
  have hshape : ∀ a ∈ a0 :: rest, (catDims dv0.length a).set d 1 = dv0.set d 1 := by
    intro a ha
    rw [hdv0]
    rcases List.mem_cons.mp ha with h | h
    · subst h
      exact catDims_agree d a a (le_length_catDv0 d a) (fun _ _ => rfl)
    · exact catDims_agree d a0 a (by rw [← hdv0]; exact hlen a h) (hagree a h)
  have hprodA : ∀ a ∈ a0 :: rest, a.dimensions.prod = s * a.dimensions.elem d * p := by
    intro a ha
    have := prod_of_same_shape _ _ d (hshape a ha)
    rw [elem_catDims] at this
    rw [hs, hp, ← this]
    have h2 := prod_catDims dv0.length a
    unfold dim_vector.numel at h2
    simpa using h2.symm
  have hdlt : d < dv0.length := by
    rw [hdv0]
    exact lt_length_catDv0 d a0
  have hres : catResultDims d (a0 :: rest) = dv0.set d D := by
    rw [hdv0, hD]
    rfl
  have hdvprod : (catResultDims d (a0 :: rest)).prod = s * D * p := by
    rw [hres, prod_split _ d, take_set_self, drop_set_self, elem_set, if_pos ⟨rfl, hdlt⟩,
      hs, hp]
  have hzero : s * D * p = 0 := by
    rw [hD, ← sum_prod_operands (a0 :: rest) s p (fun a => a.dimensions.prod) _ hprodA]
    apply List.sum_eq_zero
    intro x hx
    obtain ⟨a, ha, hax⟩ := List.mem_map.mp hx
    have h1 := hwin a ha
    have h2 := hall a ha
    unfold OclArray.numel at h2
    omega
  obtain ⟨r0, hr0, hv0⟩ := hval a0 (List.mem_cons_self _ _)
  have hact := active_of_valid w.ctx r0 hv0
  obtain ⟨_, _, hR2, _, rn, _, _, hrl, hRl⟩ := mkDims_result dev _ R w w2 hmk
  have hR0 : R.numel = 0 := by
    unfold OclArray.numel
    rw [hRl, hrl]
    unfold dim_vector.safe_numel
    rw [hdvprod, hzero]
    rfl
  have hcatShape : catShape w d dv0.length rest (dv0, dv0.set d 1)
      = .ok (catResultDims d (a0 :: rest), dv0.set d 1) := by
    rw [catShape_agree w d dv0.length (dv0.set d 1) rest dv0 hdlt]
    · rw [hres, hD]
      simp only [List.map_cons, List.sum_cons]
      rw [hdv0, elem_catDv0]
    · intro a ha
      exact ⟨assure_valid_of_valid w a (hval a (List.mem_cons_of_mem _ ha)),
        hshape a (List.mem_cons_of_mem _ ha)⟩
  refine ⟨?_, hR2, hR0⟩
  unfold OclArray.cat
  rw [assure_valid_array_prog_active dev w hact hprog]
  simp only
  rw [if_neg (not_lt.mpr hdim), assure_valid_of_valid w a0 (hval a0 (List.mem_cons_self _ _))]
  simp only
  have he : rest.isEmpty = false := by
    cases rest with
    | nil => exact absurd rfl hrest
    | cons _ _ => rfl
  rw [he]
  simp only [Bool.false_eq_true, if_false]
  rw [← hd, ← hdv0, hcatShape]
  simp only
  rw [hmk]
  simp only
  rw [if_pos hR0]

/-- Claim C20 (concatenation skips empty inputs), amended.  For a list of at least two
valid arrays whose extents agree outside `dim`, with the array program available
and the result allocated, `cat` succeeds and returns the new array.  The empty
inputs are skipped: the extents of the result outside `dim` are those of the
inputs, its number of elements is the sum over the non-empty inputs, every
element of a non-empty input is found in the result at the position that `cat`
would give it in the list without the empty inputs, and every position of the
result holds exactly one such element.  When some input is not empty, the empty
inputs have the extent 0 along `dim` and the extent of the result along `dim` is
the sum over the non-empty inputs.  When exactly one input `B` is not empty, as
for an empty `A` of dimensions 0x3 and `B` of dimensions 2x3 with `dim = 0`, the
result has the extents of `B`, the number of elements of `B` and in linear order
the element values of `B`. -/
theorem cat_skips_empty_input {α : Type} [Inhabited α] (dev : Device) (dim : Int)
    (a0 : OclArray) (rest : List OclArray) (w w2 : World α) (R : OclArray)
    (hprog : dev.array_prog_ok = true) (hdim : 0 ≤ dim) (hrest : rest ≠ [])
    (hop : ∀ a ∈ a0 :: rest, CatOperand w a)
    (hlen : ∀ a ∈ rest, a.dimensions.length ≤ (catDv0 dim.toNat a0).length)
    (hagree : ∀ a ∈ rest, ∀ j, j ≠ dim.toNat → a.dimensions.elem j = a0.dimensions.elem j)
    (hmk : OclArray.mkDims dev (catResultDims dim.toNat (a0 :: rest)) w = (.ok R, w2)) :
    ∃ w', OclArray.cat dev dim (a0 :: rest) w = (.ok R, w') ∧
      (∀ a ∈ a0 :: rest, ∀ j, j ≠ dim.toNat → R.dimensions.elem j = a.dimensions.elem j) ∧
      R.numel = (((nonEmptyInputs (a0 :: rest)).map (fun a => a.dimensions.prod)).sum : Nat) ∧
      (∀ k a, (a0 :: rest)[k]? = some a → a.numel ≠ 0 → ∀ i, i < a.dimensions.prod →
        ∃ v, a.elem? w (i : Int) = some v ∧
          R.elem? w' (catDest dim.toNat (nonEmptyInputs (a0 :: rest))
            (nonEmptyInputs ((a0 :: rest).take k)).length i : Nat) = some v) ∧
      (∀ j : Nat, (j : Int) < R.numel →
        ∃! ki : Nat × Nat, ∃ a, (nonEmptyInputs (a0 :: rest))[ki.1]? = some a ∧
          ki.2 < a.dimensions.prod ∧
          catDest dim.toNat (nonEmptyInputs (a0 :: rest)) ki.1 ki.2 = j) ∧
      ((∃ a ∈ a0 :: rest, a.numel ≠ 0) →
        (∀ a ∈ a0 :: rest, a.numel = 0 → a.dimensions.elem dim.toNat = 0) ∧
        R.dimensions.elem dim.toNat
          = ((nonEmptyInputs (a0 :: rest)).map (fun a => a.dimensions.elem dim.toNat)).sum) ∧
      (∀ B, nonEmptyInputs (a0 :: rest) = [B] →
        (∀ j, R.dimensions.elem j = B.dimensions.elem j) ∧ R.numel = B.numel ∧
        ∀ i : Nat, (i : Int) < B.numel →
          ∃ v, B.elem? w (i : Int) = some v ∧ R.elem? w' (i : Int) = some v) := by
  have hwin : ∀ a ∈ a0 :: rest, ((a.dimensions.prod : Nat) : Int) = a.slice_len := by
    intro a ha
    obtain ⟨r, _, _, h3, _⟩ := hop a ha
    exact h3
  have hag : ∀ a ∈ a0 :: rest, ∀ j, j ≠ dim.toNat →
      a.dimensions.elem j = a0.dimensions.elem j := by
    intro a ha j hj
    rcases List.mem_cons.mp ha with h | h
    · rw [h]
    · exact hagree a h j hj
  have hdlt : dim.toNat < (catDv0 dim.toNat a0).length := lt_length_catDv0 _ a0
  have hres : catResultDims dim.toNat (a0 :: rest)
      = (catDv0 dim.toNat a0).set dim.toNat
          ((a0 :: rest).map (fun a => a.dimensions.elem dim.toNat)).sum := rfl
  have hmemf : ∀ a, a ∈ nonEmptyInputs (a0 :: rest) → a ∈ a0 :: rest ∧ a.numel ≠ 0 := by
    intro a ha
    have := List.mem_filter.mp ha
    exact ⟨this.1, by simpa using this.2⟩
  by_cases hsome : ∃ a ∈ a0 :: rest, a.numel ≠ 0
  · obtain ⟨w', hcat, hR2, hR4, hs0, hp0, hprod, hel⟩ :=
      cat_result dev dim a0 rest w w2 R hprog hdim hrest hop hsome hlen hagree hmk
    have hzero : ∀ a ∈ a0 :: rest, a.numel = 0 → a.dimensions.elem dim.toNat = 0 := by
      intro a ha hn
      have h1 : a.dimensions.prod = 0 := by
        have := hwin a ha
        unfold OclArray.numel at hn
        omega
      rw [hprod a ha] at h1
      rcases Nat.mul_eq_zero.mp h1 with h2 | h2
      · rcases Nat.mul_eq_zero.mp h2 with h3 | h3
        · omega
        · exact h3
      · omega
    have hsum : ((nonEmptyInputs (a0 :: rest)).map (fun a => a.dimensions.elem dim.toNat)).sum
        = ((a0 :: rest).map (fun a => a.dimensions.elem dim.toNat)).sum := by
      apply sum_map_filter_of_zero
      intro a ha hf
      apply hzero a ha
      simpa using hf
    have hdest : ∀ k a, (a0 :: rest)[k]? = some a → a.numel ≠ 0 → ∀ i,
        catDest dim.toNat (nonEmptyInputs (a0 :: rest))
            (nonEmptyInputs ((a0 :: rest).take k)).length i
          = catDest dim.toNat (a0 :: rest) k i := fun k a hk hna i =>
      catDest_nonEmpty dim.toNat (a0 :: rest) a0 ⟨rest, rfl⟩ hzero hag k a hk hna i
    have hnum : ((nonEmptyInputs (a0 :: rest)).map (fun a => a.dimensions.prod)).sum
        = ((catDv0 dim.toNat a0).take dim.toNat).prod
          * ((a0 :: rest).map (fun a => a.dimensions.elem dim.toNat)).sum
          * ((catDv0 dim.toNat a0).drop (dim.toNat + 1)).prod := by
      rw [sum_prod_operands _ _ _ (fun a => a.dimensions.prod)
        (fun a => a.dimensions.elem dim.toNat) (fun a ha => hprod a (hmemf a ha).1), hsum]
    have hRd : R.dimensions.elem dim.toNat
        = ((a0 :: rest).map (fun a => a.dimensions.elem dim.toNat)).sum := by
      rw [hR2, elem_chop, hres, elem_set, if_pos ⟨rfl, hdlt⟩]
    have hRo : ∀ a ∈ a0 :: rest, ∀ j, j ≠ dim.toNat →
        R.dimensions.elem j = a.dimensions.elem j := by
      intro a ha j hj
      rw [hR2, elem_chop, hres, elem_set, if_neg (fun h => hj h.1), elem_catDv0,
        hag a ha j hj]
    refine ⟨w', hcat, hRo, ?_, ?_, ?_, fun _ => ⟨hzero, by rw [hRd, hsum]⟩, ?_⟩
    · rw [hR4, hnum]
    · intro k a hk hna i hi
      rw [hdest k a hk hna i]
      exact hel k a hk hna i hi
    · intro j hj
      rw [hR4] at hj
      have hj' : j < ((catDv0 dim.toNat a0).take dim.toNat).prod
          * ((a0 :: rest).map (fun a => a.dimensions.elem dim.toNat)).sum
          * ((catDv0 dim.toNat a0).drop (dim.toNat + 1)).prod := by exact_mod_cast hj
      cases hl' : nonEmptyInputs (a0 :: rest) with
      | nil =>
        obtain ⟨a, ha, hna⟩ := hsome
        have : a ∈ nonEmptyInputs (a0 :: rest) :=
          List.mem_filter.mpr ⟨ha, by simpa using hna⟩
        rw [hl'] at this
        cases this
      | cons b0 t =>
        have hb0 : b0 ∈ a0 :: rest := (hmemf b0 (by rw [hl']; exact List.mem_cons_self _ _)).1
        have hsp : (catDv0 dim.toNat b0).take dim.toNat = (catDv0 dim.toNat a0).take dim.toNat :=
          take_catDv0_agree dim.toNat a0 b0 (hag b0 hb0)
        apply dest_bijective_list dim.toNat b0 t
          ((catDv0 dim.toNat a0).drop (dim.toNat + 1)).prod
        · rw [hsp]
          exact hs0
        · intro a ha
          rw [hsp]
          exact hprod a (hmemf a (by rw [hl']; exact ha)).1
        · rw [hsp, ← hl', hsum]
          exact hj'
    · intro B hB
      have hBm := hmemf B (by rw [hB]; exact List.mem_singleton.mpr rfl)
      obtain ⟨k, hkl, hk⟩ := List.mem_iff_getElem.mp hBm.1
      have hk' : (a0 :: rest)[k]? = some B := by
        rw [List.getElem?_eq_getElem hkl, hk]
      have hk0 : (nonEmptyInputs ((a0 :: rest).take k)).length = 0 := by
        have h1 := getElem?_filter_of_getElem? (a0 :: rest)
          (fun (x : OclArray) => x.numel != 0) k B hk' (by simp [hBm.2])
        have h2 : (nonEmptyInputs (a0 :: rest))[(nonEmptyInputs
            ((a0 :: rest).take k)).length]? = some B := h1
        rw [hB] at h2
        by_contra hne
        rw [List.getElem?_eq_none (by simp; omega)] at h2
        cases h2
      have hsB : ((a0 :: rest).map (fun a => a.dimensions.elem dim.toNat)).sum
          = B.dimensions.elem dim.toNat := by
        rw [← hsum, hB]
        simp
      have hpB := hprod B hBm.1
      have hBw := hwin B hBm.1
      refine ⟨?_, ?_, ?_⟩
      · intro j
        by_cases hj : j = dim.toNat
        · rw [hj, hRd, hsB]
        · exact hRo B hBm.1 j hj
      · rw [hR4, hsB, ← hpB]
        exact hBw
      · intro i hi
        have hi' : i < B.dimensions.prod := by
          unfold OclArray.numel at hi
          omega
        obtain ⟨v, hv1, hv2⟩ := hel k B hk' hBm.2 i hi'
        refine ⟨v, hv1, ?_⟩
        have e : catDest dim.toNat (a0 :: rest) k i = i := by
          rw [← hdest k B hk' hBm.2 i, hB, hk0, catDest_eq]
          simp only [List.map_cons, List.map_nil, List.take_zero, List.sum_nil,
            List.sum_cons, List.getD_cons_zero, Nat.zero_mul, Nat.zero_add, Nat.add_zero]
          rw [Nat.mul_comm (i / _)]
          exact Nat.mod_add_div _ _
        rw [e] at hv2
        exact hv2
  · have hall : ∀ a ∈ a0 :: rest, a.numel = 0 := by
      intro a ha
      by_contra hne
      exact hsome ⟨a, ha, hne⟩
    obtain ⟨hcat, hR2, hR0⟩ :=
      cat_all_empty dev dim a0 rest w w2 R hprog hdim hrest hop hall hlen hagree hmk
    have hnil : nonEmptyInputs (a0 :: rest) = [] := by
      unfold nonEmptyInputs
      apply List.filter_eq_nil_iff.mpr
      intro a ha
      simp [hall a ha]
    refine ⟨w2, hcat, ?_, ?_, ?_, ?_, fun h => absurd h hsome, ?_⟩
    · intro a ha j hj
      rw [hR2, elem_chop, hres, elem_set, if_neg (fun h => hj h.1), elem_catDv0,
        hag a ha j hj]
    · rw [hR0, hnil]
      rfl
    · intro k a hk hna
      have hkl : k < (a0 :: rest).length := by
        by_contra hge
        rw [List.getElem?_eq_none (by omega)] at hk
        cases hk
      rw [List.getElem?_eq_getElem hkl] at hk
      simp only [Option.some.injEq] at hk
      exact absurd (hall a (by rw [← hk]; exact List.getElem_mem _)) hna
    · intro j hj
      rw [hR0] at hj
      omega
    · intro B hB
      rw [hnil] at hB
      cases hB

/-! ## `obtain_ocl_buffer`: termination and the bound on the allocation attempts -/

theorem retained_mapErase_eq (m : List (Nat × List Nat)) (k : Nat) (v : List Nat)
    (hnd : (m.map Prod.fst).Nodup) (h : mapFind m k = some v) :
    retained (mapErase m k) + v.length = retained m := by
  induction m with
  | nil => simp [mapFind] at h
  | cons e t ih =>
    obtain ⟨k0, v0⟩ := e
    simp only [List.map_cons, List.nodup_cons] at hnd
    by_cases h1 : k = k0
    · subst h1
      simp [mapFind] at h
      subst h
      have hfil : mapErase t k = t := by
        unfold mapErase
        rw [List.filter_eq_self]
        intro e he
        have : e.1 ≠ k := fun h2 => hnd.1 (h2 ▸ List.mem_map_of_mem Prod.fst he)
        simp [this]
      have e1 : mapErase ((k, v0) :: t) k = mapErase t k := by
        simp [mapErase, List.filter]
      rw [e1, hfil]
      simp only [retained, List.map_cons, List.sum_cons]
      omega
    · simp [mapFind, h1] at h
      have := ih hnd.2 h
      have hb : (!(k0 == k)) = true := by simp [Ne.symm h1]
      unfold mapErase retained at this ⊢
      simp only [List.filter, hb, List.map_cons, List.sum_cons]
      omega

/-- One eviction takes buffers out of the pool; exactly one when the pool has one
entry per key. -/
theorem evict_retained (pool : List (Nat × List Nat)) (K : Nat) (l : List Nat) (b : Nat)
    (hK : mapFind pool K = some (l ++ [b])) :
    retained (if l.isEmpty then mapErase pool K else mapSet pool K l) < retained pool ∧
    ((pool.map Prod.fst).Nodup →
      retained (if l.isEmpty then mapErase pool K else mapSet pool K l) + 1 = retained pool ∧
      ((if l.isEmpty then mapErase pool K else mapSet pool K l).map Prod.fst).Nodup) := by
  cases l with
  | nil =>
    simp only [List.isEmpty_nil, if_true]
    refine ⟨?_, fun hnd => ⟨?_, nodup_keys_mapErase _ _ hnd⟩⟩
    · have := retained_mapErase pool K _ hK
      simp at this
      omega
    · have := retained_mapErase_eq pool K _ hnd hK
      simpa using this
  | cons a t =>
    simp only [List.isEmpty_cons, Bool.false_eq_true, if_false]
    have := retained_mapReplace pool K _ (a :: t) hK
    simp only [mapSet, hK]
    simp at this
    refine ⟨by omega, fun hnd => ⟨by omega, ?_⟩⟩
    rw [keys_mapReplace]
    exact hnd

/-- The loop of `obtain_ocl_buffer` from any pool, given fuel beyond the number of
retained buffers: it ends, after at most one attempt more than there are
retained buffers, and every attempt but the last was followed by one call of
`clReleaseMemObject`. -/
theorem obtainLoop_total (dev : Device) (size : Nat) :
    ∀ (fuel : Nat) (m : MemMgr), retained m.memobj_pool < fuel →
      ∃ r m', obtainLoop dev size fuel m = some (r, m') ∧
        m'.assigned_ocl_memobjs = m.assigned_ocl_memobjs ∧
        m.createCalls < m'.createCalls ∧
        m'.createCalls ≤ m.createCalls + retained m.memobj_pool + 1 ∧
        (∀ j, m.createCalls ≤ j → j + 1 < m'.createCalls → dev.clCreateBuffer j size = none) ∧
        m'.releaseCalls.length + m.createCalls + 1 = m.releaseCalls.length + m'.createCalls ∧
        ((m.memobj_pool.map Prod.fst).Nodup →
          retained m'.memobj_pool + m'.releaseCalls.length
            = retained m.memobj_pool + m.releaseCalls.length) := by
  intro fuel
  induction fuel with
  | zero =>
    intro m h
    omega
  | succ f ih =>
    intro m hfuel
    cases hc : dev.clCreateBuffer m.createCalls size with
    | some id =>
      refine ⟨.ok id, { m with createCalls := m.createCalls + 1 }, ?_, rfl, ?_, ?_, ?_, ?_,
        fun _ => rfl⟩
      · simp only [obtainLoop, new_ocl_buffer, hc]
      · simp
      · simp
      · intro j h1 h2
        simp at h2
        omega
      · simp
        omega
    | none =>
      cases hmax : mapMaxKey m.memobj_pool with
      | none =>
        refine ⟨.error .device_error, { m with createCalls := m.createCalls + 1 }, ?_, rfl, ?_,
          ?_, ?_, ?_, fun _ => rfl⟩
        · simp only [obtainLoop, new_ocl_buffer, hc, hmax]
        · simp
        · simp
        · intro j h1 h2
          simp at h2
          omega
        · simp
          omega
      | some K =>
        obtain ⟨v, hv⟩ := mapMaxKey_find _ _ hmax
        rcases List.eq_nil_or_concat v with hnil | ⟨l, b, hlb⟩
        · subst hnil
          refine ⟨.error .undefined_behaviour, { m with createCalls := m.createCalls + 1 }, ?_,
            rfl, ?_, ?_, ?_, ?_, fun _ => rfl⟩
          · simp only [obtainLoop, new_ocl_buffer, hc, hmax, hv, Option.getD_some,
              List.getLast?_nil]
          · simp
          · simp
          · intro j h1 h2
            simp at h2
            omega
          · simp
            omega
        · rw [List.concat_eq_append] at hlb
          subst hlb
          obtain ⟨hlt, hex⟩ := evict_retained m.memobj_pool K l b hv
          rw [obtainLoop_evict dev size f m K l b hc hmax hv]
          obtain ⟨r, m', hrun, h1, h2, h3, h4, h5, h6⟩ := ih
            { m with createCalls := m.createCalls + 1,
                     releaseCalls := m.releaseCalls ++ [b],
                     memobj_pool := if l.isEmpty then mapErase m.memobj_pool K
                                    else mapSet m.memobj_pool K l }
            (by simp only; omega)
          simp only [List.length_append, List.length_singleton] at h2 h3 h4 h5 h6
          refine ⟨r, m', hrun, h1, by omega, by omega, ?_, by omega, ?_⟩
          · intro j hj1 hj2
            by_cases hj : j = m.createCalls
            · rw [hj]
              exact hc
            · exact h4 j (by omega) hj2
          · intro hnd
            obtain ⟨he1, he2⟩ := hex hnd
            have := h6 he2
            omega

/-- Claim C24 (bounded eviction-and-retry).  For every state of the memory manager,
every size and every behaviour of `clCreateBuffer`, `obtain_ocl_buffer` returns,
after at most one allocation attempt more than there are retained buffers at
entry.  Every attempt but the last failed, and each of these failed attempts was
followed by exactly one call of `clReleaseMemObject`; when the pool has one entry
per key, it took exactly one buffer out of the pool.  When no bucket is empty the
call never takes the last element of an empty bucket.  With a device that fails
on every call, no bucket for `size` and a pool of non-empty buckets with one
entry per key, the call makes exactly one attempt more than there are retained
buffers, empties the pool and fails with the device error. -/
theorem obtain_bounded_retry (dev : Device) (size : Nat) (m : MemMgr) :
    ∃ r m', obtain_ocl_buffer dev size m = some (r, m') ∧
      m'.createCalls ≤ m.createCalls + retained m.memobj_pool + 1 ∧
      (∀ j, m.createCalls ≤ j → j + 1 < m'.createCalls → dev.clCreateBuffer j size = none) ∧
      (m.createCalls < m'.createCalls →
        m'.releaseCalls.length + m.createCalls + 1 = m.releaseCalls.length + m'.createCalls) ∧
      (m'.createCalls = m.createCalls → m'.releaseCalls = m.releaseCalls) ∧
      ((m.memobj_pool.map Prod.fst).Nodup → mapFind m.memobj_pool size = none →
        retained m'.memobj_pool + m'.releaseCalls.length
          = retained m.memobj_pool + m.releaseCalls.length) ∧
      ((∀ e ∈ m.memobj_pool, e.2 ≠ []) → r ≠ .error .undefined_behaviour) ∧
      ((∀ j, dev.clCreateBuffer j size = none) → mapFind m.memobj_pool size = none →
        (∀ e ∈ m.memobj_pool, e.2 ≠ []) → (m.memobj_pool.map Prod.fst).Nodup →
        r = .error .device_error ∧ m'.memobj_pool = [] ∧
        m'.createCalls = m.createCalls + retained m.memobj_pool + 1) := by
  by_cases hcount : mapCount m.memobj_pool size = 0
  · have hnb := (mapCount_eq_zero_iff _ _).mp hcount
    obtain ⟨r, m1, hrun, h1, h2, h3, h4, h5, h6⟩ :=
      obtainLoop_total dev size (retained m.memobj_pool + 1) m (by omega)
    have hspec := fun hwf => obtainLoop_spec dev size (retained m.memobj_pool + 1) m hwf
      (by omega)
    cases r with
    | error e =>
      refine ⟨.error e, m1, ?_, h3, h4, fun _ => h5, fun h => by omega, fun hnd _ => h6 hnd,
        ?_, ?_⟩
      · simp only [obtain_ocl_buffer, hcount, if_true, hrun]
      · intro hwf
        obtain ⟨r', m', hrun', _, _, _, _, _, _, herr, _⟩ := hspec hwf
        rw [hrun] at hrun'
        simp only [Option.some.injEq, Prod.mk.injEq] at hrun'
        obtain ⟨hr, _⟩ := hrun'
        have := (herr e hr.symm).1
        rw [this]
        simp
      · intro _ _ hwf hnd
        obtain ⟨r', m', hrun', _, _, _, _, _, _, herr, _⟩ := hspec hwf
        rw [hrun] at hrun'
        simp only [Option.some.injEq, Prod.mk.injEq] at hrun'
        obtain ⟨hr, hm⟩ := hrun'
        obtain ⟨he1, he2, _⟩ := herr e hr.symm
        rw [← hm] at he2
        have h6' := h6 hnd
        rw [he2] at h6'
        simp only [retained, List.map_nil, List.sum_nil, Nat.zero_add] at h6'
        refine ⟨by rw [he1], he2, ?_⟩
        unfold retained at h3 ⊢
        omega
    | ok id =>
      refine ⟨.ok id,
        { m1 with assigned_ocl_memobjs := mapSet m1.assigned_ocl_memobjs id size }, ?_, h3, h4,
        fun _ => h5, fun h => ?_, fun hnd _ => h6 hnd, fun _ => by simp, ?_⟩
      · simp only [obtain_ocl_buffer, hcount, if_true, hrun]
      · simp only at h
        omega
      · intro hfail
        have hlast : dev.clCreateBuffer (m1.createCalls - 1) size = none := hfail _
        intro _ hwf _
        obtain ⟨r', m', hrun', _, _, _, _, _, _, _, hok, _⟩ := hspec hwf
        rw [hrun] at hrun'
        simp only [Option.some.injEq, Prod.mk.injEq] at hrun'
        obtain ⟨hr, hm⟩ := hrun'
        have := hok id hr.symm
        rw [← hm, hlast] at this
        cases this
  · have hne : mapFind m.memobj_pool size ≠ none := fun h =>
      hcount ((mapCount_eq_zero_iff _ _).mpr h)
    cases hf : mapFind m.memobj_pool size with
    | none => exact absurd hf hne
    | some sp =>
      rcases List.eq_nil_or_concat sp with hnil | ⟨l, b, hlb⟩
      · subst hnil
        refine ⟨.error .undefined_behaviour, m, ?_, by omega, fun j h1 h2 => by omega,
          fun h => by omega, fun _ => rfl, ?_, ?_, ?_⟩
        · simp only [obtain_ocl_buffer, hcount, if_false, hf, Option.getD_some,
            List.getLast?_nil]
        · intro _ h
          cases h
        · intro hwf
          exact absurd rfl (hwf _ (mapFind_mem _ _ _ hf))
        · intro _ h
          cases h
      · rw [List.concat_eq_append] at hlb
        subst hlb
        have hlast : (l ++ [b]).getLast? = some b := by simp
        have hm2 : ∃ m2 : MemMgr, m2.createCalls = m.createCalls ∧
            m2.releaseCalls = m.releaseCalls ∧
            obtain_ocl_buffer dev size m = some (.ok b, m2) := by
          by_cases hl : l.isEmpty = true
          · refine ⟨{ m with memobj_pool := mapErase m.memobj_pool size,
                             assigned_ocl_memobjs := mapSet m.assigned_ocl_memobjs b size },
              rfl, rfl, ?_⟩
            simp only [obtain_ocl_buffer, hcount, if_false, hf, Option.getD_some, hlast,
              List.dropLast_concat, hl, if_true]
          · refine ⟨{ m with memobj_pool := mapSet m.memobj_pool size l,
                             assigned_ocl_memobjs := mapSet m.assigned_ocl_memobjs b size },
              rfl, rfl, ?_⟩
            simp only [obtain_ocl_buffer, hcount, if_false, hf, Option.getD_some, hlast,
              List.dropLast_concat, hl, Bool.false_eq_true, if_false]
        obtain ⟨m2, hc2, hr2, hrun⟩ := hm2
        refine ⟨.ok b, m2, hrun, by omega, fun j h1 h2 => by omega, fun h => by omega,
          fun _ => hr2, ?_, fun _ => by simp, ?_⟩
        · intro _ h
          cases h
        · intro _ h
          cases h
/-! ## Well-formedness of the pool -/

theorem mem_mapInsert {V : Type} (m : List (Nat × V)) (k : Nat) (v : V) (e : Nat × V)
    (h : e ∈ mapInsert m k v) : e ∈ m ∨ e = (k, v) := by
  induction m with
  | nil =>
    simp only [mapInsert, List.mem_singleton] at h
    exact Or.inr h
  | cons e0 t ih =>
    obtain ⟨k0, v0⟩ := e0
    simp only [mapInsert] at h
    split_ifs at h
    · rcases List.mem_cons.mp h with h1 | h1
      · exact Or.inr h1
      · exact Or.inl h1
    · rcases List.mem_cons.mp h with h1 | h1
      · exact Or.inl (h1 ▸ List.mem_cons_self _ _)
      · rcases ih h1 with h2 | h2
        · exact Or.inl (List.mem_cons_of_mem _ h2)
        · exact Or.inr h2

theorem mem_mapSet {V : Type} (m : List (Nat × V)) (k : Nat) (v : V) (e : Nat × V)
    (h : e ∈ mapSet m k v) : e ∈ m ∨ e = (k, v) := by
  unfold mapSet at h
  cases hf : mapFind m k with
  | none =>
    rw [hf] at h
    exact mem_mapInsert m k v e h
  | some x =>
    rw [hf] at h
    exact mem_mapReplace m k v e h

theorem pop_bucketsOK (max : Nat) (pool : List (Nat × List Nat)) (K : Nat) (l : List Nat)
    (b : Nat) (h : BucketsOK max pool) (hK : mapFind pool K = some (l ++ [b])) :
    BucketsOK max (if l.isEmpty then mapErase pool K else mapSet pool K l) := by
  have hb := (h _ (mapFind_mem _ _ _ hK)).2
  simp only [List.length_append, List.length_singleton] at hb
  intro e he
  cases l with
  | nil =>
    simp only [List.isEmpty_nil, if_true] at he
    exact h e (mem_mapErase _ _ _ he)
  | cons a t =>
    simp only [List.isEmpty_cons, Bool.false_eq_true, if_false] at he
    rcases mem_mapSet _ _ _ _ he with h1 | h1
    · exact h e h1
    · rw [h1]
      exact ⟨by simp, by simp only; omega⟩

theorem obtainLoop_bucketsOK (dev : Device) (size max : Nat) :
    ∀ (fuel : Nat) (m : MemMgr) (r : Except OclError Nat) (m' : MemMgr),
      obtainLoop dev size fuel m = some (r, m') → BucketsOK max m.memobj_pool →
      BucketsOK max m'.memobj_pool ∧
      m'.max_sized_memobj_pool_objs = m.max_sized_memobj_pool_objs := by
  intro fuel
  induction fuel with
  | zero =>
    intro m r m' h
    simp [obtainLoop] at h
  | succ f ih =>
    intro m r m' h hok
    cases hc : dev.clCreateBuffer m.createCalls size with
    | some id =>
      simp only [obtainLoop, new_ocl_buffer, hc, Option.some.injEq, Prod.mk.injEq] at h
      rw [← h.2]
      exact ⟨hok, rfl⟩
    | none =>
      cases hmax : mapMaxKey m.memobj_pool with
      | none =>
        simp only [obtainLoop, new_ocl_buffer, hc, hmax, Option.some.injEq, Prod.mk.injEq] at h
        rw [← h.2]
        exact ⟨hok, rfl⟩
      | some K =>
        obtain ⟨v, hv⟩ := mapMaxKey_find _ _ hmax
        rcases List.eq_nil_or_concat v with hnil | ⟨l, b, hlb⟩
        · subst hnil
          exact absurd rfl (hok _ (mapFind_mem _ _ _ hv)).1
        · rw [List.concat_eq_append] at hlb
          subst hlb
          rw [obtainLoop_evict dev size f m K l b hc hmax hv] at h
          have h3 := ih _ r m' h (pop_bucketsOK max _ K l b hok hv)
          exact h3

theorem obtain_bucketsOK (dev : Device) (size max : Nat) (m : MemMgr)
    (hok : BucketsOK max m.memobj_pool) :
    ∃ r m', obtain_ocl_buffer dev size m = some (r, m') ∧ r ≠ .error .undefined_behaviour ∧
      BucketsOK max m'.memobj_pool ∧
      m'.max_sized_memobj_pool_objs = m.max_sized_memobj_pool_objs := by
  by_cases hcount : mapCount m.memobj_pool size = 0
  · obtain ⟨r, m1, hrun, _, _, _, _, _, _, herr, _, _, _⟩ :=
      obtainLoop_spec dev size (retained m.memobj_pool + 1) m (fun e he => (hok e he).1)
        (by omega)
    obtain ⟨h1, h2⟩ := obtainLoop_bucketsOK dev size max _ m r m1 hrun hok
    cases r with
    | error e =>
      refine ⟨.error e, m1, ?_, ?_, h1, h2⟩
      · simp only [obtain_ocl_buffer, hcount, if_true, hrun]
      · rw [(herr e rfl).1]
        simp
    | ok id =>
      refine ⟨.ok id,
        { m1 with assigned_ocl_memobjs := mapSet m1.assigned_ocl_memobjs id size }, ?_,
        by simp, h1, h2⟩
      simp only [obtain_ocl_buffer, hcount, if_true, hrun]
  · cases hf : mapFind m.memobj_pool size with
    | none => exact absurd ((mapCount_eq_zero_iff _ _).mpr hf) hcount
    | some sp =>
      rcases List.eq_nil_or_concat sp with hnil | ⟨l, b, hlb⟩
      · subst hnil
        exact absurd rfl (hok _ (mapFind_mem _ _ _ hf)).1
      · rw [List.concat_eq_append] at hlb
        subst hlb
        have hlast : (l ++ [b]).getLast? = some b := by simp
        have hpop := pop_bucketsOK max _ size l b hok hf
        by_cases hl : l.isEmpty = true
        · rw [if_pos hl] at hpop
          refine ⟨.ok b, ⟨mapErase m.memobj_pool size, m.max_sized_memobj_pool_objs,
            mapSet m.assigned_ocl_memobjs b size, m.createCalls, m.releaseCalls⟩,
            ?_, by simp, hpop, rfl⟩
          simp only [obtain_ocl_buffer, hcount, if_false, hf, Option.getD_some, hlast,
            List.dropLast_concat, hl, if_true]
        · rw [if_neg hl] at hpop
          refine ⟨.ok b, ⟨mapSet m.memobj_pool size l, m.max_sized_memobj_pool_objs,
            mapSet m.assigned_ocl_memobjs b size, m.createCalls, m.releaseCalls⟩,
            ?_, by simp, hpop, rfl⟩
          simp only [obtain_ocl_buffer, hcount, if_false, hf, Option.getD_some, hlast,
            List.dropLast_concat, hl, Bool.false_eq_true, if_false]

theorem release_bucketsOK (mem_obj : Nat) (m : MemMgr)
    (hok : BucketsOK m.max_sized_memobj_pool_objs m.memobj_pool) :
    BucketsOK m.max_sized_memobj_pool_objs (release_ocl_buffer mem_obj m).memobj_pool ∧
    (release_ocl_buffer mem_obj m).max_sized_memobj_pool_objs
      = m.max_sized_memobj_pool_objs := by
  unfold release_ocl_buffer
  cases hf : mapFind m.assigned_ocl_memobjs mem_obj with
  | none => exact ⟨hok, rfl⟩
  | some size =>
    simp only
    split_ifs with h1 h2 h3 h4
    · exact ⟨fun e he => (by cases he), rfl⟩
    · exact ⟨hok, rfl⟩
    · refine ⟨?_, rfl⟩
      simp only [ge_iff_le, not_le] at h3
      intro e he
      rcases mem_mapSet _ _ _ _ he with h5 | h5
      · exact hok e h5
      · rw [h5]
        have : mapFind m.memobj_pool size = none := (mapCount_eq_zero_iff _ _).mp h2
        rw [this]
        refine ⟨by simp, ?_⟩
        simp
        omega
    · exact ⟨hok, rfl⟩
    · refine ⟨?_, rfl⟩
      simp only [ge_iff_le, not_le] at h4
      intro e he
      rcases mem_mapSet _ _ _ _ he with h5 | h5
      · exact hok e h5
      · rw [h5]
        refine ⟨by simp, ?_⟩
        simp
        omega

theorem bucketsOK_of_reachable (dev : Device) (max : Nat) (m : MemMgr)
    (h : MemReachable dev max m) :
    m.max_sized_memobj_pool_objs = max ∧ BucketsOK max m.memobj_pool := by
  induction h with
  | init => exact ⟨rfl, fun e he => (by cases he)⟩
  | obtain m m' size r _ hrun ih =>
    obtain ⟨r', m'', hrun', _, h1, h2⟩ := obtain_bucketsOK dev size max m ih.2
    rw [hrun] at hrun'
    simp only [Option.some.injEq, Prod.mk.injEq] at hrun'
    rw [hrun'.2]
    exact ⟨h2.trans ih.1, h1⟩
  | release m mem_obj _ ih =>
    have := release_bucketsOK mem_obj m (by rw [ih.1]; exact ih.2)
    rw [ih.1] at this
    exact ⟨this.2, this.1⟩
  | reset m _ ih => exact ⟨ih.1, fun e he => (by cases he)⟩

/-- Claim C30 (pool well-formedness).  In every state reached from the empty pool by
calls of `obtain_ocl_buffer`, `release_ocl_buffer` and `reset_memmgr`, with
`max_sized_memobj_pool_objs` fixed at `max`: every bucket present in the pool is
non-empty and holds at most `max` buffers; the bucket found for a requested size
and the bucket of the largest size have a last element; and `obtain_ocl_buffer`,
for whatever size, returns without taking the last element of an empty
bucket. -/
theorem pool_well_formed (dev : Device) (max : Nat) (m : MemMgr)
    (h : MemReachable dev max m) :
    m.max_sized_memobj_pool_objs = max ∧
    (∀ e ∈ m.memobj_pool, e.2 ≠ [] ∧ e.2.length ≤ max) ∧
    (∀ size sp, mapFind m.memobj_pool size = some sp → ∃ b, sp.getLast? = some b) ∧
    (∀ sizemax, mapMaxKey m.memobj_pool = some sizemax →
      ∃ sp b, mapFind m.memobj_pool sizemax = some sp ∧ sp.getLast? = some b) ∧
    (∀ size, ∃ r m', obtain_ocl_buffer dev size m = some (r, m') ∧
      r ≠ .error .undefined_behaviour) := by
  obtain ⟨h1, h2⟩ := bucketsOK_of_reachable dev max m h
  have hlast : ∀ size sp, mapFind m.memobj_pool size = some sp →
      ∃ b, sp.getLast? = some b := by
    intro size sp hf
    have hne := (h2 _ (mapFind_mem _ _ _ hf)).1
    rcases List.eq_nil_or_concat sp with hnil | ⟨l, b, hlb⟩
    · exact absurd hnil hne
    · rw [List.concat_eq_append] at hlb
      exact ⟨b, by rw [hlb]; simp⟩
  refine ⟨h1, h2, hlast, ?_, ?_⟩
  · intro K hK
    obtain ⟨sp, hsp⟩ := mapMaxKey_find _ _ hK
    obtain ⟨b, hb⟩ := hlast K sp hsp
    exact ⟨sp, b, hsp, hb⟩
  · intro size
    obtain ⟨r, m', hrun, hr, _⟩ := obtain_bucketsOK dev size max m h2
    exact ⟨r, m', hrun, hr⟩
/-! ## Failure of `make_unique`, and assignment through a view -/

/-- Claim C28, at the failing inputs.  When `make_unique` is called on a handle of a
shared rep (`count > 1`) and the construction of the private copy fails, the
handle is returned as it was, but the count of the rep has been decremented:
for any store of handles whose number of handles on the rep was equal to the
count before the call, the count is one less than that number after it. -/
theorem make_unique_failure_drops_count {α : Type} (dev : Device) (a a' : OclArray)
    (w w' : World α) (r : OclArrayRep α) (e : OclError)
    (hr : w.rep? a.rep = some r) (hc : 1 < r.count)
    (hfail : a.make_unique dev w = (.error e, a', w')) :
    a' = a ∧ w'.rep? a.rep = some { r with count := r.count - 1 } ∧
    (∀ q, q ≠ a.rep → w'.rep? q = w.rep? q) ∧
    (∀ hs : List (Option OclArray), r.count = (refs hs a.rep : Int) →
      ∃ r', w'.rep? a.rep = some r' ∧ r'.count ≠ (refs hs a.rep : Int)) := by
  unfold OclArray.make_unique at hfail
  rw [hr] at hfail
  simp only [gt_iff_lt, hc, if_true] at hfail
  cases hcc : OclArrayRep.createCopy dev a.rep a.slice_ofs a.slice_len
      (w.setRep a.rep { r with count := r.count - 1 }) with
  | mk res w2 =>
    rw [hcc] at hfail
    cases res with
    | ok p => simp at hfail
    | error e2 =>
      simp only [Prod.mk.injEq] at hfail
      obtain ⟨_, ha, hw⟩ := hfail
      obtain ⟨hheap, _⟩ := (createCopy_spec dev a.rep a.slice_ofs a.slice_len _).1 e2 w2 hcc
      have hrep : ∀ q, w'.rep? q
          = if q = a.rep then some { r with count := r.count - 1 } else w.rep? q := by
        intro q
        rw [← hw, rep?_of_heap _ _ q hheap]
        exact rep?_setRep w a.rep q _ (rep?_lt w a.rep r hr)
      have hself := hrep a.rep
      rw [if_pos rfl] at hself
      refine ⟨ha.symm, hself, ?_, ?_⟩
      · intro q hq
        rw [hrep q, if_neg hq]
      · intro hs hcount
        refine ⟨_, hself, ?_⟩
        simp only
        omega

/-- Claim C27, at the failing input.  The second column of the 2x3 example array,
elements 3 and 4 at offset 2 of the rep, is the only handle left after the
parent array has been destroyed (count 1).  `assign (:, 9)` and `assign (0, 9)`
through this handle succeed, leave the handle on its rep and write the elements
0 and 1, respectively the element 0, of the rep, outside the window of the
handle; the elements 2 and 3 of the window keep their values. -/
theorem assign_through_view_ignores_slice_ofs :
    (∃ w1, exArray.column 1 exWorld = (.ok exColumn, w1) ∧ exArray.destroy w1 = exWorld) ∧
    (∃ w', exColumn.assign exDevice [.colon] 9 exWorld = (.ok (), exColumn, w') ∧
      (w'.rep? 0).map (fun r => r.data) = some [9, 9, 3, 4, 5, 6] ∧
      exColumn.observe w' = some [3, 4]) ∧
    (∃ w', exColumn.assign exDevice [.scalar 0] 9 exWorld = (.ok (), exColumn, w') ∧
      (w'.rep? 0).map (fun r => r.data) = some [9, 2, 3, 4, 5, 6] ∧
      exColumn.observe w' = some [3, 4]) :=
  ⟨⟨_, rfl, rfl⟩, ⟨_, rfl, rfl, rfl⟩, ⟨_, rfl, rfl, rfl⟩⟩
/-! ## The subscript patterns that `index_helper` accepts and refuses -/

theorem index_loop_append (dv : dim_vector) :
    ∀ (l1 l2 : List idx_vector) (i : Nat) (st : IndexState),
      index_loop dv (l1 ++ l2) i st =
        match index_loop dv l1 i st with
        | .error e => .error e
        | .ok st1 => index_loop dv l2 (i + l1.length) st1 := by
  intro l1
  induction l1 with
  | nil =>
    intro l2 i st
    simp [index_loop]
  | cons x t ih =>
    intro l2 i st
    simp only [List.cons_append, index_loop, List.length_cons]
    cases index_step dv i x st with
    | error e => rfl
    | ok st1 =>
      show index_loop dv (t ++ l2) (i + 1) st1 = _
      rw [ih l2 (i + 1) st1]
      have e : i + 1 + t.length = i + (t.length + 1) := by omega
      rw [e]

theorem index_helper_eq (a : OclArray) (ia : List idx_vector) :
    a.index_helper ia =
      match index_loop (a.indexDv ia.length) ia 0
          { rdv := if ia.length = 1 then [1, 1] else List.replicate (max ia.length 2) 0,
            all_colons := true, first_range := -1, first_scalar := -1,
            s := 1, l := 0, u := 1 } with
      | .error e => .error e
      | .ok st =>
        .ok (a.indexDv ia.length,
          dim_vector.chop_trailing_singletons
            (if ia.length = 1 ∧ (a.dimensions.length ≠ 2 ∨ a.dimensions.elem 1 ≠ 1) then
              [1, st.rdv.elem 0] else st.rdv),
          st.all_colons, st.l, st.u) := rfl

/-- A subscript in range that is treated as a colon is accepted before the first
range or scalar, and leaves the flags as they are. -/
theorem step_colon (dv : dim_vector) (i : Nat) (ix : idx_vector) (st : IndexState)
    (hext : ExtentOK ix (dv.elem i)) (hc : ColonLike ix (dv.elem i))
    (hfr : st.first_range < 0) :
    index_step dv i ix st =
      .ok ⟨st.rdv.set i (ix.length (dv.elem i)), st.all_colons, st.first_range,
        st.first_scalar, st.s * (dv.elem i : Int), st.l, st.s * (dv.elem i : Int)⟩ := by
  unfold ExtentOK at hext
  unfold ColonLike at hc
  simp only [index_step, hext, ne_eq, not_true_eq_false, if_false, hc, if_true, ge_iff_le,
    not_le.mpr hfr]

/-- A subscript in range that is treated as a range and has step 1 is accepted
when no range or scalar precedes it. -/
theorem step_range (dv : dim_vector) (i : Nat) (ix : idx_vector) (st : IndexState)
    (hext : ExtentOK ix (dv.elem i)) (hr : RangeLike ix (dv.elem i)) (hu : UnitStep ix)
    (hfr : st.first_range < 0) (hfs : st.first_scalar < 0) :
    index_step dv i ix st =
      .ok ⟨st.rdv.set i (ix.length (dv.elem i)), false, (i : Int), st.first_scalar,
        st.s * (dv.elem i : Int), st.s * ix.xelem 0,
        st.s * ix.xelem ((ix.length (dv.elem i) : Nat) : Int)⟩ := by
  unfold ExtentOK at hext
  unfold RangeLike ColonLike at hr
  unfold UnitStep at hu
  obtain ⟨hnc, hcl⟩ := hr
  rw [hcl] at hnc
  simp only [index_step, hext, ne_eq, not_true_eq_false, if_false, hcl, hnc, if_true,
    ge_iff_le, not_le.mpr hfr, not_le.mpr hfs, hu, or_self]

/-- A subscript in range that is treated as a scalar is accepted. -/
theorem step_scalar (dv : dim_vector) (i : Nat) (ix : idx_vector) (st : IndexState)
    (hext : ExtentOK ix (dv.elem i)) (hs : ScalarLike ix (dv.elem i)) :
    index_step dv i ix st =
      .ok ⟨st.rdv.set i (ix.length (dv.elem i)), false,
        if st.first_range < 0 then (i : Int) else st.first_range,
        if st.first_scalar < 0 then (i : Int) else st.first_scalar,
        st.s * (dv.elem i : Int), st.l + st.s * ix.xelem 0, st.u + st.s * ix.xelem 0⟩ := by
  unfold ExtentOK at hext
  unfold ScalarLike ColonLike at hs
  obtain ⟨hnc, hcl⟩ := hs
  rw [hcl] at hnc
  have hsr : ¬ (idx_class_type.class_scalar = idx_class_type.class_range) := by decide
  simp only [index_step, hext, ne_eq, not_true_eq_false, if_false, hcl, hnc, hsr, if_true]
theorem loop_colons (dv : dim_vector) :
    ∀ (cs : List idx_vector) (i : Nat) (st : IndexState),
      AllAt (fun ix n => ExtentOK ix n ∧ ColonLike ix n) dv cs i → st.first_range < 0 →
      ∃ st', index_loop dv cs i st = .ok st' ∧ st'.first_range = st.first_range ∧
        st'.first_scalar = st.first_scalar ∧ st'.all_colons = st.all_colons := by
  intro cs
  induction cs with
  | nil =>
    intro i st _ _
    exact ⟨st, rfl, rfl, rfl, rfl⟩
  | cons x t ih =>
    intro i st h hfr
    obtain ⟨⟨h1, h2⟩, h3⟩ := h
    obtain ⟨st', hrun, e1, e2, e3⟩ := ih (i + 1) _ h3
      (show (IndexState.mk (st.rdv.set i (x.length (dv.elem i))) st.all_colons st.first_range
        st.first_scalar (st.s * (dv.elem i : Int)) st.l (st.s * (dv.elem i : Int))).first_range
          < 0 from hfr)
    refine ⟨st', ?_, e1, e2, e3⟩
    simp only [index_loop, step_colon dv i x st h1 h2 hfr]
    exact hrun

theorem loop_scalars (dv : dim_vector) :
    ∀ (ss : List idx_vector) (i : Nat) (st : IndexState),
      AllAt (fun ix n => ExtentOK ix n ∧ ScalarLike ix n) dv ss i →
      ∃ st', index_loop dv ss i st = .ok st' := by
  intro ss
  induction ss with
  | nil =>
    intro i st _
    exact ⟨st, rfl⟩
  | cons x t ih =>
    intro i st h
    obtain ⟨⟨h1, h2⟩, h3⟩ := h
    obtain ⟨st', hrun⟩ := ih (i + 1)
      (IndexState.mk (st.rdv.set i (x.length (dv.elem i))) false
        (if st.first_range < 0 then (i : Int) else st.first_range)
        (if st.first_scalar < 0 then (i : Int) else st.first_scalar)
        (st.s * (dv.elem i : Int)) (st.l + st.s * x.xelem 0) (st.u + st.s * x.xelem 0)) h3
    refine ⟨st', ?_⟩
    simp only [index_loop, step_scalar dv i x st h1 h2]
    exact hrun

/-- The loop of `index_helper` accepts a list of subscripts in range that consists
of subscripts treated as colons, then at most one treated as a range, of step
1, then subscripts treated as scalars. -/
theorem loop_accepts (dv : dim_vector) (cs rs ss : List idx_vector) (st : IndexState)
    (hfr : st.first_range < 0) (hfs : st.first_scalar < 0)
    (hcs : AllAt (fun ix n => ExtentOK ix n ∧ ColonLike ix n) dv cs 0)
    (hrl : rs.length ≤ 1)
    (hrs : AllAt (fun ix n => ExtentOK ix n ∧ RangeLike ix n ∧ UnitStep ix) dv rs cs.length)
    (hss : AllAt (fun ix n => ExtentOK ix n ∧ ScalarLike ix n) dv ss (cs.length + rs.length)) :
    ∃ st', index_loop dv (cs ++ rs ++ ss) 0 st = .ok st' := by
  obtain ⟨st1, hrun1, e1, e2, _⟩ := loop_colons dv cs 0 st hcs hfr
  rw [List.append_assoc, index_loop_append, hrun1]
  simp only [Nat.zero_add]
  match rs, hrl, hrs, hss with
  | [], _, _, hss =>
    simp only [List.nil_append, List.length_nil, Nat.add_zero] at hss ⊢
    exact loop_scalars dv ss _ st1 hss
  | [r], _, hrs, hss =>
    obtain ⟨⟨h1, h2, h3⟩, _⟩ := hrs
    simp only [List.length_singleton] at hss
    simp only [List.singleton_append, index_loop,
      step_range dv cs.length r st1 h1 h2 h3 (by rw [e1]; exact hfr) (by rw [e2]; exact hfs)]
    exact loop_scalars dv ss _ _ hss
  | _ :: _ :: _, h, _, _ =>
    simp only [List.length_cons] at h
    omega

/-- What `index` returns once `index_helper` has accepted the subscripts, for a valid
array whose window holds `product (dims)` elements: a second handle on the rep,
the count of which goes up by one. -/
theorem index_of_helper {α : Type} (a : OclArray) (w : World α) (ia : List idx_vector)
    (dv rdv : dim_vector) (ac : Bool) (l u : Int)
    (hv : a.is_valid w = true) (hwin : ((a.dimensions.prod : Nat) : Int) = a.slice_len)
    (hne : ia ≠ [])
    (h : a.index_helper ia = .ok (dv, rdv, ac, l, u)) :
    ∃ b, a.index ia w = (.ok b, w.incCount a.rep) ∧ b.rep = a.rep ∧
      (ac = true → b.slice_ofs = a.slice_ofs ∧ b.slice_len = a.slice_len) ∧
      (ac = false → b.slice_ofs = a.slice_ofs + l ∧ b.slice_len = u - l) := by
  obtain ⟨r, hr, hvr⟩ := rep_of_is_valid w a hv
  have hlen : ia.length ≠ 0 := fun h0 => hne (List.length_eq_zero.mp h0)
  obtain ⟨hprod, _, _, _⟩ := index_helper_spec a ia dv rdv ac l u hlen h
  unfold OclArray.index
  rw [assure_valid_ok a w r hr hvr]
  simp only [hlen, if_false, h]
  cases ac with
  | true =>
    simp only [if_true]
    have hnum : ((dim_vector.safe_numel (dim_vector.chop_trailing_singletons dv) : Nat) : Int)
        = a.numel := by
      unfold dim_vector.safe_numel OclArray.numel
      rw [prod_chop_trailing_singletons, hprod]
      exact hwin
    have hre : a.mkReshape (dim_vector.chop_trailing_singletons dv) w
        = (.ok ⟨dim_vector.chop_trailing_singletons (dim_vector.chop_trailing_singletons dv),
            a.rep, a.slice_ofs, a.slice_len, a.is_logical⟩, w.incCount a.rep) := by
      simp [OclArray.mkReshape, hr, hvr, hnum]
    rw [hre]
    exact ⟨_, rfl, rfl, fun _ => ⟨rfl, rfl⟩, fun hf => by cases hf⟩
  | false =>
    simp only [Bool.false_eq_true, if_false]
    rw [mkSlice_ok a rdv l u w r hr hvr]
    exact ⟨_, rfl, rfl, fun hf => hf.elim, fun _ => ⟨rfl, rfl⟩⟩

/-- Claim C26 (accepted index shapes).  For a valid array, with a window of
`product (dims)` elements, and a non-empty list of subscripts in range that
consists of subscripts treated as colons by the code (colons and subscripts
equivalent to a colon for their extent), then at most one subscript treated as a
range, of step 1, then subscripts treated as scalars: `index` succeeds and
returns a second handle on the rep of the array, the count of which goes up by
one; its window starts inside the window of the array and, when it is not empty,
ends inside it. -/
theorem accepted_index_shapes {α : Type} (a : OclArray) (w : World α)
    (cs rs ss : List idx_vector)
    (hv : a.is_valid w = true) (hwin : ((a.dimensions.prod : Nat) : Int) = a.slice_len)
    (hne : cs ++ rs ++ ss ≠ [])
    (hcs : AllAt (fun ix n => ExtentOK ix n ∧ ColonLike ix n)
      (a.indexDv (cs ++ rs ++ ss).length) cs 0)
    (hrl : rs.length ≤ 1)
    (hrs : AllAt (fun ix n => ExtentOK ix n ∧ RangeLike ix n ∧ UnitStep ix)
      (a.indexDv (cs ++ rs ++ ss).length) rs cs.length)
    (hss : AllAt (fun ix n => ExtentOK ix n ∧ ScalarLike ix n)
      (a.indexDv (cs ++ rs ++ ss).length) ss (cs.length + rs.length)) :
    ∃ b, a.index (cs ++ rs ++ ss) w = (.ok b, w.incCount a.rep) ∧ b.rep = a.rep ∧
      a.slice_ofs ≤ b.slice_ofs ∧ 0 ≤ b.slice_len ∧
      (0 < b.slice_len → b.slice_ofs + b.slice_len ≤ a.slice_ofs + a.slice_len) := by
  obtain ⟨st, hst⟩ := loop_accepts (a.indexDv (cs ++ rs ++ ss).length) cs rs ss
    ⟨if (cs ++ rs ++ ss).length = 1 then [1, 1]
      else List.replicate (max (cs ++ rs ++ ss).length 2) 0, true, -1, -1, 1, 0, 1⟩
    (show (-1 : Int) < 0 by decide) (show (-1 : Int) < 0 by decide) hcs hrl hrs hss
  have hh := index_helper_eq a (cs ++ rs ++ ss)
  rw [hst] at hh
  simp only at hh
  have hlen : (cs ++ rs ++ ss).length ≠ 0 := fun h0 => hne (List.length_eq_zero.mp h0)
  obtain ⟨_, hl0, hul, hu⟩ := index_helper_spec a _ _ _ _ _ _ hlen hh
  obtain ⟨b, hb, hrep, htrue, hfalse⟩ := index_of_helper a w _ _ _ _ _ _ hv hwin hne hh
  refine ⟨b, hb, hrep, ?_⟩
  cases hac : st.all_colons with
  | true =>
    obtain ⟨e1, e2⟩ := htrue hac
    rw [e1, e2]
    exact ⟨le_refl _, by omega, fun _ => le_refl _⟩
  | false =>
    obtain ⟨e1, e2⟩ := hfalse hac
    rw [e1, e2]
    refine ⟨by omega, by omega, fun hpos => ?_⟩
    have := hu hpos
    omega
/-! ## Subscript patterns that `index_helper` refuses -/

theorem step_out_of_range (dv : dim_vector) (i : Nat) (ix : idx_vector) (st : IndexState)
    (hext : ¬ ExtentOK ix (dv.elem i)) :
    index_step dv i ix st = .error .index_out_of_range := by
  unfold ExtentOK at hext
  simp only [index_step, ne_eq, hext, not_false_eq_true, if_true]

theorem step_colon_refused (dv : dim_vector) (i : Nat) (ix : idx_vector) (st : IndexState)
    (hext : ExtentOK ix (dv.elem i)) (hc : ColonLike ix (dv.elem i))
    (hfr : 0 ≤ st.first_range) :
    index_step dv i ix st = .error .non_contiguous := by
  unfold ExtentOK at hext
  unfold ColonLike at hc
  simp only [index_step, hext, ne_eq, not_true_eq_false, if_false, hc, if_true, ge_iff_le, hfr]

theorem step_range_refused (dv : dim_vector) (i : Nat) (ix : idx_vector) (st : IndexState)
    (hext : ExtentOK ix (dv.elem i)) (hr : RangeLike ix (dv.elem i))
    (hbad : 0 ≤ st.first_range ∨ 0 ≤ st.first_scalar ∨ ¬ UnitStep ix) :
    index_step dv i ix st = .error .non_contiguous := by
  unfold ExtentOK at hext
  unfold RangeLike ColonLike at hr
  unfold UnitStep at hbad
  obtain ⟨hnc, hcl⟩ := hr
  rw [hcl] at hnc
  simp only [index_step, hext, ne_eq, not_true_eq_false, if_false, hcl, hnc, if_true,
    ge_iff_le, hbad]

theorem step_other_refused (dv : dim_vector) (i : Nat) (ix : idx_vector) (st : IndexState)
    (hext : ExtentOK ix (dv.elem i)) (ho : OtherLike ix (dv.elem i)) :
    index_step dv i ix st = .error .bad_index_class := by
  unfold ExtentOK at hext
  unfold OtherLike ColonLike at ho
  obtain ⟨hnc, h1, h2⟩ := ho
  simp only [index_step, hext, ne_eq, not_true_eq_false, if_false, hnc, h1, h2]

/-- Every subscript is treated as a colon, as a range, as a scalar, or as none of
these. -/
theorem subscript_kinds (ix : idx_vector) (n : Nat) :
    ColonLike ix n ∨ RangeLike ix n ∨ ScalarLike ix n ∨ OtherLike ix n := by
  unfold RangeLike ScalarLike OtherLike
  by_cases hc : ColonLike ix n
  · exact Or.inl hc
  · by_cases hr : ix.idx_class = .class_range
    · exact Or.inr (Or.inl ⟨hc, hr⟩)
    · by_cases hs : ix.idx_class = .class_scalar
      · exact Or.inr (Or.inr (Or.inl ⟨hc, hs⟩))
      · exact Or.inr (Or.inr (Or.inr ⟨hc, hr, hs⟩))

/-- What a successful pass through the loop body of `index_helper` tells about the
subscript and the flags. -/
theorem step_ok_flags (dv : dim_vector) (i : Nat) (ix : idx_vector) (st st' : IndexState)
    (h : index_step dv i ix st = .ok st') :
    ExtentOK ix (dv.elem i) ∧
    (0 ≤ st.first_range → 0 ≤ st'.first_range) ∧
    (RangeLike ix (dv.elem i) → st.first_range < 0 ∧ st.first_scalar < 0 ∧ UnitStep ix) ∧
    ((RangeLike ix (dv.elem i) ∨ ScalarLike ix (dv.elem i)) → 0 ≤ st'.first_range) ∧
    ¬ OtherLike ix (dv.elem i) := by
  have hext : ExtentOK ix (dv.elem i) := by
    by_contra hne
    rw [step_out_of_range dv i ix st hne] at h
    cases h
  refine ⟨hext, ?_⟩
  rcases subscript_kinds ix (dv.elem i) with hc | hr | hs | ho
  · by_cases hfr : st.first_range < 0
    · rw [step_colon dv i ix st hext hc hfr] at h
      simp only [Except.ok.injEq] at h
      subst h
      exact ⟨fun h0 => h0, fun hr => absurd hc hr.1,
        fun hrs => (hrs.elim (fun hr => absurd hc hr.1) (fun hs => absurd hc hs.1)),
        fun ho => ho.1 hc⟩
    · rw [step_colon_refused dv i ix st hext hc (by omega)] at h
      cases h
  · by_cases hbad : 0 ≤ st.first_range ∨ 0 ≤ st.first_scalar ∨ ¬ UnitStep ix
    · rw [step_range_refused dv i ix st hext hr hbad] at h
      cases h
    · simp only [not_or, not_le, not_not] at hbad
      obtain ⟨h1, h2, h3⟩ := hbad
      rw [step_range dv i ix st hext hr h3 h1 h2] at h
      simp only [Except.ok.injEq] at h
      subst h
      exact ⟨fun _ => Int.natCast_nonneg i, fun _ => ⟨h1, h2, h3⟩,
        fun _ => Int.natCast_nonneg i, fun ho => ho.2.1 hr.2⟩
  · rw [step_scalar dv i ix st hext hs] at h
    simp only [Except.ok.injEq] at h
    subst h
    have hnn : (0 : Int) ≤ (if st.first_range < 0 then (i : Int) else st.first_range) := by
      split_ifs <;> omega
    exact ⟨fun _ => hnn, fun hr => absurd hs.2 (by rw [hr.2]; decide), fun _ => hnn,
      fun ho => ho.2.2 hs.2⟩
  · rw [step_other_refused dv i ix st hext ho] at h
    cases h

theorem step_error_kind (dv : dim_vector) (i : Nat) (ix : idx_vector) (st : IndexState)
    (e : OclError) (h : index_step dv i ix st = .error e) (hext : ExtentOK ix (dv.elem i)) :
    (e = .non_contiguous ∨ e = .bad_index_class) ∧
    (¬ OtherLike ix (dv.elem i) → e = .non_contiguous) := by
  rcases subscript_kinds ix (dv.elem i) with hc | hr | hs | ho
  · by_cases hfr : st.first_range < 0
    · rw [step_colon dv i ix st hext hc hfr] at h
      cases h
    · rw [step_colon_refused dv i ix st hext hc (by omega)] at h
      simp only [Except.error.injEq] at h
      exact ⟨Or.inl h.symm, fun _ => h.symm⟩
  · by_cases hbad : 0 ≤ st.first_range ∨ 0 ≤ st.first_scalar ∨ ¬ UnitStep ix
    · rw [step_range_refused dv i ix st hext hr hbad] at h
      simp only [Except.error.injEq] at h
      exact ⟨Or.inl h.symm, fun _ => h.symm⟩
    · simp only [not_or, not_le, not_not] at hbad
      obtain ⟨h1, h2, h3⟩ := hbad
      rw [step_range dv i ix st hext hr h3 h1 h2] at h
      cases h
  · rw [step_scalar dv i ix st hext hs] at h
    cases h
  · rw [step_other_refused dv i ix st hext ho] at h
    simp only [Except.error.injEq] at h
    exact ⟨Or.inr h.symm, fun hno => absurd ho hno⟩

theorem loop_error_kind (dv : dim_vector) :
    ∀ (ia : List idx_vector) (i : Nat) (st : IndexState) (e : OclError),
      index_loop dv ia i st = .error e → AllAt ExtentOK dv ia i →
      (e = .non_contiguous ∨ e = .bad_index_class) ∧
      (AllAt (fun ix n => ¬ OtherLike ix n) dv ia i → e = .non_contiguous) := by
  intro ia
  induction ia with
  | nil =>
    intro i st e h
    cases h
  | cons x t ih =>
    intro i st e h hext
    simp only [index_loop] at h
    cases hs : index_step dv i x st with
    | error e1 =>
      rw [hs] at h
      simp only [Except.error.injEq] at h
      subst h
      obtain ⟨h1, h2⟩ := step_error_kind dv i x st e1 hs hext.1
      exact ⟨h1, fun hno => h2 hno.1⟩
    | ok st1 =>
      rw [hs] at h
      obtain ⟨h1, h2⟩ := ih (i + 1) st1 e h hext.2
      exact ⟨h1, fun hno => h2 hno.2⟩

theorem loop_first_range (dv : dim_vector) :
    ∀ (ia : List idx_vector) (i : Nat) (st st' : IndexState),
      index_loop dv ia i st = .ok st' → 0 ≤ st.first_range → 0 ≤ st'.first_range := by
  intro ia
  induction ia with
  | nil =>
    intro i st st' h hfr
    simp only [index_loop, Except.ok.injEq] at h
    rw [← h]
    exact hfr
  | cons x t ih =>
    intro i st st' h hfr
    simp only [index_loop] at h
    cases hs : index_step dv i x st with
    | error e1 =>
      rw [hs] at h
      cases h
    | ok st1 =>
      rw [hs] at h
      exact ih (i + 1) st1 st' h ((step_ok_flags dv i x st st1 hs).2.1 hfr)

/-- The loop of `index_helper` does not run to its end on a list of subscripts with
one of the refused patterns. -/
theorem loop_refuses (dv : dim_vector) (ia : List idx_vector) (st st' : IndexState)
    (hbad : NonContiguousPattern dv ia) : index_loop dv ia 0 st ≠ .ok st' := by
  intro h
  rcases hbad with ⟨pre, y, post, hia, hr, hu⟩ | ⟨p1, x, p2, y, post, hia, hx, hy⟩ |
    ⟨pre, y, post, hia, ho⟩
  · rw [hia, index_loop_append] at h
    cases h1 : index_loop dv pre 0 st with
    | error e =>
      rw [h1] at h
      cases h
    | ok st1 =>
      rw [h1] at h
      simp only [Nat.zero_add, index_loop] at h
      cases hs : index_step dv pre.length y st1 with
      | error e =>
        rw [hs] at h
        cases h
      | ok st2 =>
        exact hu ((step_ok_flags dv _ y st1 st2 hs).2.2.1 hr).2.2
  · rw [hia, index_loop_append] at h
    cases h1 : index_loop dv p1 0 st with
    | error e =>
      rw [h1] at h
      cases h
    | ok st1 =>
      rw [h1] at h
      simp only [Nat.zero_add, index_loop] at h
      cases hs : index_step dv p1.length x st1 with
      | error e =>
        rw [hs] at h
        cases h
      | ok st2 =>
        rw [hs] at h
        simp only at h
        rw [index_loop_append] at h
        cases h2 : index_loop dv p2 (p1.length + 1) st2 with
        | error e =>
          rw [h2] at h
          cases h
        | ok st3 =>
          rw [h2] at h
          simp only [index_loop] at h
          cases hs3 : index_step dv (p1.length + 1 + p2.length) y st3 with
          | error e =>
            rw [hs3] at h
            cases h
          | ok st4 =>
            have f2 := (step_ok_flags dv _ x st1 st2 hs).2.2.2.1 hx
            have f3 := loop_first_range dv p2 _ st2 st3 h2 f2
            have f4 := ((step_ok_flags dv _ y st3 st4 hs3).2.2.1 hy).1
            omega
  · rw [hia, index_loop_append] at h
    cases h1 : index_loop dv pre 0 st with
    | error e =>
      rw [h1] at h
      cases h
    | ok st1 =>
      rw [h1] at h
      simp only [Nat.zero_add, index_loop] at h
      cases hs : index_step dv pre.length y st1 with
      | error e =>
        rw [hs] at h
        cases h
      | ok st2 =>
        exact (step_ok_flags dv _ y st1 st2 hs).2.2.2.2 ho
/-- Claim C23 (non-contiguous patterns are refused), amended.  For a valid array,
with the array program available, and a list of subscripts in range that
contains a subscript treated as a range (a range that is not equivalent to a
colon) whose step is not 1, or a subscript treated as a range after a subscript
treated as a range or as a scalar (a scalar that is not equivalent to a colon),
or a subscript that is neither treated as a colon nor as a range nor as a
scalar: `index` and both forms of `assign` fail and return the array and the
program state as they were.  The error is that of a non-contiguous memory range
or that of a subscript which is neither colon, scalar nor range; it is the
former when every subscript is treated as a colon, a range or a scalar. -/
theorem non_contiguous_is_refused {α : Type} [Inhabited α] (dev : Device) (a : OclArray)
    (ia : List idx_vector) (w : World α)
    (hv : a.is_valid w = true) (hprog : dev.array_prog_ok = true)
    (hext : AllAt ExtentOK (a.indexDv ia.length) ia 0)
    (hbad : NonContiguousPattern (a.indexDv ia.length) ia) :
    ∃ e, (e = .non_contiguous ∨ e = .bad_index_class) ∧
      (AllAt (fun ix n => ¬ OtherLike ix n) (a.indexDv ia.length) ia 0 →
        e = .non_contiguous) ∧
      a.index ia w = (.error e, w) ∧
      (∀ rhs : α, a.assign dev ia rhs w = (.error e, a, w)) ∧
      (∀ rhs : Option OclArray, (rhs.getD a).is_valid w = true →
        a.assignArray dev ia rhs w = (.error e, a, w)) := by
  obtain ⟨r, hr, hvr⟩ := rep_of_is_valid w a hv
  have hlen : ia.length ≠ 0 := by
    intro h0
    have hnil := List.length_eq_zero.mp h0
    rcases hbad with ⟨pre, y, post, hia, _⟩ | ⟨p1, x, p2, y, post, hia, _⟩ |
      ⟨pre, y, post, hia, _⟩ <;>
    · rw [hnil] at hia
      simp at hia
  have hh := index_helper_eq a ia
  cases hl : index_loop (a.indexDv ia.length) ia 0
      { rdv := if ia.length = 1 then [1, 1] else List.replicate (max ia.length 2) 0,
        all_colons := true, first_range := -1, first_scalar := -1,
        s := 1, l := 0, u := 1 } with
  | ok st => exact absurd hl (loop_refuses _ ia _ st hbad)
  | error e =>
    rw [hl] at hh
    simp only at hh
    obtain ⟨h1, h2⟩ := loop_error_kind _ ia 0 _ e hl hext
    refine ⟨e, h1, h2, ?_, ?_, ?_⟩
    · unfold OclArray.index
      rw [assure_valid_ok a w r hr hvr]
      simp only [hlen, if_false, hh]
    · intro rhs
      unfold OclArray.assign
      rw [hr]
      simp only [hvr, hprog, Bool.not_true, Bool.false_eq_true, if_false, hlen, hh]
    · intro rhs hrv
      obtain ⟨rr, hrr, hvrr⟩ := rep_of_is_valid w _ hrv
      unfold OclArray.assignArray
      simp only [hr, hrr, hvr, hvrr, hprog, Bool.not_true, Bool.false_eq_true, if_false, hlen,
        hh]
/-! ## The range of offsets computed by `index_helper` -/

theorem interval_digits (s : Int) (a b : Nat) (hs : 0 ≤ s) (y : Int) :
    (s * a ≤ y ∧ y < s * b) ↔
      ∃ (x : Int) (k : Nat), 0 ≤ x ∧ x < s ∧ a ≤ k ∧ k < b ∧ y = x + s * k := by
  constructor
  · rintro ⟨h1, h2⟩
    have hpos : 0 < s := by
      rcases eq_or_lt_of_le hs with h0 | h0
      · rw [← h0] at h1 h2
        simp only [zero_mul] at h1 h2
        omega
      · exact h0
    have hy : 0 ≤ y := le_trans (mul_nonneg hs (Int.natCast_nonneg a)) h1
    have hq : 0 ≤ y / s := Int.ediv_nonneg hy hs
    refine ⟨y % s, (y / s).toNat, Int.emod_nonneg y (ne_of_gt hpos), Int.emod_lt_of_pos y hpos,
      ?_, ?_, ?_⟩
    · have : (a : Int) ≤ y / s := by
        rw [Int.le_ediv_iff_mul_le hpos, mul_comm]
        exact h1
      omega
    · have : y / s < (b : Int) := by
        rw [Int.ediv_lt_iff_lt_mul hpos, mul_comm]
        exact h2
      omega
    · rw [Int.toNat_of_nonneg hq]
      exact (Int.emod_add_ediv y s).symm
  · rintro ⟨x, k, hx0, hxs, hak, hkb, rfl⟩
    have h1 : s * (a : Int) ≤ s * (k : Int) :=
      mul_le_mul_of_nonneg_left (by exact_mod_cast hak) hs
    have h2 : s * ((k : Int) + 1) ≤ s * (b : Int) :=
      mul_le_mul_of_nonneg_left (by exact_mod_cast hkb) hs
    rw [mul_add, mul_one] at h2
    constructor <;> omega

theorem mem_indices_colon (n k : Nat) : k ∈ idx_vector.colon.indices n ↔ k < n := by
  simp only [idx_vector.indices, idx_vector.length, idx_vector.xelem, List.mem_map,
    List.mem_range, Int.toNat_ofNat]
  constructor
  · rintro ⟨j, hj, rfl⟩
    exact hj
  · intro h
    exact ⟨k, h, rfl⟩

theorem mem_indices_scalar (d n k : Nat) : k ∈ (idx_vector.scalar d).indices n ↔ k = d := by
  simp only [idx_vector.indices, idx_vector.length, idx_vector.xelem, List.mem_map,
    List.mem_range, Int.toNat_ofNat]
  constructor
  · rintro ⟨j, _, rfl⟩
    rfl
  · intro h
    exact ⟨0, by omega, h.symm⟩

theorem mem_indices_range (start len n k : Nat) :
    k ∈ (idx_vector.range start len 1).indices n ↔ start ≤ k ∧ k < start + len := by
  simp only [idx_vector.indices, idx_vector.length, idx_vector.xelem, List.mem_map,
    List.mem_range, mul_one]
  constructor
  · rintro ⟨j, hj, rfl⟩
    have e : ((start : Int) + (j : Int)).toNat = start + j := by omega
    rw [e]
    omega
  · rintro ⟨h1, h2⟩
    refine ⟨k - start, by omega, ?_⟩
    have e : ((start : Int) + ((k - start : Nat) : Int)).toNat = k := by omega
    exact e

/-- The three forms of a subscript that is a colon, a scalar in range or a range of
step 1 in range, as the code treats them. -/
theorem subscript_forms (ix : idx_vector) (n : Nat) (hok : SubscriptOK ix n) :
    ExtentOK ix n ∧
    ((ColonLike ix n ∧ ix.length n = n ∧ ∀ k, k ∈ ix.indices n ↔ k < n) ∨
     (RangeLike ix n ∧ UnitStep ix ∧ ∃ start len : Nat, start + len ≤ n ∧
        ix.xelem 0 = (start : Int) ∧
        ix.xelem ((ix.length n : Nat) : Int) = ((start + len : Nat) : Int) ∧
        ix.length n = len ∧ ∀ k, k ∈ ix.indices n ↔ start ≤ k ∧ k < start + len) ∨
     (ScalarLike ix n ∧ ∃ d : Nat, d < n ∧ ix.xelem 0 = (d : Int) ∧ ix.length n = 1 ∧
        ∀ k, k ∈ ix.indices n ↔ k = d)) := by
  cases ix with
  | colon =>
    exact ⟨rfl, Or.inl ⟨Or.inl rfl, rfl, mem_indices_colon n⟩⟩
  | scalar d =>
    have hd : d < n := hok
    refine ⟨?_, ?_⟩
    · show max n (d + 1) = n
      omega
    · by_cases hc : n = 1 ∧ d = 0
      · obtain ⟨hn, hd0⟩ := hc
        subst hn hd0
        refine Or.inl ⟨Or.inr rfl, rfl, fun k => ?_⟩
        rw [mem_indices_scalar]
        omega
      · refine Or.inr (Or.inr ⟨⟨?_, rfl⟩, d, hd, rfl, rfl, mem_indices_scalar d n⟩)
        unfold ColonLike
        simp only [idx_vector.idx_class, idx_vector.is_colon_equiv, Bool.and_eq_true,
          beq_iff_eq]
        rintro (h | h)
        · cases h
        · exact hc h
  | range start len step =>
    obtain ⟨hstep, hle⟩ : step = 1 ∧ start + len ≤ n := hok
    subst hstep
    refine ⟨?_, ?_⟩
    · show (if len = 0 then n else max n (start + 1 + (if (1 : Int) < 0 then 0
        else (1 : Int).toNat * (len - 1)))) = n
      split_ifs with h0 h1
      · rfl
      · omega
      · simp only [Int.toNat_one, one_mul]
        omega
    · by_cases hc : start = 0 ∧ len = n
      · obtain ⟨hs0, hln⟩ := hc
        subst hs0 hln
        refine Or.inl ⟨Or.inr ?_, rfl, fun k => ?_⟩
        · simp [idx_vector.is_colon_equiv]
        · rw [mem_indices_range]
          omega
      · refine Or.inr (Or.inl ⟨⟨?_, rfl⟩, ?_, start, len, hle, ?_, ?_, rfl,
          mem_indices_range start len n⟩)
        · unfold ColonLike
          simp only [idx_vector.idx_class, idx_vector.is_colon_equiv, Bool.and_eq_true,
            beq_iff_eq]
          rintro (h | h)
          · cases h
          · exact hc ⟨h.1.1, h.2⟩
        · show ((start : Int) + 1 * 1) - ((start : Int) + 0 * 1) = 1
          omega
        · show (start : Int) + 0 * 1 = start
          omega
        · show (start : Int) + ((len : Nat) : Int) * 1 = ((start + len : Nat) : Int)
          push_cast
          omega
  | vector data => exact absurd hok (by simp [SubscriptOK])
  | mask data => exact absurd hok (by simp [SubscriptOK])

theorem indexDv_prod (a : OclArray) (ial : Nat) (h : ial ≠ 0) :
    (a.indexDv ial).prod = a.dimensions.prod ∧
    ((a.indexDv ial).take ial).prod = (a.indexDv ial).prod := by
  unfold OclArray.indexDv
  by_cases h1 : ial = 1
  · simp only [h1, if_true]
    rw [redim_one_two]
    simp
  · simp only [h1, if_false]
    have hlen : (dim_vector.redim a.dimensions ial).length = ial :=
      redim_length _ _ (by omega)
    refine ⟨prod_redim _ _, ?_⟩
    rw [List.take_of_length_le (le_of_eq hlen)]

/-- One pass through the loop body of `index_helper` for a subscript that is a
colon, a scalar in range or a range of step 1 in range: the new bounds enclose
the offsets `x + s * k` of the old offsets `x` and the selected indices `k`. -/
theorem range_step (dv : dim_vector) (i : Nat) (ix : idx_vector) (st st' : IndexState)
    (h : index_step dv i ix st = .ok st') (hok : SubscriptOK ix (dv.elem i))
    (hinv : RangeInv dv i st) :
    RangeInv dv (i + 1) st' ∧
    st'.u - st'.l = (st.u - st.l) * ((ix.length (dv.elem i) : Nat) : Int) ∧
    ∀ y : Int, (st'.l ≤ y ∧ y < st'.u) ↔
      ∃ (x : Int) (k : Nat), st.l ≤ x ∧ x < st.u ∧ k ∈ ix.indices (dv.elem i) ∧
        y = x + st.s * (k : Int) := by
  obtain ⟨hs, hl0, hlu, hus, hcol, hac⟩ := hinv
  have hs0 : 0 ≤ st.s := by
    rw [hs]
    exact Int.natCast_nonneg _
  have hstride : (((dv.take (i + 1)).prod : Nat) : Int) = st.s * (dv.elem i : Int) := by
    rw [prod_take_succ_getD, hs]
    push_cast
    rfl
  obtain ⟨hext, hform⟩ := subscript_forms ix (dv.elem i) hok
  obtain ⟨_, _, hrflags, _, _⟩ := step_ok_flags dv i ix st st' h
  rcases hform with ⟨hc, hlen, hmem⟩ | ⟨hr, hu, start, len, hle, hx0, hxn, hlen, hmem⟩ |
    ⟨hsc, d, hd, hx0, hlen, hmem⟩
  · have hfr : st.first_range < 0 := by
      by_contra hge
      rw [step_colon_refused dv i ix st hext hc (by omega)] at h
      cases h
    obtain ⟨e1, e2⟩ := hcol hfr
    rw [step_colon dv i ix st hext hc hfr] at h
    simp only [Except.ok.injEq] at h
    subst h
    dsimp only
    refine ⟨⟨hstride.symm, hl0, ?_, le_refl _, fun _ => ⟨e1, rfl⟩, hac⟩, ?_, ?_⟩
    · rw [e1]
      exact mul_nonneg hs0 (Int.natCast_nonneg _)
    · rw [e1, e2, hlen]
      ring
    · intro y
      rw [e1, e2]
      have := interval_digits st.s 0 (dv.elem i) hs0 y
      simp only [Nat.cast_zero, mul_zero, Nat.zero_le, true_and] at this
      rw [this]
      constructor
      · rintro ⟨x, k, h1, h2, h3, h4⟩
        exact ⟨x, k, h1, h2, (hmem k).mpr h3, h4⟩
      · rintro ⟨x, k, h1, h2, h3, h4⟩
        exact ⟨x, k, h1, h2, (hmem k).mp h3, h4⟩
  · obtain ⟨hfr, hfs, _⟩ := hrflags hr
    obtain ⟨e1, e2⟩ := hcol hfr
    rw [step_range dv i ix st hext hr hu hfr hfs] at h
    simp only [Except.ok.injEq] at h
    subst h
    dsimp only
    rw [hx0, hxn]
    have hle' : ((start + len : Nat) : Int) ≤ (dv.elem i : Int) := by exact_mod_cast hle
    refine ⟨⟨hstride.symm, mul_nonneg hs0 (Int.natCast_nonneg _), ?_, ?_, ?_, ?_⟩, ?_, ?_⟩ <;>
      try dsimp only
    · exact mul_le_mul_of_nonneg_left (by push_cast; omega) hs0
    · exact mul_le_mul_of_nonneg_left hle' hs0
    · intro hneg
      have : (0 : Int) ≤ (i : Int) := Int.natCast_nonneg i
      omega
    · intro hf
      cases hf
    · rw [e1, e2, hlen]
      push_cast
      ring
    · intro y
      rw [e1, e2, interval_digits st.s start (start + len) hs0 y]
      constructor
      · rintro ⟨x, k, h1, h2, h3, h4, h5⟩
        exact ⟨x, k, h1, h2, (hmem k).mpr ⟨h3, h4⟩, h5⟩
      · rintro ⟨x, k, h1, h2, h3, h4⟩
        exact ⟨x, k, h1, h2, ((hmem k).mp h3).1, ((hmem k).mp h3).2, h4⟩
  · rw [step_scalar dv i ix st hext hsc] at h
    simp only [Except.ok.injEq] at h
    subst h
    dsimp only
    rw [hx0]
    have hd' : (d : Int) + 1 ≤ (dv.elem i : Int) := by exact_mod_cast hd
    have hsd : 0 ≤ st.s * (d : Int) := mul_nonneg hs0 (Int.natCast_nonneg _)
    have hbound : st.s * ((d : Int) + 1) ≤ st.s * (dv.elem i : Int) :=
      mul_le_mul_of_nonneg_left hd' hs0
    rw [mul_add, mul_one] at hbound
    refine ⟨⟨hstride.symm, ?_, ?_, ?_, ?_, ?_⟩, ?_, ?_⟩ <;> try dsimp only
    · omega
    · omega
    · omega
    · intro hneg
      have : (0 : Int) ≤ (i : Int) := Int.natCast_nonneg i
      split_ifs at hneg <;> omega
    · intro hf
      cases hf
    · rw [hlen]
      push_cast
      ring
    · intro y
      constructor
      · rintro ⟨h1, h2⟩
        exact ⟨y - st.s * (d : Int), d, by omega, by omega, (hmem d).mpr rfl, by omega⟩
      · rintro ⟨x, k, h1, h2, h3, h4⟩
        have := (hmem k).mp h3
        subst this
        omega

/-- The loop of `index_helper` over subscripts that are colons, scalars in range or
ranges of step 1 in range: the final bounds enclose the offsets
`x + linOffset idx` of the old offsets `x` and the selected multi-indices `idx`. -/
theorem range_loop (dv : dim_vector) :
    ∀ (ia : List idx_vector) (i : Nat) (st st' : IndexState),
      index_loop dv ia i st = .ok st' → AllAt SubscriptOK dv ia i → RangeInv dv i st →
      RangeInv dv (i + ia.length) st' ∧
      st'.u - st'.l = (st.u - st.l) * ((selCount dv ia i : Nat) : Int) ∧
      ∀ y : Int, (st'.l ≤ y ∧ y < st'.u) ↔
        ∃ (x : Int) (idx : List Nat), st.l ≤ x ∧ x < st.u ∧ Selected dv ia i idx ∧
          y = x + ((linOffset dv i idx : Nat) : Int) := by
  intro ia
  induction ia with
  | nil =>
    intro i st st' h _ hinv
    simp only [index_loop, Except.ok.injEq] at h
    subst h
    refine ⟨hinv, by simp [selCount], fun y => ?_⟩
    constructor
    · rintro ⟨h1, h2⟩
      exact ⟨y, [], h1, h2, trivial, by simp [linOffset]⟩
    · rintro ⟨x, idx, h1, h2, h3, h4⟩
      cases idx with
      | nil =>
        simp only [linOffset, Nat.cast_zero, add_zero] at h4
        subst h4
        exact ⟨h1, h2⟩
      | cons _ _ => exact h3.elim
  | cons ix t ih =>
    intro i st st' h hok hinv
    simp only [index_loop] at h
    cases hs : index_step dv i ix st with
    | error e =>
      rw [hs] at h
      cases h
    | ok st1 =>
      rw [hs] at h
      obtain ⟨hinv1, hcnt1, hset1⟩ := range_step dv i ix st st1 hs hok.1 hinv
      obtain ⟨hinv2, hcnt2, hset2⟩ := ih (i + 1) st1 st' h hok.2 hinv1
      have hsi : st.s = (((dv.take i).prod : Nat) : Int) := hinv.1
      refine ⟨?_, ?_, fun y => ?_⟩
      · have e : i + (ix :: t).length = i + 1 + t.length := by
          simp only [List.length_cons]
          omega
        rw [e]
        exact hinv2
      · rw [hcnt2, hcnt1]
        simp only [selCount]
        push_cast
        ring
      · rw [hset2 y]
        constructor
        · rintro ⟨x1, idx, h1, h2, h3, h4⟩
          obtain ⟨x, k, g1, g2, g3, g4⟩ := (hset1 x1).mp ⟨h1, h2⟩
          refine ⟨x, k :: idx, g1, g2, ⟨g3, h3⟩, ?_⟩
          simp only [linOffset]
          rw [h4, g4, hsi]
          push_cast
          ring
        · rintro ⟨x, idx, g1, g2, g3, g4⟩
          cases idx with
          | nil => exact g3.elim
          | cons k idx1 =>
            obtain ⟨g5, g6⟩ := g3
            refine ⟨x + st.s * (k : Int), idx1, ?_, ?_, g6, ?_⟩
            · exact ((hset1 _).mpr ⟨x, k, g1, g2, g5, rfl⟩).1
            · exact ((hset1 _).mpr ⟨x, k, g1, g2, g5, rfl⟩).2
            · simp only [linOffset] at g4
              rw [g4, hsi]
              push_cast
              ring

/-- Claim C22 (index range correctness).  Let every subscript of the non-empty
list `ia` be a colon, a scalar inside the extent of its dimension or a range of
step 1 inside the extent of its dimension, and let `index_helper` accept the list
and report the dimension vector `dv` and the bounds `l` and `u`.  Then
`0 <= l <= u <= product (dv)`, `u - l` is the number of selected elements (the
product of the selection lengths of the subscripts), and the half-open interval
from `l` to `u` is exactly the set of the column-major linear offsets of the
selected multi-indices.  For a valid array whose window holds `product (dims)`
elements, `index` returns a second handle on the rep of the array with
`slice_ofs == A.slice_ofs + l` and `slice_len == u - l`, and the count of the
rep goes up by one. -/
theorem index_range_correct {α : Type} (a : OclArray) (ia : List idx_vector)
    (dv rdv : dim_vector) (ac : Bool) (l u : Int)
    (hne : ia ≠ [])
    (hok : AllAt SubscriptOK (a.indexDv ia.length) ia 0)
    (h : a.index_helper ia = .ok (dv, rdv, ac, l, u)) :
    dv = a.indexDv ia.length ∧
    0 ≤ l ∧ l ≤ u ∧ u ≤ ((dv.prod : Nat) : Int) ∧
    u - l = ((selCount dv ia 0 : Nat) : Int) ∧
    (∀ y : Int, (l ≤ y ∧ y < u) ↔
      ∃ idx : List Nat, Selected dv ia 0 idx ∧ y = ((linOffset dv 0 idx : Nat) : Int)) ∧
    ∀ w : World α, a.is_valid w = true →
      ((a.dimensions.prod : Nat) : Int) = a.slice_len →
      ∃ b, a.index ia w = (.ok b, w.incCount a.rep) ∧ b.rep = a.rep ∧
        b.slice_ofs = a.slice_ofs + l ∧ b.slice_len = u - l := by
  have hlen : ia.length ≠ 0 := fun h0 => hne (List.length_eq_zero.mp h0)
  obtain ⟨hprod, htake⟩ := indexDv_prod a ia.length hlen
  have h0 := h
  rw [index_helper_eq] at h0
  cases hl : index_loop (a.indexDv ia.length) ia 0
      { rdv := if ia.length = 1 then [1, 1] else List.replicate (max ia.length 2) 0,
        all_colons := true, first_range := -1, first_scalar := -1,
        s := 1, l := 0, u := 1 } with
  | error e =>
    rw [hl] at h0
    cases h0
  | ok st =>
    rw [hl] at h0
    simp only [Except.ok.injEq, Prod.mk.injEq] at h0
    obtain ⟨hdv, _, hac, hl1, hu1⟩ := h0
    have hinit : RangeInv (a.indexDv ia.length) 0
        { rdv := if ia.length = 1 then [1, 1] else List.replicate (max ia.length 2) 0,
          all_colons := true, first_range := -1, first_scalar := -1,
          s := 1, l := 0, u := 1 } := by
      refine ⟨by simp, le_refl _, ?_, le_refl _, fun _ => ⟨rfl, rfl⟩, fun _ => ?_⟩
      · exact (show (0 : Int) ≤ 1 by decide)
      · exact (show (-1 : Int) < 0 by decide)
    obtain ⟨⟨hs, hl0, hlu, hus, hcol, hacc⟩, hcnt, hset⟩ :=
      range_loop (a.indexDv ia.length) ia 0 _ st hl hok hinit
    rw [Nat.zero_add, htake] at hs
    dsimp only at hcnt hset
    subst hdv hl1 hu1
    refine ⟨rfl, hl0, hlu, ?_, ?_, fun y => ?_, fun w hv hwin => ?_⟩
    · rw [← hs]
      exact hus
    · rw [hcnt]
      ring
    · rw [hset y]
      constructor
      · rintro ⟨x, idx, h1, h2, h3, h4⟩
        exact ⟨idx, h3, by omega⟩
      · rintro ⟨idx, h3, h4⟩
        exact ⟨0, idx, le_refl _, by decide, h3, by omega⟩
    · obtain ⟨b, hb, hrep, htrue, hfalse⟩ :=
        index_of_helper a w ia _ rdv ac st.l st.u hv hwin hne h
      refine ⟨b, hb, hrep, ?_⟩
      cases hacv : ac with
      | false => exact hfalse hacv
      | true =>
        obtain ⟨e1, e2⟩ := htrue hacv
        rw [hacv] at hac
        obtain ⟨e3, e4⟩ := hcol (hacc hac)
        rw [e1, e2, e3, e4, hs, hprod, hwin]
        omega
theorem prod_filter_ne_one (l : List Nat) : (l.filter (fun d => d != 1)).prod = l.prod := by
  induction l with
  | nil => rfl
  | cons x t ih =>
    by_cases hx : x = 1
    · subst hx
      simp [ih]
    · simp [List.filter_cons, hx, ih]

theorem prod_chop_all_singletons (dv : dim_vector) :
    (dim_vector.chop_all_singletons dv).prod = dv.prod := by
  have hf := prod_filter_ne_one dv
  unfold dim_vector.chop_all_singletons
  split
  · rename_i he
    have hall : ∀ d ∈ dv, d = 1 := by
      intro d hd
      by_contra hne
      have hm : d ∈ dv.filter (fun d => d != 1) := List.mem_filter.mpr ⟨hd, by simp [hne]⟩
      rw [he] at hm
      cases hm
    rw [List.prod_eq_one hall]
    exact List.prod_eq_one (fun d hd => hall d (List.mem_of_mem_take hd))
  · rename_i d he
    rw [he] at hf
    rw [← hf]
    simp
  · exact hf

/-- The result of `index_helper` for a single colon. -/
theorem index_helper_colon (a : OclArray) :
    ∃ rdv, a.index_helper [.colon]
        = .ok ([a.dimensions.prod, 1], rdv, true, 0, ((a.dimensions.prod : Nat) : Int)) ∧
      rdv.prod = a.dimensions.prod := by
  have hdv : a.indexDv 1 = [a.dimensions.prod, 1] := by
    unfold OclArray.indexDv
    simp only [if_true]
    exact redim_one_two _
  rw [index_helper_eq]
  simp only [List.length_singleton, hdv, index_loop, if_true]
  rw [step_colon [a.dimensions.prod, 1] 0 .colon _ (by unfold ExtentOK; rfl) (Or.inl rfl)
    (show (-1 : Int) < 0 by decide)]
  simp only [index_loop]
  have he : dim_vector.elem [a.dimensions.prod, 1] 0 = a.dimensions.prod := rfl
  rw [he, one_mul]
  refine ⟨_, rfl, ?_⟩
  rw [prod_chop_trailing_singletons]
  split_ifs <;> simp [dim_vector.elem, idx_vector.length]

theorem createCalls_release (b : Nat) (m : MemMgr) :
    (release_ocl_buffer b m).createCalls = m.createCalls := by
  unfold release_ocl_buffer delete_ocl_buffer
  cases mapFind m.assigned_ocl_memobjs b with
  | none => rfl
  | some sz =>
    simp only
    split_ifs <;> rfl

theorem createCalls_deleteRep {α : Type} (w : World α) (p : Nat) :
    (w.deleteRep p).mem.createCalls = w.mem.createCalls := by
  unfold World.deleteRep
  cases w.rep? p with
  | none => rfl
  | some r =>
    simp only
    cases r.memobj with
    | none => rfl
    | some o =>
      simp only
      split_ifs
      · exact createCalls_release _ _
      · rfl

theorem createCalls_unref {α : Type} (w : World α) (p : Nat) :
    (w.unref p).mem.createCalls = w.mem.createCalls := by
  unfold World.unref
  cases w.rep? p with
  | none => rfl
  | some r =>
    simp only
    split_ifs
    · rw [createCalls_deleteRep]
      rfl
    · rfl

theorem createCalls_incCount {α : Type} (w : World α) (p : Nat) :
    (w.incCount p).mem.createCalls = w.mem.createCalls := by
  unfold World.incCount
  cases w.rep? p with
  | none => rfl
  | some r => rfl

/-- Claim C25 (whole-array colon assignment replaces the rep).  Let `A` and `X` be
valid arrays whose windows hold `product (dims)` elements, let `X` have at least
one handle, `X.numel () == A.numel ()` and `X.numel () != 1`, and let the array
program be available.  Then `A.assign (':', X)` succeeds; afterwards `A` has the
dimensions of before (with trailing singletons chopped, as every constructor
leaves them), `A.rep` is `X.rep` and `A.slice_ofs` is `X.slice_ofs`.  When the
two reps differ, the count of the rep of `X` has gone up by one and the count of
the former rep of `A` has gone down by one, the rep being deleted at zero; when
they are the same rep it is unchanged.  No other rep changes, no rep is made,
no buffer is created, and the elements of every rep are those of before. -/
theorem colon_assign_replaces_rep {α : Type} [Inhabited α] (dev : Device) (a x : OclArray)
    (w : World α) (ra rx : OclArrayRep α)
    (hra : w.rep? a.rep = some ra) (hrx : w.rep? x.rep = some rx)
    (hva : ra.is_valid w.ctx = true) (hvx : rx.is_valid w.ctx = true)
    (hprog : dev.array_prog_ok = true)
    (hwa : ((a.dimensions.prod : Nat) : Int) = a.slice_len)
    (hwx : ((x.dimensions.prod : Nat) : Int) = x.slice_len)
    (hcx : 1 ≤ rx.count)
    (hnum : x.numel = a.numel) (hns : x.numel ≠ 1) :
    ∃ a' w', a.assignArray dev [.colon] (some x) w = (.ok (), a', w') ∧
      a'.dimensions = a.dimensions.chop_trailing_singletons ∧
      (a.dimensions.chop_trailing_singletons = a.dimensions → a'.dimensions = a.dimensions) ∧
      a'.rep = x.rep ∧ a'.slice_ofs = x.slice_ofs ∧ a'.slice_len = x.slice_len ∧
      w'.ctx = w.ctx ∧ w'.heap.length = w.heap.length ∧
      w'.mem.createCalls = w.mem.createCalls ∧
      (a.rep ≠ x.rep →
        w'.rep? x.rep = some { rx with count := rx.count + 1 } ∧
        w'.rep? a.rep =
          if ra.count - 1 = 0 then none else some { ra with count := ra.count - 1 }) ∧
      (a.rep = x.rep → w'.rep? x.rep = some rx) ∧
      (∀ q, q ≠ a.rep → q ≠ x.rep → w'.rep? q = w.rep? q) ∧
      (∀ q r', w'.rep? q = some r' →
        ∃ r, w.rep? q = some r ∧ r'.data = r.data ∧ r'.memobj = r.memobj ∧ r'.len = r.len) := by
  obtain ⟨rdv, hih, hrdv⟩ := index_helper_colon a
  have hax : ((a.dimensions.prod : Nat) : Int) = x.numel := by
    rw [hnum, hwa]
    rfl
  have hprodeq : x.dimensions.prod = a.dimensions.prod := by
    have : ((x.dimensions.prod : Nat) : Int) = ((a.dimensions.prod : Nat) : Int) := by
      rw [hwx, hax]
      rfl
    exact_mod_cast this
  have hconf : (dim_vector.numel (dim_vector.chop_all_singletons x.dimensions) 0
      == dim_vector.numel (dim_vector.chop_all_singletons rdv) 0) = true := by
    simp only [dim_vector.numel, List.drop_zero, prod_chop_all_singletons, hrdv, hprodeq,
      beq_self_eq_true]
  have hfill : (x.numel == 1) = false := by simp [hns]
  have hresh : x.mkReshape a.dimensions w
      = (.ok { dimensions := a.dimensions.chop_trailing_singletons, rep := x.rep,
               slice_ofs := x.slice_ofs, slice_len := x.slice_len,
               is_logical := x.is_logical }, w.incCount x.rep) := by
    unfold OclArray.mkReshape
    rw [hrx]
    simp only [hvx, Bool.not_true, Bool.false_eq_true, if_false, dim_vector.safe_numel, hax,
      ne_eq, not_true_eq_false]
  have hrun : a.assignArray dev [.colon] (some x) w
      = (.ok (), OclArray.mk a.dimensions.chop_trailing_singletons x.rep x.slice_ofs
            x.slice_len x.is_logical,
          (((w.incCount x.rep).unref a.rep).incCount x.rep).unref x.rep) := by
    unfold OclArray.assignArray
    simp only [Option.getD_some, hra, hrx, hva, hvx, hprog, Bool.not_true, Bool.false_eq_true,
      if_false, List.length_singleton, Nat.one_ne_zero, hih, if_true, hconf, hfill,
      Bool.or_false, OclArray.assignShallow, hresh, OclArray.assignOp, OclArray.destroy]
  refine ⟨_, _, hrun, rfl, fun hc => hc, rfl, rfl, rfl, ?_⟩
  obtain ⟨i1, _, c1, s1⟩ := incCount_spec w x.rep rx hrx
  by_cases hab : a.rep = x.rep
  · have hrr : ra = rx := by
      rw [hab, hrx] at hra
      exact (Option.some.inj hra).symm
    have g1 : (w.incCount x.rep).rep? a.rep = some { rx with count := rx.count + 1 } := by
      rw [s1, if_pos hab]
    obtain ⟨i2, _, c2, s2⟩ := unref_spec _ a.rep _ g1
    have hnz : ¬ (rx.count + 1 - 1 = 0) := by omega
    have g2 : ((w.incCount x.rep).unref a.rep).rep? x.rep = some rx := by
      rw [s2, if_pos hab.symm]
      simp only [hnz, if_false]
      cases rx
      simp
    obtain ⟨i3, _, c3, s3⟩ := incCount_spec _ x.rep rx g2
    have g3 := s3 x.rep
    rw [if_pos rfl] at g3
    obtain ⟨i4, _, c4, s4⟩ := unref_spec _ x.rep _ g3
    have hfin : ∀ q, ((((w.incCount x.rep).unref a.rep).incCount x.rep).unref x.rep).rep? q
        = w.rep? q := by
      intro q
      rw [s4]
      by_cases hq : q = x.rep
      · subst hq
        simp only [if_true, hnz, if_false, hrx]
        cases rx
        simp
      · have hqa : ¬ q = a.rep := by rw [hab]; exact hq
        rw [if_neg hq, s3, if_neg hq, s2, if_neg hqa, s1, if_neg hq]
    refine ⟨by rw [c4, c3, c2, c1], by rw [i4, i3, i2, i1], ?_, fun h => absurd hab h, ?_, ?_, ?_⟩
    · rw [createCalls_unref, createCalls_incCount, createCalls_unref, createCalls_incCount]
    · intro _
      rw [hfin, hrx]
    · intro q _ _
      exact hfin q
    · intro q r' hq
      rw [hfin] at hq
      exact ⟨r', hq, rfl, rfl, rfl⟩
  · have g1 : (w.incCount x.rep).rep? a.rep = some ra := by
      rw [s1, if_neg hab, hra]
    obtain ⟨i2, _, c2, s2⟩ := unref_spec _ a.rep _ g1
    have g2 : ((w.incCount x.rep).unref a.rep).rep? x.rep
        = some { rx with count := rx.count + 1 } := by
      rw [s2, if_neg (Ne.symm hab), s1, if_pos rfl]
    obtain ⟨i3, _, c3, s3⟩ := incCount_spec _ x.rep _ g2
    have g3 := s3 x.rep
    rw [if_pos rfl] at g3
    obtain ⟨i4, _, c4, s4⟩ := unref_spec _ x.rep _ g3
    have hnz : ¬ (rx.count + 1 + 1 - 1 = 0) := by omega
    have hx4 : ((((w.incCount x.rep).unref a.rep).incCount x.rep).unref x.rep).rep? x.rep
        = some { rx with count := rx.count + 1 } := by
      rw [s4, if_pos rfl]
      simp only [hnz, if_false]
      congr 2
      omega
    have ha4 : ((((w.incCount x.rep).unref a.rep).incCount x.rep).unref x.rep).rep? a.rep
        = if ra.count - 1 = 0 then none else some { ra with count := ra.count - 1 } := by
      rw [s4, if_neg hab, s3, if_neg hab, s2, if_pos rfl]
    have ho4 : ∀ q, q ≠ a.rep → q ≠ x.rep →
        ((((w.incCount x.rep).unref a.rep).incCount x.rep).unref x.rep).rep? q = w.rep? q := by
      intro q h1 h2
      rw [s4, if_neg h2, s3, if_neg h2, s2, if_neg h1, s1, if_neg h2]
    refine ⟨by rw [c4, c3, c2, c1], by rw [i4, i3, i2, i1], ?_, fun _ => ⟨hx4, ha4⟩,
      fun h => absurd h hab, ho4, ?_⟩
    · rw [createCalls_unref, createCalls_incCount, createCalls_unref, createCalls_incCount]
    · intro q r' hq
      by_cases h2 : q = x.rep
      · subst h2
        rw [hx4] at hq
        cases hq
        exact ⟨rx, hrx, rfl, rfl, rfl⟩
      · by_cases h1 : q = a.rep
        · subst h1
          rw [ha4] at hq
          split_ifs at hq
          cases hq
          exact ⟨ra, hra, rfl, rfl, rfl⟩
        · rw [ho4 q h1 h2] at hq
          exact ⟨r', hq, rfl, rfl, rfl⟩
/-- The loop of the extremum kernels over `n` elements `f 0, ..., f (n - 1)`, for a
comparison that is a strict total order: the index after the loop is the
first one whose element no other element exceeds. -/
theorem extremum_fold {α : Type} (cmp : α → α → Bool) (f : Nat → α) (init : α × Nat)
    (hirr : ∀ a, cmp a a = false)
    (htr : ∀ a b c, cmp a b = true → cmp b c = true → cmp a c = true)
    (hconn : ∀ a b, cmp a b = true ∨ a = b ∨ cmp b a = true) :
    ∀ n, 0 < n →
      ((List.range n).foldl
        (fun (st : α × Nat) k => if k = 0 ∨ cmp (f k) st.1 = true then (f k, k) else st)
        init).2 < n ∧
      ((List.range n).foldl
        (fun (st : α × Nat) k => if k = 0 ∨ cmp (f k) st.1 = true then (f k, k) else st)
        init).1 =
        f ((List.range n).foldl
          (fun (st : α × Nat) k => if k = 0 ∨ cmp (f k) st.1 = true then (f k, k) else st)
          init).2 ∧
      (∀ k, k < n → cmp (f k) ((List.range n).foldl
        (fun (st : α × Nat) k => if k = 0 ∨ cmp (f k) st.1 = true then (f k, k) else st)
        init).1 = false) ∧
      (∀ k, k < ((List.range n).foldl
        (fun (st : α × Nat) k => if k = 0 ∨ cmp (f k) st.1 = true then (f k, k) else st)
        init).2 → cmp ((List.range n).foldl
        (fun (st : α × Nat) k => if k = 0 ∨ cmp (f k) st.1 = true then (f k, k) else st)
        init).1 (f k) = true) := by
  intro n
  induction n with
  | zero =>
    intro h
    exact absurd h (lt_irrefl 0)
  | succ m ih =>
    intro _
    rw [List.range_succ, List.foldl_append]
    simp only [List.foldl_cons, List.foldl_nil]
    by_cases hm : m = 0
    · subst hm
      simp only [List.range_zero, List.foldl_nil, true_or, if_true]
      refine ⟨Nat.lt_succ_self 0, trivial, ?_, ?_⟩
      · intro k hk
        have : k = 0 := by omega
        subst this
        exact hirr _
      · intro k hk
        exact absurd hk (Nat.not_lt_zero k)
    · obtain ⟨h1, h2, h3, h4⟩ := ih (Nat.pos_of_ne_zero hm)
      generalize (List.range m).foldl
        (fun (st : α × Nat) k => if k = 0 ∨ cmp (f k) st.1 = true then (f k, k) else st)
        init = r at h1 h2 h3 h4 ⊢
      by_cases hc : cmp (f m) r.1 = true
      · simp only [hm, false_or, hc, if_true]
        refine ⟨Nat.lt_succ_self m, trivial, ?_, ?_⟩
        · intro k hk
          by_cases hkm : k = m
          · subst hkm
            exact hirr _
          · have hk3 := h3 k (by omega)
            cases hck : cmp (f k) (f m) with
            | false => rfl
            | true =>
              have := htr _ _ _ hck hc
              rw [hk3] at this
              cases this
        · intro k hk
          have hk3 := h3 k hk
          rcases hconn (f k) r.1 with h | h | h
          · rw [hk3] at h
            cases h
          · rw [h]
            exact hc
          · exact htr _ _ _ hc h
      · rw [if_neg (fun h => h.elim hm hc)]
        refine ⟨by omega, h2, ?_, h4⟩
        intro k hk
        by_cases hkm : k = m
        · subst hkm
          simpa using hc
        · exact h3 k (by omega)

/-- The kernels `ocl_max` and `ocl_min` on a vector: `fac` is 1 and the only work item
is 0, which reads the elements of the window in turn. -/
theorem extremumKernel_vector {α : Type} [Inhabited α] (cmp : α → α → Bool) (data : List α)
    (ofs n : Nat) :
    extremumKernel cmp data ofs n 1 0 =
      (List.range n).foldl
        (fun (st : α × Nat) k =>
          if k = 0 ∨ cmp (data.getD (ofs + k) default) st.1 = true
          then (data.getD (ofs + k) default, k) else st)
        (default, 0) := by
  unfold extremumKernel
  simp only [Nat.mod_one, Nat.zero_add, Nat.mul_one, Nat.div_one, Nat.zero_mul, Nat.add_zero]

theorem ocl_max_vector (data : List Int) (ofs n : Nat) (hn : 0 < n) :
    (ocl_max data ofs n 1 0).2 < n ∧
    (ocl_max data ofs n 1 0).1 = data.getD (ofs + (ocl_max data ofs n 1 0).2) default ∧
    (∀ k, k < n → data.getD (ofs + k) default ≤ (ocl_max data ofs n 1 0).1) ∧
    (∀ k, k < (ocl_max data ofs n 1 0).2 →
      data.getD (ofs + k) default < (ocl_max data ofs n 1 0).1) := by
  unfold ocl_max
  rw [extremumKernel_vector]
  obtain ⟨h1, h2, h3, h4⟩ := extremum_fold (fun (a b : Int) => decide (a > b))
    (fun k => data.getD (ofs + k) default) (default, 0)
    (fun a => by simp) (fun a b c h1 h2 => by simp at h1 h2 ⊢; omega)
    (fun a b => by simp; omega) n hn
  refine ⟨h1, h2, ?_, ?_⟩
  · intro k hk
    have := h3 k hk
    simpa using this
  · intro k hk
    have := h4 k hk
    simpa using this

theorem ocl_min_vector (data : List Int) (ofs n : Nat) (hn : 0 < n) :
    (ocl_min data ofs n 1 0).2 < n ∧
    (ocl_min data ofs n 1 0).1 = data.getD (ofs + (ocl_min data ofs n 1 0).2) default ∧
    (∀ k, k < n → (ocl_min data ofs n 1 0).1 ≤ data.getD (ofs + k) default) ∧
    (∀ k, k < (ocl_min data ofs n 1 0).2 →
      (ocl_min data ofs n 1 0).1 < data.getD (ofs + k) default) := by
  unfold ocl_min
  rw [extremumKernel_vector]
  obtain ⟨h1, h2, h3, h4⟩ := extremum_fold (fun (a b : Int) => decide (a < b))
    (fun k => data.getD (ofs + k) default) (default, 0)
    (fun a => by simp) (fun a b c h1 h2 => by simp at h1 h2 ⊢; omega)
    (fun a b => by simp; omega) n hn
  refine ⟨h1, h2, ?_, ?_⟩
  · intro k hk
    have := h3 k hk
    simpa using this
  · intro k hk
    have := h4 k hk
    simpa using this
theorem newdims_vector (x : OclArray) (n : Nat) (dim : Int)
    (hdims : (x.dimensions = [n, 1] ∧ (dim < 0 ∨ dim = 0)) ∨
      (x.dimensions = [1, n] ∧ (dim < 0 ∨ dim = 1))) :
    x.dim_wise_op_newdims dim = ([1, 1], (n : Int), 1) := by
  unfold OclArray.dim_wise_op_newdims dim_vector.first_non_singleton
  rcases hdims with ⟨hd, hdim | hdim⟩ | ⟨hd, hdim | hdim⟩
  · rw [hd]
    by_cases h1 : n = 1
    · subst h1
      simp [hdim, List.findIdx_cons, dim_vector.elem]
    · have hb : (n != 1) = true := by simp [h1]
      simp [hdim, List.findIdx_cons, dim_vector.elem, hb]
  · rw [hd, hdim]
    simp [dim_vector.elem]
  · rw [hd]
    by_cases h1 : n = 1
    · subst h1
      simp [hdim, List.findIdx_cons, dim_vector.elem]
    · have hb : (n != 1) = true := by simp [h1]
      simp [hdim, List.findIdx_cons, dim_vector.elem, hb]
  · rw [hd, hdim]
    simp [dim_vector.elem]

theorem set_kernel_arg_ok {α : Type} (a : OclArray) (w : World α) (r : OclArrayRep α)
    (hr : w.rep? a.rep = some r) (hv : r.is_valid w.ctx = true) :
    set_kernel_arg a w = .ok () := by
  simp [set_kernel_arg, hr, hv]

theorem reduceWorkSize_self (n : Nat) (hn : 0 < n) :
    reduceWorkSize (n : Int) (n : Int) = .ok 1 := by
  have h0 : ((n : Nat) : Int) ≠ 0 := by omega
  simp [reduceWorkSize, h0]

theorem observe_one {α : Type} (a : OclArray) (w : World α) (r : OclArrayRep α) (v : α)
    (hr : w.rep? a.rep = some r) (hd : r.data = [v]) (ho : a.slice_ofs = 0)
    (hl : a.slice_len = 1) : a.observe w = some [v] := by
  simp [OclArray.observe, hr, hd, ho, hl]

/-- The run of `map1ri` on a non-empty vector when the arrays for the result and the
indices can be allocated: one work item, which writes the value and the index
that the kernel computes over the window of the vector. -/
theorem map1ri_vector {α : Type} [Inhabited α] (dev : Device)
    (kernel : List α → Nat → Nat → Nat → Nat → α × Nat) (ofIdx : Nat → α) (sizeof_idx : Nat)
    (x R : OclArray) (w w1 : World α) (rs : OclArrayRep α) (n : Nat) (dim : Int)
    (hrs : w.rep? x.rep = some rs) (hval : rs.is_valid w.ctx = true)
    (hprog : dev.array_prog_ok = true) (hn : 0 < n)
    (hdims : (x.dimensions = [n, 1] ∧ (dim < 0 ∨ dim = 0)) ∨
      (x.dimensions = [1, n] ∧ (dim < 0 ∨ dim = 1)))
    (hlen : x.slice_len = (n : Int))
    (hmk1 : OclArray.mkDims dev [1, 1] w = (.ok R, w1)) :
    R.dimensions = [1, 1] ∧
    (∃ w', x.map1ri dev kernel ofIdx sizeof_idx dim false w = (.ok (R, none), w') ∧
      R.observe w' = some [(kernel rs.data x.slice_ofs.toNat n 1 0).1] ∧
      w'.rep? x.rep = some rs) ∧
    ∀ (I : OclArray) (w2 : World α),
      OclArray.mkDims { dev with sizeof_T := sizeof_idx } [1, 1] w1 = (.ok I, w2) →
      I.dimensions = [1, 1] ∧
      ∃ w', x.map1ri dev kernel ofIdx sizeof_idx dim true w = (.ok (R, some I), w') ∧
        R.observe w' = some [(kernel rs.data x.slice_ofs.toNat n 1 0).1] ∧
        I.observe w' = some [ofIdx (kernel rs.data x.slice_ofs.toNat n 1 0).2] ∧
        w'.rep? x.rep = some rs := by
  have hact := active_of_valid w.ctx rs hval
  obtain ⟨hRrep, hRdims, hRofs, hRlen, _, hctx1, _, rn, hheap1, hrnv, hrnd, _, _⟩ :=
    mkDims_ok_active dev [1, 1] R w w1 hact (by decide) hmk1
  have hxlt := rep?_lt w x.rep rs hrs
  have hR1 : w1.rep? R.rep = some rn := by
    rw [rep?_of_heap_append w w1 rn hheap1, if_pos hRrep]
  have hx1 : w1.rep? x.rep = some rs := by
    rw [rep?_of_heap_append w w1 rn hheap1, if_neg (by omega), hrs]
  have hval1 : rs.is_valid w1.ctx = true := by rw [hctx1]; exact hval
  have hlen1 : w1.heap.length = w.heap.length + 1 := by rw [hheap1]; simp
  have hRx : R.rep ≠ x.rep := by omega
  have hd1 : rn.data = [default] := by rw [hrnd]; rfl
  have hRl : R.slice_len = 1 := by rw [hRlen]; rfl
  have hpre : x.assure_valid w = .ok () := assure_valid_of_valid w x ⟨rs, hrs, hval⟩
  refine ⟨hRdims, ?_, ?_⟩
  · refine ⟨w1.setRep R.rep { rn with data := [(kernel rs.data x.slice_ofs.toNat n 1 0).1] },
      ?_, ?_, ?_⟩
    · unfold OclArray.map1ri
      simp only [hpre, assure_valid_array_prog_active dev w hact hprog,
        newdims_vector x n dim hdims, hmk1, Bool.false_eq_true, if_false, Option.getD_none,
        set_kernel_arg_ok R w1 rn hR1 hrnv, set_kernel_arg_ok x w1 rs hx1 hval1, hlen,
        reduceWorkSize_self n hn, checkWork, runIndexKernel, hR1, hx1, hd1]
      rfl
    · exact observe_one R _
        ⟨rn.memobj, rn.len, rn.count, [(kernel rs.data x.slice_ofs.toNat n 1 0).1]⟩ _
        (by rw [rep?_setRep _ _ _ _ (by omega), if_pos rfl]) rfl hRofs hRl
    · rw [rep?_setRep _ _ _ _ (by omega), if_neg (Ne.symm hRx), hx1]
  · intro I w2 hmk2
    have hact1 : w1.ctx.active_opencl_context_id ≠ 0 := by rw [hctx1]; exact hact
    obtain ⟨hIrep, hIdims, hIofs, hIlen, _, hctx2, _, ri, hheap2, hriv, hrid, _, _⟩ :=
      mkDims_ok_active { dev with sizeof_T := sizeof_idx } [1, 1] I w1 w2 hact1 (by decide) hmk2
    have hI2 : w2.rep? I.rep = some ri := by
      rw [rep?_of_heap_append w1 w2 ri hheap2, if_pos hIrep]
    have hR2 : w2.rep? R.rep = some rn := by
      rw [rep?_of_heap_append w1 w2 ri hheap2, if_neg (by omega), hR1]
    have hx2 : w2.rep? x.rep = some rs := by
      rw [rep?_of_heap_append w1 w2 ri hheap2, if_neg (by omega), hx1]
    have hval2 : rs.is_valid w2.ctx = true := by rw [hctx2]; exact hval1
    have hrnv2 : rn.is_valid w2.ctx = true := by rw [hctx2]; exact hrnv
    have hlen2 : w2.heap.length = w1.heap.length + 1 := by rw [hheap2]; simp
    have hIR : I.rep ≠ R.rep := by omega
    have hIx : I.rep ≠ x.rep := by omega
    have hd2 : ri.data = [default] := by rw [hrid]; rfl
    have hIl : I.slice_len = 1 := by rw [hIlen]; rfl
    have hI3 : ∀ r', (w2.setRep R.rep r').rep? I.rep = some ri := by
      intro r'
      rw [rep?_setRep _ _ _ _ (by omega), if_neg hIR, hI2]
    refine ⟨hIdims,
      (w2.setRep R.rep { rn with data := [(kernel rs.data x.slice_ofs.toNat n 1 0).1] }).setRep
        I.rep { ri with data := [ofIdx (kernel rs.data x.slice_ofs.toNat n 1 0).2] },
      ?_, ?_, ?_, ?_⟩
    · unfold OclArray.map1ri
      simp only [hpre, assure_valid_array_prog_active dev w hact hprog,
        newdims_vector x n dim hdims, hmk1, hmk2, if_true, Option.getD_some,
        set_kernel_arg_ok R w2 rn hR2 hrnv2, set_kernel_arg_ok I w2 ri hI2 hriv,
        set_kernel_arg_ok x w2 rs hx2 hval2, hlen,
        reduceWorkSize_self n hn, checkWork, runIndexKernel, hR2, hx2, hI3, hd1, hd2]
      rfl
    · exact observe_one R _
        ⟨rn.memobj, rn.len, rn.count, [(kernel rs.data x.slice_ofs.toNat n 1 0).1]⟩ _
        (by rw [rep?_setRep _ _ _ _ (by rw [heap_length_setRep]; omega), if_neg (Ne.symm hIR),
          rep?_setRep _ _ _ _ (by omega), if_pos rfl]) rfl hRofs hRl
    · exact observe_one I _
        ⟨ri.memobj, ri.len, ri.count, [ofIdx (kernel rs.data x.slice_ofs.toNat n 1 0).2]⟩ _
        (by rw [rep?_setRep _ _ _ _ (by rw [heap_length_setRep]; omega), if_pos rfl])
        rfl hIofs hIl
    · rw [rep?_setRep _ _ _ _ (by rw [heap_length_setRep]; omega), if_neg (Ne.symm hIx),
        rep?_setRep _ _ _ _ (by omega), if_neg (Ne.symm hRx), hx2]
theorem observe_getD (x : OclArray) (w : World Int) (rs : OclArrayRep Int) (xs : List Int)
    (hrs : w.rep? x.rep = some rs) (hxs : x.observe w = some xs)
    (hlen : x.slice_len = (xs.length : Int)) (k : Nat) (hk : k < xs.length) :
    rs.data.getD (x.slice_ofs.toNat + k) default = xs.getD k 0 := by
  unfold OclArray.observe at hxs
  rw [hrs] at hxs
  simp only [Option.some.injEq] at hxs
  have hn : x.slice_len.toNat = xs.length := by
    rw [hlen]
    rfl
  rw [hn] at hxs
  rw [List.getD_eq_getElem?_getD, List.getD_eq_getElem?_getD, ← hxs,
    take_drop_getElem? _ _ _ _ hk]
  rfl

/-- Claim C21 (reduction tie-break).  Let `x` be a valid non-empty vector of an
integer element type, a column or a row with the elements `xs`, and let the
arrays for the result and for the indices be allocated.  Then `max` along the
only dimension of `x` (the default dimension, or that dimension named) returns
the 1x1 arrays that hold the maximum of `xs` and the smallest 0-based index at
which `xs` takes it: no element exceeds the value and every element before the
index is smaller.  Without an index array `max` returns the same value.  `min`
returns the minimum and the smallest index at which `xs` takes it, in the same
way. -/
theorem max_min_first_extremum (dev : Device) (sizeof_idx : Nat) (x R I : OclArray)
    (w w1 w2 : World Int) (xs : List Int) (dim : Int)
    (hv : x.is_valid w = true) (hprog : dev.array_prog_ok = true) (hne : xs ≠ [])
    (hxs : x.observe w = some xs) (hlen : x.slice_len = (xs.length : Int))
    (hdims : (x.dimensions = [xs.length, 1] ∧ (dim < 0 ∨ dim = 0)) ∨
      (x.dimensions = [1, xs.length] ∧ (dim < 0 ∨ dim = 1)))
    (hmk1 : OclArray.mkDims dev [1, 1] w = (.ok R, w1))
    (hmk2 : OclArray.mkDims { dev with sizeof_T := sizeof_idx } [1, 1] w1 = (.ok I, w2)) :
    R.dimensions = [1, 1] ∧ I.dimensions = [1, 1] ∧
    (∃ km w' w'', km < xs.length ∧
      x.max dev sizeof_idx dim true w = (.ok (R, some I), w') ∧
      R.observe w' = some [xs.getD km 0] ∧ I.observe w' = some [(km : Int)] ∧
      x.max dev sizeof_idx dim false w = (.ok (R, none), w'') ∧
      R.observe w'' = some [xs.getD km 0] ∧
      (∀ k, k < xs.length → xs.getD k 0 ≤ xs.getD km 0) ∧
      (∀ k, k < km → xs.getD k 0 < xs.getD km 0)) ∧
    (∃ km w' w'', km < xs.length ∧
      x.min dev sizeof_idx dim true w = (.ok (R, some I), w') ∧
      R.observe w' = some [xs.getD km 0] ∧ I.observe w' = some [(km : Int)] ∧
      x.min dev sizeof_idx dim false w = (.ok (R, none), w'') ∧
      R.observe w'' = some [xs.getD km 0] ∧
      (∀ k, k < xs.length → xs.getD km 0 ≤ xs.getD k 0) ∧
      (∀ k, k < km → xs.getD km 0 < xs.getD k 0)) := by
  obtain ⟨rs, hrs, hval⟩ := rep_of_is_valid w x hv
  have hn : 0 < xs.length := List.length_pos.mpr hne
  have hget := observe_getD x w rs xs hrs hxs hlen
  obtain ⟨hRd, ⟨wa, hrunA, hobsA, _⟩, hidx⟩ :=
    map1ri_vector dev ocl_max (fun k => (k : Int)) sizeof_idx x R w w1 rs xs.length dim
      hrs hval hprog hn hdims hlen hmk1
  obtain ⟨hId, wb, hrunB, hobsRB, hobsIB, _⟩ := hidx I w2 hmk2
  obtain ⟨_, ⟨wc, hrunC, hobsC, _⟩, hidx'⟩ :=
    map1ri_vector dev ocl_min (fun k => (k : Int)) sizeof_idx x R w w1 rs xs.length dim
      hrs hval hprog hn hdims hlen hmk1
  obtain ⟨_, wd, hrunD, hobsRD, hobsID, _⟩ := hidx' I w2 hmk2
  obtain ⟨m1, m2, m3, m4⟩ := ocl_max_vector rs.data x.slice_ofs.toNat xs.length hn
  obtain ⟨n1, n2, n3, n4⟩ := ocl_min_vector rs.data x.slice_ofs.toNat xs.length hn
  rw [hget _ m1] at m2
  rw [hget _ n1] at n2
  refine ⟨hRd, hId, ⟨_, wb, wa, m1, hrunB, ?_, hobsIB, hrunA, ?_, ?_, ?_⟩,
    ⟨_, wd, wc, n1, hrunD, ?_, hobsID, hrunC, ?_, ?_, ?_⟩⟩
  · rw [hobsRB, m2]
  · rw [hobsA, m2]
  · intro k hk
    rw [← m2, ← hget k hk]
    exact m3 k hk
  · intro k hk
    rw [← m2, ← hget k (by omega)]
    exact m4 k hk
  · rw [hobsRD, n2]
  · rw [hobsC, n2]
  · intro k hk
    rw [← n2, ← hget k hk]
    exact n3 k hk
  · intro k hk
    rw [← n2, ← hget k (by omega)]
    exact n4 k hk
/-- On an array without an extent 0, `dim_wise_op_newdims` reports a `len` other than 0,
whatever the dimension argument. -/
theorem newdims_len_ne_zero (a : OclArray) (dim : Int) (h : ∀ d ∈ a.dimensions, d ≠ 0) :
    (a.dim_wise_op_newdims dim).2.1 ≠ 0 := by
  have helem : ∀ j, ((a.dimensions.elem j : Nat) : Int) ≠ 0 := by
    intro j
    unfold dim_vector.elem
    by_cases hj : j < a.dimensions.length
    · rw [List.getD_eq_getElem _ _ hj]
      have := h _ (List.getElem_mem hj)
      omega
    · rw [List.getD_eq_default _ _ (by omega)]
      decide
  unfold OclArray.dim_wise_op_newdims
  simp only
  split_ifs
  · exact helem _
  · exact Int.one_ne_zero
  · exact helem _
  · exact Int.one_ne_zero
/-! ## Instances of the theorems on the example states -/

theorem make_unique_postcondition_witness :
    exShared.rep? exArray.rep = some { exRep with count := 2 } ∧
    ∃ h' w', exArray.make_unique exDevice exShared = (.ok (), h', w') ∧
      h'.rep = 1 ∧ h'.slice_ofs = 0 ∧
      w'.rep? 0 = some exRep ∧
      h'.make_unique exDevice w' = (.ok (), h', w') := by
  have h := make_unique_postcondition exDevice exArray exShared { exRep with count := 2 } rfl
  refine ⟨rfl, _, _, rfl, ?_⟩
  obtain ⟨h1, _, _, h4, _, _, h7⟩ := h.1 (by decide) _ _ rfl
  exact ⟨h1, h4, h7, h.2.2 _ _ rfl⟩

theorem linear_slice_windowing_witness :
    ∃ S w', exArray.linear_slice 1 4 exWorld = (.ok S, w') ∧
      S.numel = 3 ∧ S.slice_ofs = 1 ∧ S.elem? w' 0 = exArray.elem? exWorld 1 := by
  obtain ⟨S, w', h1, h2, _, _, h5, _, _, _, _, h10⟩ :=
    linear_slice_windowing exArray exWorld exRep 1 4 rfl rfl (by decide) (by decide)
      (by decide)
  exact ⟨S, w', h1, h2, h5, h10 0 (by decide) (by decide)⟩

theorem reshape_identity_witness :
    (∃ B w', exArray.mkReshape [3, 2, 1] exWorld = (.ok B, w') ∧
      B.dimensions = [3, 2] ∧ B.observe w' = exArray.observe exWorld) ∧
    exArray.mkReshape [4, 2] exWorld = (.error .reshape_mismatch, exWorld) ∧
    (OclArray.mkEmpty (World.init Int)).1.numel = 0 ∧
    (OclArray.mkEmpty (World.init Int)).1.mkReshape [0, 0] (OclArray.mkEmpty (World.init Int)).2
      = (.error .inoperable, (OclArray.mkEmpty (World.init Int)).2) ∧
    (OclArray.mkEmpty (World.init Int)).1.mkReshape [2, 3] (OclArray.mkEmpty (World.init Int)).2
      = (.error .inoperable, (OclArray.mkEmpty (World.init Int)).2) ∧
    exArray.mkReshape [4, 2] (destroy_opencl_context true exWorld)
      = (.error .inoperable, destroy_opencl_context true exWorld) := by
  have h := fun dv => reshape_identity exArray exWorld exRep dv rfl
  have he := fun dv => reshape_identity (OclArray.mkEmpty (World.init Int)).1
    (OclArray.mkEmpty (World.init Int)).2
    { memobj := none, len := 0, count := 2, data := [] } dv rfl
  have hd := reshape_identity exArray (destroy_opencl_context true exWorld) exRep [4, 2] rfl
  refine ⟨?_, ((h [4, 2]).1 rfl).2 (by decide), rfl, (he [0, 0]).2 rfl, (he [2, 3]).2 rfl,
    hd.2 rfl⟩
  obtain ⟨B, w', h1, h2, _, _, _, _, _, _, h9⟩ := ((h [3, 2, 1]).1 rfl).1 (by decide)
  exact ⟨B, w', h1, h2, h9⟩

theorem obtain_reuse_is_lifo_witness :
    (∃ m', obtain_ocl_buffer exDevice 8 exMemMgr = some (.ok 7, m') ∧
      mapFind m'.memobj_pool 8 = some [5] ∧ mapFind m'.memobj_pool 16 = some [9] ∧
      mapFind m'.assigned_ocl_memobjs 7 = some 8) ∧
    (∃ m', obtain_ocl_buffer exDevice 8 (release_ocl_buffer 1 exMemMgr)
      = some (.ok 1, m')) := by
  have h := obtain_reuse_is_lifo exDevice 8 exMemMgr
  constructor
  · obtain ⟨m', h1, _, _, h4, h5, h6, _⟩ := h.1 [5] 7 rfl
    exact ⟨m', h1, h4, by rw [h5 16 (by decide)]; rfl, h6⟩
  · obtain ⟨m', h1, _⟩ := h.2 1 rfl (by decide) (by decide)
    exact ⟨m', h1⟩

theorem obtain_eviction_under_pressure_witness :
    obtain_ocl_buffer exBusyDevice 32 exMemMgr
      = obtain_ocl_buffer exBusyDevice 32
          { exMemMgr with createCalls := 1, releaseCalls := [9],
                          memobj_pool := [(8, [5, 7])] } ∧
    ∃ r m', obtain_ocl_buffer exBusyDevice 32 exMemMgr = some (r, m') ∧
      m'.releaseCalls.length + 0 + 1 = 0 + m'.createCalls := by
  have h := obtain_eviction_under_pressure exBusyDevice 32 exMemMgr rfl (by decide)
  refine ⟨h.1 16 [] 9 rfl rfl rfl, ?_⟩
  obtain ⟨r, m', h1, _, _, h4, _⟩ := h.2
  exact ⟨r, m', h1, h4⟩

theorem release_retention_policy_witness :
    release_ocl_buffer 3 exMemMgr = { exMemMgr with releaseCalls := [3] } ∧
    release_ocl_buffer 1 exMemMgr =
      { exMemMgr with assigned_ocl_memobjs := [(2, 32)],
                      memobj_pool := [(8, [5, 7, 1]), (16, [9])] } ∧
    release_ocl_buffer 1 { exMemMgr with max_sized_memobj_pool_objs := 2 } =
      { exMemMgr with max_sized_memobj_pool_objs := 2, assigned_ocl_memobjs := [(2, 32)],
                      releaseCalls := [1] } := by
  refine ⟨(release_retention_policy 3 exMemMgr).1 rfl, ?_, ?_⟩
  · exact ((release_retention_policy 1 exMemMgr).2 8 rfl (by decide)).2.2 (by decide)
  · exact ((release_retention_policy 1
      { exMemMgr with max_sized_memobj_pool_objs := 2 }).2 8 rfl (by decide)).2.1 (by decide)

theorem copy_on_write_witness :
    exArray.observe exViewMachine.w = some [1, 2, 3, 4, 5, 6] ∧
    exArray.observe (exView.assign exDevice [.colon] 0 exViewMachine.w).2.2
      = some [1, 2, 3, 4, 5, 6] ∧
    exArray.observe (exView.assignArray exDevice [.colon] (some exView) exViewMachine.w).2.2
      = some [1, 2, 3, 4, 5, 6] := by
  have h := copy_on_write exDevice exViewMachine
    (refInv_of_reachable exDevice exViewMachine exViewMachine_reachable) 0 1 exArray exView
    (by decide) rfl rfl rfl [.colon]
  exact ⟨rfl, (h.2.1 0 _ _ _ rfl).1, (h.2.2 (some exView) _ _ _ rfl).1⟩

theorem refcount_invariant_witness :
    ({ exRep with count := 2 } : OclArrayRep Int).count
      = ((refs exViewMachine.handles 0 : Nat) : Int) ∧
    1 ≤ refs exViewMachine.handles 0 ∧ refs exViewMachine.handles 1 = 0 := by
  have h := refcount_invariant exDevice exViewMachine exViewMachine_reachable
  exact ⟨((h 0).1 _ rfl (by decide)).1, ((h 0).1 _ rfl (by decide)).2, (h 1).2 rfl⟩

theorem whole_pool_flush_witness :
    release_ocl_buffer 1 { exMemMgr with assigned_ocl_memobjs := [(1, 8)] } =
      { exMemMgr with assigned_ocl_memobjs := [], memobj_pool := [],
                      releaseCalls := [1, 5, 7, 9] } ∧
    ∃ r m', obtain_ocl_buffer exDevice 8
        (release_ocl_buffer 1 { exMemMgr with assigned_ocl_memobjs := [(1, 8)] })
          = some (r, m') ∧ m'.createCalls = 1 := by
  have h := whole_pool_flush exDevice { exMemMgr with assigned_ocl_memobjs := [(1, 8)] } 1 8 rfl
  refine ⟨h.1, ?_⟩
  obtain ⟨r, m', h1, h2, _⟩ := h.2.2 8
  exact ⟨r, m', h1, h2⟩

theorem pool_reuse_bound_witness :
    ∃ m', poolRounds exDevice 8 5 exPool.m = some m' ∧ m'.createCalls = 4 ∧
      m'.releaseCalls = [] := by
  obtain ⟨m', h1, h2, _, h4, _⟩ :=
    pool_reuse_bound exDevice exPool exPool_reachable 8 [100, 101, 102] rfl rfl 5
  exact ⟨m', h1, h2, h4⟩

theorem pool_partition_invariant_witness :
    mapFind exPool.m.assigned_ocl_memobjs 101 = none ∧
    (∃ l, mapFind exPool.m.memobj_pool 8 = some l ∧ l.count 101 = 1) ∧
    mapFind exPool.m.assigned_ocl_memobjs 103 = some 8 ∧
    mapFind exPool.m.assigned_ocl_memobjs 7 = none := by
  have h := (pool_partition_invariant exDevice exPool exPool_reachable).2.2
  have h101 := ((h 101).2 8 rfl).resolve_left (fun q => absurd q.1 (by decide))
  have h103 := ((h 103).2 8 rfl).resolve_right (fun q => absurd q.1 (by decide))
  obtain ⟨l, hl, hc, _⟩ := h101.2
  exact ⟨h101.1, ⟨l, hl, hc⟩, h103.1, ((h 7).1 rfl).1⟩

theorem reset_and_context_destruction_witness :
    destroy_opencl_context true exWorld =
      { exWorld with ctx := { active_opencl_context_id := 0, next_opencl_context_id := 2 },
                     mem := { exWorld.mem with assigned_ocl_memobjs := [] } } ∧
    destroy_opencl_context true (World.init Int) = World.init Int :=
  ⟨(reset_and_context_destruction exWorld).2.1 (by decide),
    (reset_and_context_destruction (World.init Int)).2.2 rfl true⟩

theorem validity_check_definition_witness :
    OclMemoryObject.object_context_still_valid exWorld.ctx
      { assctd_ctx_id := 1, ocl_mem_buffer := 100 } = true ∧
    OclMemoryObject.object_context_still_valid exWorld.ctx
      { assctd_ctx_id := 0, ocl_mem_buffer := 100 } = false ∧
    OclArrayRep.is_valid exWorld.ctx
      ({ memobj := none, len := 0, count := 1, data := [] } : OclArrayRep Int) = false :=
  ⟨(validity_check_definition.1 exWorld.ctx _).mpr ⟨by decide, rfl⟩,
    validity_check_definition.2.2.1 exWorld.ctx _ rfl,
    validity_check_definition.2.2.2.1 Int exWorld.ctx _ rfl⟩

theorem epoch_invalidation_is_permanent_witness :
    assure_opencl_context exDevice exWorld.ctx = (.ok 1, exWorld.ctx) ∧
    opencl_context_id_active
      (ctxRun exDevice (destroy_opencl_context true exWorld)
        [.assure, .destroy, .assure]).ctx 1 = false ∧
    assure_opencl_context exDevice (World.init Int).ctx
      = (.ok 1, { active_opencl_context_id := 1, next_opencl_context_id := 2 }) ∧
    (destroy_opencl_context true exWorld).ctx
      = { active_opencl_context_id := 0, next_opencl_context_id := 2 } ∧
    assure_opencl_context exDevice (destroy_opencl_context true exWorld).ctx
      = (.ok 2, { active_opencl_context_id := 2, next_opencl_context_id := 3 }) ∧
    opencl_context_id_active { active_opencl_context_id := 2, next_opencl_context_id := 3 } 2
      = true ∧
    opencl_context_id_active { active_opencl_context_id := 2, next_opencl_context_id := 3 } 1
      = false ∧
    assure_opencl_context { exDevice with clCreateContext := false } (World.init Int).ctx
      = (.error .device_error, (World.init Int).ctx) := by
  have h := epoch_invalidation_is_permanent exDevice exWorld (by decide)
  have h0 := epoch_invalidation_is_permanent exDevice (World.init Int) (by decide)
  have hd := epoch_invalidation_is_permanent exDevice (destroy_opencl_context true exWorld) (by decide)
  have hf := epoch_invalidation_is_permanent { exDevice with clCreateContext := false } (World.init Int) (by decide)
  have hnew := (hd.2.2.2.2.1 rfl).1 rfl
  have hb := hd.2.1 _ _ (by decide) hnew
  have hc := (hd.2.2.1 rfl _ _ hnew).2 1 (by decide)
  exact ⟨h.1 (by decide), h.2.2.2.1 1 (by decide) [.assure, .destroy, .assure] (by decide),
    (h0.2.2.2.2.1 rfl).1 rfl, (h.2.2.2.2.2 (by decide)).1, hnew, hb.2.2.2, hc.2,
    (hf.2.2.2.2.1 rfl).2 rfl⟩

theorem stale_buffer_is_dropped_witness :
    (exWorld.unref 0).mem = release_ocl_buffer 100 exWorld.mem ∧
    ((destroy_opencl_context true exWorld).unref 0).mem
      = (destroy_opencl_context true exWorld).mem := by
  have h1 := stale_buffer_is_dropped exWorld 0 exRep
    { assctd_ctx_id := 1, ocl_mem_buffer := 100 } rfl rfl
  have h2 := stale_buffer_is_dropped (destroy_opencl_context true exWorld) 0 exRep
    { assctd_ctx_id := 1, ocl_mem_buffer := 100 } rfl rfl
  exact ⟨((h1.2.1 rfl).2.2 rfl).1, ((h2.1 rfl).2.2 rfl).1⟩

theorem cat_placement_witness :
    (∀ a ∈ [exArray, exSecond], CatInput exWorld2 a) ∧
    exArray.dimensions = [2, 3] ∧ exSecond.dimensions = [2, 2] ∧
    ∃ w', OclArray.cat exDevice 1 [exArray, exSecond] exWorld2 = (.ok exCatResult, w') ∧
      exCatResult.dimensions = [2, 5] ∧
      exArray.elem? exWorld2 5 = some 6 ∧ exCatResult.elem? w' 5 = some 6 ∧
      exSecond.elem? exWorld2 3 = some 10 ∧ exCatResult.elem? w' 9 = some 10 := by
  have hin : ∀ a ∈ [exArray, exSecond], CatInput exWorld2 a := by
    intro a ha
    simp only [List.mem_cons, List.mem_singleton, List.not_mem_nil, or_false] at ha
    rcases ha with h | h
    · subst h
      exact ⟨exRep, rfl, rfl, by decide, by decide, by decide, by decide⟩
    · subst h
      exact ⟨⟨some ⟨1, 101⟩, 4, 1, [7, 8, 9, 10]⟩, rfl, rfl, by decide, by decide, by decide,
        by decide⟩
  obtain ⟨w', h1, h2, _, _, h5, _⟩ := cat_placement exDevice 1 exArray [exSecond] exWorld2
    (OclArray.mkDims exDevice [2, 5] exWorld2).2 exCatResult rfl (by decide) (by simp) hin
    (by
      intro a ha
      simp only [List.mem_singleton] at ha
      subst ha
      decide)
    (by
      intro a ha j hj
      simp only [List.mem_singleton] at ha
      subst ha
      match j, hj with
      | 0, _ => rfl
      | 1, h => exact absurd rfl h
      | j + 2, _ => rfl)
    rfl
  refine ⟨hin, rfl, rfl, w', h1, rfl, rfl, ?_, rfl, ?_⟩
  · obtain ⟨v, hv1, hv2⟩ := (h5 0 exArray rfl [1] [] 2 rfl
      (List.Forall₂.cons (by decide) (List.Forall₂.cons (by decide) List.Forall₂.nil))).2
    have e : exArray.elem? exWorld2 5 = some (6 : Int) := rfl
    have hv : some v = some (6 : Int) := hv1.symm.trans e
    rw [← hv]
    exact hv2
  · obtain ⟨v, hv1, hv2⟩ := (h5 1 exSecond rfl [1] [] 1 rfl
      (List.Forall₂.cons (by decide) (List.Forall₂.cons (by decide) List.Forall₂.nil))).2
    have e : exSecond.elem? exWorld2 3 = some (10 : Int) := rfl
    have hv : some v = some (10 : Int) := hv1.symm.trans e
    rw [← hv]
    exact hv2

/-- Claim C20 as stated fails in two ways.  An empty array of dimensions 0x3 made by
the constructor `OclArray (dv)` has a rep without buffer and is not valid:
`cat (0, [A, B])` with the 2x3 example array `B` fails with the error of an inoperable
object at the validity check of the first operand.  A valid empty array is not
skipped by the first loop of `cat`: with the valid empty view of dimensions 0x0
in the first place, `cat (0, [A, B])` returns an empty array of dimensions 2x0,
which holds no element of `B`; with the valid empty view of dimensions 0x5 it
fails with the error of mismatching dimensions. -/
theorem cat_keeps_extents_of_empty_input :
    (∃ A w1,
      OclArray.mkDims exDevice [0, 3] exWorld = (.ok A, w1) ∧
      A.dimensions = [0, 3] ∧ A.numel = 0 ∧
      exArray.is_valid w1 = true ∧ exArray.dimensions = [2, 3] ∧
      OclArray.cat exDevice 0 [A, exArray] w1 = (.error .inoperable, w1)) ∧
    (∃ V w1, exArray.linear_slice 0 0 exWorld = (.ok V, w1) ∧
      V.mkReshape [0, 0] w1 = (.ok exEmptyNone, exTwoViews) ∧
      V.mkReshape [0, 5] w1 = (.ok exEmptyWide, exTwoViews)) ∧
    exEmptyNone.is_valid exTwoViews = true ∧ exEmptyNone.numel = 0 ∧
    exEmptyWide.is_valid exTwoViews = true ∧ exEmptyWide.numel = 0 ∧
    exArray.is_valid exTwoViews = true ∧
    (∃ R w', OclArray.cat exDevice 0 [exEmptyNone, exArray] exTwoViews = (.ok R, w') ∧
      R.dimensions = [2, 0] ∧ R.numel = 0 ∧ R.observe w' = some []) ∧
    OclArray.cat exDevice 0 [exEmptyWide, exArray] exTwoViews
      = (.error .dimension_mismatch, exTwoViews) :=
  ⟨⟨_, _, rfl, rfl, rfl, rfl, rfl, rfl⟩, ⟨_, _, rfl, rfl, rfl⟩, rfl, rfl, rfl, rfl, rfl,
    ⟨_, _, rfl, rfl, rfl, rfl⟩, rfl⟩

theorem cat_skips_empty_input_witness :
    exEmptyView.is_valid exShared = true ∧ exEmptyView.numel = 0 ∧
    exEmptyView.dimensions = [0, 3] ∧ exArray.dimensions = [2, 3] ∧
    nonEmptyInputs [exEmptyView, exArray] = [exArray] ∧
    (∃ R w', OclArray.cat exDevice 0 [exEmptyView, exArray] exShared = (.ok R, w') ∧
      R.dimensions = [2, 3] ∧ R.numel = 6 ∧
      (∀ i : Nat, i < 6 → ∃ v, exArray.elem? exShared (i : Int) = some v ∧
        R.elem? w' (i : Int) = some v)) ∧
    exEmptyCols.is_valid exWorld3 = true ∧ exEmptyCols.numel = 0 ∧
    nonEmptyInputs [exArray, exEmptyCols, exSecond] = [exArray, exSecond] ∧
    (∃ w', OclArray.cat exDevice 1 [exArray, exEmptyCols, exSecond] exWorld3
        = (.ok exCatResult, w') ∧
      exCatResult.dimensions = [2, 5] ∧ exCatResult.numel = 10 ∧
      exArray.elem? exWorld3 5 = some 6 ∧ exCatResult.elem? w' 5 = some 6 ∧
      exSecond.elem? exWorld3 3 = some 10 ∧ exCatResult.elem? w' 9 = some 10) := by
  have hE : CatOperand exShared exEmptyView :=
    ⟨{ exRep with count := 2 }, rfl, rfl, by decide, by decide⟩
  have hA : CatOperand exShared exArray :=
    ⟨{ exRep with count := 2 }, rfl, rfl, by decide, by decide⟩
  obtain ⟨w', h1, _, _, _, _, _, h7⟩ := cat_skips_empty_input exDevice 0 exEmptyView [exArray] exShared
    (OclArray.mkDims exDevice [2, 3] exShared).2
    { dimensions := [2, 3], rep := 1, slice_ofs := 0, slice_len := 6, is_logical := false }
    rfl (by decide) (by simp)
    (by
      intro a ha
      simp only [List.mem_cons, List.mem_singleton, List.not_mem_nil, or_false] at ha
      rcases ha with h | h
      · rw [h]
        exact hE
      · rw [h]
        exact hA)
    (by
      intro a ha
      simp only [List.mem_singleton] at ha
      rw [ha]
      decide)
    (by
      intro a ha j hj
      simp only [List.mem_singleton] at ha
      rw [ha]
      match j, hj with
      | 0, h => exact absurd rfl h
      | 1, _ => rfl
      | j + 2, _ => rfl)
    rfl
  obtain ⟨_, h3, h4⟩ := h7 exArray rfl
  have hA3 : CatOperand exWorld3 exArray :=
    ⟨{ exRep with count := 2 }, rfl, rfl, by decide, by decide⟩
  have hC3 : CatOperand exWorld3 exEmptyCols :=
    ⟨{ exRep with count := 2 }, rfl, rfl, by decide, by decide⟩
  have hS3 : CatOperand exWorld3 exSecond :=
    ⟨{ memobj := some { assctd_ctx_id := 1, ocl_mem_buffer := 101 }, len := 4, count := 1,
       data := [7, 8, 9, 10] }, rfl, rfl, by decide, by decide⟩
  obtain ⟨w'', g1, _, g3, g4, _, _, _⟩ := cat_skips_empty_input exDevice 1 exArray [exEmptyCols, exSecond]
    exWorld3 (OclArray.mkDims exDevice [2, 5] exWorld3).2 exCatResult
    rfl (by decide) (by simp)
    (by
      intro a ha
      simp only [List.mem_cons, List.mem_singleton, List.not_mem_nil, or_false] at ha
      rcases ha with h | h | h
      · rw [h]
        exact hA3
      · rw [h]
        exact hC3
      · rw [h]
        exact hS3)
    (by
      intro a ha
      simp only [List.mem_cons, List.mem_singleton, List.not_mem_nil, or_false] at ha
      rcases ha with h | h
      · rw [h]
        decide
      · rw [h]
        decide)
    (by
      intro a ha j hj
      simp only [List.mem_cons, List.mem_singleton, List.not_mem_nil, or_false] at ha
      rcases ha with h | h
      · rw [h]
        match j, hj with
        | 0, _ => rfl
        | 1, h => exact absurd rfl h
        | j + 2, _ => rfl
      · rw [h]
        match j, hj with
        | 0, _ => rfl
        | 1, h => exact absurd rfl h
        | j + 2, _ => rfl)
    rfl
  obtain ⟨v1, e1, e2⟩ := g4 0 exArray rfl (by decide) 5 (by decide)
  obtain ⟨v2, e3, e4⟩ := g4 2 exSecond rfl (by decide) 3 (by decide)
  have e1' : exArray.elem? exWorld3 5 = some 6 := rfl
  have e3' : exSecond.elem? exWorld3 3 = some 10 := rfl
  have hv1 : v1 = 6 := by
    have : exArray.elem? exWorld3 ((5 : Nat) : Int) = some 6 := e1'
    rw [this] at e1
    exact (Option.some.inj e1).symm
  have hv2 : v2 = 10 := by
    have : exSecond.elem? exWorld3 ((3 : Nat) : Int) = some 10 := e3'
    rw [this] at e3
    exact (Option.some.inj e3).symm
  subst hv1 hv2
  refine ⟨rfl, rfl, rfl, rfl, rfl, ⟨_, w', h1, rfl, h3, fun i hi => h4 i (by
    show (i : Int) < 6
    omega)⟩, rfl, rfl, rfl, ⟨w'', g1, rfl, rfl, e1', e2, e3', e4⟩⟩

theorem obtain_bounded_retry_witness :
    ∃ m', obtain_ocl_buffer exDeadDevice 32 exMemMgr = some (.error .device_error, m') ∧
      m'.memobj_pool = [] ∧ m'.createCalls = 4 ∧ m'.releaseCalls.length = 3 := by
  obtain ⟨r, m', h1, _, _, h4, _, _, _, h8⟩ := obtain_bounded_retry exDeadDevice 32 exMemMgr
  obtain ⟨hr, hp, hc⟩ := h8 (fun _ => rfl) rfl (by decide) (by decide)
  subst hr
  have h4' := h4 (by rw [hc]; decide)
  have hc' : m'.createCalls = 4 := hc
  refine ⟨m', h1, hp, hc', ?_⟩
  rw [hc'] at h4'
  have e1 : exMemMgr.createCalls = 0 := rfl
  have e2 : exMemMgr.releaseCalls.length = 0 := rfl
  omega

theorem pool_well_formed_witness :
    MemReachable exDevice 3 exPool.m ∧
    (∀ e ∈ exPool.m.memobj_pool, e.2 ≠ [] ∧ e.2.length ≤ 3) := by
  have s0 : MemReachable exDevice 3 ⟨[], 3, [], 0, []⟩ := @MemReachable.init exDevice 3
  have s1 : MemReachable exDevice 3 ⟨[], 3, [(100, 8)], 1, []⟩ :=
    MemReachable.obtain _ _ 8 (.ok 100) s0 rfl
  have s2 : MemReachable exDevice 3 ⟨[], 3, [(100, 8), (101, 8)], 2, []⟩ :=
    MemReachable.obtain _ _ 8 (.ok 101) s1 rfl
  have s3 : MemReachable exDevice 3 ⟨[], 3, [(100, 8), (101, 8), (102, 8)], 3, []⟩ :=
    MemReachable.obtain _ _ 8 (.ok 102) s2 rfl
  have s4 : MemReachable exDevice 3
      ⟨[], 3, [(100, 8), (101, 8), (102, 8), (103, 8)], 4, []⟩ :=
    MemReachable.obtain _ _ 8 (.ok 103) s3 rfl
  have s5 := MemReachable.release _ 100 s4
  have s6 := MemReachable.release _ 101 s5
  have s7 := MemReachable.release _ 102 s6
  have hr : MemReachable exDevice 3 exPool.m := s7
  exact ⟨hr, (pool_well_formed exDevice 3 exPool.m hr).2.1⟩

theorem make_unique_failure_drops_count_witness :
    (∃ r, exShared.rep? 0 = some r ∧ r.count = 2) ∧
    refs [some exArray, some exArray] 0 = 2 ∧
    ∃ w', exArray.make_unique exDeadDevice exShared = (.error .device_error, exArray, w') ∧
      ∃ r', w'.rep? 0 = some r' ∧ r'.count = 1 := by
  have hrun : exArray.make_unique exDeadDevice exShared
      = (.error .device_error, exArray, (exArray.make_unique exDeadDevice exShared).2.2) := rfl
  obtain ⟨_, h2, _, _⟩ := make_unique_failure_drops_count exDeadDevice exArray exArray exShared
    _ { exRep with count := 2 } .device_error rfl (by decide) hrun
  exact ⟨⟨_, rfl, rfl⟩, rfl, _, hrun, _, h2, rfl⟩

theorem accepted_index_shapes_witness :
    exArray.is_valid exWorld = true ∧
    (∃ b, exArray.index ([.colon] ++ [.range 1 2 1] ++ []) exWorld
        = (.ok b, exWorld.incCount exArray.rep) ∧ b.rep = exArray.rep ∧
      exArray.slice_ofs ≤ b.slice_ofs ∧ 0 ≤ b.slice_len ∧
      (0 < b.slice_len → b.slice_ofs + b.slice_len ≤ exArray.slice_ofs + exArray.slice_len)) ∧
    exArray.index [.colon, .range 1 2 1] exWorld
      = (.ok { dimensions := [2, 2], rep := 0, slice_ofs := 2, slice_len := 4,
               is_logical := false }, exWorld.incCount 0) :=
  ⟨rfl,
    accepted_index_shapes exArray exWorld [.colon] [.range 1 2 1] []
      rfl rfl (by simp) ⟨⟨rfl, Or.inl rfl⟩, trivial⟩ (by simp)
      ⟨⟨rfl, ⟨by unfold ColonLike; decide, rfl⟩, by unfold UnitStep; decide⟩, trivial⟩ trivial,
    rfl⟩

/-- Claim C23 as stated fails for subscripts that are equivalent to a colon.  On the
1x6 row, the subscripts `(0, 1..2)` hold a range that is not equivalent to a
colon after a scalar, and `index` returns the view of two elements: the scalar
0 on the dimension of extent 1 is treated as a colon.  On the 2x3 array, a mask
of six `true` entries is neither colon, range nor scalar, and `index` returns
the view of all six elements: the mask is equivalent to a colon. -/
theorem index_accepts_colon_equivalents :
    (exRow.is_valid exShared = true ∧
      (idx_vector.scalar 0).idx_class = .class_scalar ∧
      (idx_vector.range 1 2 1).idx_class = .class_range ∧
      (idx_vector.range 1 2 1).is_colon_equiv 6 = false ∧
      (exRow.index [.scalar 0, .range 1 2 1] exShared).1
        = .ok { dimensions := [1, 2], rep := 0, slice_ofs := 1, slice_len := 2,
                is_logical := false }) ∧
    (exArray.is_valid exWorld = true ∧
      (idx_vector.mask [true, true, true, true, true, true]).idx_class = .class_mask ∧
      (exArray.index [.mask [true, true, true, true, true, true]] exWorld).1
        = .ok { dimensions := [6, 1], rep := 0, slice_ofs := 0, slice_len := 6,
                is_logical := false }) :=
  ⟨⟨rfl, rfl, rfl, rfl, rfl⟩, ⟨rfl, rfl, rfl⟩⟩

theorem non_contiguous_is_refused_witness :
    exArray.is_valid exWorld = true ∧
    exArray.index [.range 0 1 1, .range 0 2 1] exWorld = (.error .non_contiguous, exWorld) ∧
    exArray.assign exDevice [.range 0 1 1, .range 0 2 1] 9 exWorld
      = (.error .non_contiguous, exArray, exWorld) := by
  obtain ⟨e, _, h2, h3, h4, _⟩ := non_contiguous_is_refused exDevice exArray
    [.range 0 1 1, .range 0 2 1] exWorld rfl rfl ⟨rfl, rfl, trivial⟩
    (Or.inr (Or.inl ⟨[], .range 0 1 1, [], .range 0 2 1, [], rfl,
      Or.inl ⟨by unfold ColonLike; decide, rfl⟩, ⟨by unfold ColonLike; decide, rfl⟩⟩))
  have he := h2 ⟨fun ho => ho.2.1 rfl, fun ho => ho.2.1 rfl, trivial⟩
  subst he
  exact ⟨rfl, h3, h4 9⟩

theorem index_range_correct_witness :
    [idx_vector.colon, .range 1 2 1] ≠ [] ∧
    AllAt SubscriptOK (exArray.indexDv 2) [.colon, .range 1 2 1] 0 ∧
    exArray.index_helper [.colon, .range 1 2 1] = .ok ([2, 3], [2, 2], false, 2, 6) ∧
    (([2, 3] : dim_vector) = exArray.indexDv 2 ∧
      (0 : Int) ≤ 2 ∧ (2 : Int) ≤ 6 ∧ (6 : Int) ≤ (((([2, 3] : dim_vector).prod : Nat)) : Int) ∧
      (6 : Int) - 2 = ((selCount [2, 3] [.colon, .range 1 2 1] 0 : Nat) : Int) ∧
      (∀ y : Int, (2 ≤ y ∧ y < 6) ↔
        ∃ idx : List Nat, Selected [2, 3] [.colon, .range 1 2 1] 0 idx ∧
          y = ((linOffset [2, 3] 0 idx : Nat) : Int)) ∧
      ∀ w : World Int, exArray.is_valid w = true →
        ((exArray.dimensions.prod : Nat) : Int) = exArray.slice_len →
        ∃ b, exArray.index [.colon, .range 1 2 1] w = (.ok b, w.incCount exArray.rep) ∧
          b.rep = exArray.rep ∧
          b.slice_ofs = exArray.slice_ofs + 2 ∧ b.slice_len = 6 - 2) ∧
    exArray.is_valid exWorld = true ∧
    exArray.index [.colon, .range 1 2 1] exWorld
      = (.ok { dimensions := [2, 2], rep := 0, slice_ofs := 2, slice_len := 4,
               is_logical := false }, exWorld.incCount 0) :=
  ⟨by simp, ⟨trivial, ⟨rfl, by decide⟩, trivial⟩, rfl,
    index_range_correct exArray [.colon, .range 1 2 1] [2, 3] [2, 2] false 2 6
      (by simp) ⟨trivial, ⟨rfl, by decide⟩, trivial⟩ rfl,
    rfl, rfl⟩

theorem colon_assign_replaces_rep_witness :
    exWorld3.rep? exSecond.rep
      = some { memobj := some { assctd_ctx_id := 1, ocl_mem_buffer := 101 },
               len := 4, count := 1, data := [7, 8, 9, 10] } ∧
    exWorld3.rep? exQuad.rep = some { exRep with count := 2 } ∧
    exQuad.numel = exSecond.numel ∧ exQuad.numel ≠ 1 ∧
    (∃ a' w', exSecond.assignArray exDevice [.colon] (some exQuad) exWorld3 = (.ok (), a', w') ∧
      a'.dimensions = exSecond.dimensions.chop_trailing_singletons ∧
      (exSecond.dimensions.chop_trailing_singletons = exSecond.dimensions →
        a'.dimensions = exSecond.dimensions) ∧
      a'.rep = exQuad.rep ∧ a'.slice_ofs = exQuad.slice_ofs ∧
      a'.slice_len = exQuad.slice_len ∧
      w'.ctx = exWorld3.ctx ∧ w'.heap.length = exWorld3.heap.length ∧
      w'.mem.createCalls = exWorld3.mem.createCalls ∧
      (exSecond.rep ≠ exQuad.rep →
        w'.rep? exQuad.rep = some { ({ exRep with count := 2 } : OclArrayRep Int) with
          count := ({ exRep with count := 2 } : OclArrayRep Int).count + 1 } ∧
        w'.rep? exSecond.rep =
          if (1 : Int) - 1 = 0 then none
          else some { memobj := some { assctd_ctx_id := 1, ocl_mem_buffer := 101 },
                      len := 4, count := 1 - 1, data := [7, 8, 9, 10] }) ∧
      (exSecond.rep = exQuad.rep → w'.rep? exQuad.rep = some { exRep with count := 2 }) ∧
      (∀ q, q ≠ exSecond.rep → q ≠ exQuad.rep → w'.rep? q = exWorld3.rep? q) ∧
      (∀ q r', w'.rep? q = some r' →
        ∃ r, exWorld3.rep? q = some r ∧ r'.data = r.data ∧ r'.memobj = r.memobj ∧
          r'.len = r.len)) ∧
    (exSecond.assignArray exDevice [.colon] (some exQuad) exWorld3).2.1
      = { dimensions := [2, 2], rep := 0, slice_ofs := 1, slice_len := 4,
          is_logical := false } ∧
    (exSecond.assignArray exDevice [.colon] (some exQuad) exWorld3).2.2.heap
      = [some { exRep with count := 3 }, none] :=
  ⟨rfl, rfl, rfl, by decide,
    colon_assign_replaces_rep exDevice exSecond exQuad exWorld3 _ _ rfl rfl rfl rfl rfl rfl rfl
      (by decide) rfl (by decide),
    rfl, rfl⟩

theorem max_min_first_extremum_witness :
    exVector.is_valid exVectorWorld = true ∧
    exVector.observe exVectorWorld = some [3, 5, 5, 2] ∧
    (exExtremum.dimensions = [1, 1] ∧ exExtremumIndex.dimensions = [1, 1] ∧
      (∃ km w' w'', km < [(3 : Int), 5, 5, 2].length ∧
        exVector.max exDevice 4 (-1) true exVectorWorld
          = (.ok (exExtremum, some exExtremumIndex), w') ∧
        exExtremum.observe w' = some [[(3 : Int), 5, 5, 2].getD km 0] ∧
        exExtremumIndex.observe w' = some [(km : Int)] ∧
        exVector.max exDevice 4 (-1) false exVectorWorld = (.ok (exExtremum, none), w'') ∧
        exExtremum.observe w'' = some [[(3 : Int), 5, 5, 2].getD km 0] ∧
        (∀ k, k < [(3 : Int), 5, 5, 2].length →
          [(3 : Int), 5, 5, 2].getD k 0 ≤ [(3 : Int), 5, 5, 2].getD km 0) ∧
        (∀ k, k < km → [(3 : Int), 5, 5, 2].getD k 0 < [(3 : Int), 5, 5, 2].getD km 0)) ∧
      (∃ km w' w'', km < [(3 : Int), 5, 5, 2].length ∧
        exVector.min exDevice 4 (-1) true exVectorWorld
          = (.ok (exExtremum, some exExtremumIndex), w') ∧
        exExtremum.observe w' = some [[(3 : Int), 5, 5, 2].getD km 0] ∧
        exExtremumIndex.observe w' = some [(km : Int)] ∧
        exVector.min exDevice 4 (-1) false exVectorWorld = (.ok (exExtremum, none), w'') ∧
        exExtremum.observe w'' = some [[(3 : Int), 5, 5, 2].getD km 0] ∧
        (∀ k, k < [(3 : Int), 5, 5, 2].length →
          [(3 : Int), 5, 5, 2].getD km 0 ≤ [(3 : Int), 5, 5, 2].getD k 0) ∧
        (∀ k, k < km → [(3 : Int), 5, 5, 2].getD km 0 < [(3 : Int), 5, 5, 2].getD k 0))) ∧
    exExtremum.observe (exVector.max exDevice 4 (-1) true exVectorWorld).2 = some [5] ∧
    exExtremumIndex.observe (exVector.max exDevice 4 (-1) true exVectorWorld).2 = some [1] ∧
    exExtremum.observe (exVector.min exDevice 4 (-1) true exVectorWorld).2 = some [2] ∧
    exExtremumIndex.observe (exVector.min exDevice 4 (-1) true exVectorWorld).2 = some [3] :=
  ⟨rfl, rfl,
    max_min_first_extremum exDevice 4 exVector exExtremum exExtremumIndex exVectorWorld
      (OclArray.mkDims exDevice [1, 1] exVectorWorld).2
      (OclArray.mkDims { exDevice with sizeof_T := 4 } [1, 1]
        (OclArray.mkDims exDevice [1, 1] exVectorWorld).2).2
      [3, 5, 5, 2] (-1) rfl rfl (by simp) rfl rfl (Or.inl ⟨rfl, Or.inl (by decide)⟩) rfl rfl,
    by decide, by decide, by decide, by decide⟩

/-- Claim C29 fails on the code at a view without elements.  The view
`linear_slice (2, 2)` of the 2x3 example array is valid and has the dimensions
0x1.  For the default dimension, and for the dimension 0 named,
`dim_wise_op_newdims` reports `len == 0`, the result of dimensions 1x1 is made
and passed to the kernel, and the work size `slice_len / len` is the division
`0 / 0`: `map1r` and `map1ri` run into the division by zero, whatever the
kernel. -/
theorem reduction_divides_by_zero :
    exArray.is_valid exWorld = true ∧
    exArray.linear_slice 2 2 exWorld = (.ok exNoElems, exShared) ∧
    exNoElems.is_valid exShared = true ∧
    exNoElems.dimensions = [0, 1] ∧ exNoElems.slice_len = 0 ∧
    exNoElems.dim_wise_op_newdims (-1) = ([1, 1], 0, 1) ∧
    exNoElems.dim_wise_op_newdims 0 = ([1, 1], 0, 1) ∧
    reduceWorkSize exNoElems.slice_len (exNoElems.dim_wise_op_newdims (-1)).2.1
      = .error .undefined_behaviour ∧
    (∀ kernel : List Int → Nat → Nat → Nat → Nat → Int,
      (exNoElems.map1r exDevice kernel (-1) exShared).1 = .error .undefined_behaviour ∧
      (exNoElems.map1r exDevice kernel 0 exShared).1 = .error .undefined_behaviour) ∧
    (∀ (kernel : List Int → Nat → Nat → Nat → Nat → Int × Nat) (ofIdx : Nat → Int)
        (indices : Bool),
      (exNoElems.map1ri exDevice kernel ofIdx 4 (-1) indices exShared).1
        = .error .undefined_behaviour) ∧
    (exNoElems.max exDevice 4 (-1) false exShared).1 = .error .undefined_behaviour ∧
    (exNoElems.min exDevice 4 (-1) true exShared).1 = .error .undefined_behaviour := by
  refine ⟨rfl, rfl, rfl, rfl, rfl, by decide, by decide, rfl, fun kernel => ⟨rfl, rfl⟩,
    fun kernel ofIdx indices => ?_, rfl, rfl⟩
  cases indices <;> rfl

/-- Claim C1, at the failing input.  `B` is a shallow copy of the 2x3 example array
`A`: both handles have the same fields and the rep has the count 2.  The
assignment `B (0) = 9` on a device without free memory calls `make_unique`, which
lowers the count to 1 and then fails to make the private copy: the assignment
fails, `A` still observes its elements, and the rep is left with the count 1
for two handles.  The same assignment made again finds `count == 1`, skips the
copy and writes in place: `A` observes 9 as its first element.  An assignment
to all elements through `B`, and one with the 2x2 array on the right-hand side,
change what `A` observes in the same way.  With the view `V = linear_slice (A, 1, 3)`
in the place of `B`, overwriting the whole view after the failed assignment
changes the element 0 of `A`, outside the range of the view. -/
theorem copy_on_write_broken_after_failed_copy :
    exArray.mkCopy exWorld = (exArray, exShared) ∧
    exArray.observe exShared = some [1, 2, 3, 4, 5, 6] ∧
    (exShared.rep? 0).map (fun r => r.count) = some 2 ∧
    (∃ w1, exArray.assign exDeadDevice [.scalar 0] 9 exShared
        = (.error .device_error, exArray, w1) ∧
      exArray.observe w1 = some [1, 2, 3, 4, 5, 6] ∧
      (w1.rep? 0).map (fun r => r.count) = some 1 ∧
      (∃ w2, exArray.assign exDeadDevice [.scalar 0] 9 w1 = (.ok (), exArray, w2) ∧
        exArray.observe w2 = some [9, 2, 3, 4, 5, 6]) ∧
      (∃ w2, exArray.assign exDeadDevice [.colon] 9 w1 = (.ok (), exArray, w2) ∧
        exArray.observe w2 = some [9, 9, 9, 9, 9, 9])) ∧
    (exArray.mkCopy exWorld2 = (exArray, exWorld3) ∧
      exArray.observe exWorld3 = some [1, 2, 3, 4, 5, 6] ∧
      exSecond.observe exWorld3 = some [7, 8, 9, 10] ∧
      ∃ w1, exArray.assignArray exDeadDevice [.range 0 4 1] (some exSecond) exWorld3
          = (.error .device_error, exArray, w1) ∧
        exArray.observe w1 = some [1, 2, 3, 4, 5, 6] ∧
        ∃ w2, exArray.assignArray exDeadDevice [.range 0 4 1] (some exSecond) w1
            = (.ok (), exArray, w2) ∧
          exArray.observe w2 = some [7, 8, 9, 10, 5, 6]) ∧
    (exArray.linear_slice 1 3 exWorld = (.ok exView, exShared) ∧
      ∃ w1, exView.assign exDeadDevice [.scalar 0] 9 exShared
          = (.error .device_error, exView, w1) ∧
        exArray.observe w1 = some [1, 2, 3, 4, 5, 6] ∧
        ∃ w2, exView.assign exDeadDevice [.colon] 9 w1 = (.ok (), exView, w2) ∧
          exArray.observe w2 = some [9, 9, 3, 4, 5, 6]) := by
  refine ⟨rfl, rfl, rfl, ⟨_, rfl, rfl, rfl, ⟨_, rfl, rfl⟩, ⟨_, rfl, rfl⟩⟩,
    ⟨rfl, rfl, rfl, _, rfl, rfl, _, rfl, rfl⟩, rfl, ⟨_, rfl, rfl, ⟨_, rfl, rfl⟩⟩⟩

end Ocl
